import Mathlib

/-!
# Math::Array / Math::ArrayView (lib/Math/Array.hpp): strided views, slicing, strides

Shallow embedding of the host build of `Array.hpp` on an LP64 target:
`std::size_t` is an unsigned 64-bit integer (a `Nat` reduced modulo `SIZE_MOD`),
`std::ptrdiff_t` a signed 64-bit integer (an `Int`), and
`Config::ArithmeticPointer` a byte pointer (`char*`), modelled by its numeric
address.  A fatal `ASSERT` is the value `none`.

Template parameters become ordinary arguments: the rank `dim` is the length of
the shape list, the policy `Assert` is a `Bool` (`true` for
`ArrayAssertions<true>`), and a parameter pack `ParT...` is a `List Par`.
Compile-time checks (`BOOST_STATIC_ASSERT`) have no run-time behaviour; they
appear as hypotheses of the theorems (`pars.length = view.dimension`).

The memory that holds the elements is byte-addressed: an element of type `T`
occupies the `sizeof (T)` bytes from its address on, its value is its object
representation (the list of these bytes), and `*target = ...` writes exactly
these bytes.

The development also embeds the CPU reference kernel `mandelbrotHost` of
`OpenCLExercise2_Mandelbrot.cpp`, over uninterpreted floating-point operations.
-/

namespace Math

/-! ## Machine integers -/

/-- Number of values of `std::size_t` (64-bit). -/
def SIZE_MOD : Nat := 2 ^ 64

/-- The value `std::numeric_limits<std::size_t>::max ()`. -/
def SIZE_MAX : Nat := SIZE_MOD - 1

/-- Number of non-negative values of `std::ptrdiff_t` (64-bit two's complement). -/
def PTRDIFF_MOD : Nat := 2 ^ 63

/-- Conversion of a signed value to `std::size_t` (reduction modulo `2^64`). -/
def toSizeT (z : Int) : Nat := (z % (SIZE_MOD : Int)).toNat

/-- Conversion of a `std::size_t` value to `std::ptrdiff_t` (two's complement). -/
def toPtrdiff (n : Nat) : Int :=
  if n % SIZE_MOD < PTRDIFF_MOD then ((n % SIZE_MOD : Nat) : Int)
  else ((n % SIZE_MOD : Nat) : Int) - (SIZE_MOD : Int)

/-- Unsigned addition `a + b` in `std::size_t`. -/
def addSize (a b : Nat) : Nat := (a + b) % SIZE_MOD

/-- Unsigned subtraction `a - b` in `std::size_t`. -/
def subSize (a b : Nat) : Nat := (a + SIZE_MOD - b % SIZE_MOD) % SIZE_MOD

/-- Unsigned multiplication `a * b` in `std::size_t`. -/
def mulSize (a b : Nat) : Nat := (a * b) % SIZE_MOD

/-- Byte-pointer arithmetic `ptr + off` with `off` of type `std::size_t`. -/
def ptrAdd (ptr off : Nat) : Nat := (ptr + off) % SIZE_MOD

/-- Modelled from the spec: the `ASSERT` macro of `Core/Assert.hpp`, a fatal
assertion.  `none` stands for the terminated process. -/
def ASSERT (c : Prop) [Decidable c] : Option Unit := if c then some () else none

/-! ## Selectors -/

/-- The struct `Math::Range`. -/
structure Range where
  start : Nat
  length : Nat
deriving DecidableEq

/-- The struct `Math::OpenRange`. -/
structure OpenRange where
  start : Nat
deriving DecidableEq

/-- One argument of `operator()`: the three types for which `OpPSetup::setup`
has an overload (`size_t`, `Range`, `OpenRange`). -/
inductive Par where
  | index (val : Nat)
  | range (val : Range)
  | openRange (val : OpenRange)
deriving DecidableEq

/-- The function `Math::range (start, length)`. -/
def range (start length : Nat) : Par := Par.range ⟨start, length⟩

/-- The function `Math::range (start)`. -/
def rangeFrom (start : Nat) : Par := Par.openRange ⟨start⟩

/-- A selector whose fields are `std::size_t` values. -/
def Par.WF : Par → Prop
  | .index val => val < SIZE_MOD
  | .range val => val.start < SIZE_MOD ∧ val.length < SIZE_MOD
  | .openRange val => val.start < SIZE_MOD

instance (p : Par) : Decidable p.WF := by
  cases p <;> unfold Par.WF <;> infer_instance

/-! ## Views -/

/-- The class `ArrayViewBase<dim, Config>`: pointer, shape and byte strides. -/
structure ArrayViewBase where
  ptr : Nat
  shape_ : List Nat
  stridesBytes_ : List Int
deriving DecidableEq

namespace ArrayViewBase

/-- The static member `dimension ()`. -/
def dimension (view : ArrayViewBase) : Nat := view.shape_.length

/-- The accessor `arithData ()`. -/
def arithData (view : ArrayViewBase) : Nat := view.ptr

/-- The accessor `size<n> ()`. -/
def size (view : ArrayViewBase) (n : Nat) : Nat := view.shape_.getD n 0

/-- The accessor `strideBytes<n> ()`. -/
def strideBytes (view : ArrayViewBase) (n : Nat) : Int := view.stridesBytes_.getD n 0

/-- A value of `ArrayViewBase<dim, Config>`: `dim > 0`, both arrays have `dim`
entries, every field is in the range of its machine type. -/
def WF (view : ArrayViewBase) : Prop :=
  view.ptr < SIZE_MOD ∧ 0 < view.shape_.length ∧
  view.stridesBytes_.length = view.shape_.length ∧
  (∀ n ∈ view.shape_, n < SIZE_MOD) ∧
  (∀ s ∈ view.stridesBytes_, -(PTRDIFF_MOD : Int) ≤ s ∧ s < (PTRDIFF_MOD : Int))

instance (view : ArrayViewBase) : Decidable view.WF := by
  unfold WF; infer_instance

end ArrayViewBase

/-! ## Bounds-check policy -/

namespace ArrayAssertions

/-- The overload `ArrayAssertions<enabled>::check<dpos> (view, std::size_t pos)`. -/
def checkIndex (enabled : Bool) (view : ArrayViewBase) (dpos pos : Nat) : Option Unit :=
  match enabled with
  | true => ASSERT (pos < view.size dpos)
  | false => some ()

/-- The overload `ArrayAssertions<enabled>::check<dpos> (view, Range range)`. -/
def checkRange (enabled : Bool) (view : ArrayViewBase) (dpos : Nat) (range : Range) :
    Option Unit :=
  match enabled with
  | true =>
    (ASSERT (addSize range.start range.length ≥ range.start)).bind fun _ =>
    ASSERT (addSize range.start range.length ≤ view.size dpos)
  | false => some ()

/-- The overload `ArrayAssertions<enabled>::check<dpos> (view, OpenRange range)`. -/
def checkOpenRange (enabled : Bool) (view : ArrayViewBase) (dpos : Nat) (range : OpenRange) :
    Option Unit :=
  match enabled with
  | true => ASSERT (range.start ≤ view.size dpos)
  | false => some ()

end ArrayAssertions

/-! ## Slicing and indexing -/

namespace Intern

/-- The overloads `OpPArgInfoIsRange`. -/
def OpPArgInfoIsRange : Par → Bool
  | .index _ => false
  | .range _ => true
  | .openRange _ => true

/-- The overloads of `OpPSetup::setup`, one equation each.  The running pointer
`*ptr` is threaded through; the output arrays `shape` and `stridesBytes`, which
the source fills front to back, are returned as lists. -/
def OpPSetup.setup (Assert : Bool) (view : ArrayViewBase) :
    Nat → Nat → List Par → Option (Nat × List Nat × List Int)
  | _, ptr, [] => some (ptr, [], [])
  | dpos, ptr, Par.index val :: v =>
    (ArrayAssertions.checkIndex Assert view dpos val).bind fun _ =>
    OpPSetup.setup Assert view (dpos + 1)
      (ptrAdd ptr (mulSize val (toSizeT (view.strideBytes dpos)))) v
  | dpos, ptr, Par.range val :: v =>
    let start := val.start
    let length := val.length
    (ArrayAssertions.checkRange Assert view dpos val).bind fun _ =>
    (OpPSetup.setup Assert view (dpos + 1)
      (ptrAdd ptr (mulSize start (toSizeT (view.strideBytes dpos)))) v).map fun r =>
    (r.1, length :: r.2.1, view.strideBytes dpos :: r.2.2)
  | dpos, ptr, Par.openRange val :: v =>
    let start := val.start
    (ArrayAssertions.checkOpenRange Assert view dpos val).bind fun _ =>
    let length := subSize (view.size dpos) start
    (OpPSetup.setup Assert view (dpos + 1)
      (ptrAdd ptr (mulSize start (toSizeT (view.strideBytes dpos)))) v).map fun r =>
    (r.1, length :: r.2.1, view.strideBytes dpos :: r.2.2)

/-- The member `OpPInfoDim<T, retDim, Config, Assert>::access` for `retDim > 0`. -/
def OpPInfoDim.access (Assert : Bool) (view : ArrayViewBase) (v : List Par) :
    Option ArrayViewBase :=
  (OpPSetup.setup Assert view 0 view.arithData v).map fun r =>
    ArrayViewBase.mk r.1 r.2.1 r.2.2

/-- The member `OpPInfoDim<T, 0, Config, Assert>::accessPtr`. -/
def OpPInfoDim.accessPtr (Assert : Bool) (view : ArrayViewBase) (v : List Par) :
    Option Nat :=
  (OpPSetup.setup Assert view 0 view.arithData v).map fun r => r.1

/-- The constant `OpPInfo<T, Config, Assert, ParT...>::retDim`. -/
def OpPInfo.retDim : List Par → Nat
  | [] => 0
  | Par1 :: ParT => OpPInfo.retDim ParT + (if OpPArgInfoIsRange Par1 then 1 else 0)

end Intern

/-- The type `OpPInfo<...>::Info::RetType`: an element reference `T&` (its
address) when `retDim` is 0, a view of rank `retDim` otherwise. -/
inductive RetType where
  | ref (ptr : Nat)
  | view (v : ArrayViewBase)
deriving DecidableEq

namespace ArrayView

/-- The member `ArrayView::operator() (ParT... pars)`. -/
def operatorCall (Assert : Bool) (view : ArrayViewBase) (pars : List Par) : Option RetType :=
  match Intern.OpPInfo.retDim pars with
  | 0 => (Intern.OpPInfoDim.accessPtr Assert view pars).map RetType.ref
  | _ + 1 => (Intern.OpPInfoDim.access Assert view pars).map RetType.view

/-- The member `ArrayView::pointer (ParT... pars)`. -/
def pointer (Assert : Bool) (view : ArrayViewBase) (pars : List Par) : Option Nat :=
  Intern.OpPInfoDim.accessPtr Assert view pars

end ArrayView

namespace Intern

/-- The member `ArrayElementAccess<T, dim, Config, Assert>::access`, `dim > 1`. -/
def ArrayElementAccess.access (Assert : Bool) (view : ArrayViewBase) (pos : Nat) :
    Option ArrayViewBase :=
  (ArrayAssertions.checkIndex Assert view 0 pos).bind fun _ =>
  let ptr := view.arithData
  let ptr := ptrAdd ptr (mulSize (toSizeT (view.strideBytes 0)) pos)
  some (ArrayViewBase.mk ptr view.shape_.tail view.stridesBytes_.tail)

/-- The member `ArrayElementAccess<T, 1, Config, Assert>::access`. -/
def ArrayElementAccess.access1 (Assert : Bool) (view : ArrayViewBase) (pos : Nat) :
    Option Nat :=
  (ArrayAssertions.checkIndex Assert view 0 pos).bind fun _ =>
  let ptr := view.arithData
  let ptr := ptrAdd ptr (mulSize (toSizeT (view.strideBytes 0)) pos)
  some ptr

end Intern

/-- The member `ArrayView::operator[] (std::size_t pos)`: the rank selects the
specialisation of `ArrayElementAccess`. -/
def ArrayView.operatorIndex (Assert : Bool) (view : ArrayViewBase) (pos : Nat) :
    Option RetType :=
  if view.dimension = 1 then
    (Intern.ArrayElementAccess.access1 Assert view pos).map RetType.ref
  else
    (Intern.ArrayElementAccess.access Assert view pos).map RetType.view

/-! ## Allocator: stride computation -/

/-- Result of running the loop of `calculateStrides` with a bound on the number
of evaluations of the loop condition: the bound was reached, an `ASSERT` fired,
or the loop ended with the element count, the written `strides` array and the
sequence of indices for which the body ran (a ghost trace, not in the source). -/
inductive LoopResult where
  | outOfFuel
  | assertionFailed
  | done (elements : Nat) (strides : List Int) (visited : List Nat)
deriving DecidableEq

namespace DefaultArrayAllocator

/-- Body of the loop of `DefaultArrayAllocator<Config, T>::calculateStrides` at
index `i`; `sizeofT` is `sizeof (T)`.  Returns the new `elements` and the
`strides` array. -/
def calculateStridesBody (sizeofT : Nat) (shape : List Nat) (i elements : Nat)
    (strides : List Int) : Option (Nat × List Int) :=
  let size := shape.getD i 0
  (ASSERT (sizeofT = 0 ∨ SIZE_MAX / sizeofT ≥ elements)).bind fun _ =>
  let strides := strides.set i (toPtrdiff (mulSize elements sizeofT))
  (ASSERT (size = 0 ∨ SIZE_MAX / size ≥ elements)).bind fun _ =>
  some (mulSize elements size, strides)

/-- The loop `for (i = ...; i < dim; fortranOrdering ? i++ : i--)` of
`calculateStrides`, from the state `(i, elements, strides)`; the first argument
bounds the number of evaluations of `i < dim`. -/
def calculateStridesLoop (sizeofT dim : Nat) (shape : List Nat) (fortranOrdering : Bool) :
    Nat → Nat → Nat → List Int → List Nat → LoopResult
  | 0, _, _, _, _ => LoopResult.outOfFuel
  | fuel + 1, i, elements, strides, visited =>
    if i < dim then
      match calculateStridesBody sizeofT shape i elements strides with
      | none => LoopResult.assertionFailed
      | some (elements2, strides2) =>
        calculateStridesLoop sizeofT dim shape fortranOrdering fuel
          (if fortranOrdering then addSize i 1 else subSize i 1) elements2 strides2
          (visited ++ [i])
    else LoopResult.done elements strides visited

/-- The member `DefaultArrayAllocator<Config, T>::calculateStrides (dim, strides,
shape, fortranOrdering)`; `strides` is the initial content of the output array.
The loop gets `dim + 1` evaluations of its condition. -/
def calculateStrides (sizeofT dim : Nat) (strides : List Int) (shape : List Nat)
    (fortranOrdering : Bool) : LoopResult :=
  calculateStridesLoop sizeofT dim shape fortranOrdering (dim + 1)
    (if fortranOrdering then 0 else subSize dim 1) 1 strides []

end DefaultArrayAllocator

/-- The value a completed call of `calculateStrides` returns and the `strides`
array it has written; `none` when the call does not return. -/
def LoopResult.returned : LoopResult → Option (Nat × List Int)
  | LoopResult.done elements strides _ => some (elements, strides)
  | LoopResult.assertionFailed => none
  | LoopResult.outOfFuel => none

/-- The class `ArrayAllocator<Config, T>::Handle`: the address `getPointer ()`
returns, and the number of elements of the block it owns (`count` is not stored
by the source; it records the argument of `new T [count]`). -/
structure Handle where
  getPointer : Nat
  count : Nat
deriving DecidableEq

/-- The constructor `MyHandle (count) : data (new T [count])`.  `newArray count`
is the value of the expression `new T [count]`: the address of the block, or
`none` when the allocation throws. -/
def DefaultArrayAllocator.MyHandle (newArray : Nat → Option Nat) (count : Nat) :
    Option Handle :=
  (newArray count).map fun data => Handle.mk data count

/-- The member `DefaultArrayAllocator<Config, T>::allocate (count)`.  The inner
`none` is the empty `shared_ptr`; the outer `none` is a call that does not
return. -/
def DefaultArrayAllocator.allocate (newArray : Nat → Option Nat) (count : Nat) :
    Option (Option Handle) :=
  if count = 0 then some none
  else (DefaultArrayAllocator.MyHandle newArray count).map some

/-- The abstract class `ArrayAllocator<Config, T>`: its two virtual members.
`calculateStrides dim strides shape fortranOrdering` returns the element count
and the written `strides` array. -/
structure ArrayAllocator where
  calculateStrides : Nat → List Int → List Nat → Bool → Option (Nat × List Int)
  allocate : Nat → Option (Option Handle)

/-- The class `DefaultArrayAllocator<Config, T>` as an `ArrayAllocator`, for an
element type of size `sizeofT`. -/
def DefaultArrayAllocator.toArrayAllocator (sizeofT : Nat) (newArray : Nat → Option Nat) :
    ArrayAllocator where
  calculateStrides := fun dim strides shape fortranOrdering =>
    (DefaultArrayAllocator.calculateStrides sizeofT dim strides shape fortranOrdering).returned
  allocate := DefaultArrayAllocator.allocate newArray

/-! ## Owning container -/

/-- The class `Array<T, dim, Config, Assert>`: allocator, storage handle (the
`shared_ptr`, `none` when empty) and the view `storage`. -/
structure Array where
  allocator : ArrayAllocator
  handle : Option Handle
  storage : ArrayViewBase

namespace Array

/-- Modelled from the spec: `Config::getNull ()` of `Math/Forward.hpp`, the null
storage pointer. -/
def getNull : Nat := 0

/-- The member `Array::init (shape, fortranOrdering)` of a container of rank
`dim`. -/
def init (self : Array) (dim : Nat) (shape : List Nat) (fortranOrdering : Bool) :
    Option Array :=
  let ptr := getNull
  (self.allocator.calculateStrides dim self.storage.stridesBytes_ shape fortranOrdering).bind
    fun r =>
  let elements := r.1
  let stridesBytes_ := r.2
  let shape_ := (List.range dim).map fun i => shape.getD i 0
  (self.allocator.allocate elements).bind fun handle =>
  match handle with
  | some h => some (Array.mk self.allocator (some h)
      (ArrayViewBase.mk h.getPointer shape_ stridesBytes_))
  | none => some (Array.mk self.allocator none (ArrayViewBase.mk ptr shape_ stridesBytes_))

/-- A container object before the body of a constructor runs: the given
allocator, an empty handle, and the default-constructed `storage` (null pointer;
`raw` stands for its uninitialised shape and strides arrays). -/
def uninitialised (allocator : ArrayAllocator) (raw : ArrayViewBase) : Array :=
  Array.mk allocator none (ArrayViewBase.mk 0 raw.shape_ raw.stridesBytes_)

/-- The array `size_t zeros[dim] = {0}`. -/
def zeros (dim : Nat) : List Nat := List.replicate dim 0

/-- The overloads of `Array::getLen`: the extents passed as separate arguments,
stored front to back. -/
def getLen : List Nat → List Nat
  | [] => []
  | val :: v => val :: getLen v

/-- The constructor `Array (allocator)`. -/
def construct (allocator : ArrayAllocator) (raw : ArrayViewBase) (dim : Nat) : Option Array :=
  (uninitialised allocator raw).init dim (zeros dim) true

/-- The constructors `Array (shape, fortranOrdering)` and
`Array (allocator, shape, fortranOrdering)`. -/
def constructShape (allocator : ArrayAllocator) (raw : ArrayViewBase) (dim : Nat)
    (shape : List Nat) (fortranOrdering : Bool) : Option Array :=
  (uninitialised allocator raw).init dim shape fortranOrdering

/-- The constructors `Array (val1, v...)` and `Array (allocator, val1, v...)`. -/
def constructSizes (allocator : ArrayAllocator) (raw : ArrayViewBase) (dim : Nat)
    (vals : List Nat) : Option Array :=
  (uninitialised allocator raw).init dim (getLen vals) true

/-- The member `recreate ()`. -/
def recreate (self : Array) (dim : Nat) : Option Array :=
  self.init dim (zeros dim) true

/-- The member `recreate (shape, fortranOrdering)`. -/
def recreateShape (self : Array) (dim : Nat) (shape : List Nat) (fortranOrdering : Bool) :
    Option Array :=
  self.init dim shape fortranOrdering

/-- The member `recreate (val1, v...)`. -/
def recreateSizes (self : Array) (dim : Nat) (vals : List Nat) : Option Array :=
  self.init dim (getLen vals) true

/-- The assertions at the head of `ArrayView::assign`:
`ASSERT (shape ()[d] == orig.shape ()[d])` for every `d < dim`. -/
def assignShapeCheck (view orig : ArrayViewBase) : Option Unit :=
  ASSERT (∀ d, d < view.dimension → view.size d = orig.size d)

/-- The members `recreate (orig, fortranOrdering)`, as far as the state of the
container goes: `init (orig.shape (), fortranOrdering)` followed by `assign
(orig)`, which checks the shapes and then writes elements only. -/
def recreateFrom (self : Array) (dim : Nat) (orig : ArrayViewBase) (fortranOrdering : Bool) :
    Option Array :=
  (self.init dim orig.shape_ fortranOrdering).bind fun a =>
  (assignShapeCheck a.storage orig).map fun _ => a

/-- The constructors `Array (orig, fortranOrdering)` and
`Array (allocator, orig, fortranOrdering)`, as far as the state of the container
goes. -/
def constructFrom (allocator : ArrayAllocator) (raw : ArrayViewBase) (dim : Nat)
    (orig : ArrayViewBase) (fortranOrdering : Bool) : Option Array :=
  (uninitialised allocator raw).recreateFrom dim orig fortranOrdering

/-- The member `Array::data ()`. -/
def data (self : Array) : Nat := self.storage.ptr

end Array

/-! ## Transposition -/

/-- The function `Math::transposed (view)` for a view of rank 2. -/
def transposed (view : ArrayViewBase) : ArrayViewBase :=
  let shape := [view.size 1, view.size 0]
  let stridesBytes := [view.strideBytes 1, view.strideBytes 0]
  ArrayViewBase.mk view.ptr shape stridesBytes

/-! ## Counted loops -/

/-- Result of running a statement with a bound on the number of evaluations of
loop conditions: the bound was reached, an `ASSERT` fired in the given state, or
the statement completed with the given state. -/
inductive Outcome (σ : Type) where
  | outOfFuel
  | assertionFailed (state : σ)
  | returned (state : σ)

/-- The statement `for (size_t i = ...; i < size; i++) body`, from the counter
value `i` and the state `s`; the first explicit argument bounds the number of
evaluations of `i < size`. -/
def forLoop {σ : Type} (size : Nat) (body : Nat → σ → Outcome σ) : Nat → Nat → σ → Outcome σ
  | 0, _, _ => Outcome.outOfFuel
  | fuel + 1, i, s =>
    if i < size then
      match body i s with
      | Outcome.returned s2 => forLoop size body fuel (addSize i 1) s2
      | Outcome.assertionFailed s2 => Outcome.assertionFailed s2
      | Outcome.outOfFuel => Outcome.outOfFuel
    else Outcome.returned s

/-! ## Element memory -/

/-- One access to an element (an object of type `T`, of `sizeof (T)` bytes): a
read or a write of the element that starts at an address. -/
inductive Access where
  | read (addr : Nat)
  | write (addr : Nat)
deriving DecidableEq

/-- The memory that holds the elements, byte by byte: the value of the byte at
each address (`α` is the type of the value of a byte), and the accesses to
elements made so far in program order (a ghost trace, not in the source).  View
descriptors and local variables are not part of it. -/
structure Memory (α : Type) where
  cells : Nat → α
  accesses : List Access

/-- The value of the element that starts at `addr`, as its object
representation: the `sizeofT` bytes from `addr` on. -/
def Memory.element {α : Type} (mem : Memory α) (sizeofT addr : Nat) : List α :=
  (List.range sizeofT).map fun k => mem.cells (addr + k)

/-- The statement `*target = value` for a trivially copyable `T`: the `sizeofT`
bytes from `target` on receive the object representation of `value`, every
other byte is kept. -/
def Memory.store {α : Type} (mem : Memory α) (sizeofT target : Nat) (value : List α) :
    Memory α :=
  Memory.mk (fun a =>
      if target ≤ a ∧ a < target + sizeofT then value.getD (a - target) (mem.cells a)
      else mem.cells a)
    (mem.accesses ++ [Access.write target])

/-- The statement `*target = *source` for a trivially copyable `T`: the source
element is read, then the `sizeofT` bytes from `target` on receive the bytes
read, every other byte is kept.  (When the two elements overlap in part the C++
standard leaves the assignment undefined; the model reads before it writes.) -/
def Memory.copy {α : Type} (mem : Memory α) (sizeofT target source : Nat) : Memory α :=
  Memory.mk (fun a =>
      if target ≤ a ∧ a < target + sizeofT then mem.cells (source + (a - target))
      else mem.cells a)
    (mem.accesses ++ [Access.read source, Access.write target])

namespace Intern

/-- The members `ArrayElementAccess<T, dim, Config, Assert>::assign` (`dim > 1`)
and `ArrayElementAccess<T, 1, Config, Assert>::assign`.  `toArith (target) +
strideBT * i` is byte-pointer arithmetic with the product taken in `size_t`.
There is no instantiation with `dim = 0` (`BOOST_STATIC_ASSERT (dim > 0)` in
`ArrayViewBase`).  `sizeofT` is `sizeof (T)` of the element type. -/
def ArrayElementAccess.assign {α : Type} (sizeofT : Nat) : (dim : Nat) → (shape : List Nat) →
    (targetStridesB : List Int) → (target : Nat) → (sourceStridesB : List Int) →
    (source : Nat) → Memory α → Outcome (Memory α)
  | 0, _, _, _, _, _, mem => Outcome.returned mem
  | 1, shape, targetStridesB, target, sourceStridesB, source, mem =>
    let size := shape.getD 0 0
    let strideBT := targetStridesB.getD 0 0
    let strideBS := sourceStridesB.getD 0 0
    forLoop size (fun i mem => Outcome.returned
      (mem.copy sizeofT (ptrAdd target (mulSize (toSizeT strideBT) i))
        (ptrAdd source (mulSize (toSizeT strideBS) i)))) (size + 1) 0 mem
  | dim + 2, shape, targetStridesB, target, sourceStridesB, source, mem =>
    let size := shape.getD (dim + 2 - 1) 0
    let strideBT := targetStridesB.getD (dim + 2 - 1) 0
    let strideBS := sourceStridesB.getD (dim + 2 - 1) 0
    forLoop size (fun i mem =>
      ArrayElementAccess.assign sizeofT (dim + 1) shape targetStridesB
        (ptrAdd target (mulSize (toSizeT strideBT) i)) sourceStridesB
        (ptrAdd source (mulSize (toSizeT strideBS) i)) mem) (size + 1) 0 mem

/-- The members `ArrayElementAccess<T, dim, Config, Assert>::setTo` (`dim > 1`)
and `ArrayElementAccess<T, 1, Config, Assert>::setTo`.  The value of type `T`
is given by its object representation. -/
def ArrayElementAccess.setTo {α : Type} (sizeofT : Nat) : (dim : Nat) → (shape : List Nat) →
    (stridesBytes : List Int) → (target : Nat) → (value : List α) → Memory α →
    Outcome (Memory α)
  | 0, _, _, _, _, mem => Outcome.returned mem
  | 1, shape, stridesBytes, target, value, mem =>
    let size := shape.getD 0 0
    let strideB := stridesBytes.getD 0 0
    forLoop size (fun i mem => Outcome.returned
      (mem.store sizeofT (ptrAdd target (mulSize (toSizeT strideB) i)) value)) (size + 1) 0 mem
  | dim + 2, shape, stridesBytes, target, value, mem =>
    let size := shape.getD (dim + 2 - 1) 0
    let strideB := stridesBytes.getD (dim + 2 - 1) 0
    forLoop size (fun i mem =>
      ArrayElementAccess.setTo sizeofT (dim + 1) shape stridesBytes
        (ptrAdd target (mulSize (toSizeT strideB) i)) value mem) (size + 1) 0 mem

end Intern

/-- The member `ArrayView::assign (orig)`: the shape assertions (which do not
depend on the policy `Assert`), then the element-wise copy. -/
def ArrayView.assign {α : Type} (sizeofT : Nat) (view orig : ArrayViewBase) (mem : Memory α) :
    Outcome (Memory α) :=
  match Array.assignShapeCheck view orig with
  | none => Outcome.assertionFailed mem
  | some _ =>
    Intern.ArrayElementAccess.assign sizeofT view.dimension view.shape_ view.stridesBytes_
      view.ptr orig.stridesBytes_ orig.ptr mem

/-- The member `ArrayView::setTo (value)`. -/
def ArrayView.setTo {α : Type} (sizeofT : Nat) (view : ArrayViewBase) (value : List α)
    (mem : Memory α) : Outcome (Memory α) :=
  Intern.ArrayElementAccess.setTo sizeofT view.dimension view.shape_ view.stridesBytes_
    view.ptr value mem

/-- The member `ArrayView::setToZero ()`; `zero` is the value `T ()`. -/
def ArrayView.setToZero {α : Type} (sizeofT : Nat) (zero : List α) (view : ArrayViewBase)
    (mem : Memory α) : Outcome (Memory α) :=
  ArrayView.setTo sizeofT view zero mem

namespace Array

/-- The member `Array::view ()`. -/
def view (self : Array) : ArrayViewBase := self.storage

/-- The member `Array::assign (orig)`. -/
def assign {α : Type} (self : Array) (sizeofT : Nat) (orig : ArrayViewBase) (mem : Memory α) :
    Outcome (Memory α) :=
  ArrayView.assign sizeofT self.view orig mem

/-- The members `recreate (orig, fortranOrdering)` with the element memory:
`init (orig.shape (), fortranOrdering)`, which accesses no element, followed by
`assign (orig)`.  `none` when `init` does not return. -/
def recreateCopy {α : Type} (self : Array) (sizeofT dim : Nat) (orig : ArrayViewBase)
    (fortranOrdering : Bool) (mem : Memory α) : Option (Array × Outcome (Memory α)) :=
  (self.init dim orig.shape_ fortranOrdering).map fun a => (a, a.assign sizeofT orig mem)

/-- The constructors `Array (orig, fortranOrdering)` and
`Array (allocator, orig, fortranOrdering)` with the element memory. -/
def constructCopy {α : Type} (allocator : ArrayAllocator) (raw : ArrayViewBase)
    (sizeofT dim : Nat) (orig : ArrayViewBase) (fortranOrdering : Bool) (mem : Memory α) :
    Option (Array × Outcome (Memory α)) :=
  (uninitialised allocator raw).recreateCopy sizeofT dim orig fortranOrdering mem

/-- A point in the execution of `Array::init`: the members of the container
after a statement, or a call of a member of the allocator together with the
members of the container at the time of the call. -/
inductive InitEvent where
  | state (a : Array)
  | calculateStrides (a : Array)
  | allocate (a : Array) (elements : Nat)

/-- The execution of `Array::init (shape, fortranOrdering)` statement by
statement, as the sequence of its events up to the point where it returns or
stops (a call of the allocator that does not return). -/
def initTrace (self : Array) (dim : Nat) (shape : List Nat) (fortranOrdering : Bool) :
    List InitEvent :=
  let s1 := Array.mk self.allocator self.handle
    (ArrayViewBase.mk getNull self.storage.shape_ self.storage.stridesBytes_)
  let s2 := Array.mk s1.allocator none s1.storage
  [InitEvent.state self, InitEvent.state s1, InitEvent.state s2, InitEvent.calculateStrides s2] ++
  match s2.allocator.calculateStrides dim s2.storage.stridesBytes_ shape fortranOrdering with
  | none => []
  | some r =>
    let elements := r.1
    let s3 := Array.mk s2.allocator s2.handle
      (ArrayViewBase.mk s2.storage.ptr s2.storage.shape_ r.2)
    let s4 := Array.mk s3.allocator s3.handle
      (ArrayViewBase.mk s3.storage.ptr ((List.range dim).map fun i => shape.getD i 0)
        s3.storage.stridesBytes_)
    [InitEvent.state s3, InitEvent.state s4, InitEvent.allocate s4 elements] ++
    match s4.allocator.allocate elements with
    | none => []
    | some handle =>
      let s5 := Array.mk s4.allocator handle s4.storage
      InitEvent.state s5 ::
      match handle with
      | some h => [InitEvent.state (Array.mk s5.allocator s5.handle
          (ArrayViewBase.mk h.getPointer s5.storage.shape_ s5.storage.stridesBytes_))]
      | none => []

end Array

/-! ## Reordering of dimensions -/

/-- Conversion of an integer value to `int32_t` (two's complement). -/
def toInt32 (z : Int) : Int :=
  if z % 4294967296 < 2147483648 then z % 4294967296 else z % 4294967296 - 4294967296

/-- Conversion of an integer value to `uint32_t`. -/
def toUInt32 (z : Int) : Nat := (z % 4294967296).toNat

/-- Unary minus on `std::ptrdiff_t` (two's complement: the most negative value
is its own negative). -/
def negPtrdiff (s : Int) : Int := toPtrdiff (toSizeT (-s))

/-- The local variables of `reorderDimensions` that the loop updates.  The
output arrays `shape` and `stridesBytes`, which the loop fills front to back,
are the lists of the entries written so far. -/
structure ReorderState where
  done : List Bool
  shape : List Nat
  stridesBytes : List Int
  offset : Int
deriving DecidableEq

/-- Body of the loop of `reorderDimensions` at index `i`.  Negation of a signed
value is two's complement negation, as on the target; for the most negative
value the C++ standard leaves it undefined. -/
def reorderDimensionsBody (dim : Nat) (view : ArrayViewBase) (dims : List Int) (i : Nat)
    (st : ReorderState) : Outcome ReorderState :=
  let val := dims.getD i 0
  let invert := decide (val < 0)
  let val := if invert then toInt32 (-val) else val
  if val > 0 ∧ toUInt32 val ≤ dim then
    let val := val - 1
    if st.done.getD val.toNat false = false then
      let done := st.done.set val.toNat true
      let n := view.shape_.getD val.toNat 0
      let shape := st.shape ++ [n]
      if invert = false then
        Outcome.returned (ReorderState.mk done shape
          (st.stridesBytes ++ [view.stridesBytes_.getD val.toNat 0]) st.offset)
      else
        Outcome.returned (ReorderState.mk done shape
          (st.stridesBytes ++ [negPtrdiff (view.stridesBytes_.getD val.toNat 0)])
          (if n ≠ 0 then
            toPtrdiff (addSize (toSizeT st.offset)
              (mulSize (subSize n 1) (toSizeT (view.stridesBytes_.getD val.toNat 0))))
          else st.offset))
    else Outcome.assertionFailed st
  else Outcome.assertionFailed st

/-- Result of a call of `reorderDimensions`: the bound on the loop was reached,
an `ASSERT` fired, or the call returned a view. -/
inductive ReorderResult where
  | outOfFuel
  | assertionFailed
  | done (view : ArrayViewBase)
deriving DecidableEq

/-- The function `Math::reorderDimensions (view, dims)`; the entries of `dims`
are `int32_t` values.  The loop gets `dim + 1` evaluations of its condition. -/
def reorderDimensions (view : ArrayViewBase) (dims : List Int) : ReorderResult :=
  let dim := view.dimension
  if dims.length = dim then
    match forLoop dim (reorderDimensionsBody dim view dims) (dim + 1) 0
        (ReorderState.mk (List.replicate dim false) [] [] 0) with
    | Outcome.returned st =>
      ReorderResult.done (ArrayViewBase.mk (toSizeT ((view.arithData : Int) + st.offset))
        st.shape st.stridesBytes)
    | Outcome.assertionFailed _ => ReorderResult.assertionFailed
    | Outcome.outOfFuel => ReorderResult.outOfFuel
  else ReorderResult.assertionFailed

/-! ## Selectors and accessors with default arguments -/

/-- The call `Math::range ()`: the default argument `start = 0`. -/
def rangeDefault : Par := rangeFrom 0

namespace Array

/-- The member `Array::shape ()`. -/
def shape (self : Array) : List Nat := self.view.shape_

/-- The member `Array::stridesBytes ()`. -/
def stridesBytes (self : Array) : List Int := self.view.stridesBytes_

/-- The member `Array::size<n> ()`. -/
def size (self : Array) (n : Nat) : Nat := self.view.size n

/-- The member `Array::strideBytes<n> ()`. -/
def strideBytes (self : Array) (n : Nat) : Int := self.view.strideBytes n

/-- The constructors `Array (shape)` and `Array (allocator, shape)` with the
flag omitted: the default argument `fortranOrdering = true`. -/
def constructShapeDefault (allocator : ArrayAllocator) (raw : ArrayViewBase) (dim : Nat)
    (shape : List Nat) : Option Array :=
  constructShape allocator raw dim shape true

/-- The member `recreate (shape)` with the flag omitted: the default argument
`fortranOrdering = true`. -/
def recreateShapeDefault (self : Array) (dim : Nat) (shape : List Nat) : Option Array :=
  self.recreateShape dim shape true

end Array

/-! ## Mandelbrot: CPU reference kernel (OpenCLExercise2_Mandelbrot.cpp) -/

/-- The `float` operations that `mandelbrotHost` uses, uninterpreted: the
conversion of a `size_t` value, the constants `0.0`, `2` and `4` converted to
`float`, the four arithmetic operations and the comparison `>`. -/
structure FloatOps (F : Type) where
  ofSize : Nat → F
  zero : F
  two : F
  four : F
  add : F → F → F
  sub : F → F → F
  mul : F → F → F
  div : F → F → F
  gt : F → F → Bool

/-- The vector `h_output`: its entries, and the writes made so far as (index,
value) pairs in program order (a ghost trace, not in the source).  A write
outside the vector, undefined in the source, leaves `data` unchanged and is
recorded in the trace. -/
structure OutputVector where
  data : List Nat
  writes : List (Nat × Nat)
deriving DecidableEq

/-- The statement `h_output[idx] = val`. -/
def OutputVector.write (out : OutputVector) (idx val : Nat) : OutputVector :=
  OutputVector.mk (out.data.set idx val) (out.writes ++ [(idx, val)])

/-- Number of values of `cl_uint` (32-bit). -/
def UINT_MOD : Nat := 4294967296

/-- The iteration loop `for (size_t k = ...; k < niter; k = k + 1)` of
`mandelbrotHost` for the cell with index `cell = i + j * countX`, from the state
`(k, x, y)`; the first explicit argument bounds the number of evaluations of
`k < niter`.  `niter - 1` is computed in `cl_uint`; `break` ends the loop. -/
def mandelbrotIteration {F : Type} (ops : FloatOps F) (niter : Nat) (xc yc : F) (cell : Nat) :
    Nat → Nat → F → F → OutputVector → Outcome OutputVector
  | 0, _, _, _, _ => Outcome.outOfFuel
  | fuel + 1, k, x, y, h_output =>
    if k < niter then
      let tempx := ops.add (ops.sub (ops.mul x x) (ops.mul y y)) xc
      let y := ops.add (ops.mul (ops.mul ops.two x) y) yc
      let x := tempx
      let r2 := ops.add (ops.mul x x) (ops.mul y y)
      if ops.gt r2 ops.four = true ∨ k = (niter + UINT_MOD - 1) % UINT_MOD then
        Outcome.returned (h_output.write cell (k % UINT_MOD))
      else mandelbrotIteration ops niter xc yc cell fuel (addSize k 1) x y h_output
    else Outcome.returned h_output

/-- The function `mandelbrotHost (h_output, countX, countY, niter, xmin, xmax,
ymin, ymax)`. -/
def mandelbrotHost {F : Type} (ops : FloatOps F) (h_output : OutputVector)
    (countX countY niter : Nat) (xmin xmax ymin ymax : F) : Outcome OutputVector :=
  forLoop countX (fun i h_output =>
    let xc := ops.add xmin
      (ops.mul (ops.div (ops.sub xmax xmin) (ops.ofSize (subSize countX 1))) (ops.ofSize i))
    forLoop countY (fun j h_output =>
      let yc := ops.add ymin
        (ops.mul (ops.div (ops.sub ymax ymin) (ops.ofSize (subSize countY 1))) (ops.ofSize j))
      let x := ops.zero
      let y := ops.zero
      mandelbrotIteration ops niter xc yc (addSize i (mulSize j countX)) (niter + 1) 0 x y
        h_output) (countY + 1) 0 h_output) (countX + 1) 0 h_output

/-! ## Reference notions used to state the properties -/

/-- Start position of a selector on its axis: the index itself for a plain
index, `start` for a `Range` or an `OpenRange`. -/
def Par.start : Par → Nat
  | .index val => val
  | .range val => val.start
  | .openRange val => val.start

/-- A selector fits an axis of the given extent: an index is below the extent, a
`Range` ends at or before it, an `OpenRange` starts at or before it (sums are
sums of natural numbers, without wrap-around). -/
def Par.fits (p : Par) (extent : Nat) : Prop :=
  match p with
  | .index val => val < extent
  | .range val => val.start + val.length ≤ extent
  | .openRange val => val.start ≤ extent

instance (p : Par) (extent : Nat) : Decidable (p.fits extent) := by
  cases p <;> unfold Par.fits <;> infer_instance

/-- The byte offset `sum_k i_k * stride_k`, an exact integer. -/
def offsetSum (idx : List Nat) (strides : List Int) : Int :=
  (List.zipWith (fun (i : Nat) (s : Int) => (i : Int) * s) idx strides).sum

/-- An index tuple is in bounds for a shape: same length, every index below the
extent of its axis. -/
def InBounds (idx : List Nat) (shape : List Nat) : Prop :=
  List.Forall₂ (fun i n => i < n) idx shape

instance (idx shape : List Nat) : Decidable (InBounds idx shape) := by
  unfold InBounds; infer_instance

/-- Every selector fits the axis at its position, and there is one selector per
axis. -/
def Accepts (pars : List Par) (shape : List Nat) : Prop :=
  List.Forall₂ (fun p n => p.fits n) pars shape

instance (pars : List Par) (shape : List Nat) : Decidable (Accepts pars shape) := by
  unfold Accepts; infer_instance

/-- Extents of a slice: for each `Range` its length, for each `OpenRange` the
extent of the axis minus the start, plain-index axes dropped, in axis order. -/
def sliceShape : List Par → List Nat → List Nat
  | .index _ :: ps, _ :: ns => sliceShape ps ns
  | .range val :: ps, _ :: ns => val.length :: sliceShape ps ns
  | .openRange val :: ps, n :: ns => (n - val.start) :: sliceShape ps ns
  | _, _ => []

/-- Strides of a slice: the stride of every range-selected axis, in axis order. -/
def sliceStrides : List Par → List Int → List Int
  | .index _ :: ps, _ :: ss => sliceStrides ps ss
  | .range _ :: ps, s :: ss => s :: sliceStrides ps ss
  | .openRange _ :: ps, s :: ss => s :: sliceStrides ps ss
  | _, _ => []

/-- Column-major strides: `sizeof (T)` times the product of the extents of the
axes before `k`. -/
def fortranStrides (sizeofT : Nat) (shape : List Nat) : List Int :=
  (List.range shape.length).map fun k => ((sizeofT * (shape.take k).prod : Nat) : Int)

/-- Row-major strides: `sizeof (T)` times the product of the extents of the axes
after `k`. -/
def rowMajorStrides (sizeofT : Nat) (shape : List Nat) : List Int :=
  (List.range shape.length).map fun k => ((sizeofT * (shape.drop (k + 1)).prod : Nat) : Int)

/-- The index tuple of the original view addressed through a slice: the plain
index on an index-selected axis, `start + j_m` on the `m`-th range-selected
axis. -/
def sliceIndex : List Par → List Nat → List Nat
  | [], _ => []
  | .index val :: ps, js => val :: sliceIndex ps js
  | .range val :: ps, j :: js => (val.start + j) :: sliceIndex ps js
  | .openRange val :: ps, j :: js => (val.start + j) :: sliceIndex ps js
  | .range val :: ps, [] => val.start :: sliceIndex ps []
  | .openRange val :: ps, [] => val.start :: sliceIndex ps []

/-- Value of the element that a view refers to at an index tuple, in a memory
that maps the address of an element to its value; `none` when the access raises
the fatal assertion. -/
def ArrayView.readAt {α : Type} (mem : Nat → α) (Assert : Bool) (view : ArrayViewBase)
    (idx : List Nat) : Option α :=
  match ArrayView.operatorCall Assert view (idx.map Par.index) with
  | some (RetType.ref ptr) => some (mem ptr)
  | _ => none

/-- Every multiplication the ascending (Fortran) loop performs fits in `size_t`:
at each axis `k`, the product of the extents before `k` times `sizeof (T)`, and
the product of the extents up to `k`. -/
def fortranChecks (sizeofT : Nat) (shape : List Nat) : Prop :=
  ∀ k, k < shape.length →
    (shape.take k).prod * sizeofT < SIZE_MOD ∧ (shape.take (k + 1)).prod < SIZE_MOD

instance (sizeofT : Nat) (shape : List Nat) : Decidable (fortranChecks sizeofT shape) := by
  unfold fortranChecks; infer_instance

/-- Every multiplication the descending (row-major) loop performs fits in
`size_t`: at each axis `k`, the product of the extents after `k` times
`sizeof (T)`, and the product of the extents from `k` on. -/
def rowMajorChecks (sizeofT : Nat) (shape : List Nat) : Prop :=
  ∀ k, k < shape.length →
    (shape.drop (k + 1)).prod * sizeofT < SIZE_MOD ∧ (shape.drop k).prod < SIZE_MOD

instance (sizeofT : Nat) (shape : List Nat) : Decidable (rowMajorChecks sizeofT shape) := by
  unfold rowMajorChecks; infer_instance

/-- The strides the Fortran loop stores: `elements * sizeof (T)` converted to
`ptrdiff_t`. -/
def fortranStored (sizeofT : Nat) (shape : List Nat) : List Int :=
  (List.range shape.length).map fun k => toPtrdiff (sizeofT * (shape.take k).prod)

/-- The strides the row-major loop stores. -/
def rowMajorStored (sizeofT : Nat) (shape : List Nat) : List Int :=
  (List.range shape.length).map fun k => toPtrdiff (sizeofT * (shape.drop (k + 1)).prod)

/-- The contract of an allocator strategy, in the words of the specification:
`calculateStrides` returns the total element count (and fills the `dim` strides),
`allocate (count)` returns an empty handle exactly when `count == 0`, and a
non-empty handle wraps `count` elements at a non-null address. -/
def ArrayAllocator.Contract (allocator : ArrayAllocator) : Prop :=
  (∀ (shape : List Nat) (strides : List Int) (fortranOrdering : Bool) (e : Nat)
      (st : List Int), shape.length < SIZE_MOD → strides.length = shape.length →
      allocator.calculateStrides shape.length strides shape fortranOrdering = some (e, st) →
      e = shape.prod ∧ st.length = shape.length) ∧
  (∀ (count : Nat) (h : Option Handle), allocator.allocate count = some h →
      (h = none ↔ count = 0)) ∧
  (∀ (count : Nat) (h : Handle), allocator.allocate count = some (some h) →
      h.getPointer ≠ 0 ∧ h.count = count)

/-- Position of an index tuple in row-major enumeration of a shape (the last
index varies fastest). -/
def rowMajorIndex : List Nat → List Nat → Nat
  | i :: is, _ :: ns => i * ns.prod + rowMajorIndex is ns
  | _, _ => 0

/-- Position of an index tuple in column-major enumeration of a shape (the first
index varies fastest). -/
def fortranIndex : List Nat → List Nat → Nat
  | i :: is, n :: ns => i + n * fortranIndex is ns
  | _, _ => 0

/-- Address of the element of a view at an index tuple: base pointer plus
`sum_k i_k * stride_k`, as a 64-bit address. -/
def elementAddress (view : ArrayViewBase) (idx : List Nat) : Nat :=
  toSizeT ((view.ptr : Int) + offsetSum idx view.stridesBytes_)

/-- The index tuples over the first `dim` axes of a shape, in the order in which
the nested loops of `assign` and `setTo` visit them (the last axis is the
outermost loop). -/
def loopOrder (shape : List Nat) : Nat → List (List Nat)
  | 0 => [[]]
  | dim + 1 => (List.range (shape.getD dim 0)).flatMap fun i =>
      (loopOrder shape dim).map fun idx => idx ++ [i]

/-- Zero-based axis that a signed 1-based axis reference names. -/
def axisOf (d : Int) : Nat := d.natAbs - 1

/-- A valid signed axis list for rank `R`: `R` entries, each with absolute value
in `1..R`, no two with the same absolute value. -/
def ValidDims (R : Nat) (dims : List Int) : Prop :=
  dims.length = R ∧ (∀ d ∈ dims, d ≠ 0 ∧ d.natAbs ≤ R) ∧ (dims.map Int.natAbs).Nodup

instance (R : Nat) (dims : List Int) : Decidable (ValidDims R dims) := by
  unfold ValidDims; infer_instance

/-- The entries of an axis list are `int32_t` values. -/
def DimsInt32 (dims : List Int) : Prop :=
  ∀ d ∈ dims, -2147483648 ≤ d ∧ d < 2147483648

instance (dims : List Int) : Decidable (DimsInt32 dims) := by
  unfold DimsInt32; infer_instance

/-- Extents of the reordered view: entry `i` is the extent of the axis that
`dims[i]` names. -/
def reorderShape (view : ArrayViewBase) (dims : List Int) : List Nat :=
  dims.map fun d => view.size (axisOf d)

/-- Strides of the reordered view, with exact negation on reversed axes. -/
def reorderStrides (view : ArrayViewBase) (dims : List Int) : List Int :=
  dims.map fun d =>
    if d < 0 then -(view.strideBytes (axisOf d)) else view.strideBytes (axisOf d)

/-- Strides that `reorderDimensions` stores: negation in `ptrdiff_t` on reversed
axes. -/
def reorderStored (view : ArrayViewBase) (dims : List Int) : List Int :=
  dims.map fun d =>
    if d < 0 then negPtrdiff (view.strideBytes (axisOf d)) else view.strideBytes (axisOf d)

/-- Exact byte offset of the base pointer of the reordered view: on each reversed
axis of non-zero extent, `(extent - 1) * stride`. -/
def reorderOffset (view : ArrayViewBase) (dims : List Int) : Int :=
  (dims.map fun d =>
    if d < 0 ∧ view.size (axisOf d) ≠ 0 then
      ((view.size (axisOf d) : Int) - 1) * view.strideBytes (axisOf d)
    else 0).sum

/-- Invariant of the loop of `reorderDimensions` before iteration `k`: `done`
marks the axes named by the first `k` entries, `shape` and `stridesBytes` hold
the entries written so far, and `offset` is the exact offset modulo `2^64`. -/
def ReorderInv (view : ArrayViewBase) (dims : List Int) (k : Nat) (st : ReorderState) : Prop :=
  st.done.length = view.dimension ∧
  (∀ a, st.done.getD a false = true ↔ a ∈ (dims.take k).map axisOf) ∧
  st.shape = reorderShape view (dims.take k) ∧
  st.stridesBytes = reorderStored view (dims.take k) ∧
  toSizeT st.offset = toSizeT (reorderOffset view (dims.take k))

/-- Entry `k` of an axis list passes the assertions of `reorderDimensions`: it is
not 0, its absolute value is at most `R`, and no earlier entry names its axis. -/
def EntryOK (R : Nat) (dims : List Int) (k : Nat) : Prop :=
  (dims.getD k 0 ≠ 0 ∧ (dims.getD k 0).natAbs ≤ R) ∧
  axisOf (dims.getD k 0) ∉ (dims.take k).map axisOf

/-- The copies `*target = *source` of a list of (target, source) address pairs,
in order. -/
def copyAll {α : Type} (sizeofT : Nat) (pairs : List (Nat × Nat)) (mem : Memory α) :
    Memory α :=
  pairs.foldl (fun m p => m.copy sizeofT p.1 p.2) mem

/-- The stores `*target = value` at a list of addresses, in order. -/
def storeAll {α : Type} (sizeofT : Nat) (targets : List Nat) (value : List α)
    (mem : Memory α) : Memory α :=
  targets.foldl (fun m a => m.store sizeofT a value) mem

/-- The (target, source) address pairs that `assign` visits below the base
pointers `target` and `source`, for the index tuples of a list. -/
def assignPairs (targetStridesB sourceStridesB : List Int) (target source : Nat)
    (order : List (List Nat)) : List (Nat × Nat) :=
  order.map fun idx =>
    (toSizeT ((target : Int) + offsetSum idx targetStridesB),
      toSizeT ((source : Int) + offsetSum idx sourceStridesB))

/-- The addresses that `setTo` visits below the base pointer `target`, for the
index tuples of a list. -/
def setToTargets (stridesBytes : List Int) (target : Nat) (order : List (List Nat)) :
    List Nat :=
  order.map fun idx => toSizeT ((target : Int) + offsetSum idx stridesBytes)

/-- The chained access `v[i_0][i_1]...[i_k]`: `operator[]` applied to the result
of the previous one. -/
def indexChain (A : Bool) : ArrayViewBase → List Nat → Option RetType
  | v, [] => some (RetType.view v)
  | v, i :: is =>
    match ArrayView.operatorIndex A v i with
    | some (RetType.view w) => indexChain A w is
    | some (RetType.ref ptr) => if is = [] then some (RetType.ref ptr) else none
    | none => none

/-- The identity axis list `[1, 2, ..., R]`. -/
def identityDims (R : Nat) : List Int := (List.range R).map fun (i : Nat) => (i : Int) + 1

/-- The set of element addresses that the in-bounds index tuples of a view reach. -/
def addressSet (view : ArrayViewBase) : Set Nat :=
  {a | ∃ idx, InBounds idx view.shape_ ∧ elementAddress view idx = a}

/-- The iteration count that the iteration loop of `mandelbrotHost` writes for a
cell, from the state `(k, x, y)`; the first explicit argument bounds the number
of iterations. -/
def escapeCount {F : Type} (ops : FloatOps F) (niter : Nat) (xc yc : F) :
    Nat → Nat → F → F → Nat
  | 0, k, _, _ => k
  | fuel + 1, k, x, y =>
    let tempx := ops.add (ops.sub (ops.mul x x) (ops.mul y y)) xc
    let y2 := ops.add (ops.mul (ops.mul ops.two x) y) yc
    let r2 := ops.add (ops.mul tempx tempx) (ops.mul y2 y2)
    if ops.gt r2 ops.four = true ∨ k + 1 = niter then k
    else escapeCount ops niter xc yc fuel (k + 1) tempx y2

/-- The (index, value) pairs that `mandelbrotHost` writes, in program order. -/
def mandelbrotWrites {F : Type} (ops : FloatOps F) (countX countY niter : Nat)
    (xmin xmax ymin ymax : F) : List (Nat × Nat) :=
  (List.range countX).flatMap fun i =>
    (List.range countY).map fun j =>
      (i + j * countX,
        escapeCount ops niter
          (ops.add xmin (ops.mul (ops.div (ops.sub xmax xmin) (ops.ofSize (countX - 1)))
            (ops.ofSize i)))
          (ops.add ymin (ops.mul (ops.div (ops.sub ymax ymin) (ops.ofSize (countY - 1)))
            (ops.ofSize j)))
          niter 0 ops.zero ops.zero)

/-- The buffer after the element assignments `h_output[idx] = val` of a list of
(index, value) pairs, carried out in the order of the list. -/
def writeAll (l : List (Nat × Nat)) (out : OutputVector) : OutputVector :=
  l.foldl (fun o p => o.write p.1 p.2) out

/-! ## Arithmetic of the machine types -/

theorem SIZE_MOD_eq : SIZE_MOD = 18446744073709551616 := by
  norm_num [SIZE_MOD]

theorem PTRDIFF_MOD_eq : PTRDIFF_MOD = 9223372036854775808 := by
  norm_num [PTRDIFF_MOD]

theorem SIZE_MOD_pos : 0 < SIZE_MOD := by
  rw [SIZE_MOD_eq]; omega

theorem toSizeT_cast (z : Int) : ((toSizeT z : Nat) : Int) = z % (SIZE_MOD : Int) := by
  unfold toSizeT
  exact Int.toNat_of_nonneg (Int.emod_nonneg _ (by exact_mod_cast SIZE_MOD_pos.ne'))

theorem toSizeT_lt (z : Int) : toSizeT z < SIZE_MOD := by
  have h := Int.emod_lt_of_pos z (b := (SIZE_MOD : Int)) (by exact_mod_cast SIZE_MOD_pos)
  rw [← toSizeT_cast] at h
  exact_mod_cast h

theorem toSizeT_natCast {n : Nat} (h : n < SIZE_MOD) : toSizeT (n : Int) = n := by
  have h2 : ((toSizeT (n : Int) : Nat) : Int) = (n : Int) := by
    rw [toSizeT_cast]
    exact Int.emod_eq_of_lt (by omega) (by exact_mod_cast h)
  exact_mod_cast h2

theorem toSizeT_congr {a b : Int} (h : a % (SIZE_MOD : Int) = b % (SIZE_MOD : Int)) :
    toSizeT a = toSizeT b := by
  unfold toSizeT; rw [h]

theorem toSizeT_toSizeT_add (z y : Int) :
    toSizeT (((toSizeT z : Nat) : Int) + y) = toSizeT (z + y) := by
  apply toSizeT_congr
  rw [toSizeT_cast, Int.emod_add_cancel_right]
  exact Int.emod_emod_of_dvd _ (dvd_refl _)

/-- Pointer update of one `setup` step: `*ptr += val * strideBytes`. -/
theorem ptrAdd_mulSize (p a : Nat) (s : Int) :
    ptrAdd p (mulSize a (toSizeT s)) = toSizeT ((p : Int) + (a : Int) * s) := by
  have h2 : ((ptrAdd p (mulSize a (toSizeT s)) : Nat) : Int)
      = ((toSizeT ((p : Int) + (a : Int) * s) : Nat) : Int) := by
    rw [toSizeT_cast]
    unfold ptrAdd mulSize
    push_cast
    rw [toSizeT_cast, Int.add_emod, Int.emod_emod_of_dvd _ (dvd_refl _), ← Int.add_emod,
      Int.add_emod, Int.mul_emod, Int.emod_emod_of_dvd _ (dvd_refl _), ← Int.mul_emod,
      ← Int.add_emod]
  exact_mod_cast h2

theorem mulSize_comm (a b : Nat) : mulSize a b = mulSize b a := by
  unfold mulSize; rw [Nat.mul_comm]

theorem subSize_of_le {a b : Nat} (hb : b ≤ a) (ha : a < SIZE_MOD) : subSize a b = a - b := by
  unfold subSize
  rw [Nat.mod_eq_of_lt (lt_of_le_of_lt hb ha)]
  have : a + SIZE_MOD - b = (a - b) + SIZE_MOD := by omega
  rw [this, Nat.add_mod_right, Nat.mod_eq_of_lt (by omega)]

/-- The two assertions of the `Range` check hold exactly when `start + length`,
computed without wrap-around, is at most the extent. -/
theorem addSize_check_iff {start length n : Nat} (hs : start < SIZE_MOD)
    (hl : length < SIZE_MOD) (hn : n < SIZE_MOD) :
    (addSize start length ≥ start ∧ addSize start length ≤ n) ↔ start + length ≤ n := by
  unfold addSize
  by_cases h : start + length < SIZE_MOD
  · rw [Nat.mod_eq_of_lt h]; omega
  · have h2 : (start + length) % SIZE_MOD = start + length - SIZE_MOD := by
      rw [Nat.mod_eq_sub_mod (by omega), Nat.mod_eq_of_lt (by omega)]
    rw [h2]; omega

/-! ## The slicing walk `OpPSetup::setup` -/

theorem drop_cons_getD {α : Type} (l : List α) (n : Nat) (d x : α) (xs : List α)
    (h : l.drop n = x :: xs) : l.getD n d = x ∧ l.drop (n + 1) = xs := by
  have hn : n < l.length := by
    by_contra hc
    rw [List.drop_eq_nil_of_le (by omega)] at h
    cases h
  rw [List.drop_eq_getElem_cons hn] at h
  rw [List.getD_eq_getElem l d hn]
  injection h with h1 h2
  exact ⟨h1, h2⟩

theorem drop_nil_getD {α : Type} (l : List α) (n : Nat) (d : α)
    (h : l.drop n = []) : l.getD n d = d ∧ l.drop (n + 1) = [] := by
  have hn : l.length ≤ n := List.drop_eq_nil_iff.mp h
  exact ⟨List.getD_eq_default l d hn, List.drop_eq_nil_of_le (by omega)⟩

/-- Pointer update of one `setup` step starting from a wrapped address. -/
theorem ptrAdd_toSizeT_mulSize (z : Int) (a : Nat) (s : Int) :
    ptrAdd (toSizeT z) (mulSize a (toSizeT s)) = toSizeT (z + (a : Int) * s) := by
  rw [ptrAdd_mulSize, toSizeT_toSizeT_add]

theorem checkIndex_of_lt (A : Bool) (view : ArrayViewBase) (dpos pos : Nat)
    (h : pos < view.size dpos) : ArrayAssertions.checkIndex A view dpos pos = some () := by
  cases A <;> simp [ArrayAssertions.checkIndex, ASSERT, h]

theorem checkRange_of_le (A : Bool) (view : ArrayViewBase) (dpos : Nat) (r : Range)
    (hn : view.size dpos < SIZE_MOD) (h : r.start + r.length ≤ view.size dpos) :
    ArrayAssertions.checkRange A view dpos r = some () := by
  have h1 := (addSize_check_iff (by omega) (by omega) hn).mpr h
  cases A <;> simp [ArrayAssertions.checkRange, ASSERT, h1.1, h1.2]

theorem checkOpenRange_of_le (A : Bool) (view : ArrayViewBase) (dpos : Nat) (r : OpenRange)
    (h : r.start ≤ view.size dpos) : ArrayAssertions.checkOpenRange A view dpos r = some () := by
  cases A <;> simp [ArrayAssertions.checkOpenRange, ASSERT, h]

/-- Every accepted selector list is walked to the end; the walk returns the
wrapped address `ptr + sum start_k * stride_k` and the shape and strides of the
range-selected axes. -/
theorem setup_of_accepts (A : Bool) (view : ArrayViewBase)
    (hlen : view.stridesBytes_.length = view.shape_.length)
    (hsh : ∀ n ∈ view.shape_, n < SIZE_MOD) :
    ∀ (pars : List Par) (dpos : Nat) (z : Int), Accepts pars (view.shape_.drop dpos) →
      Intern.OpPSetup.setup A view dpos (toSizeT z) pars
        = some (toSizeT (z + offsetSum (pars.map Par.start) (view.stridesBytes_.drop dpos)),
            sliceShape pars (view.shape_.drop dpos),
            sliceStrides pars (view.stridesBytes_.drop dpos)) := by
  intro pars
  induction pars with
  | nil =>
    intro dpos z _
    simp [Intern.OpPSetup.setup, offsetSum, sliceShape, sliceStrides]
  | cons p ps ih =>
    intro dpos z h
    unfold Accepts at h
    rcases hd : view.shape_.drop dpos with _ | ⟨n, ns⟩
    · rw [hd] at h; cases h
    · rw [hd] at h
      obtain ⟨hfit, hrest⟩ := List.forall₂_cons.mp h
      obtain ⟨hsz, hdrop⟩ := drop_cons_getD _ _ 0 _ _ hd
      have hdl : dpos < view.shape_.length := by
        by_contra hc
        rw [List.drop_eq_nil_of_le (by omega)] at hd
        cases hd
      have hn : n < SIZE_MOD := hsh n (List.mem_of_mem_drop (hd ▸ List.mem_cons_self n ns))
      have hsize : view.size dpos = n := hsz
      rcases hst : view.stridesBytes_.drop dpos with _ | ⟨s, ss⟩
      · have := List.drop_eq_nil_iff.mp hst
        omega
      obtain ⟨hstride, hsdrop⟩ : view.strideBytes dpos = s ∧ _ := drop_cons_getD _ _ 0 _ _ hst
      have ih2 := fun z => ih (dpos + 1) z (by unfold Accepts; rw [hdrop]; exact hrest)
      cases p with
      | index val =>
        have hc := checkIndex_of_lt A view dpos val (by rw [hsize]; exact hfit)
        simp only [Intern.OpPSetup.setup, hc, Option.bind_some, ptrAdd_toSizeT_mulSize, ih2, hstride,
          hdrop, hsdrop]
        simp [offsetSum, sliceShape, sliceStrides, Par.start, add_assoc]
      | range val =>
        have hc := checkRange_of_le A view dpos val (by rw [hsize]; exact hn)
          (by rw [hsize]; exact hfit)
        simp only [Intern.OpPSetup.setup, hc, Option.bind_some, ptrAdd_toSizeT_mulSize, ih2, hstride,
          hdrop, hsdrop]
        simp [offsetSum, sliceShape, sliceStrides, Par.start, add_assoc]
      | openRange val =>
        have hfit2 : val.start ≤ n := hfit
        have hc := checkOpenRange_of_le A view dpos val (by rw [hsize]; exact hfit)
        simp only [Intern.OpPSetup.setup, hc, Option.bind_some, ptrAdd_toSizeT_mulSize, ih2, hstride,
          hdrop, hsdrop, hsize, subSize_of_le hfit2 hn]
        simp [offsetSum, sliceShape, sliceStrides, Par.start, add_assoc]

theorem check_disabled (view : ArrayViewBase) (dpos : Nat) :
    (∀ pos, ArrayAssertions.checkIndex false view dpos pos = some ()) ∧
    (∀ r, ArrayAssertions.checkRange false view dpos r = some ()) ∧
    (∀ r, ArrayAssertions.checkOpenRange false view dpos r = some ()) :=
  ⟨fun _ => rfl, fun _ => rfl, fun _ => rfl⟩

/-- With the disabled policy the walk never stops. -/
theorem setup_disabled_isSome (view : ArrayViewBase) :
    ∀ (pars : List Par) (dpos ptr : Nat),
      (Intern.OpPSetup.setup false view dpos ptr pars).isSome = true := by
  intro pars
  induction pars with
  | nil => intro dpos ptr; rfl
  | cons p ps ih =>
    intro dpos ptr
    cases p with
    | index val =>
      simp only [Intern.OpPSetup.setup, (check_disabled view dpos).1, Option.some_bind]
      exact ih _ _
    | range val =>
      simp only [Intern.OpPSetup.setup, (check_disabled view dpos).2.1, Option.some_bind,
        Option.isSome_map']
      exact ih _ _
    | openRange val =>
      simp only [Intern.OpPSetup.setup, (check_disabled view dpos).2.2, Option.some_bind,
        Option.isSome_map']
      exact ih _ _

/-- A walk that passes every enabled check computes what the unchecked walk
computes. -/
theorem setup_enabled_imp_disabled (view : ArrayViewBase) :
    ∀ (pars : List Par) (dpos ptr : Nat) (r : Nat × List Nat × List Int),
      Intern.OpPSetup.setup true view dpos ptr pars = some r →
      Intern.OpPSetup.setup false view dpos ptr pars = some r := by
  intro pars
  induction pars with
  | nil => intro dpos ptr r h; exact h
  | cons p ps ih =>
    intro dpos ptr r h
    cases p with
    | index val =>
      simp only [Intern.OpPSetup.setup, Option.bind_eq_some] at h
      obtain ⟨_, _, h2⟩ := h
      simp only [Intern.OpPSetup.setup, (check_disabled view dpos).1, Option.some_bind]
      exact ih _ _ _ h2
    | range val =>
      simp only [Intern.OpPSetup.setup, Option.bind_eq_some, Option.map_eq_some'] at h
      obtain ⟨_, _, r2, h2, h3⟩ := h
      simp only [Intern.OpPSetup.setup, (check_disabled view dpos).2.1, Option.some_bind,
        ih _ _ _ h2, Option.map_some', h3]
    | openRange val =>
      simp only [Intern.OpPSetup.setup, Option.bind_eq_some, Option.map_eq_some'] at h
      obtain ⟨_, _, r2, h2, h3⟩ := h
      simp only [Intern.OpPSetup.setup, (check_disabled view dpos).2.2, Option.some_bind,
        ih _ _ _ h2, Option.map_some', h3]

theorem ASSERT_eq_some (c : Prop) [Decidable c] (u : Unit) : ASSERT c = some u ↔ c := by
  unfold ASSERT; split <;> simp [*]

theorem ASSERT_eq_none (c : Prop) [Decidable c] : ASSERT c = none ↔ ¬ c := by
  unfold ASSERT; split <;> simp [*]

theorem checkIndex_enabled_iff (view : ArrayViewBase) (dpos pos : Nat) (u : Unit) :
    ArrayAssertions.checkIndex true view dpos pos = some u ↔ pos < view.size dpos := by
  simp only [ArrayAssertions.checkIndex, ASSERT_eq_some]

theorem checkRange_enabled_iff (view : ArrayViewBase) (dpos : Nat) (r : Range) (u : Unit)
    (hs : r.start < SIZE_MOD) (hl : r.length < SIZE_MOD) (hn : view.size dpos < SIZE_MOD) :
    ArrayAssertions.checkRange true view dpos r = some u ↔ r.start + r.length ≤ view.size dpos := by
  simp only [ArrayAssertions.checkRange, Option.bind_eq_some, ASSERT_eq_some, exists_and_left,
    exists_const]
  exact addSize_check_iff hs hl hn

theorem checkOpenRange_enabled_iff (view : ArrayViewBase) (dpos : Nat) (r : OpenRange)
    (u : Unit) :
    ArrayAssertions.checkOpenRange true view dpos r = some u ↔ r.start ≤ view.size dpos := by
  simp only [ArrayAssertions.checkOpenRange, ASSERT_eq_some]

/-- A walk that the enabled checks let through was given a fitting selector on
every axis. -/
theorem accepts_of_setup (view : ArrayViewBase) (hsh : ∀ n ∈ view.shape_, n < SIZE_MOD) :
    ∀ (pars : List Par) (dpos ptr : Nat) (r : Nat × List Nat × List Int),
      (∀ p ∈ pars, p.WF) → dpos + pars.length = view.shape_.length →
      Intern.OpPSetup.setup true view dpos ptr pars = some r →
      Accepts pars (view.shape_.drop dpos) := by
  intro pars
  induction pars with
  | nil =>
    intro dpos ptr r _ hlen _
    have : view.shape_.drop dpos = [] := List.drop_eq_nil_of_le (by simp at hlen; omega)
    unfold Accepts; rw [this]; exact List.Forall₂.nil
  | cons p ps ih =>
    intro dpos ptr r hw hlen h
    have hdl : dpos < view.shape_.length := by simp at hlen; omega
    have hd := List.drop_eq_getElem_cons hdl
    have hsize : view.size dpos = view.shape_[dpos] := List.getD_eq_getElem _ 0 hdl
    have hn : view.size dpos < SIZE_MOD := by
      rw [hsize]; exact hsh _ (List.getElem_mem hdl)
    have hws : ∀ q ∈ ps, q.WF := fun q hq => hw q (List.mem_cons_of_mem _ hq)
    have hp : p.WF := hw p (List.mem_cons_self _ _)
    have hlen2 : dpos + 1 + ps.length = view.shape_.length := by simp at hlen; omega
    unfold Accepts
    rw [hd, ← hsize]
    cases p with
    | index val =>
      simp only [Intern.OpPSetup.setup, Option.bind_eq_some] at h
      obtain ⟨u, hc, h2⟩ := h
      exact List.Forall₂.cons ((checkIndex_enabled_iff view dpos val u).mp hc)
        (ih _ _ _ hws hlen2 h2)
    | range val =>
      simp only [Intern.OpPSetup.setup, Option.bind_eq_some, Option.map_eq_some'] at h
      obtain ⟨u, hc, r2, h2, _⟩ := h
      exact List.Forall₂.cons ((checkRange_enabled_iff view dpos val u hp.1 hp.2 hn).mp hc)
        (ih _ _ _ hws hlen2 h2)
    | openRange val =>
      simp only [Intern.OpPSetup.setup, Option.bind_eq_some, Option.map_eq_some'] at h
      obtain ⟨u, hc, r2, h2, _⟩ := h
      exact List.Forall₂.cons ((checkOpenRange_enabled_iff view dpos val u).mp hc)
        (ih _ _ _ hws hlen2 h2)

theorem retDim_eq_countP (pars : List Par) :
    Intern.OpPInfo.retDim pars = pars.countP Intern.OpPArgInfoIsRange := by
  induction pars with
  | nil => rfl
  | cons p ps ih =>
    cases p <;> simp [Intern.OpPInfo.retDim, Intern.OpPArgInfoIsRange, ih]

/-- The output arrays of the walk have exactly `retDim` entries: the static
assertions on `rDim` in `OpPSetup::setup` hold. -/
theorem setup_length (A : Bool) (view : ArrayViewBase) :
    ∀ (pars : List Par) (dpos ptr : Nat) (r : Nat × List Nat × List Int),
      Intern.OpPSetup.setup A view dpos ptr pars = some r →
      r.2.1.length = Intern.OpPInfo.retDim pars ∧ r.2.2.length = Intern.OpPInfo.retDim pars := by
  intro pars
  induction pars with
  | nil =>
    intro dpos ptr r h
    simp only [Intern.OpPSetup.setup, Option.some.injEq] at h
    subst h
    exact ⟨rfl, rfl⟩
  | cons p ps ih =>
    intro dpos ptr r h
    cases p with
    | index val =>
      simp only [Intern.OpPSetup.setup, Option.bind_eq_some] at h
      obtain ⟨_, _, h2⟩ := h
      simpa [Intern.OpPInfo.retDim, Intern.OpPArgInfoIsRange] using ih _ _ _ h2
    | range val =>
      simp only [Intern.OpPSetup.setup, Option.bind_eq_some, Option.map_eq_some'] at h
      obtain ⟨_, _, r2, h2, h3⟩ := h
      subst h3
      simpa [Intern.OpPInfo.retDim, Intern.OpPArgInfoIsRange] using ih _ _ _ h2
    | openRange val =>
      simp only [Intern.OpPSetup.setup, Option.bind_eq_some, Option.map_eq_some'] at h
      obtain ⟨_, _, r2, h2, h3⟩ := h
      subst h3
      simpa [Intern.OpPInfo.retDim, Intern.OpPArgInfoIsRange] using ih _ _ _ h2

/-! ## Indexing and slicing through `operator()` -/

theorem accepts_index_of_inBounds :
    ∀ (idx shape : List Nat), InBounds idx shape → Accepts (idx.map Par.index) shape := by
  intro idx shape h
  unfold InBounds at h
  unfold Accepts
  induction h with
  | nil => exact List.Forall₂.nil
  | cons h1 _ ih => exact List.Forall₂.cons h1 ih

theorem retDim_map_index (idx : List Nat) : Intern.OpPInfo.retDim (idx.map Par.index) = 0 := by
  induction idx with
  | nil => rfl
  | cons i is ih => simp [Intern.OpPInfo.retDim, Intern.OpPArgInfoIsRange, ih]

theorem map_start_map_index (idx : List Nat) : (idx.map Par.index).map Par.start = idx := by
  induction idx with
  | nil => rfl
  | cons i is ih => rw [List.map_cons, List.map_cons, ih]; rfl

/-- The walk of `operator()` from the base pointer of a well-formed view, for
an accepted selector list. -/
theorem setup_view_of_accepts (A : Bool) (view : ArrayViewBase) (pars : List Par)
    (hv : view.WF) (hacc : Accepts pars view.shape_) :
    Intern.OpPSetup.setup A view 0 view.arithData pars
      = some (toSizeT ((view.ptr : Int) + offsetSum (pars.map Par.start) view.stridesBytes_),
          sliceShape pars view.shape_, sliceStrides pars view.stridesBytes_) := by
  obtain ⟨hp, _, hlen, hsh, _⟩ := hv
  have h := setup_of_accepts A view hlen hsh pars 0 (view.ptr : Int) (by simpa using hacc)
  rw [toSizeT_natCast hp] at h
  simpa [ArrayViewBase.arithData] using h

/-- C1: for a view of rank R and an index tuple with `i_k < extent_k` on every
axis, `operator()` with R plain indices refers to the element at the byte
address `base + sum_k i_k * stride_k`, reduced modulo `2^64` (so negative
strides are honoured), and `pointer` returns exactly that address; under either
bounds-check policy. -/
theorem operatorCall_indices_address (A : Bool) (view : ArrayViewBase) (idx : List Nat)
    (hv : view.WF) (hb : InBounds idx view.shape_) :
    ArrayView.operatorCall A view (idx.map Par.index)
        = some (RetType.ref (toSizeT ((view.ptr : Int) + offsetSum idx view.stridesBytes_))) ∧
      ArrayView.pointer A view (idx.map Par.index)
        = some (toSizeT ((view.ptr : Int) + offsetSum idx view.stridesBytes_)) := by
  have h := setup_view_of_accepts A view _ hv (accepts_index_of_inBounds _ _ hb)
  rw [map_start_map_index] at h
  constructor
  · unfold ArrayView.operatorCall
    rw [retDim_map_index]
    simp only [Intern.OpPInfoDim.accessPtr, h, Option.map_some']
  · simp only [ArrayView.pointer, Intern.OpPInfoDim.accessPtr, h, Option.map_some']

theorem operatorCall_indices_address_witness :
    (ArrayViewBase.mk 1000 [2, 3] [-4, 8]).WF ∧ InBounds [1, 2] [2, 3] ∧
    (ArrayView.operatorCall true (ArrayViewBase.mk 1000 [2, 3] [-4, 8])
        ([1, 2].map Par.index)
        = some (RetType.ref (toSizeT (((ArrayViewBase.mk 1000 [2, 3] [-4, 8]).ptr : Int)
            + offsetSum [1, 2] (ArrayViewBase.mk 1000 [2, 3] [-4, 8]).stridesBytes_))) ∧
      ArrayView.pointer true (ArrayViewBase.mk 1000 [2, 3] [-4, 8]) ([1, 2].map Par.index)
        = some (toSizeT (((ArrayViewBase.mk 1000 [2, 3] [-4, 8]).ptr : Int)
            + offsetSum [1, 2] (ArrayViewBase.mk 1000 [2, 3] [-4, 8]).stridesBytes_))) :=
  ⟨by decide, by decide,
    operatorCall_indices_address true (ArrayViewBase.mk 1000 [2, 3] [-4, 8]) [1, 2]
      (by decide) (by decide)⟩

theorem operatorCall_isSome (A : Bool) (view : ArrayViewBase) (pars : List Par) :
    (ArrayView.operatorCall A view pars).isSome
      = (Intern.OpPSetup.setup A view 0 view.arithData pars).isSome := by
  unfold ArrayView.operatorCall
  cases Intern.OpPInfo.retDim pars <;>
    simp [Intern.OpPInfoDim.accessPtr, Intern.OpPInfoDim.access]

/-- A selector list that `operator()` lets through under the enabled checks fits
the shape of the view. -/
theorem accepts_of_operatorCall (view : ArrayViewBase) (pars : List Par) (hv : view.WF)
    (hw : ∀ p ∈ pars, p.WF) (hlen : pars.length = view.dimension)
    (hacc : (ArrayView.operatorCall true view pars).isSome = true) :
    Accepts pars view.shape_ := by
  rw [operatorCall_isSome, Option.isSome_iff_exists] at hacc
  obtain ⟨r, hr⟩ := hacc
  have h := accepts_of_setup view hv.2.2.2.1 pars 0 view.arithData r hw
    (by simpa [ArrayViewBase.dimension] using hlen) hr
  simpa using h

theorem retDim_pos_of_range (pars : List Par)
    (hr : ∃ p ∈ pars, Intern.OpPArgInfoIsRange p = true) :
    ∃ n, Intern.OpPInfo.retDim pars = n + 1 := by
  have h : 0 < Intern.OpPInfo.retDim pars := by
    rw [retDim_eq_countP]
    exact List.countP_pos_iff.mpr hr
  exact ⟨Intern.OpPInfo.retDim pars - 1, by omega⟩

/-- The slice returned by `operator()` for an accepted selector list with at
least one range. -/
theorem operatorCall_of_accepts (A : Bool) (view : ArrayViewBase) (pars : List Par)
    (hv : view.WF) (hr : ∃ p ∈ pars, Intern.OpPArgInfoIsRange p = true)
    (hacc : Accepts pars view.shape_) :
    ArrayView.operatorCall A view pars
      = some (RetType.view (ArrayViewBase.mk
          (toSizeT ((view.ptr : Int) + offsetSum (pars.map Par.start) view.stridesBytes_))
          (sliceShape pars view.shape_) (sliceStrides pars view.stridesBytes_))) := by
  obtain ⟨n, hn⟩ := retDim_pos_of_range pars hr
  unfold ArrayView.operatorCall
  rw [hn]
  simp only [Intern.OpPInfoDim.access, setup_view_of_accepts A view pars hv hacc,
    Option.map_some']

/-- C2: for a rank-R view and a selector list of length R, with at least one
range, that the enabled bounds checks accept, `operator()` returns a view whose
base is `base + sum_k start_k * stride_k` (the index itself for a plain index),
whose extents are, in axis order, `length` for each `Range` and
`extent_k - start` for each `OpenRange`, and whose strides are the strides of
those axes, the plain-index axes being removed. -/
theorem operatorCall_slice (view : ArrayViewBase) (pars : List Par) (hv : view.WF)
    (hw : ∀ p ∈ pars, p.WF) (hlen : pars.length = view.dimension)
    (hr : ∃ p ∈ pars, Intern.OpPArgInfoIsRange p = true)
    (hacc : (ArrayView.operatorCall true view pars).isSome = true) :
    ArrayView.operatorCall true view pars
      = some (RetType.view (ArrayViewBase.mk
          (toSizeT ((view.ptr : Int) + offsetSum (pars.map Par.start) view.stridesBytes_))
          (sliceShape pars view.shape_) (sliceStrides pars view.stridesBytes_))) :=
  operatorCall_of_accepts true view pars hv hr
    (accepts_of_operatorCall view pars hv hw hlen hacc)

theorem operatorCall_slice_witness :
    ArrayView.operatorCall true (ArrayViewBase.mk 1000 [5, 6, 7] [8, -40, 240])
        [range 1 3, Par.index 2, rangeFrom 4]
      = some (RetType.view (ArrayViewBase.mk
          (toSizeT (((ArrayViewBase.mk 1000 [5, 6, 7] [8, -40, 240]).ptr : Int)
            + offsetSum ([range 1 3, Par.index 2, rangeFrom 4].map Par.start)
                (ArrayViewBase.mk 1000 [5, 6, 7] [8, -40, 240]).stridesBytes_))
          (sliceShape [range 1 3, Par.index 2, rangeFrom 4]
            (ArrayViewBase.mk 1000 [5, 6, 7] [8, -40, 240]).shape_)
          (sliceStrides [range 1 3, Par.index 2, rangeFrom 4]
            (ArrayViewBase.mk 1000 [5, 6, 7] [8, -40, 240]).stridesBytes_))) :=
  operatorCall_slice (ArrayViewBase.mk 1000 [5, 6, 7] [8, -40, 240])
    [range 1 3, Par.index 2, rangeFrom 4] (by decide) (by decide) (by decide)
    (by decide) (by decide)

/-- C3: the rank of the result of `operator()` equals the number of `Range` and
`OpenRange` selectors in the list (which is the compile-time constant `retDim`);
when that number is 0 the result is an element reference and not a view. -/
theorem operatorCall_rank (A : Bool) (view : ArrayViewBase) (pars : List Par) (r : RetType)
    (h : ArrayView.operatorCall A view pars = some r) :
    Intern.OpPInfo.retDim pars = pars.countP Intern.OpPArgInfoIsRange ∧
    (pars.countP Intern.OpPArgInfoIsRange = 0 → ∃ ptr, r = RetType.ref ptr) ∧
    (∀ w, r = RetType.view w →
      w.dimension = pars.countP Intern.OpPArgInfoIsRange ∧
      w.stridesBytes_.length = pars.countP Intern.OpPArgInfoIsRange ∧
      pars.countP Intern.OpPArgInfoIsRange ≠ 0) := by
  refine ⟨retDim_eq_countP pars, ?_, ?_⟩
  · intro h0
    rw [← retDim_eq_countP] at h0
    unfold ArrayView.operatorCall at h
    rw [h0] at h
    simp only [Option.map_eq_some'] at h
    obtain ⟨ptr, _, hp⟩ := h
    exact ⟨ptr, hp.symm⟩
  · intro w hw
    subst hw
    rw [← retDim_eq_countP]
    unfold ArrayView.operatorCall at h
    rcases hd : Intern.OpPInfo.retDim pars with _ | n
    · rw [hd] at h
      simp only [Option.map_eq_some'] at h
      obtain ⟨_, _, hp⟩ := h
      cases hp
    · rw [hd] at h
      simp only [Intern.OpPInfoDim.access, Option.map_eq_some'] at h
      obtain ⟨w2, ⟨r2, hs, hw2⟩, hp⟩ := h
      injection hp with hp
      subst hp
      subst hw2
      have hl := setup_length A view pars 0 view.arithData r2 hs
      rw [hd] at hl
      exact ⟨hl.1, hl.2, by omega⟩

theorem operatorCall_rank_witness :
    ArrayView.operatorCall true (ArrayViewBase.mk 1000 [5, 6, 7] [8, -40, 240])
        [range 1 3, Par.index 2, rangeFrom 4]
      = some (RetType.view (ArrayViewBase.mk 1888 [3, 3] [8, 240])) ∧
    (ArrayViewBase.mk 1888 [3, 3] [8, 240]).dimension
      = [range 1 3, Par.index 2, rangeFrom 4].countP Intern.OpPArgInfoIsRange :=
  ⟨by decide,
    ((operatorCall_rank true (ArrayViewBase.mk 1000 [5, 6, 7] [8, -40, 240])
      [range 1 3, Par.index 2, rangeFrom 4]
      (RetType.view (ArrayViewBase.mk 1888 [3, 3] [8, 240])) (by decide)).2.2
        (ArrayViewBase.mk 1888 [3, 3] [8, 240]) rfl).1⟩

/-! ## The bounds checks -/

theorem checkIndex_enabled_none (view : ArrayViewBase) (dpos pos : Nat) :
    ArrayAssertions.checkIndex true view dpos pos = none ↔ view.size dpos ≤ pos := by
  simp only [ArrayAssertions.checkIndex, ASSERT_eq_none, not_lt]

theorem checkRange_enabled_none (view : ArrayViewBase) (dpos : Nat) (r : Range)
    (hs : r.start < SIZE_MOD) (hl : r.length < SIZE_MOD) (hn : view.size dpos < SIZE_MOD) :
    ArrayAssertions.checkRange true view dpos r = none
      ↔ view.size dpos < r.start + r.length := by
  rw [← not_le, ← checkRange_enabled_iff view dpos r () hs hl hn]
  cases ArrayAssertions.checkRange true view dpos r <;> simp

theorem checkOpenRange_enabled_none (view : ArrayViewBase) (dpos : Nat) (r : OpenRange) :
    ArrayAssertions.checkOpenRange true view dpos r = none ↔ view.size dpos < r.start := by
  simp only [ArrayAssertions.checkOpenRange, ASSERT_eq_none, not_le]

theorem bind_unit_eq_none {α : Type} (c : Option Unit) (x : Option α) :
    (c.bind fun _ => x) = none ↔ c = none ∨ x = none := by
  cases c <;> simp

/-- The walk stops at the first selector whose check fails. -/
theorem setup_none_of_index (view : ArrayViewBase) (p : Nat) :
    ∀ (pars : List Par) (dpos ptr k : Nat), pars[k]? = some (Par.index p) →
      view.size (dpos + k) ≤ p → Intern.OpPSetup.setup true view dpos ptr pars = none := by
  intro pars
  induction pars with
  | nil => intro dpos ptr k hk _; simp at hk
  | cons q qs ih =>
    intro dpos ptr k hk hp
    cases k with
    | zero =>
      simp only [List.getElem?_cons_zero, Option.some.injEq] at hk
      subst hk
      simp only [Intern.OpPSetup.setup, bind_unit_eq_none]
      exact Or.inl ((checkIndex_enabled_none view dpos p).mpr (by simpa using hp))
    | succ k =>
      simp only [List.getElem?_cons_succ] at hk
      have hrec := fun ptr2 => ih (dpos + 1) ptr2 k hk (by rw [Nat.add_assoc, Nat.add_comm 1 k]; exact hp)
      cases q with
      | index val =>
        simp only [Intern.OpPSetup.setup, bind_unit_eq_none]
        exact Or.inr (hrec _)
      | range val =>
        simp only [Intern.OpPSetup.setup, bind_unit_eq_none, hrec, Option.map_none', or_true]
      | openRange val =>
        simp only [Intern.OpPSetup.setup, bind_unit_eq_none, hrec, Option.map_none', or_true]

theorem operatorCall_eq_none (A : Bool) (view : ArrayViewBase) (pars : List Par) :
    ArrayView.operatorCall A view pars = none
      ↔ Intern.OpPSetup.setup A view 0 view.arithData pars = none := by
  rw [← Option.not_isSome_iff_eq_none, ← Option.not_isSome_iff_eq_none, operatorCall_isSome]

theorem operatorIndex_eq_none (A : Bool) (view : ArrayViewBase) (pos : Nat) :
    ArrayView.operatorIndex A view pos = none
      ↔ ArrayAssertions.checkIndex A view 0 pos = none := by
  unfold ArrayView.operatorIndex Intern.ArrayElementAccess.access1
    Intern.ArrayElementAccess.access
  split <;> cases ArrayAssertions.checkIndex A view 0 pos <;> simp

/-- C5: with bounds checking enabled, a plain index `p` on an axis of extent `N`
raises the fatal assertion exactly when `p >= N`, in the check itself, through
`operator[]`, and as an argument of `operator()` (where the walk fails at this
axis or at a later one); index `N` always fails and every index fails on an axis
of extent 0. -/
theorem index_check_iff (view : ArrayViewBase) (p : Nat) :
    (∀ dpos, ArrayAssertions.checkIndex true view dpos p = none ↔ view.size dpos ≤ p) ∧
    (ArrayView.operatorIndex true view p = none ↔ view.size 0 ≤ p) ∧
    (ArrayView.operatorCall true view [Par.index p] = none ↔ view.size 0 ≤ p) ∧
    (∀ dpos ptr rest, Intern.OpPSetup.setup true view dpos ptr (Par.index p :: rest) = none
      ↔ (view.size dpos ≤ p ∨ Intern.OpPSetup.setup true view (dpos + 1)
          (ptrAdd ptr (mulSize p (toSizeT (view.strideBytes dpos)))) rest = none)) ∧
    (∀ (pars : List Par) (k : Nat), pars[k]? = some (Par.index p) → view.size k ≤ p →
      ArrayView.operatorCall true view pars = none) ∧
    ArrayView.operatorIndex true view (view.size 0) = none ∧
    (∀ dpos, view.size dpos = 0 → ArrayAssertions.checkIndex true view dpos p = none) := by
  refine ⟨fun dpos => checkIndex_enabled_none view dpos p, ?_, ?_, ?_, ?_, ?_, ?_⟩
  · rw [operatorIndex_eq_none, checkIndex_enabled_none]
  · rw [operatorCall_eq_none]
    simp only [Intern.OpPSetup.setup, bind_unit_eq_none, checkIndex_enabled_none, reduceCtorEq,
      or_false]
  · intro dpos ptr rest
    simp only [Intern.OpPSetup.setup, bind_unit_eq_none, checkIndex_enabled_none]
  · intro pars k hk hp
    rw [operatorCall_eq_none]
    exact setup_none_of_index view p pars 0 _ k hk (by simpa using hp)
  · rw [operatorIndex_eq_none, checkIndex_enabled_none]
  · intro dpos h0
    rw [checkIndex_enabled_none, h0]
    exact Nat.zero_le _

/-- C6: with bounds checking enabled, a `Range{start,length}` on an axis of extent
`N` is rejected exactly when `start + length`, as a sum of natural numbers,
exceeds `N`; also when the sum wraps around in `size_t`; `Range{N,0}` is
accepted. -/
theorem range_check_iff (view : ArrayViewBase) (dpos : Nat) (r : Range)
    (hs : r.start < SIZE_MOD) (hl : r.length < SIZE_MOD) (hn : view.size dpos < SIZE_MOD) :
    (ArrayAssertions.checkRange true view dpos r = none
      ↔ view.size dpos < r.start + r.length) ∧
    (∀ ptr rest, Intern.OpPSetup.setup true view dpos ptr (Par.range r :: rest) = none
      ↔ (view.size dpos < r.start + r.length ∨ Intern.OpPSetup.setup true view (dpos + 1)
          (ptrAdd ptr (mulSize r.start (toSizeT (view.strideBytes dpos)))) rest = none)) ∧
    (SIZE_MOD ≤ r.start + r.length → ArrayAssertions.checkRange true view dpos r = none) ∧
    ArrayAssertions.checkRange true view dpos (Range.mk (view.size dpos) 0) = some () := by
  have h1 := checkRange_enabled_none view dpos r hs hl hn
  refine ⟨h1, ?_, ?_, ?_⟩
  · intro ptr rest
    simp only [Intern.OpPSetup.setup, bind_unit_eq_none, h1, Option.map_eq_none']
  · intro hw
    exact h1.mpr (by omega)
  · exact (checkRange_enabled_iff view dpos _ () hn SIZE_MOD_pos hn).mpr (Nat.le_refl _)

theorem range_check_iff_witness :
    (Range.mk 18446744073709551615 2).start < SIZE_MOD ∧
    (Range.mk 18446744073709551615 2).length < SIZE_MOD ∧
    (ArrayViewBase.mk 1000 [10] [4]).size 0 < SIZE_MOD ∧
    addSize 18446744073709551615 2 = 1 ∧
    ArrayAssertions.checkRange true (ArrayViewBase.mk 1000 [10] [4]) 0
      (Range.mk 18446744073709551615 2) = none :=
  ⟨by decide, by decide, by decide, by decide,
    (range_check_iff (ArrayViewBase.mk 1000 [10] [4]) 0 (Range.mk 18446744073709551615 2)
      (by decide) (by decide) (by decide)).2.2.1 (by decide)⟩

/-- C7: with bounds checking enabled, an `OpenRange{start}` on an axis of extent
`N` is rejected exactly when `start > N`; `start == N` is accepted and gives an
axis of extent 0; for every accepted start the resulting extent is `N - start`
and the stride is the stride of the axis. -/
theorem openRange_check_iff (view : ArrayViewBase) (dpos : Nat) (r : OpenRange)
    (hn : view.size dpos < SIZE_MOD) :
    (ArrayAssertions.checkOpenRange true view dpos r = none ↔ view.size dpos < r.start) ∧
    (∀ ptr rest, Intern.OpPSetup.setup true view dpos ptr (Par.openRange r :: rest) = none
      ↔ (view.size dpos < r.start ∨ Intern.OpPSetup.setup true view (dpos + 1)
          (ptrAdd ptr (mulSize r.start (toSizeT (view.strideBytes dpos)))) rest = none)) ∧
    (∀ ptr rest res,
      Intern.OpPSetup.setup true view dpos ptr (Par.openRange r :: rest) = some res →
      r.start ≤ view.size dpos ∧ res.2.1.head? = some (view.size dpos - r.start) ∧
      res.2.2.head? = some (view.strideBytes dpos)) ∧
    ArrayAssertions.checkOpenRange true view dpos (OpenRange.mk (view.size dpos)) = some () ∧
    (∀ ptr rest res,
      Intern.OpPSetup.setup true view dpos ptr
        (Par.openRange (OpenRange.mk (view.size dpos)) :: rest) = some res →
      res.2.1.head? = some 0) := by
  have h1 := checkOpenRange_enabled_none view dpos r
  have key : ∀ (q : OpenRange) ptr rest res,
      Intern.OpPSetup.setup true view dpos ptr (Par.openRange q :: rest) = some res →
      q.start ≤ view.size dpos ∧ res.2.1.head? = some (view.size dpos - q.start) ∧
      res.2.2.head? = some (view.strideBytes dpos) := by
    intro q ptr rest res h
    simp only [Intern.OpPSetup.setup, Option.bind_eq_some, Option.map_eq_some'] at h
    obtain ⟨u, hc, r2, _, h3⟩ := h
    have hle := (checkOpenRange_enabled_iff view dpos q u).mp hc
    subst h3
    simp only [List.head?_cons, subSize_of_le hle hn]
    exact ⟨hle, trivial, trivial⟩
  refine ⟨h1, ?_, key r, ?_, ?_⟩
  · intro ptr rest
    simp only [Intern.OpPSetup.setup, bind_unit_eq_none, h1, Option.map_eq_none']
  · exact (checkOpenRange_enabled_iff view dpos _ ()).mpr (Nat.le_refl _)
  · intro ptr rest res h
    have h2 := (key _ ptr rest res h).2.1
    simpa using h2

theorem openRange_check_iff_witness :
    (ArrayViewBase.mk 1000 [10] [4]).size 0 < SIZE_MOD ∧
    ArrayView.operatorCall true (ArrayViewBase.mk 1000 [10] [4]) [rangeFrom 10]
      = some (RetType.view (ArrayViewBase.mk 1040 [0] [4])) ∧
    (ArrayAssertions.checkOpenRange true (ArrayViewBase.mk 1000 [10] [4]) 0 (OpenRange.mk 11)
      = none ↔ (ArrayViewBase.mk 1000 [10] [4]).size 0 < (OpenRange.mk 11).start) :=
  ⟨by decide, by decide,
    (openRange_check_iff (ArrayViewBase.mk 1000 [10] [4]) 0 (OpenRange.mk 11) (by decide)).1⟩

/-- C8: with bounds checking disabled no indexing or slicing operation raises an
assertion, and whenever the enabled policy accepts a call the disabled policy
returns the identical result (element address, or base, shape and strides of
the slice). -/
theorem disabled_policy (view : ArrayViewBase) (pars : List Par) (pos : Nat) :
    (ArrayView.operatorCall false view pars).isSome = true ∧
    (ArrayView.pointer false view pars).isSome = true ∧
    (ArrayView.operatorIndex false view pos).isSome = true ∧
    (∀ r, ArrayView.operatorCall true view pars = some r →
      ArrayView.operatorCall false view pars = some r) ∧
    (∀ r, ArrayView.pointer true view pars = some r →
      ArrayView.pointer false view pars = some r) ∧
    (∀ r, ArrayView.operatorIndex true view pos = some r →
      ArrayView.operatorIndex false view pos = some r) := by
  have hs := setup_disabled_isSome view pars 0 view.arithData
  refine ⟨?_, ?_, ?_, ?_, ?_, ?_⟩
  · rw [operatorCall_isSome]; exact hs
  · simpa [ArrayView.pointer, Intern.OpPInfoDim.accessPtr] using hs
  · cases hi : ArrayView.operatorIndex false view pos with
    | some r => rfl
    | none =>
      rw [operatorIndex_eq_none, (check_disabled view 0).1] at hi
      cases hi
  · intro r h
    unfold ArrayView.operatorCall at h ⊢
    cases hd : Intern.OpPInfo.retDim pars with
    | zero =>
      rw [hd] at h
      simp only [Intern.OpPInfoDim.accessPtr, Option.map_eq_some'] at h ⊢
      obtain ⟨a, ⟨r2, h2, h3⟩, h4⟩ := h
      exact ⟨a, ⟨r2, setup_enabled_imp_disabled view pars 0 _ r2 h2, h3⟩, h4⟩
    | succ n =>
      rw [hd] at h
      simp only [Intern.OpPInfoDim.access, Option.map_eq_some'] at h ⊢
      obtain ⟨a, ⟨r2, h2, h3⟩, h4⟩ := h
      exact ⟨a, ⟨r2, setup_enabled_imp_disabled view pars 0 _ r2 h2, h3⟩, h4⟩
  · intro r h
    simp only [ArrayView.pointer, Intern.OpPInfoDim.accessPtr, Option.map_eq_some'] at h ⊢
    obtain ⟨r2, h2, h3⟩ := h
    exact ⟨r2, setup_enabled_imp_disabled view pars 0 _ r2 h2, h3⟩
  · intro r h
    unfold ArrayView.operatorIndex Intern.ArrayElementAccess.access1
      Intern.ArrayElementAccess.access at h ⊢
    rw [(check_disabled view 0).1]
    cases hc : ArrayAssertions.checkIndex true view 0 pos with
    | none => rw [hc] at h; simp at h
    | some u => rw [hc] at h; exact h

/-! ## Elements of a slice -/

theorem offsetSum_cons (i : Nat) (is : List Nat) (s : Int) (ss : List Int) :
    offsetSum (i :: is) (s :: ss) = (i : Int) * s + offsetSum is ss := by
  simp [offsetSum]

/-- Composition of indices through a slice: the composed index tuple is in
bounds for the original shape, and its byte offset is the offset of the slice
base plus the offset inside the slice. -/
theorem sliceIndex_spec :
    ∀ (pars : List Par) (shape : List Nat), Accepts pars shape →
      ∀ (strides : List Int) (j : List Nat), strides.length = shape.length →
      InBounds j (sliceShape pars shape) →
      InBounds (sliceIndex pars j) shape ∧
      offsetSum (sliceIndex pars j) strides
        = offsetSum (pars.map Par.start) strides + offsetSum j (sliceStrides pars strides) := by
  intro pars shape hacc
  unfold Accepts at hacc
  induction hacc with
  | nil =>
    intro strides j _ _
    exact ⟨List.Forall₂.nil, by simp [sliceIndex, offsetSum, sliceStrides]⟩
  | @cons p n ps ns hfit _ ih =>
    intro strides j hlen hj
    cases strides with
    | nil => simp at hlen
    | cons s ss =>
      have hlen2 : ss.length = ns.length := by simpa using hlen
      cases p with
      | index val =>
        obtain ⟨h1, h2⟩ := ih ss j hlen2 (by simpa [sliceShape] using hj)
        refine ⟨List.Forall₂.cons hfit h1, ?_⟩
        simp only [sliceIndex, List.map_cons, Par.start, offsetSum_cons, sliceStrides, h2]
        ring
      | range val =>
        unfold InBounds at hj
        simp only [sliceShape] at hj
        cases hj with
        | @cons j0 _ js _ hj0 hjs =>
          obtain ⟨h1, h2⟩ := ih ss js hlen2 hjs
          have hf : val.start + val.length ≤ n := hfit
          refine ⟨List.Forall₂.cons (by omega) h1, ?_⟩
          simp only [sliceIndex, List.map_cons, Par.start, offsetSum_cons, sliceStrides, h2]
          push_cast
          ring
      | openRange val =>
        unfold InBounds at hj
        simp only [sliceShape] at hj
        cases hj with
        | @cons j0 _ js _ hj0 hjs =>
          obtain ⟨h1, h2⟩ := ih ss js hlen2 hjs
          have hf : val.start ≤ n := hfit
          refine ⟨List.Forall₂.cons (by omega) h1, ?_⟩
          simp only [sliceIndex, List.map_cons, Par.start, offsetSum_cons, sliceStrides, h2]
          push_cast
          ring

theorem sliceShape_lt :
    ∀ (pars : List Par) (shape : List Nat), Accepts pars shape →
      (∀ n ∈ shape, n < SIZE_MOD) → ∀ n ∈ sliceShape pars shape, n < SIZE_MOD := by
  intro pars shape hacc
  unfold Accepts at hacc
  induction hacc with
  | nil => intro _ n hn; simp [sliceShape] at hn
  | @cons p n ps ns hfit _ ih =>
    intro hsh m hm
    have hn : n < SIZE_MOD := hsh n (List.mem_cons_self _ _)
    have ih2 := ih (fun k hk => hsh k (List.mem_cons_of_mem _ hk))
    cases p with
    | index val => exact ih2 m (by simpa [sliceShape] using hm)
    | range val =>
      have hf : val.start + val.length ≤ n := hfit
      simp only [sliceShape, List.mem_cons] at hm
      rcases hm with h | h
      · omega
      · exact ih2 m h
    | openRange val =>
      simp only [sliceShape, List.mem_cons] at hm
      rcases hm with h | h
      · omega
      · exact ih2 m h

theorem sliceStrides_length :
    ∀ (pars : List Par) (shape : List Nat), Accepts pars shape →
      ∀ (strides : List Int), strides.length = shape.length →
      (sliceStrides pars strides).length = (sliceShape pars shape).length := by
  intro pars shape hacc
  unfold Accepts at hacc
  induction hacc with
  | nil => intro strides _; cases strides <;> rfl
  | @cons p n ps ns _ _ ih =>
    intro strides hlen
    cases strides with
    | nil => simp at hlen
    | cons s ss =>
      have h2 := ih ss (by simpa using hlen)
      cases p <;> simp [sliceShape, sliceStrides, h2]

/-- Address of an element of a view whose fields need not all be known to be
well formed. -/
theorem operatorCall_indices_core (A : Bool) (view : ArrayViewBase) (idx : List Nat)
    (hp : view.ptr < SIZE_MOD) (hlen : view.stridesBytes_.length = view.shape_.length)
    (hsh : ∀ n ∈ view.shape_, n < SIZE_MOD) (hb : InBounds idx view.shape_) :
    ArrayView.operatorCall A view (idx.map Par.index)
      = some (RetType.ref (toSizeT ((view.ptr : Int) + offsetSum idx view.stridesBytes_))) := by
  have h := setup_of_accepts A view hlen hsh _ 0 (view.ptr : Int)
    (by simpa using accepts_index_of_inBounds _ _ hb)
  rw [toSizeT_natCast hp, map_start_map_index] at h
  unfold ArrayView.operatorCall
  rw [retDim_map_index]
  simp only [Intern.OpPInfoDim.accessPtr, ArrayViewBase.arithData, h, Option.map_some']
  simp

/-- An element of an accepted slice is the element of the original view at the
composed index tuple. -/
theorem slice_element_core (A : Bool) (v : ArrayViewBase) (pars : List Par) (j : List Nat)
    (hv : v.WF) (hacc : Accepts pars v.shape_)
    (hj : InBounds j (sliceShape pars v.shape_)) :
    InBounds (sliceIndex pars j) v.shape_ ∧
    ArrayView.operatorCall A (ArrayViewBase.mk
        (toSizeT ((v.ptr : Int) + offsetSum (pars.map Par.start) v.stridesBytes_))
        (sliceShape pars v.shape_) (sliceStrides pars v.stridesBytes_)) (j.map Par.index)
      = some (RetType.ref (toSizeT ((v.ptr : Int)
          + offsetSum (sliceIndex pars j) v.stridesBytes_))) ∧
    ArrayView.operatorCall A v ((sliceIndex pars j).map Par.index)
      = some (RetType.ref (toSizeT ((v.ptr : Int)
          + offsetSum (sliceIndex pars j) v.stridesBytes_))) := by
  obtain ⟨hb, hsum⟩ := sliceIndex_spec pars v.shape_ hacc v.stridesBytes_ j hv.2.2.1 hj
  refine ⟨hb, ?_, (operatorCall_indices_address A v _ hv hb).1⟩
  rw [operatorCall_indices_core A _ j (toSizeT_lt _)
    (sliceStrides_length pars v.shape_ hacc v.stridesBytes_ hv.2.2.1)
    (sliceShape_lt pars v.shape_ hacc hv.2.2.2.1) hj]
  simp only [toSizeT_toSizeT_add, hsum, add_assoc]

theorem slice_eq_of_operatorCall (v s : ArrayViewBase) (pars : List Par) (hv : v.WF)
    (hw : ∀ p ∈ pars, p.WF) (hlen : pars.length = v.dimension)
    (hs : ArrayView.operatorCall true v pars = some (RetType.view s)) :
    Accepts pars v.shape_ ∧
    s = ArrayViewBase.mk
      (toSizeT ((v.ptr : Int) + offsetSum (pars.map Par.start) v.stridesBytes_))
      (sliceShape pars v.shape_) (sliceStrides pars v.stridesBytes_) := by
  have hacc := accepts_of_operatorCall v pars hv hw hlen (by rw [hs]; rfl)
  have hne := ((operatorCall_rank true v pars _ hs).2.2 s rfl).2.2
  have hr : ∃ p ∈ pars, Intern.OpPArgInfoIsRange p = true :=
    List.countP_pos_iff.mp (Nat.pos_of_ne_zero hne)
  have h2 := operatorCall_of_accepts true v pars hv hr hacc
  rw [hs] at h2
  injection h2 with h2
  injection h2 with h2
  exact ⟨hacc, h2⟩

/-- C4: for a view `v`, a selector list with at least one range accepted by the
enabled checks, the resulting slice `s` and an in-bounds index tuple `j` of `s`:
`s(j)` refers to the same element as `v(i)`, where `i` is the plain index on
each index-selected axis and `start + j_m` on the `m`-th range-selected axis
(and `i` is in bounds for `v`).  In particular, for a 1-D view of length `N`
holding `0..N-1`, `view(range(a,b))` has length `b` and its element `k` equals
`a + k`, and `view(range(a))` has length `N - a`. -/
theorem slice_element (A : Bool) (v s : ArrayViewBase) (pars : List Par) (j : List Nat)
    (hv : v.WF) (hw : ∀ p ∈ pars, p.WF) (hlen : pars.length = v.dimension)
    (hs : ArrayView.operatorCall true v pars = some (RetType.view s))
    (hj : InBounds j s.shape_) :
    InBounds (sliceIndex pars j) v.shape_ ∧
    (∃ ptr, ArrayView.operatorCall A s (j.map Par.index) = some (RetType.ref ptr) ∧
      ArrayView.operatorCall A v ((sliceIndex pars j).map Par.index)
        = some (RetType.ref ptr)) ∧
    (∀ (mem : Nat → Nat) (N a b : Nat), v.shape_ = [N] → pars = [range a b] →
      (∀ i, i < N → ArrayView.readAt mem A v [i] = some i) →
      s.shape_ = [b] ∧ ∀ k, k < b → ArrayView.readAt mem A s [k] = some (a + k)) ∧
    (∀ (N a : Nat), v.shape_ = [N] → pars = [rangeFrom a] → s.shape_ = [N - a]) := by
  obtain ⟨hacc, hse⟩ := slice_eq_of_operatorCall v s pars hv hw hlen hs
  subst hse
  obtain ⟨h1, h2, h3⟩ := slice_element_core A v pars j hv hacc hj
  refine ⟨h1, ⟨_, h2, h3⟩, ?_, ?_⟩
  · intro mem N a b hN hp hmem
    subst hp
    simp only [hN, range, sliceShape, true_and]
    intro k hk
    have hjk : InBounds [k] (sliceShape [range a b] v.shape_) := by
      simp only [hN, range, sliceShape]
      exact List.Forall₂.cons hk List.Forall₂.nil
    obtain ⟨g1, g2, g3⟩ := slice_element_core A v [range a b] [k] hv hacc hjk
    have hidx : sliceIndex [range a b] [k] = [a + k] := rfl
    rw [hidx] at g1 g3
    have hlt : a + k < N := by
      rw [hN] at g1
      cases g1 with
      | cons h _ => exact h
    have hm := hmem (a + k) hlt
    unfold ArrayView.readAt at hm ⊢
    rw [g3] at hm
    simp only [range] at g2
    simp only [hN, sliceShape] at g2
    rw [g2]
    exact hm
  · intro N a hN hp
    subst hp
    simp only [hN, rangeFrom, sliceShape]

theorem slice_element_witness :
    ArrayView.operatorCall true (ArrayViewBase.mk 1000 [5, 6, 7] [8, -40, 240])
        [range 1 3, Par.index 2, rangeFrom 4]
      = some (RetType.view (ArrayViewBase.mk 1888 [3, 3] [8, 240])) ∧
    InBounds [2, 1] [3, 3] ∧
    sliceIndex [range 1 3, Par.index 2, rangeFrom 4] [2, 1] = [3, 2, 5] ∧
    ∃ ptr, ArrayView.operatorCall true (ArrayViewBase.mk 1888 [3, 3] [8, 240])
        ([2, 1].map Par.index) = some (RetType.ref ptr) ∧
      ArrayView.operatorCall true (ArrayViewBase.mk 1000 [5, 6, 7] [8, -40, 240])
        ((sliceIndex [range 1 3, Par.index 2, rangeFrom 4] [2, 1]).map Par.index)
        = some (RetType.ref ptr) :=
  ⟨by decide, by decide, by decide,
    (slice_element true (ArrayViewBase.mk 1000 [5, 6, 7] [8, -40, 240])
      (ArrayViewBase.mk 1888 [3, 3] [8, 240]) [range 1 3, Par.index 2, rangeFrom 4] [2, 1]
      (by decide) (by decide) (by decide) (by decide) (by decide)).2.1⟩

/-! ## The loop of `calculateStrides` -/

theorem mulSize_of_lt {a b : Nat} (h : a * b < SIZE_MOD) : mulSize a b = a * b :=
  Nat.mod_eq_of_lt h

theorem toPtrdiff_of_lt {n : Nat} (h : n < PTRDIFF_MOD) : toPtrdiff n = (n : Int) := by
  have hn : n < SIZE_MOD := by rw [SIZE_MOD_eq]; rw [PTRDIFF_MOD_eq] at h; omega
  unfold toPtrdiff
  rw [Nat.mod_eq_of_lt hn, if_pos h]

/-- The guard `x == 0 || SIZE_MAX / x >= elements` holds when `elements * x`
fits in `size_t`. -/
theorem overflow_guard_of_lt {x elements : Nat} (h : elements * x < SIZE_MOD) :
    x = 0 ∨ SIZE_MAX / x ≥ elements := by
  by_cases hx : x = 0
  · exact Or.inl hx
  · right
    have hpos : 0 < x := Nat.pos_of_ne_zero hx
    show elements ≤ SIZE_MAX / x
    rw [Nat.le_div_iff_mul_le hpos]
    unfold SIZE_MAX
    omega

/-- One iteration without overflow: both assertions hold, the stride
`elements * sizeof (T)` is stored and `elements` is multiplied by the extent. -/
theorem calculateStridesBody_of_lt (sizeofT : Nat) (shape : List Nat) (i elements : Nat)
    (strides : List Int) (h1 : elements * sizeofT < SIZE_MOD)
    (h2 : elements * shape.getD i 0 < SIZE_MOD) :
    DefaultArrayAllocator.calculateStridesBody sizeofT shape i elements strides
      = some (elements * shape.getD i 0,
          strides.set i (toPtrdiff (elements * sizeofT))) := by
  unfold DefaultArrayAllocator.calculateStridesBody
  have a1 := (ASSERT_eq_some _ ()).mpr (overflow_guard_of_lt h1)
  have a2 := (ASSERT_eq_some _ ()).mpr (overflow_guard_of_lt h2)
  simp only [a1, a2, Option.some_bind, mulSize_of_lt h1, mulSize_of_lt h2]

theorem getD_set_self (l : List Int) (i : Nat) (v : Int) (h : i < l.length) :
    (l.set i v).getD i 0 = v := by
  simp [List.getD_eq_getElem?_getD, List.getElem?_set, h]

theorem getD_set_ne (l : List Int) (i k : Nat) (v : Int) (h : i ≠ k) :
    (l.set i v).getD k 0 = l.getD k 0 := by
  simp [List.getD_eq_getElem?_getD, List.getElem?_set, h]

/-- Invariant of the ascending (Fortran) loop: from index `i` with
`elements` the product of the first `i` extents, the loop ends after `n = dim - i`
iterations, having visited `i, ..., dim - 1` in this order. -/
theorem fortran_loop (sizeofT : Nat) (shape : List Nat) (hdim : shape.length < SIZE_MOD)
    (H1 : ∀ k, k < shape.length → sizeofT * (shape.take k).prod < SIZE_MOD)
    (H2 : ∀ k, k ≤ shape.length → (shape.take k).prod < SIZE_MOD) :
    ∀ (n i fuel : Nat) (strides : List Int) (visited : List Nat),
      i + n = shape.length → n < fuel → strides.length = shape.length →
      ∃ strides2,
        DefaultArrayAllocator.calculateStridesLoop sizeofT shape.length shape true fuel i
            (shape.take i).prod strides visited
          = LoopResult.done shape.prod strides2 (visited ++ List.range' i n) ∧
        strides2.length = shape.length ∧
        ∀ k, k < shape.length → strides2.getD k 0
          = if i ≤ k then toPtrdiff (sizeofT * (shape.take k).prod) else strides.getD k 0 := by
  intro n
  induction n with
  | zero =>
    intro i fuel strides visited hi hf hlen
    obtain ⟨f, rfl⟩ : ∃ f, fuel = f + 1 := ⟨fuel - 1, by omega⟩
    have hi2 : i = shape.length := by omega
    subst hi2
    refine ⟨strides, ?_, hlen, ?_⟩
    · unfold DefaultArrayAllocator.calculateStridesLoop
      simp [List.take_length]
    · intro k hk
      rw [if_neg (by omega)]
  | succ n ih =>
    intro i fuel strides visited hi hf hlen
    obtain ⟨f, rfl⟩ : ∃ f, fuel = f + 1 := ⟨fuel - 1, by omega⟩
    have hil : i < shape.length := by omega
    have hsz : shape.getD i 0 = shape[i] := List.getD_eq_getElem _ 0 hil
    have hprod : (shape.take (i + 1)).prod = (shape.take i).prod * shape.getD i 0 := by
      rw [hsz]; exact List.prod_take_succ shape i hil
    have h1 : (shape.take i).prod * sizeofT < SIZE_MOD := by
      rw [Nat.mul_comm]; exact H1 i hil
    have h2 : (shape.take i).prod * shape.getD i 0 < SIZE_MOD := by
      rw [← hprod]; exact H2 (i + 1) (by omega)
    have hnext : addSize i 1 = i + 1 := Nat.mod_eq_of_lt (by omega)
    obtain ⟨strides2, hrun, hl2, hpt⟩ := ih (i + 1) f
      (strides.set i (toPtrdiff ((shape.take i).prod * sizeofT))) (visited ++ [i])
      (by omega) (by omega) (by simpa using hlen)
    refine ⟨strides2, ?_, hl2, ?_⟩
    · unfold DefaultArrayAllocator.calculateStridesLoop
      rw [if_pos hil, calculateStridesBody_of_lt sizeofT shape i _ strides h1 h2]
      simp only [if_true, hnext, ← hprod]
      rw [hrun, List.range'_succ, List.append_assoc]
      rfl
    · intro k hk
      rw [hpt k hk]
      by_cases hki : i = k
      · subst hki
        rw [if_neg (by omega), if_pos (Nat.le_refl _), getD_set_self _ _ _ (by omega),
          Nat.mul_comm]
      · rw [getD_set_ne _ _ _ _ hki]
        by_cases hle : i + 1 ≤ k
        · rw [if_pos hle, if_pos (by omega)]
        · rw [if_neg hle, if_neg (by omega)]

theorem subSize_zero_one : subSize 0 1 = SIZE_MOD - 1 := by
  unfold subSize
  rw [SIZE_MOD_eq]

theorem subSize_succ_one {i : Nat} (h : i + 1 < SIZE_MOD) : subSize (i + 1) 1 = i := by
  rw [subSize_of_le (by omega) h]
  rfl

theorem prod_drop_eq (shape : List Nat) (i : Nat) (h : i < shape.length) :
    (shape.drop i).prod = (shape.drop (i + 1)).prod * shape.getD i 0 := by
  rw [List.drop_eq_getElem_cons h, List.prod_cons, List.getD_eq_getElem _ 0 h, Nat.mul_comm]

/-- Invariant of the descending (row-major) loop: from index `i < dim` with
`elements` the product of the extents after `i`, the loop runs the body for
`i, i - 1, ..., 0` in this order; the decrement of the unsigned index at 0 wraps
to `SIZE_MAX`, which ends the loop. -/
theorem rowMajor_loop (sizeofT : Nat) (shape : List Nat) (hdim : shape.length < SIZE_MOD)
    (G1 : ∀ k, k < shape.length → sizeofT * (shape.drop (k + 1)).prod < SIZE_MOD)
    (G2 : ∀ k, k ≤ shape.length → (shape.drop k).prod < SIZE_MOD) :
    ∀ (i fuel : Nat) (strides : List Int) (visited : List Nat),
      i < shape.length → i + 1 < fuel → strides.length = shape.length →
      ∃ strides2,
        DefaultArrayAllocator.calculateStridesLoop sizeofT shape.length shape false fuel i
            (shape.drop (i + 1)).prod strides visited
          = LoopResult.done shape.prod strides2 (visited ++ (List.range (i + 1)).reverse) ∧
        strides2.length = shape.length ∧
        ∀ k, k < shape.length → strides2.getD k 0
          = if k ≤ i then toPtrdiff (sizeofT * (shape.drop (k + 1)).prod)
            else strides.getD k 0 := by
  intro i
  induction i with
  | zero =>
    intro fuel strides visited hil hf hlen
    obtain ⟨f, rfl⟩ : ∃ f, fuel = f + 2 := ⟨fuel - 2, by omega⟩
    have hprod := prod_drop_eq shape 0 hil
    have h1 : (shape.drop (0 + 1)).prod * sizeofT < SIZE_MOD := by
      rw [Nat.mul_comm]; exact G1 0 hil
    have h2 : (shape.drop (0 + 1)).prod * shape.getD 0 0 < SIZE_MOD := by
      rw [← hprod]; exact G2 0 (Nat.zero_le _)
    refine ⟨strides.set 0 (toPtrdiff ((shape.drop (0 + 1)).prod * sizeofT)), ?_,
      by simpa using hlen, ?_⟩
    · unfold DefaultArrayAllocator.calculateStridesLoop
      rw [if_pos hil, calculateStridesBody_of_lt sizeofT shape 0 _ strides h1 h2]
      simp only [Bool.false_eq_true, if_false, subSize_zero_one, ← hprod]
      unfold DefaultArrayAllocator.calculateStridesLoop
      rw [if_neg (by omega)]
      simp
      rfl
    · intro k hk
      by_cases hk0 : 0 = k
      · subst hk0
        rw [if_pos (Nat.le_refl _), getD_set_self _ _ _ (by omega), Nat.mul_comm]
      · rw [if_neg (by omega), getD_set_ne _ _ _ _ hk0]
  | succ i ih =>
    intro fuel strides visited hil hf hlen
    obtain ⟨f, rfl⟩ : ∃ f, fuel = f + 1 := ⟨fuel - 1, by omega⟩
    have hprod := prod_drop_eq shape (i + 1) hil
    have h1 : (shape.drop (i + 1 + 1)).prod * sizeofT < SIZE_MOD := by
      rw [Nat.mul_comm]; exact G1 (i + 1) hil
    have h2 : (shape.drop (i + 1 + 1)).prod * shape.getD (i + 1) 0 < SIZE_MOD := by
      rw [← hprod]; exact G2 (i + 1) (by omega)
    obtain ⟨strides2, hrun, hl2, hpt⟩ := ih f
      (strides.set (i + 1) (toPtrdiff ((shape.drop (i + 1 + 1)).prod * sizeofT)))
      (visited ++ [i + 1]) (by omega) (by omega) (by simpa using hlen)
    refine ⟨strides2, ?_, hl2, ?_⟩
    · unfold DefaultArrayAllocator.calculateStridesLoop
      rw [if_pos hil, calculateStridesBody_of_lt sizeofT shape (i + 1) _ strides h1 h2]
      simp only [Bool.false_eq_true, if_false, subSize_succ_one (show i + 1 < SIZE_MOD by omega),
        ← hprod]
      rw [hrun, List.range_succ (n := i + 1), List.reverse_append, List.append_assoc]
      rfl
    · intro k hk
      rw [hpt k hk]
      by_cases hki : i + 1 = k
      · subst hki
        rw [if_neg (by omega), if_pos (Nat.le_refl _), getD_set_self _ _ _ (by omega),
          Nat.mul_comm]
      · rw [getD_set_ne _ _ _ _ hki]
        by_cases hle : k ≤ i
        · rw [if_pos hle, if_pos (by omega)]
        · rw [if_neg hle, if_neg (by omega)]

theorem list_eq_of_getD (l m : List Int) (hl : l.length = m.length)
    (h : ∀ k, k < m.length → l.getD k 0 = m.getD k 0) : l = m := by
  apply List.ext_getElem hl
  intro k h1 h2
  have := h k h2
  rwa [List.getD_eq_getElem _ 0 h1, List.getD_eq_getElem _ 0 h2] at this

theorem fortranStrides_getD (sizeofT : Nat) (shape : List Nat) (k : Nat)
    (hk : k < shape.length) :
    (fortranStrides sizeofT shape).getD k 0 = ((sizeofT * (shape.take k).prod : Nat) : Int) := by
  unfold fortranStrides
  rw [List.getD_eq_getElem _ 0 (by simpa using hk)]
  simp

theorem rowMajorStrides_getD (sizeofT : Nat) (shape : List Nat) (k : Nat)
    (hk : k < shape.length) :
    (rowMajorStrides sizeofT shape).getD k 0
      = ((sizeofT * (shape.drop (k + 1)).prod : Nat) : Int) := by
  unfold rowMajorStrides
  rw [List.getD_eq_getElem _ 0 (by simpa using hk)]
  simp

/-- The Fortran loop with any sufficient bound on the evaluations of its
condition, for a shape whose products do not overflow. -/
theorem fortran_loop_result (sizeofT : Nat) (shape : List Nat) (strides : List Int)
    (hdim : shape.length < SIZE_MOD) (hlen : strides.length = shape.length)
    (hstride : ∀ k, k < shape.length → sizeofT * (shape.take k).prod < PTRDIFF_MOD)
    (hcount : ∀ k, k ≤ shape.length → (shape.take k).prod < SIZE_MOD)
    (fuel : Nat) (hf : shape.length < fuel) :
    DefaultArrayAllocator.calculateStridesLoop sizeofT shape.length shape true fuel 0 1
        strides []
      = LoopResult.done shape.prod (fortranStrides sizeofT shape) (List.range shape.length) := by
  have H1 : ∀ k, k < shape.length → sizeofT * (shape.take k).prod < SIZE_MOD := by
    intro k hk
    have := hstride k hk
    rw [PTRDIFF_MOD_eq] at this
    rw [SIZE_MOD_eq]
    omega
  obtain ⟨strides2, hrun, hl2, hpt⟩ := fortran_loop sizeofT shape hdim H1 hcount
    shape.length 0 fuel strides [] (by omega) hf hlen
  have heq : strides2 = fortranStrides sizeofT shape := by
    apply list_eq_of_getD _ _ (by simp [fortranStrides, hl2])
    intro k hk
    have hk2 : k < shape.length := by simpa [fortranStrides] using hk
    rw [hpt k hk2, if_pos (Nat.zero_le _), toPtrdiff_of_lt (hstride k hk2),
      fortranStrides_getD sizeofT shape k hk2]
  rw [heq] at hrun
  simpa [List.range_eq_range'] using hrun

/-- C9: for rank `R >= 1` and a shape whose products do not overflow (every
stride `sizeof (T) * extent_0 * ... * extent_(i-1)` fits in `ptrdiff_t`, every
partial product of extents fits in `size_t`), `calculateStrides` with Fortran
ordering stores `stride[0] = sizeof (T)` and
`stride[i] = sizeof (T) * product of extent[j] for j < i`, and returns the
product of all extents; the loop visits the axes `0, ..., R - 1`. -/
theorem calculateStrides_fortran (sizeofT : Nat) (shape : List Nat) (strides : List Int)
    (hR : 1 ≤ shape.length) (hdim : shape.length < SIZE_MOD)
    (hlen : strides.length = shape.length)
    (hstride : ∀ k, k < shape.length → sizeofT * (shape.take k).prod < PTRDIFF_MOD)
    (hcount : ∀ k, k ≤ shape.length → (shape.take k).prod < SIZE_MOD) :
    DefaultArrayAllocator.calculateStrides sizeofT shape.length strides shape true
      = LoopResult.done shape.prod (fortranStrides sizeofT shape) (List.range shape.length) ∧
    (fortranStrides sizeofT shape).length = shape.length ∧
    (fortranStrides sizeofT shape).getD 0 0 = (sizeofT : Int) ∧
    (∀ i, i < shape.length → (fortranStrides sizeofT shape).getD i 0
      = (sizeofT : Int) * (((shape.take i).prod : Nat) : Int)) ∧
    (∀ fuel, shape.length < fuel →
      DefaultArrayAllocator.calculateStridesLoop sizeofT shape.length shape true fuel 0 1
        strides []
      = DefaultArrayAllocator.calculateStrides sizeofT shape.length strides shape true) := by
  have hres := fortran_loop_result sizeofT shape strides hdim hlen hstride hcount
  have hmain : DefaultArrayAllocator.calculateStrides sizeofT shape.length strides shape true
      = LoopResult.done shape.prod (fortranStrides sizeofT shape) (List.range shape.length) := by
    unfold DefaultArrayAllocator.calculateStrides
    simp only [if_true]
    exact hres _ (by omega)
  refine ⟨hmain, by simp [fortranStrides], ?_, ?_, ?_⟩
  · rw [fortranStrides_getD sizeofT shape 0 (by omega)]
    simp
  · intro i hi
    rw [fortranStrides_getD sizeofT shape i hi]
    push_cast
    rfl
  · intro fuel hf
    rw [hmain]
    exact hres fuel hf

theorem calculateStrides_fortran_witness :
    DefaultArrayAllocator.calculateStrides 4 [2, 3, 5].length [0, 0, 0] [2, 3, 5] true
      = LoopResult.done 30 [4, 8, 24] [0, 1, 2] :=
  (calculateStrides_fortran 4 [2, 3, 5] [0, 0, 0] (by decide) (by decide) (by decide)
    (by decide) (by decide)).1

/-- The row-major loop with any sufficient bound on the evaluations of its
condition, for a shape whose products do not overflow. -/
theorem rowMajor_loop_result (sizeofT : Nat) (shape : List Nat) (strides : List Int)
    (hR : 1 ≤ shape.length) (hdim : shape.length < SIZE_MOD)
    (hlen : strides.length = shape.length)
    (hstride : ∀ k, k < shape.length → sizeofT * (shape.drop (k + 1)).prod < PTRDIFF_MOD)
    (hcount : ∀ k, k ≤ shape.length → (shape.drop k).prod < SIZE_MOD)
    (fuel : Nat) (hf : shape.length < fuel) :
    DefaultArrayAllocator.calculateStridesLoop sizeofT shape.length shape false fuel
        (subSize shape.length 1) 1 strides []
      = LoopResult.done shape.prod (rowMajorStrides sizeofT shape)
          (List.range shape.length).reverse := by
  have G1 : ∀ k, k < shape.length → sizeofT * (shape.drop (k + 1)).prod < SIZE_MOD := by
    intro k hk
    have := hstride k hk
    rw [PTRDIFF_MOD_eq] at this
    rw [SIZE_MOD_eq]
    omega
  obtain ⟨d, hd⟩ : ∃ d, shape.length = d + 1 := ⟨shape.length - 1, by omega⟩
  have hstart : subSize shape.length 1 = d := by
    rw [hd]; exact subSize_succ_one (by omega)
  have hone : (shape.drop (d + 1)).prod = 1 := by
    rw [List.drop_eq_nil_of_le (by omega)]; rfl
  obtain ⟨strides2, hrun, hl2, hpt⟩ := rowMajor_loop sizeofT shape hdim G1 hcount
    d fuel strides [] (by omega) (by omega) hlen
  have heq : strides2 = rowMajorStrides sizeofT shape := by
    apply list_eq_of_getD _ _ (by simp [rowMajorStrides, hl2])
    intro k hk
    have hk2 : k < shape.length := by simpa [rowMajorStrides] using hk
    rw [hpt k hk2, if_pos (by omega), toPtrdiff_of_lt (hstride k hk2),
      rowMajorStrides_getD sizeofT shape k hk2]
  rw [heq, hone] at hrun
  rw [hstart, hrun, hd]
  rfl

/-- C10: for rank `R >= 1` and a shape whose products do not overflow (every
stride `sizeof (T) * extent_(i+1) * ... * extent_(R-1)` fits in `ptrdiff_t`,
every product of trailing extents fits in `size_t`), `calculateStrides` with
row-major ordering stores `stride[R-1] = sizeof (T)` and
`stride[i] = sizeof (T) * product of extent[j] for j > i`, and returns the
product of all extents; the descending loop over the unsigned index runs the
body for `R - 1, ..., 0`, once each, and terminates: every bound above `R` on
the evaluations of the loop condition gives the same result. -/
theorem calculateStrides_rowMajor (sizeofT : Nat) (shape : List Nat) (strides : List Int)
    (hR : 1 ≤ shape.length) (hdim : shape.length < SIZE_MOD)
    (hlen : strides.length = shape.length)
    (hstride : ∀ k, k < shape.length → sizeofT * (shape.drop (k + 1)).prod < PTRDIFF_MOD)
    (hcount : ∀ k, k ≤ shape.length → (shape.drop k).prod < SIZE_MOD) :
    DefaultArrayAllocator.calculateStrides sizeofT shape.length strides shape false
      = LoopResult.done shape.prod (rowMajorStrides sizeofT shape)
          (List.range shape.length).reverse ∧
    (rowMajorStrides sizeofT shape).length = shape.length ∧
    (rowMajorStrides sizeofT shape).getD (shape.length - 1) 0 = (sizeofT : Int) ∧
    (∀ i, i < shape.length → (rowMajorStrides sizeofT shape).getD i 0
      = (sizeofT : Int) * (((shape.drop (i + 1)).prod : Nat) : Int)) ∧
    (∀ fuel, shape.length < fuel →
      DefaultArrayAllocator.calculateStridesLoop sizeofT shape.length shape false fuel
        (subSize shape.length 1) 1 strides []
      = DefaultArrayAllocator.calculateStrides sizeofT shape.length strides shape false) := by
  have hres := rowMajor_loop_result sizeofT shape strides hR hdim hlen hstride hcount
  have hmain : DefaultArrayAllocator.calculateStrides sizeofT shape.length strides shape false
      = LoopResult.done shape.prod (rowMajorStrides sizeofT shape)
          (List.range shape.length).reverse := by
    unfold DefaultArrayAllocator.calculateStrides
    simp only [Bool.false_eq_true, if_false]
    exact hres _ (by omega)
  refine ⟨hmain, by simp [rowMajorStrides], ?_, ?_, ?_⟩
  · rw [rowMajorStrides_getD sizeofT shape _ (by omega),
      List.drop_eq_nil_of_le (by omega)]
    simp
  · intro i hi
    rw [rowMajorStrides_getD sizeofT shape i hi]
    push_cast
    rfl
  · intro fuel hf
    rw [hmain]
    exact hres fuel hf

theorem calculateStrides_rowMajor_witness :
    DefaultArrayAllocator.calculateStrides 4 [2, 3, 5].length [0, 0, 0] [2, 3, 5] false
      = LoopResult.done 30 [60, 20, 4] [2, 1, 0] :=
  (calculateStrides_rowMajor 4 [2, 3, 5] [0, 0, 0] (by decide) (by decide) (by decide)
    (by decide) (by decide)).1

/-! ## Completion and failure of `calculateStrides` -/

/-- The guard `x == 0 || SIZE_MAX / x >= elements` holds exactly when
`elements * x` fits in `size_t`. -/
theorem overflow_guard_iff (x elements : Nat) :
    (x = 0 ∨ SIZE_MAX / x ≥ elements) ↔ elements * x < SIZE_MOD := by
  constructor
  · intro h
    rcases h with h | h
    · subst h; simpa using SIZE_MOD_pos
    · by_cases hx : x = 0
      · subst hx; simpa using SIZE_MOD_pos
      · have hpos : 0 < x := Nat.pos_of_ne_zero hx
        have h2 : elements * x ≤ SIZE_MAX := (Nat.le_div_iff_mul_le hpos).mp h
        unfold SIZE_MAX at h2
        have := SIZE_MOD_pos
        omega
  · exact overflow_guard_of_lt

/-- One iteration with an overflowing multiplication raises the assertion. -/
theorem calculateStridesBody_of_not_lt (sizeofT : Nat) (shape : List Nat) (i elements : Nat)
    (strides : List Int)
    (h : ¬ (elements * sizeofT < SIZE_MOD ∧ elements * shape.getD i 0 < SIZE_MOD)) :
    DefaultArrayAllocator.calculateStridesBody sizeofT shape i elements strides = none := by
  unfold DefaultArrayAllocator.calculateStridesBody
  by_cases h1 : elements * sizeofT < SIZE_MOD
  · have h2 : ¬ elements * shape.getD i 0 < SIZE_MOD := fun h2 => h ⟨h1, h2⟩
    have a1 := (ASSERT_eq_some _ ()).mpr ((overflow_guard_iff _ _).mpr h1)
    have a2 := (ASSERT_eq_none _).mpr (fun g => h2 ((overflow_guard_iff _ _).mp g))
    simp only [a1, a2, Option.some_bind, Option.none_bind]
  · have a1 := (ASSERT_eq_none _).mpr (fun g => h1 ((overflow_guard_iff _ _).mp g))
    simp only [a1, Option.none_bind]

/-- The ascending loop raises the assertion when some multiplication at or after
the current index overflows. -/
theorem fortran_loop_fail (sizeofT : Nat) (shape : List Nat)
    (hdim : shape.length < SIZE_MOD) :
    ∀ (n i fuel : Nat) (strides : List Int) (visited : List Nat),
      i + n = shape.length → n < fuel →
      (∃ k, i ≤ k ∧ k < shape.length ∧
        ¬ ((shape.take k).prod * sizeofT < SIZE_MOD ∧ (shape.take (k + 1)).prod < SIZE_MOD)) →
      DefaultArrayAllocator.calculateStridesLoop sizeofT shape.length shape true fuel i
          (shape.take i).prod strides visited
        = LoopResult.assertionFailed := by
  intro n
  induction n with
  | zero =>
    intro i fuel strides visited hi _ hk
    obtain ⟨k, h1, h2, _⟩ := hk
    omega
  | succ n ih =>
    intro i fuel strides visited hi hf hk
    obtain ⟨f, rfl⟩ : ∃ f, fuel = f + 1 := ⟨fuel - 1, by omega⟩
    have hil : i < shape.length := by omega
    have hsz : shape.getD i 0 = shape[i] := List.getD_eq_getElem _ 0 hil
    have hprod : (shape.take (i + 1)).prod = (shape.take i).prod * shape.getD i 0 := by
      rw [hsz]; exact List.prod_take_succ shape i hil
    unfold DefaultArrayAllocator.calculateStridesLoop
    rw [if_pos hil]
    by_cases hc : (shape.take i).prod * sizeofT < SIZE_MOD ∧
        (shape.take i).prod * shape.getD i 0 < SIZE_MOD
    · rw [calculateStridesBody_of_lt sizeofT shape i _ strides hc.1 hc.2]
      have hnext : addSize i 1 = i + 1 := Nat.mod_eq_of_lt (by omega)
      simp only [if_true, hnext, ← hprod]
      apply ih (i + 1) f _ _ (by omega) (by omega)
      obtain ⟨k, h1, h2, h3⟩ := hk
      refine ⟨k, ?_, h2, h3⟩
      by_contra hlt
      have hki : k = i := by omega
      subst hki
      rw [hprod] at h3
      exact h3 hc
    · rw [calculateStridesBody_of_not_lt sizeofT shape i _ strides hc]

/-- The descending loop raises the assertion when some multiplication at or
before the current index overflows. -/
theorem rowMajor_loop_fail (sizeofT : Nat) (shape : List Nat)
    (hdim : shape.length < SIZE_MOD) :
    ∀ (i fuel : Nat) (strides : List Int) (visited : List Nat),
      i < shape.length → i + 1 < fuel →
      (∃ k, k ≤ i ∧
        ¬ ((shape.drop (k + 1)).prod * sizeofT < SIZE_MOD ∧ (shape.drop k).prod < SIZE_MOD)) →
      DefaultArrayAllocator.calculateStridesLoop sizeofT shape.length shape false fuel i
          (shape.drop (i + 1)).prod strides visited
        = LoopResult.assertionFailed := by
  intro i
  induction i with
  | zero =>
    intro fuel strides visited hil hf hk
    obtain ⟨f, rfl⟩ : ∃ f, fuel = f + 1 := ⟨fuel - 1, by omega⟩
    obtain ⟨k, h1, h3⟩ := hk
    have hk0 : k = 0 := by omega
    subst hk0
    rw [prod_drop_eq shape 0 hil] at h3
    unfold DefaultArrayAllocator.calculateStridesLoop
    rw [if_pos hil, calculateStridesBody_of_not_lt sizeofT shape 0 _ strides h3]
  | succ i ih =>
    intro fuel strides visited hil hf hk
    obtain ⟨f, rfl⟩ : ∃ f, fuel = f + 1 := ⟨fuel - 1, by omega⟩
    have hprod := prod_drop_eq shape (i + 1) hil
    unfold DefaultArrayAllocator.calculateStridesLoop
    rw [if_pos hil]
    by_cases hc : (shape.drop (i + 1 + 1)).prod * sizeofT < SIZE_MOD ∧
        (shape.drop (i + 1 + 1)).prod * shape.getD (i + 1) 0 < SIZE_MOD
    · rw [calculateStridesBody_of_lt sizeofT shape (i + 1) _ strides hc.1 hc.2]
      simp only [Bool.false_eq_true, if_false,
        subSize_succ_one (show i + 1 < SIZE_MOD by omega), ← hprod]
      apply ih f _ _ (by omega) (by omega)
      obtain ⟨k, h1, h3⟩ := hk
      refine ⟨k, ?_, h3⟩
      by_contra hlt
      have hki : k = i + 1 := by omega
      subst hki
      rw [hprod] at h3
      exact h3 hc
    · rw [calculateStridesBody_of_not_lt sizeofT shape (i + 1) _ strides hc]

theorem fortranStored_getD (sizeofT : Nat) (shape : List Nat) (k : Nat)
    (hk : k < shape.length) :
    (fortranStored sizeofT shape).getD k 0 = toPtrdiff (sizeofT * (shape.take k).prod) := by
  unfold fortranStored
  rw [List.getD_eq_getElem _ 0 (by simpa using hk)]
  simp

theorem rowMajorStored_getD (sizeofT : Nat) (shape : List Nat) (k : Nat)
    (hk : k < shape.length) :
    (rowMajorStored sizeofT shape).getD k 0
      = toPtrdiff (sizeofT * (shape.drop (k + 1)).prod) := by
  unfold rowMajorStored
  rw [List.getD_eq_getElem _ 0 (by simpa using hk)]
  simp

/-- Fortran ordering: the call completes exactly when every multiplication it
performs fits in `size_t`, and raises the assertion otherwise. -/
theorem calculateStrides_fortran_cases (sizeofT : Nat) (shape : List Nat) (strides : List Int)
    (hdim : shape.length < SIZE_MOD) (hlen : strides.length = shape.length) :
    (fortranChecks sizeofT shape →
      DefaultArrayAllocator.calculateStrides sizeofT shape.length strides shape true
        = LoopResult.done shape.prod (fortranStored sizeofT shape) (List.range shape.length)) ∧
    (¬ fortranChecks sizeofT shape →
      DefaultArrayAllocator.calculateStrides sizeofT shape.length strides shape true
        = LoopResult.assertionFailed) := by
  constructor
  · intro hc
    have H1 : ∀ k, k < shape.length → sizeofT * (shape.take k).prod < SIZE_MOD := by
      intro k hk
      rw [Nat.mul_comm]; exact (hc k hk).1
    have H2 : ∀ k, k ≤ shape.length → (shape.take k).prod < SIZE_MOD := by
      intro k hk
      cases k with
      | zero => simpa using (show 1 < SIZE_MOD by rw [SIZE_MOD_eq]; omega)
      | succ j => exact (hc j (by omega)).2
    obtain ⟨strides2, hrun, hl2, hpt⟩ := fortran_loop sizeofT shape hdim H1 H2
      shape.length 0 (shape.length + 1) strides [] (by omega) (by omega) hlen
    have heq : strides2 = fortranStored sizeofT shape := by
      apply list_eq_of_getD _ _ (by simp [fortranStored, hl2])
      intro k hk
      have hk2 : k < shape.length := by simpa [fortranStored] using hk
      rw [hpt k hk2, if_pos (Nat.zero_le _), fortranStored_getD sizeofT shape k hk2]
    rw [heq] at hrun
    unfold DefaultArrayAllocator.calculateStrides
    simp only [if_true]
    simpa [List.range_eq_range'] using hrun
  · intro hc
    unfold fortranChecks at hc
    push_neg at hc
    obtain ⟨k, hk, hk2⟩ := hc
    unfold DefaultArrayAllocator.calculateStrides
    simp only [if_true]
    have := fortran_loop_fail sizeofT shape hdim shape.length 0 (shape.length + 1) strides []
      (by omega) (by omega) ⟨k, Nat.zero_le _, hk, fun h => absurd h.2 (not_lt.mpr (hk2 h.1))⟩
    simpa using this

/-- Row-major ordering: the call completes exactly when every multiplication it
performs fits in `size_t`, and raises the assertion otherwise. -/
theorem calculateStrides_rowMajor_cases (sizeofT : Nat) (shape : List Nat)
    (strides : List Int) (hdim : shape.length < SIZE_MOD)
    (hlen : strides.length = shape.length) :
    (rowMajorChecks sizeofT shape →
      DefaultArrayAllocator.calculateStrides sizeofT shape.length strides shape false
        = LoopResult.done shape.prod (rowMajorStored sizeofT shape)
            (List.range shape.length).reverse) ∧
    (¬ rowMajorChecks sizeofT shape →
      DefaultArrayAllocator.calculateStrides sizeofT shape.length strides shape false
        = LoopResult.assertionFailed) := by
  rcases Nat.eq_zero_or_pos shape.length with h0 | hpos
  · have hs : shape = [] := List.length_eq_zero.mp h0
    subst hs
    have hst : strides = [] := List.length_eq_zero.mp (by simpa using hlen)
    subst hst
    constructor
    · intro _
      unfold DefaultArrayAllocator.calculateStrides
      simp only [Bool.false_eq_true, if_false, List.length_nil, subSize_zero_one]
      unfold DefaultArrayAllocator.calculateStridesLoop
      rw [if_neg (Nat.not_lt_zero _)]
      rfl
    · intro hc
      exact absurd (fun k hk => absurd hk (Nat.not_lt_zero k)) hc
  · obtain ⟨d, hd⟩ : ∃ d, shape.length = d + 1 := ⟨shape.length - 1, by omega⟩
    have hstart : subSize shape.length 1 = d := by
      rw [hd]; exact subSize_succ_one (by omega)
    have hone : (shape.drop (d + 1)).prod = 1 := by
      rw [List.drop_eq_nil_of_le (by omega)]; rfl
    constructor
    · intro hc
      have G1 : ∀ k, k < shape.length → sizeofT * (shape.drop (k + 1)).prod < SIZE_MOD := by
        intro k hk
        rw [Nat.mul_comm]; exact (hc k hk).1
      have G2 : ∀ k, k ≤ shape.length → (shape.drop k).prod < SIZE_MOD := by
        intro k hk
        rcases Nat.lt_or_ge k shape.length with h | h
        · exact (hc k h).2
        · rw [List.drop_eq_nil_of_le h]
          simpa using (show 1 < SIZE_MOD by rw [SIZE_MOD_eq]; omega)
      obtain ⟨strides2, hrun, hl2, hpt⟩ := rowMajor_loop sizeofT shape hdim G1 G2
        d (shape.length + 1) strides [] (by omega) (by omega) hlen
      have heq : strides2 = rowMajorStored sizeofT shape := by
        apply list_eq_of_getD _ _ (by simp [rowMajorStored, hl2])
        intro k hk
        have hk2 : k < shape.length := by simpa [rowMajorStored] using hk
        rw [hpt k hk2, if_pos (by omega), rowMajorStored_getD sizeofT shape k hk2]
      rw [heq, hone] at hrun
      unfold DefaultArrayAllocator.calculateStrides
      simp only [Bool.false_eq_true, if_false]
      rw [hstart, hrun, hd]
      rfl
    · intro hc
      unfold rowMajorChecks at hc
      push_neg at hc
      obtain ⟨k, hk, hk2⟩ := hc
      unfold DefaultArrayAllocator.calculateStrides
      simp only [Bool.false_eq_true, if_false]
      rw [hstart]
      have := rowMajor_loop_fail sizeofT shape hdim d (shape.length + 1) strides []
        (by omega) (by omega) ⟨k, by omega, fun h => absurd h.2 (not_lt.mpr (hk2 h.1))⟩
      rw [hone] at this
      exact this

/-- Either ordering: a completed call returns the exact product of the extents
and has passed every check of its ordering; a call never exhausts the bound on
its loop. -/
theorem calculateStrides_done (sizeofT : Nat) (shape : List Nat) (strides : List Int)
    (fortranOrdering : Bool) (hdim : shape.length < SIZE_MOD)
    (hlen : strides.length = shape.length) (e : Nat) (st : List Int) (vis : List Nat)
    (h : DefaultArrayAllocator.calculateStrides sizeofT shape.length strides shape
      fortranOrdering = LoopResult.done e st vis) :
    e = shape.prod ∧
    (fortranOrdering = true → fortranChecks sizeofT shape ∧ st = fortranStored sizeofT shape ∧
      vis = List.range shape.length) ∧
    (fortranOrdering = false → rowMajorChecks sizeofT shape ∧
      st = rowMajorStored sizeofT shape ∧ vis = (List.range shape.length).reverse) := by
  cases fortranOrdering with
  | true =>
    obtain ⟨h1, h2⟩ := calculateStrides_fortran_cases sizeofT shape strides hdim hlen
    by_cases hc : fortranChecks sizeofT shape
    · rw [h1 hc] at h
      injection h with he hs hv
      exact ⟨he.symm, fun _ => ⟨hc, hs.symm, hv.symm⟩, fun hf => by cases hf⟩
    · rw [h2 hc] at h
      cases h
  | false =>
    obtain ⟨h1, h2⟩ := calculateStrides_rowMajor_cases sizeofT shape strides hdim hlen
    by_cases hc : rowMajorChecks sizeofT shape
    · rw [h1 hc] at h
      injection h with he hs hv
      exact ⟨he.symm, fun hf => (by cases hf), fun _ => ⟨hc, hs.symm, hv.symm⟩⟩
    · rw [h2 hc] at h
      cases h

theorem calculateStrides_ne_outOfFuel (sizeofT : Nat) (shape : List Nat) (strides : List Int)
    (fortranOrdering : Bool) (hdim : shape.length < SIZE_MOD)
    (hlen : strides.length = shape.length) :
    DefaultArrayAllocator.calculateStrides sizeofT shape.length strides shape fortranOrdering
      ≠ LoopResult.outOfFuel := by
  cases fortranOrdering with
  | true =>
    obtain ⟨h1, h2⟩ := calculateStrides_fortran_cases sizeofT shape strides hdim hlen
    by_cases hc : fortranChecks sizeofT shape
    · rw [h1 hc]; exact fun h => by cases h
    · rw [h2 hc]; exact fun h => by cases h
  | false =>
    obtain ⟨h1, h2⟩ := calculateStrides_rowMajor_cases sizeofT shape strides hdim hlen
    by_cases hc : rowMajorChecks sizeofT shape
    · rw [h1 hc]; exact fun h => by cases h
    · rw [h2 hc]; exact fun h => by cases h

/-- Either ordering: the call raises the assertion when some check of its
ordering fails. -/
theorem calculateStrides_failed (sizeofT : Nat) (shape : List Nat) (strides : List Int)
    (fortranOrdering : Bool) (hdim : shape.length < SIZE_MOD)
    (hlen : strides.length = shape.length)
    (h : (fortranOrdering = true ∧ ¬ fortranChecks sizeofT shape) ∨
      (fortranOrdering = false ∧ ¬ rowMajorChecks sizeofT shape)) :
    DefaultArrayAllocator.calculateStrides sizeofT shape.length strides shape fortranOrdering
      = LoopResult.assertionFailed := by
  rcases h with ⟨hf, hc⟩ | ⟨hf, hc⟩
  · subst hf
    exact (calculateStrides_fortran_cases sizeofT shape strides hdim hlen).2 hc
  · subst hf
    exact (calculateStrides_rowMajor_cases sizeofT shape strides hdim hlen).2 hc

theorem shape_prod_lt_of_checks (sizeofT : Nat) (shape : List Nat)
    (h : fortranChecks sizeofT shape ∨ rowMajorChecks sizeofT shape) :
    shape.prod < SIZE_MOD := by
  rcases Nat.eq_zero_or_pos shape.length with h0 | hpos
  · rw [List.length_eq_zero.mp h0]
    simpa using (show 1 < SIZE_MOD by rw [SIZE_MOD_eq]; omega)
  · rcases h with h | h
    · have := (h (shape.length - 1) (by omega)).2
      rwa [show shape.length - 1 + 1 = shape.length by omega, List.take_length] at this
    · have := (h 0 hpos).2
      rwa [List.drop_zero] at this

/-- C11 (as stated, refuted): with `sizeof (T) = 4` the 1-D shape `(2^62)` has
the exact byte size `2^64`, which does not fit in `size_t`, and
`calculateStrides` completes. -/
theorem calculateStrides_total_bytes_unchecked :
    SIZE_MOD ≤ 4 * ([4611686018427387904] : List Nat).prod ∧
    DefaultArrayAllocator.calculateStrides 4 1 [0] [4611686018427387904] true
      = LoopResult.done 4611686018427387904 [4] [0] ∧
    DefaultArrayAllocator.calculateStrides 4 1 [0] [4611686018427387904] false
      = LoopResult.done 4611686018427387904 [4] [0] := by
  decide

/-- C11 (amended): under either ordering `calculateStrides` raises the fatal
assertion whenever the exact product of all extents does not fit in `size_t`,
and whenever `sizeof (T)` times the exact product of the extents visited before
some axis (the axes before it under Fortran ordering, the axes after it under
row-major ordering) does not fit in `size_t`. -/
theorem calculateStrides_overflow_detected (sizeofT : Nat) (shape : List Nat)
    (strides : List Int) (fortranOrdering : Bool) (hdim : shape.length < SIZE_MOD)
    (hlen : strides.length = shape.length) :
    (SIZE_MOD ≤ shape.prod →
      DefaultArrayAllocator.calculateStrides sizeofT shape.length strides shape fortranOrdering
        = LoopResult.assertionFailed) ∧
    (∀ k, k < shape.length →
      SIZE_MOD ≤ sizeofT *
        (if fortranOrdering then (shape.take k).prod else (shape.drop (k + 1)).prod) →
      DefaultArrayAllocator.calculateStrides sizeofT shape.length strides shape fortranOrdering
        = LoopResult.assertionFailed) := by
  constructor
  · intro hp
    apply calculateStrides_failed sizeofT shape strides fortranOrdering hdim hlen
    cases fortranOrdering with
    | true =>
      exact Or.inl ⟨rfl, fun hc => absurd (shape_prod_lt_of_checks sizeofT shape (Or.inl hc))
        (not_lt.mpr hp)⟩
    | false =>
      exact Or.inr ⟨rfl, fun hc => absurd (shape_prod_lt_of_checks sizeofT shape (Or.inr hc))
        (not_lt.mpr hp)⟩
  · intro k hk hp
    apply calculateStrides_failed sizeofT shape strides fortranOrdering hdim hlen
    cases fortranOrdering with
    | true =>
      simp only [if_true] at hp
      refine Or.inl ⟨rfl, fun hc => ?_⟩
      have := (hc k hk).1
      rw [Nat.mul_comm] at this
      omega
    | false =>
      simp only [Bool.false_eq_true, if_false] at hp
      refine Or.inr ⟨rfl, fun hc => ?_⟩
      have := (hc k hk).1
      rw [Nat.mul_comm] at this
      omega

theorem calculateStrides_overflow_detected_witness :
    SIZE_MOD ≤ ([9223372036854775808, 4] : List Nat).prod ∧
    DefaultArrayAllocator.calculateStrides 2 [9223372036854775808, 4].length [0, 0]
      [9223372036854775808, 4] false = LoopResult.assertionFailed :=
  ⟨by decide,
    (calculateStrides_overflow_detected 2 [9223372036854775808, 4] [0, 0] false
      (by decide) (by decide)).1 (by decide)⟩

/-- C12 (the code at the failing input): with `sizeof (T) = 1` and the shape
`(2^63, 1, 0)` under Fortran ordering, `calculateStrides` completes, returns 0
and stores the negative strides `-2^63` for axes 1 and 2, where `sizeof (T)`
times the product of the faster-varying extents is `2^63`; creating the
container succeeds with these strides. -/
theorem calculateStrides_stores_negative_stride :
    DefaultArrayAllocator.calculateStrides 1 3 [0, 0, 0] [9223372036854775808, 1, 0] true
      = LoopResult.done 0 [1, -9223372036854775808, -9223372036854775808] [0, 1, 2] ∧
    fortranStrides 1 [9223372036854775808, 1, 0]
      = [1, 9223372036854775808, 9223372036854775808] ∧
    ((Array.constructShape (DefaultArrayAllocator.toArrayAllocator 1 (fun _ => none))
        (ArrayViewBase.mk 0 [0, 0, 0] [0, 0, 0]) 3 [9223372036854775808, 1, 0] true).map
        fun a => a.storage)
      = some (ArrayViewBase.mk 0 [9223372036854775808, 1, 0]
          [1, -9223372036854775808, -9223372036854775808]) := by
  decide

/-- C13: under either ordering, a call of `calculateStrides` that completes
returns the exact product of all extents, which then fits in `size_t`; the call
raises the assertion whenever the exact product exceeds `SIZE_MAX`; and the loop
always ends. -/
theorem calculateStrides_count (sizeofT : Nat) (shape : List Nat) (strides : List Int)
    (fortranOrdering : Bool) (hdim : shape.length < SIZE_MOD)
    (hlen : strides.length = shape.length) :
    (∀ e st vis,
      DefaultArrayAllocator.calculateStrides sizeofT shape.length strides shape fortranOrdering
        = LoopResult.done e st vis → e = shape.prod ∧ shape.prod ≤ SIZE_MAX) ∧
    (SIZE_MAX < shape.prod →
      DefaultArrayAllocator.calculateStrides sizeofT shape.length strides shape fortranOrdering
        = LoopResult.assertionFailed) ∧
    DefaultArrayAllocator.calculateStrides sizeofT shape.length strides shape fortranOrdering
      ≠ LoopResult.outOfFuel := by
  refine ⟨?_, ?_, calculateStrides_ne_outOfFuel sizeofT shape strides fortranOrdering hdim hlen⟩
  · intro e st vis h
    obtain ⟨he, h1, h2⟩ := calculateStrides_done sizeofT shape strides fortranOrdering hdim hlen
      e st vis h
    refine ⟨he, ?_⟩
    have hlt : shape.prod < SIZE_MOD := by
      cases fortranOrdering with
      | true => exact shape_prod_lt_of_checks sizeofT shape (Or.inl (h1 rfl).1)
      | false => exact shape_prod_lt_of_checks sizeofT shape (Or.inr (h2 rfl).1)
    unfold SIZE_MAX
    omega
  · intro hp
    apply (calculateStrides_overflow_detected sizeofT shape strides fortranOrdering hdim hlen).1
    unfold SIZE_MAX at hp
    omega

theorem calculateStrides_count_witness :
    DefaultArrayAllocator.calculateStrides 4 [2, 0, 5].length [7, 7, 7] [2, 0, 5] false
      = LoopResult.done 0 [0, 20, 4] [2, 1, 0] ∧
    (0 = ([2, 0, 5] : List Nat).prod ∧ ([2, 0, 5] : List Nat).prod ≤ SIZE_MAX) :=
  ⟨by decide,
    (calculateStrides_count 4 [2, 0, 5] [7, 7, 7] false (by decide) (by decide)).1
      0 [0, 20, 4] [2, 1, 0] (by decide)⟩

/-! ## Zero extents, allocation and the container -/

theorem prod_take_eq_zero (shape : List Nat) (z k : Nat) (hz : z < shape.length)
    (h0 : shape.getD z 0 = 0) (hk : z < k) : (shape.take k).prod = 0 := by
  apply List.prod_eq_zero
  rw [List.getD_eq_getElem _ 0 hz] at h0
  rw [← h0, List.mem_take_iff_getElem]
  exact ⟨z, by omega, rfl⟩

theorem prod_drop_eq_zero (shape : List Nat) (z k : Nat) (hz : z < shape.length)
    (h0 : shape.getD z 0 = 0) (hk : k ≤ z) : (shape.drop k).prod = 0 := by
  apply List.prod_eq_zero
  rw [List.getD_eq_getElem _ 0 hz] at h0
  rw [← h0, List.mem_drop_iff_getElem]
  exact ⟨z - k, by omega, by simp [Nat.add_sub_cancel' hk]⟩

theorem range_map_getD (shape : List Nat) :
    ((List.range shape.length).map fun i => shape.getD i 0) = shape := by
  apply List.ext_getElem (by simp)
  intro k h1 h2
  simp [List.getElem?_eq_getElem h2]

/-- `Array::init` with the default allocator, in terms of the outcome of
`calculateStrides` and of `new T [count]`. -/
theorem init_default (sizeofT : Nat) (newArray : Nat → Option Nat) (self : Array)
    (dim : Nat) (shape : List Nat) (fortranOrdering : Bool)
    (hA : self.allocator = DefaultArrayAllocator.toArrayAllocator sizeofT newArray) :
    (∀ e st vis,
      DefaultArrayAllocator.calculateStrides sizeofT dim self.storage.stridesBytes_ shape
        fortranOrdering = LoopResult.done e st vis →
      (e = 0 → self.init dim shape fortranOrdering = some (Array.mk self.allocator none
        (ArrayViewBase.mk 0 ((List.range dim).map fun i => shape.getD i 0) st))) ∧
      (e ≠ 0 → self.init dim shape fortranOrdering = (newArray e).map fun p =>
        Array.mk self.allocator (some (Handle.mk p e))
          (ArrayViewBase.mk p ((List.range dim).map fun i => shape.getD i 0) st))) ∧
    (DefaultArrayAllocator.calculateStrides sizeofT dim self.storage.stridesBytes_ shape
        fortranOrdering = LoopResult.assertionFailed →
      self.init dim shape fortranOrdering = none) := by
  refine ⟨?_, ?_⟩
  · intro e st vis hc
    constructor
    · intro he
      subst he
      unfold Array.init
      rw [hA]
      simp [DefaultArrayAllocator.toArrayAllocator, hc, LoopResult.returned,
        DefaultArrayAllocator.allocate, Array.getNull]
    · intro he
      unfold Array.init
      rw [hA]
      simp only [DefaultArrayAllocator.toArrayAllocator, hc, LoopResult.returned,
        DefaultArrayAllocator.allocate, if_neg he, DefaultArrayAllocator.MyHandle,
        Option.some_bind]
      cases newArray e <;> simp
  · intro hc
    unfold Array.init
    rw [hA]
    simp [DefaultArrayAllocator.toArrayAllocator, hc, LoopResult.returned]

theorem one_lt_SIZE_MOD : 1 < SIZE_MOD := by
  rw [SIZE_MOD_eq]; omega

/-- Fortran ordering: once a zero extent has been visited every later check
holds, so the checks up to the zero extent decide. -/
theorem fortranChecks_of_zero (sizeofT : Nat) (shape : List Nat) (z : Nat)
    (hz : z < shape.length) (h0 : shape.getD z 0 = 0)
    (hpre : ∀ k, k ≤ z →
      (shape.take k).prod * sizeofT < SIZE_MOD ∧ (shape.take k).prod < SIZE_MOD) :
    fortranChecks sizeofT shape := by
  intro k _
  constructor
  · rcases Nat.lt_or_ge z k with h | h
    · rw [prod_take_eq_zero shape z k hz h0 h, Nat.zero_mul]; exact SIZE_MOD_pos
    · exact (hpre k h).1
  · rcases Nat.lt_or_ge z (k + 1) with h | h
    · rw [prod_take_eq_zero shape z (k + 1) hz h0 h]; exact SIZE_MOD_pos
    · exact (hpre (k + 1) h).2

/-- Row-major ordering: the checks of the axes from the zero extent on decide. -/
theorem rowMajorChecks_of_zero (sizeofT : Nat) (shape : List Nat) (z : Nat)
    (hz : z < shape.length) (h0 : shape.getD z 0 = 0)
    (hpre : ∀ k, z ≤ k → k < shape.length →
      (shape.drop (k + 1)).prod * sizeofT < SIZE_MOD ∧ (shape.drop (k + 1)).prod < SIZE_MOD) :
    rowMajorChecks sizeofT shape := by
  intro k hk
  constructor
  · rcases Nat.lt_or_ge k z with h | h
    · rw [prod_drop_eq_zero shape z (k + 1) hz h0 h, Nat.zero_mul]; exact SIZE_MOD_pos
    · exact (hpre k h hk).1
  · rcases Nat.lt_or_ge z k with h | h
    · obtain ⟨j, rfl⟩ : ∃ j, k = j + 1 := ⟨k - 1, by omega⟩
      exact (hpre j (by omega) (by omega)).2
    · rw [prod_drop_eq_zero shape z k hz h0 h]; exact SIZE_MOD_pos

theorem shape_prod_eq_zero (shape : List Nat) (z : Nat) (hz : z < shape.length)
    (h0 : shape.getD z 0 = 0) : shape.prod = 0 := by
  have := prod_drop_eq_zero shape z 0 hz h0 (Nat.zero_le _)
  rwa [List.drop_zero] at this

/-- With the default allocator, a completed `calculateStrides` that returns 0
makes `init` succeed with an empty handle and a null pointer. -/
theorem init_default_empty (sizeofT : Nat) (newArray : Nat → Option Nat) (self : Array)
    (dim : Nat) (shape : List Nat) (fortranOrdering : Bool) (st : List Int) (vis : List Nat)
    (hA : self.allocator = DefaultArrayAllocator.toArrayAllocator sizeofT newArray)
    (hshape : shape.length = dim)
    (hc : DefaultArrayAllocator.calculateStrides sizeofT dim
      self.storage.stridesBytes_ shape fortranOrdering = LoopResult.done 0 st vis) :
    self.init dim shape fortranOrdering
      = some (Array.mk self.allocator none (ArrayViewBase.mk 0 shape st)) := by
  subst hshape
  rw [((init_default sizeofT newArray self shape.length shape fortranOrdering hA).1
    0 st vis hc).1 rfl, range_map_getD]

/-- C14 (as stated, refuted): the shape `(2^32, 2^32, 0)` contains a zero extent
and `calculateStrides` with Fortran ordering raises the assertion (with
row-major ordering, which visits the zero extent first, it returns 0). -/
theorem calculateStrides_zero_extent_rejected :
    (0 : Nat) ∈ ([4294967296, 4294967296, 0] : List Nat) ∧
    DefaultArrayAllocator.calculateStrides 1 3 [0, 0, 0] [4294967296, 4294967296, 0] true
      = LoopResult.assertionFailed ∧
    DefaultArrayAllocator.calculateStrides 1 3 [0, 0, 0] [4294967296, 4294967296, 0] false
      = LoopResult.done 0 [0, 0, 1] [2, 1, 0] := by
  decide

/-- C14 (amended): for a shape with a zero extent at axis `z`, under either
ordering, `calculateStrides` returns 0 whenever it completes; it completes
whenever the products of the extents visited before axis `z`, and `sizeof (T)`
times them, fit in `size_t`; and whenever it completes, creating a container
with that shape succeeds and yields an empty array (empty handle, null pointer,
the given shape). -/
theorem calculateStrides_zero_extent (sizeofT : Nat) (shape : List Nat) (strides : List Int)
    (z : Nat) (hdim : shape.length < SIZE_MOD) (hlen : strides.length = shape.length)
    (hz : z < shape.length) (h0 : shape.getD z 0 = 0) :
    (∀ f e st vis,
      DefaultArrayAllocator.calculateStrides sizeofT shape.length strides shape f
        = LoopResult.done e st vis → e = 0) ∧
    ((∀ k, k ≤ z →
        (shape.take k).prod * sizeofT < SIZE_MOD ∧ (shape.take k).prod < SIZE_MOD) →
      DefaultArrayAllocator.calculateStrides sizeofT shape.length strides shape true
        = LoopResult.done 0 (fortranStored sizeofT shape) (List.range shape.length)) ∧
    ((∀ k, z ≤ k → k < shape.length →
        (shape.drop (k + 1)).prod * sizeofT < SIZE_MOD ∧
        (shape.drop (k + 1)).prod < SIZE_MOD) →
      DefaultArrayAllocator.calculateStrides sizeofT shape.length strides shape false
        = LoopResult.done 0 (rowMajorStored sizeofT shape) (List.range shape.length).reverse) ∧
    (∀ f e st vis (newArray : Nat → Option Nat) (rp : Nat) (rs : List Nat),
      DefaultArrayAllocator.calculateStrides sizeofT shape.length strides shape f
        = LoopResult.done e st vis →
      Array.constructShape (DefaultArrayAllocator.toArrayAllocator sizeofT newArray)
          (ArrayViewBase.mk rp rs strides) shape.length shape f
        = some (Array.mk (DefaultArrayAllocator.toArrayAllocator sizeofT newArray) none
            (ArrayViewBase.mk 0 shape st))) := by
  have hp := shape_prod_eq_zero shape z hz h0
  have hzero : ∀ f e st vis,
      DefaultArrayAllocator.calculateStrides sizeofT shape.length strides shape f
        = LoopResult.done e st vis → e = 0 := by
    intro f e st vis h
    rw [(calculateStrides_done sizeofT shape strides f hdim hlen e st vis h).1, hp]
  refine ⟨hzero, ?_, ?_, ?_⟩
  · intro hpre
    have := (calculateStrides_fortran_cases sizeofT shape strides hdim hlen).1
      (fortranChecks_of_zero sizeofT shape z hz h0 hpre)
    rwa [hp] at this
  · intro hpre
    have := (calculateStrides_rowMajor_cases sizeofT shape strides hdim hlen).1
      (rowMajorChecks_of_zero sizeofT shape z hz h0 hpre)
    rwa [hp] at this
  · intro f e st vis newArray rp rs h
    have he := hzero f e st vis h
    subst he
    exact init_default_empty sizeofT newArray _ shape.length shape f st vis rfl rfl h

theorem calculateStrides_zero_extent_witness :
    DefaultArrayAllocator.calculateStrides 4 [3, 0, 9223372036854775808].length [0, 0, 0]
        [3, 0, 9223372036854775808] true
      = LoopResult.done 0 (fortranStored 4 [3, 0, 9223372036854775808])
          (List.range [3, 0, 9223372036854775808].length) :=
  (calculateStrides_zero_extent 4 [3, 0, 9223372036854775808] [0, 0, 0] 1
    (by decide) (by decide) (by decide) (by decide)).2.1 (by decide)

/-- C15: `allocate (count)` of the default allocator returns an empty handle if
and only if `count == 0`, and then without evaluating `new T [count]`; for
`count > 0` it returns, when `new T [count]` returns, a non-empty handle on that
block of exactly `count` elements. -/
theorem allocate_spec (newArray : Nat → Option Nat) (count : Nat) :
    (DefaultArrayAllocator.allocate newArray count = some none ↔ count = 0) ∧
    (∀ other : Nat → Option Nat, DefaultArrayAllocator.allocate other 0 = some none) ∧
    (∀ p, count ≠ 0 → newArray count = some p →
      DefaultArrayAllocator.allocate newArray count = some (some (Handle.mk p count))) ∧
    (count ≠ 0 → newArray count = none →
      DefaultArrayAllocator.allocate newArray count = none) ∧
    (∀ h, DefaultArrayAllocator.allocate newArray count = some (some h) →
      count ≠ 0 ∧ h.count = count ∧ newArray count = some h.getPointer) := by
  unfold DefaultArrayAllocator.allocate DefaultArrayAllocator.MyHandle
  refine ⟨?_, ?_, ?_, ?_, ?_⟩
  · by_cases hc : count = 0
    · simp [hc]
    · cases newArray count <;> simp [hc]
  · intro other; simp
  · intro p hc hp; simp [hc, hp]
  · intro hc hp; simp [hc, hp]
  · intro h hh
    by_cases hc : count = 0
    · simp [hc] at hh
    · cases hp : newArray count with
      | none => simp [hc, hp] at hh
      | some p =>
        simp only [hc, hp, if_false, Option.map_some', Option.some.injEq] at hh
        subst hh
        exact ⟨hc, rfl, rfl⟩

theorem allocate_core (newArray : Nat → Option Nat) (count : Nat) :
    (DefaultArrayAllocator.allocate newArray count = some none ↔ count = 0) ∧
    (∀ h, DefaultArrayAllocator.allocate newArray count = some (some h) →
      count ≠ 0 ∧ h.count = count ∧ newArray count = some h.getPointer) := by
  unfold DefaultArrayAllocator.allocate DefaultArrayAllocator.MyHandle
  refine ⟨?_, ?_⟩
  · by_cases hc : count = 0
    · simp [hc]
    · cases newArray count <;> simp [hc]
  · intro h hh
    by_cases hc : count = 0
    · simp [hc] at hh
    · cases hp : newArray count with
      | none => simp [hc, hp] at hh
      | some p =>
        simp only [hc, hp, if_false, Option.map_some', Option.some.injEq] at hh
        subst hh
        exact ⟨hc, rfl, rfl⟩

/-- The default allocator meets the allocator contract, provided `new T [count]`
never returns a null address. -/
theorem default_contract (sizeofT : Nat) (newArray : Nat → Option Nat)
    (hnew : ∀ c p, newArray c = some p → p ≠ 0) :
    (DefaultArrayAllocator.toArrayAllocator sizeofT newArray).Contract := by
  refine ⟨?_, ?_, ?_⟩
  · intro shape strides f e st hdim hlen h
    simp only [DefaultArrayAllocator.toArrayAllocator] at h
    cases hc : DefaultArrayAllocator.calculateStrides sizeofT shape.length strides shape f with
    | outOfFuel => rw [hc] at h; simp [LoopResult.returned] at h
    | assertionFailed => rw [hc] at h; simp [LoopResult.returned] at h
    | done e2 st2 vis =>
      rw [hc] at h
      simp only [LoopResult.returned, Option.some.injEq, Prod.mk.injEq] at h
      obtain ⟨he, hs⟩ := h
      subst he
      subst hs
      obtain ⟨h1, h2, h3⟩ := calculateStrides_done sizeofT shape strides f hdim hlen _ _ _ hc
      refine ⟨h1, ?_⟩
      cases f with
      | true => rw [(h2 rfl).2.1]; simp [fortranStored]
      | false => rw [(h3 rfl).2.1]; simp [rowMajorStored]
  · intro count h hh
    have := (allocate_core newArray count).1
    simp only [DefaultArrayAllocator.toArrayAllocator] at hh
    constructor
    · intro hn
      subst hn
      exact this.mp hh
    · intro hc
      rw [this.mpr hc] at hh
      injection hh with hh
      exact hh.symm
  · intro count h hh
    simp only [DefaultArrayAllocator.toArrayAllocator] at hh
    obtain ⟨_, h2, h3⟩ := (allocate_core newArray count).2 h hh
    exact ⟨hnew _ _ h3, h2⟩

/-- State of the container after a completed `init`, for an allocator that
meets its contract: the given shape, `dim` strides, and a null pointer exactly
when the handle is empty, exactly when the element count is 0. -/
theorem init_contract (self : Array) (hC : self.allocator.Contract) (shape : List Nat)
    (f : Bool) (a : Array) (hd : shape.length < SIZE_MOD)
    (hs : self.storage.stridesBytes_.length = shape.length)
    (h : self.init shape.length shape f = some a) :
    a.allocator = self.allocator ∧ a.storage.shape_ = shape ∧
    a.storage.stridesBytes_.length = shape.length ∧
    (a.data = 0 ↔ shape.prod = 0) ∧ (a.handle = none ↔ shape.prod = 0) := by
  obtain ⟨hc1, hc2, hc3⟩ := hC
  unfold Array.init at h
  simp only [Option.bind_eq_some] at h
  obtain ⟨r, hr, handle, hh, hm⟩ := h
  obtain ⟨he, hl⟩ := hc1 shape self.storage.stridesBytes_ f r.1 r.2 hd hs hr
  have hiff := hc2 r.1 handle hh
  cases handle with
  | none =>
    have h0 : shape.prod = 0 := by rw [← he]; exact hiff.mp rfl
    simp only [Option.some.injEq, range_map_getD] at hm
    subst hm
    simp [Array.data, Array.getNull, hl, h0]
  | some hd2 =>
    have hne : shape.prod ≠ 0 := by
      rw [← he]
      intro h0
      have := hiff.mpr h0
      cases this
    have hp := (hc3 r.1 hd2 hh).1
    simp only [Option.some.injEq, range_map_getD] at hm
    subst hm
    simp [Array.data, hl, hne, hp]

theorem getLen_eq (vals : List Nat) : Array.getLen vals = vals := by
  induction vals with
  | nil => rfl
  | cons v vs ih => simp [Array.getLen, ih]

theorem prod_eq_zero_iff_exists (shape : List Nat) :
    shape.prod = 0 ↔ ∃ n ∈ shape, n = 0 := by
  rw [List.prod_eq_zero_iff]
  constructor
  · intro h; exact ⟨0, h, rfl⟩
  · rintro ⟨n, hn, rfl⟩; exact hn

/-- After a completed `init` of a container whose allocator meets its contract,
the storage pointer is null exactly when some extent is 0. -/
theorem init_null_iff (self : Array) (hC : self.allocator.Contract) (dim : Nat)
    (shape : List Nat) (f : Bool) (a : Array) (hd : dim < SIZE_MOD)
    (hs : self.storage.stridesBytes_.length = dim) (hshape : shape.length = dim)
    (h : self.init dim shape f = some a) :
    a.storage.shape_ = shape ∧
    (a.data = 0 ↔ ∃ n ∈ a.storage.shape_, n = 0) ∧ (a.data = 0 ↔ a.handle = none) ∧
    (a.data = 0 ↔ a.storage.shape_.prod = 0) := by
  subst hshape
  obtain ⟨_, h2, _, h4, h5⟩ := init_contract self hC shape f a hd hs h
  rw [h2, ← prod_eq_zero_iff_exists]
  exact ⟨rfl, h4, h4.trans h5.symm, h4⟩

theorem recreateFrom_init (self : Array) (dim : Nat) (orig : ArrayViewBase) (f : Bool)
    (a : Array) (h : self.recreateFrom dim orig f = some a) :
    self.init dim orig.shape_ f = some a := by
  unfold Array.recreateFrom at h
  simp only [Option.bind_eq_some, Option.map_eq_some'] at h
  obtain ⟨a2, h1, _, _, h3⟩ := h
  rw [h1, h3]

/-- C16: for a container produced by any constructor or `recreate` overload that
completes, with an allocator that meets its contract (a non-empty handle has a
non-null pointer, an empty handle is returned exactly for count 0, the count is
the product of the extents), the storage pointer `data ()` is null if and only
if at least one extent is 0, if and only if the handle is empty; in particular a
container with shape `(0, k)` has a null pointer and zero total elements.  The
default allocator meets the contract as soon as `new T [count]` does not return
a null address. -/
theorem container_data_null_iff (allocator : ArrayAllocator) (hC : allocator.Contract)
    (self : Array) (raw orig : ArrayViewBase) (dim : Nat) (shape vals : List Nat) (f : Bool)
    (a : Array) (hself : self.allocator = allocator) (hd : dim < SIZE_MOD)
    (hs : self.storage.stridesBytes_.length = dim) (hraw : raw.stridesBytes_.length = dim)
    (hshape : shape.length = dim) (hvals : vals.length = dim)
    (horig : orig.shape_.length = dim)
    (h : Array.construct allocator raw dim = some a ∨
      Array.constructShape allocator raw dim shape f = some a ∨
      Array.constructSizes allocator raw dim vals = some a ∨
      Array.constructFrom allocator raw dim orig f = some a ∨
      self.recreate dim = some a ∨ self.recreateShape dim shape f = some a ∨
      self.recreateSizes dim vals = some a ∨ self.recreateFrom dim orig f = some a) :
    (a.data = 0 ↔ ∃ n ∈ a.storage.shape_, n = 0) ∧ (a.data = 0 ↔ a.handle = none) ∧
    (a.data = 0 ↔ a.storage.shape_.prod = 0) ∧
    (∀ k, a.storage.shape_ = [0, k] →
      a.data = 0 ∧ a.handle = none ∧ a.storage.shape_.prod = 0) ∧
    (∀ sizeofT (newArray : Nat → Option Nat), (∀ c p, newArray c = some p → p ≠ 0) →
      (DefaultArrayAllocator.toArrayAllocator sizeofT newArray).Contract) := by
  have hz : (Array.zeros dim).length = dim := by simp [Array.zeros]
  have hg : (Array.getLen vals).length = dim := by rw [getLen_eq]; exact hvals
  have hCs : self.allocator.Contract := by rw [hself]; exact hC
  have key : (a.data = 0 ↔ ∃ n ∈ a.storage.shape_, n = 0) ∧ (a.data = 0 ↔ a.handle = none) ∧
      (a.data = 0 ↔ a.storage.shape_.prod = 0) := by
    rcases h with h | h | h | h | h | h | h | h
    · exact (init_null_iff (Array.uninitialised allocator raw) hC dim _ true a hd hraw hz h).2
    · exact (init_null_iff (Array.uninitialised allocator raw) hC dim _ f a hd hraw hshape h).2
    · exact (init_null_iff (Array.uninitialised allocator raw) hC dim _ true a hd hraw hg h).2
    · exact (init_null_iff (Array.uninitialised allocator raw) hC dim _ f a hd hraw horig
        (recreateFrom_init _ dim orig f a h)).2
    · exact (init_null_iff self hCs dim _ true a hd hs hz h).2
    · exact (init_null_iff self hCs dim _ f a hd hs hshape h).2
    · exact (init_null_iff self hCs dim _ true a hd hs hg h).2
    · exact (init_null_iff self hCs dim _ f a hd hs horig (recreateFrom_init _ dim orig f a h)).2
  refine ⟨key.1, key.2.1, key.2.2, ?_, default_contract⟩
  intro k hk
  have h0 : a.data = 0 := key.1.mpr ⟨0, by rw [hk]; exact List.mem_cons_self _ _, rfl⟩
  exact ⟨h0, key.2.1.mp h0, key.2.2.mp h0⟩

theorem container_data_null_iff_witness :
    Array.constructSizes (DefaultArrayAllocator.toArrayAllocator 4 (fun _ => some 4096))
        (ArrayViewBase.mk 0 [0, 0] [0, 0]) 2 [0, 5]
      = some (Array.mk (DefaultArrayAllocator.toArrayAllocator 4 (fun _ => some 4096)) none
          (ArrayViewBase.mk 0 [0, 5] [4, 0])) ∧
    ((Array.mk (DefaultArrayAllocator.toArrayAllocator 4 (fun _ => some 4096)) none
        (ArrayViewBase.mk 0 [0, 5] [4, 0])).data = 0
      ↔ ∃ n ∈ (Array.mk (DefaultArrayAllocator.toArrayAllocator 4 (fun _ => some 4096)) none
        (ArrayViewBase.mk 0 [0, 5] [4, 0])).storage.shape_, n = 0) :=
  ⟨init_default_empty 4 (fun _ => some 4096) _ 2 [0, 5] true [4, 0] [0, 1] rfl rfl (by decide),
    (container_data_null_iff (DefaultArrayAllocator.toArrayAllocator 4 (fun _ => some 4096))
      (default_contract 4 (fun _ => some 4096) (fun _ p hp => by
        injection hp with hp; omega))
      (Array.uninitialised (DefaultArrayAllocator.toArrayAllocator 4 (fun _ => some 4096))
        (ArrayViewBase.mk 0 [0, 0] [0, 0]))
      (ArrayViewBase.mk 0 [0, 0] [0, 0]) (ArrayViewBase.mk 0 [0, 5] [4, 0]) 2 [0, 5] [0, 5]
      true _ rfl (by decide) rfl rfl rfl rfl rfl
      (Or.inr (Or.inr (Or.inl (init_default_empty 4 (fun _ => some 4096) _ 2 [0, 5] true
        [4, 0] [0, 1] rfl rfl (by decide)))))).1⟩

/-- C17: a default-constructed container, and a container after the
argument-less `recreate ()`, is empty: with the default allocator the call
completes, every extent is 0, the storage pointer is null and the handle is
empty; with any allocator that meets its contract the same holds whenever the
call completes. -/
theorem container_default_empty (sizeofT : Nat) (newArray : Nat → Option Nat) (self : Array)
    (raw : ArrayViewBase) (dim : Nat)
    (hself : self.allocator = DefaultArrayAllocator.toArrayAllocator sizeofT newArray)
    (hsz : sizeofT < SIZE_MOD) (h1 : 1 ≤ dim) (hd : dim < SIZE_MOD)
    (hs : self.storage.stridesBytes_.length = dim) (hraw : raw.stridesBytes_.length = dim) :
    Array.construct (DefaultArrayAllocator.toArrayAllocator sizeofT newArray) raw dim
      = some (Array.mk (DefaultArrayAllocator.toArrayAllocator sizeofT newArray) none
          (ArrayViewBase.mk 0 (Array.zeros dim) (fortranStored sizeofT (Array.zeros dim)))) ∧
    self.recreate dim
      = some (Array.mk self.allocator none
          (ArrayViewBase.mk 0 (Array.zeros dim) (fortranStored sizeofT (Array.zeros dim)))) ∧
    (Array.zeros dim).length = dim ∧ (∀ n ∈ Array.zeros dim, n = 0) ∧
    (∀ (allocator : ArrayAllocator) (other a : Array), allocator.Contract →
      other.allocator = allocator → other.storage.stridesBytes_.length = dim →
      (Array.construct allocator raw dim = some a ∨ other.recreate dim = some a) →
      a.storage.shape_ = Array.zeros dim ∧ a.data = 0 ∧ a.handle = none) := by
  have hz : (Array.zeros dim).length = dim := by simp [Array.zeros]
  have hall : ∀ n ∈ Array.zeros dim, n = 0 := by
    intro n hn
    exact List.eq_of_mem_replicate hn
  have h0 : (Array.zeros dim).getD 0 0 = 0 := by
    rw [List.getD_eq_getElem _ 0 (by omega)]
    exact hall _ (List.getElem_mem _)
  have hchk : fortranChecks sizeofT (Array.zeros dim) := by
    apply fortranChecks_of_zero sizeofT (Array.zeros dim) 0 (by omega) h0
    intro k hk
    have hk0 : k = 0 := by omega
    subst hk0
    simpa using And.intro hsz one_lt_SIZE_MOD
  have hcalc : ∀ strides : List Int, strides.length = dim →
      DefaultArrayAllocator.calculateStrides sizeofT dim strides (Array.zeros dim) true
        = LoopResult.done 0 (fortranStored sizeofT (Array.zeros dim)) (List.range dim) := by
    intro strides hl
    have := (calculateStrides_fortran_cases sizeofT (Array.zeros dim) strides
      (by rw [hz]; exact hd) (by rw [hz]; exact hl)).1 hchk
    rw [shape_prod_eq_zero (Array.zeros dim) 0 (by omega) h0] at this
    rw [hz] at this
    exact this
  refine ⟨?_, ?_, hz, hall, ?_⟩
  · exact init_default_empty sizeofT newArray _ dim _ true _ _ rfl hz (hcalc _ hraw)
  · exact init_default_empty sizeofT newArray self dim _ true _ _ hself hz (hcalc _ hs)
  · intro allocator other a hC ho hos h
    have hp : (Array.zeros dim).prod = 0 :=
      shape_prod_eq_zero (Array.zeros dim) 0 (by omega) h0
    rcases h with h | h
    · obtain ⟨g1, _, g3, g4⟩ := init_null_iff (Array.uninitialised allocator raw) hC dim _
        true a hd hraw hz h
      have hd0 : a.data = 0 := g4.mpr (by rw [g1]; exact hp)
      exact ⟨g1, hd0, g3.mp hd0⟩
    · obtain ⟨g1, _, g3, g4⟩ := init_null_iff other (by rw [ho]; exact hC) dim _
        true a hd hos hz h
      have hd0 : a.data = 0 := g4.mpr (by rw [g1]; exact hp)
      exact ⟨g1, hd0, g3.mp hd0⟩

theorem container_default_empty_witness :
    Array.construct (DefaultArrayAllocator.toArrayAllocator 4 (fun _ => some 4096))
        (ArrayViewBase.mk 0 [7, 7] [9, 9]) 2
      = some (Array.mk (DefaultArrayAllocator.toArrayAllocator 4 (fun _ => some 4096)) none
          (ArrayViewBase.mk 0 (Array.zeros 2) (fortranStored 4 (Array.zeros 2)))) :=
  (container_default_empty 4 (fun _ => some 4096)
    (Array.uninitialised (DefaultArrayAllocator.toArrayAllocator 4 (fun _ => some 4096))
      (ArrayViewBase.mk 0 [7, 7] [9, 9]))
    (ArrayViewBase.mk 0 [7, 7] [9, 9]) 2 rfl (by decide) (by decide) (by decide) rfl rfl).1

/-! ## Transposition of rank-2 views -/

theorem rank2_lists (v : ArrayViewBase) (hv : v.WF) (hr : v.dimension = 2) :
    ∃ p a b s t, v = ArrayViewBase.mk p [a, b] [s, t] := by
  obtain ⟨_, _, hlen, _, _⟩ := hv
  unfold ArrayViewBase.dimension at hr
  rw [hr] at hlen
  obtain ⟨ptr, shape, strides⟩ := v
  simp only at hr hlen
  match shape, strides, hr, hlen with
  | [a, b], [s, t], _, _ => exact ⟨ptr, a, b, s, t, rfl⟩

/-- Shared content of the transposition claims: descriptor of `transposed (v)` and
the element it addresses. -/
theorem transposed_core (A : Bool) (v : ArrayViewBase) (hv : v.WF) (hr : v.dimension = 2) :
    transposed v = ArrayViewBase.mk v.ptr [v.size 1, v.size 0]
      [v.strideBytes 1, v.strideBytes 0] ∧
    (transposed v).WF ∧ transposed (transposed v) = v ∧
    (∀ i j, i < v.size 1 → j < v.size 0 →
      ∃ ptr, ArrayView.operatorCall A (transposed v) [Par.index i, Par.index j]
          = some (RetType.ref ptr) ∧
        ArrayView.operatorCall A v [Par.index j, Par.index i] = some (RetType.ref ptr)) := by
  obtain ⟨p, a, b, s, t, hveq⟩ := rank2_lists v hv hr
  subst hveq
  obtain ⟨hp, hpos, hlen, hshape, hstride⟩ := hv
  have ha := hshape a (by simp)
  have hb := hshape b (by simp)
  have hs := hstride s (by simp)
  have ht := hstride t (by simp)
  have htr : transposed (ArrayViewBase.mk p [a, b] [s, t]) = ArrayViewBase.mk p [b, a] [t, s] :=
    rfl
  have hWF : (ArrayViewBase.mk p [b, a] [t, s]).WF := by
    refine ⟨hp, by simp, by simp, ?_, ?_⟩
    · intro n hn
      simp only [List.mem_cons, List.mem_singleton, List.not_mem_nil, or_false] at hn
      rcases hn with h | h
      · rw [h]; exact hb
      · rw [h]; exact ha
    · intro x hx
      simp only [List.mem_cons, List.mem_singleton, List.not_mem_nil, or_false] at hx
      rcases hx with h | h
      · rw [h]; exact ht
      · rw [h]; exact hs
  rw [htr]
  refine ⟨rfl, hWF, rfl, ?_⟩
  intro i j hi hj
  have hi2 : i < b := hi
  have hj2 : j < a := hj
  have h1 := operatorCall_indices_core A (ArrayViewBase.mk p [b, a] [t, s]) [i, j] hWF.1
    hWF.2.2.1 hWF.2.2.2.1 (List.Forall₂.cons hi2 (List.Forall₂.cons hj2 List.Forall₂.nil))
  have h2 := operatorCall_indices_core A (ArrayViewBase.mk p [a, b] [s, t]) [j, i] hp hlen hshape
    (List.Forall₂.cons hj2 (List.Forall₂.cons hi2 List.Forall₂.nil))
  refine ⟨_, h1, ?_⟩
  rw [show [Par.index j, Par.index i] = List.map Par.index [j, i] from rfl, h2]
  congr 2
  apply toSizeT_congr
  congr 1
  simp only [offsetSum_cons]
  simp only [offsetSum, List.zipWith_nil_left, List.sum_nil]
  ring

/-- C19: for a rank-2 view `v`, `transposed (v)` has the base pointer of `v`,
extents `(extent_1, extent_0)` and strides `(stride_1, stride_0)`; for every
`i < extent_1` and `j < extent_0`, `transposed (v) (i, j)` refers to the same
element as `v (j, i)`; the function only builds a descriptor, so in any memory
both read the same value. -/
theorem transposed_spec (A : Bool) (v : ArrayViewBase) (hv : v.WF) (hr : v.dimension = 2) :
    (transposed v).ptr = v.ptr ∧ (transposed v).shape_ = [v.size 1, v.size 0] ∧
    (transposed v).stridesBytes_ = [v.strideBytes 1, v.strideBytes 0] ∧
    (∀ i j, i < v.size 1 → j < v.size 0 →
      ∃ ptr, ArrayView.operatorCall A (transposed v) [Par.index i, Par.index j]
          = some (RetType.ref ptr) ∧
        ArrayView.operatorCall A v [Par.index j, Par.index i] = some (RetType.ref ptr)) ∧
    (∀ (mem : Nat → Nat) i j, i < v.size 1 → j < v.size 0 →
      ArrayView.readAt mem A (transposed v) [i, j] = ArrayView.readAt mem A v [j, i]) := by
  obtain ⟨_, _, _, h4⟩ := transposed_core A v hv hr
  refine ⟨rfl, rfl, rfl, h4, ?_⟩
  intro mem i j hi hj
  obtain ⟨ptr, h1, h2⟩ := h4 i j hi hj
  unfold ArrayView.readAt
  rw [show List.map Par.index [i, j] = [Par.index i, Par.index j] from rfl,
    show List.map Par.index [j, i] = [Par.index j, Par.index i] from rfl, h1, h2]

theorem transposed_spec_witness :
    (transposed (ArrayViewBase.mk 1000 [2, 3] [4, 8])).shape_ = [3, 2] ∧
    ∃ ptr, ArrayView.operatorCall true (transposed (ArrayViewBase.mk 1000 [2, 3] [4, 8]))
        [Par.index 2, Par.index 1] = some (RetType.ref ptr) ∧
      ArrayView.operatorCall true (ArrayViewBase.mk 1000 [2, 3] [4, 8])
        [Par.index 1, Par.index 2] = some (RetType.ref ptr) :=
  ⟨by decide,
    (transposed_spec true (ArrayViewBase.mk 1000 [2, 3] [4, 8]) (by decide) (by decide)).2.2.2.1
      2 1 (by decide) (by decide)⟩

/-- C20: for a rank-2 view `v`, `transposed (transposed (v))` equals `v`: same
base pointer, shape and strides, hence the same result of every indexing or
slicing call and the same element at every index. -/
theorem transposed_transposed (A : Bool) (v : ArrayViewBase) (hv : v.WF)
    (hr : v.dimension = 2) :
    transposed (transposed v) = v ∧
    (transposed (transposed v)).ptr = v.ptr ∧
    (transposed (transposed v)).shape_ = v.shape_ ∧
    (transposed (transposed v)).stridesBytes_ = v.stridesBytes_ ∧
    (∀ pars, ArrayView.operatorCall A (transposed (transposed v)) pars
      = ArrayView.operatorCall A v pars) ∧
    (∀ (mem : Nat → Nat) idx, ArrayView.readAt mem A (transposed (transposed v)) idx
      = ArrayView.readAt mem A v idx) := by
  have h := (transposed_core A v hv hr).2.2.1
  rw [h]
  exact ⟨rfl, rfl, rfl, rfl, fun _ => rfl, fun _ _ => rfl⟩

theorem transposed_transposed_witness :
    transposed (transposed (ArrayViewBase.mk 1000 [2, 3] [4, -8]))
      = ArrayViewBase.mk 1000 [2, 3] [4, -8] :=
  (transposed_transposed true (ArrayViewBase.mk 1000 [2, 3] [4, -8]) (by decide)
    (by decide)).1

/-! ## Addressing of a freshly created container -/

theorem rowMajorStrides_cons (s n : Nat) (ns : List Nat) :
    rowMajorStrides s (n :: ns) = ((s * ns.prod : Nat) : Int) :: rowMajorStrides s ns := by
  unfold rowMajorStrides
  rw [List.length_cons, List.range_succ_eq_map, List.map_cons, List.map_map]
  rfl

theorem fortranStrides_cons (s n : Nat) (ns : List Nat) :
    fortranStrides s (n :: ns) = (s : Int) :: fortranStrides (s * n) ns := by
  unfold fortranStrides
  rw [List.length_cons, List.range_succ_eq_map, List.map_cons, List.map_map]
  simp only [List.take_zero, List.prod_nil, Nat.mul_one]
  congr 1
  apply List.map_congr_left
  intro k _
  simp [Function.comp, List.take_succ_cons, List.prod_cons, Nat.mul_assoc]

/-- Row-major strides address the row-major position times `sizeof (T)`. -/
theorem rowMajor_offset (s : Nat) (idx shape : List Nat) (h : InBounds idx shape) :
    offsetSum idx (rowMajorStrides s shape)
      = ((rowMajorIndex idx shape : Nat) : Int) * (s : Int) ∧
    rowMajorIndex idx shape < shape.prod := by
  unfold InBounds at h
  induction h with
  | nil => simp [offsetSum, rowMajorIndex, rowMajorStrides]
  | @cons i n is ns hin _ ih =>
    obtain ⟨ih1, ih2⟩ := ih
    rw [rowMajorStrides_cons, offsetSum_cons, ih1]
    refine ⟨?_, ?_⟩
    · simp only [rowMajorIndex]
      push_cast
      ring
    · simp only [rowMajorIndex, List.prod_cons]
      calc i * ns.prod + rowMajorIndex is ns < i * ns.prod + ns.prod := by omega
        _ = (i + 1) * ns.prod := by ring
        _ ≤ n * ns.prod := Nat.mul_le_mul_right _ hin

/-- Column-major strides address the column-major position times `sizeof (T)`. -/
theorem fortran_offset (idx shape : List Nat) (h : InBounds idx shape) : ∀ s : Nat,
    offsetSum idx (fortranStrides s shape)
      = ((fortranIndex idx shape : Nat) : Int) * (s : Int) ∧
    fortranIndex idx shape < shape.prod := by
  unfold InBounds at h
  induction h with
  | nil => intro s; simp [offsetSum, fortranIndex, fortranStrides]
  | @cons i n is ns hin _ ih =>
    intro s
    obtain ⟨ih1, ih2⟩ := ih (s * n)
    rw [fortranStrides_cons, offsetSum_cons, ih1]
    refine ⟨?_, ?_⟩
    · simp only [fortranIndex]
      push_cast
      ring
    · simp only [fortranIndex, List.prod_cons]
      calc i + n * fortranIndex is ns < n + n * fortranIndex is ns := by omega
        _ = n * (fortranIndex is ns + 1) := by ring
        _ ≤ n * ns.prod := Nat.mul_le_mul_left _ ih2

theorem mixed_radix_inj (P i a i2 b : Nat) (ha : a < P) (hb : b < P)
    (h : P * i + a = P * i2 + b) : i = i2 ∧ a = b := by
  have hP : 0 < P := by omega
  have h1 : (P * i + a) / P = i := by
    rw [Nat.mul_add_div hP, Nat.div_eq_of_lt ha, Nat.add_zero]
  have h2 : (P * i2 + b) / P = i2 := by
    rw [Nat.mul_add_div hP, Nat.div_eq_of_lt hb, Nat.add_zero]
  have hi : i = i2 := by rw [← h1, ← h2, h]
  subst hi
  exact ⟨rfl, Nat.add_left_cancel h⟩

theorem rowMajorIndex_inj (idx shape : List Nat) (h : InBounds idx shape) :
    ∀ idx2, InBounds idx2 shape → rowMajorIndex idx shape = rowMajorIndex idx2 shape →
      idx = idx2 := by
  unfold InBounds at h
  induction h with
  | nil =>
    intro idx2 h2 _
    unfold InBounds at h2
    cases h2
    rfl
  | @cons i n is ns hin his ih =>
    intro idx2 h2 he
    unfold InBounds at h2
    cases h2 with
    | @cons i2 _ is2 _ hin2 his2 =>
      simp only [rowMajorIndex] at he
      have b1 := (rowMajor_offset 1 is ns his).2
      have b2 := (rowMajor_offset 1 is2 ns his2).2
      rw [Nat.mul_comm i, Nat.mul_comm i2] at he
      obtain ⟨e1, e2⟩ := mixed_radix_inj _ _ _ _ _ b1 b2 he
      rw [e1, ih is2 his2 e2]

theorem fortranIndex_inj (idx shape : List Nat) (h : InBounds idx shape) :
    ∀ idx2, InBounds idx2 shape → fortranIndex idx shape = fortranIndex idx2 shape →
      idx = idx2 := by
  unfold InBounds at h
  induction h with
  | nil =>
    intro idx2 h2 _
    unfold InBounds at h2
    cases h2
    rfl
  | @cons i n is ns hin his ih =>
    intro idx2 h2 he
    unfold InBounds at h2
    cases h2 with
    | @cons i2 _ is2 _ hin2 his2 =>
      simp only [fortranIndex] at he
      rw [Nat.add_comm i, Nat.add_comm i2] at he
      obtain ⟨e1, e2⟩ := mixed_radix_inj _ _ _ _ _ hin hin2 he
      rw [e2, ih is2 his2 e1]

theorem rowMajorIndex_surj (shape : List Nat) : ∀ m, m < shape.prod →
    ∃ idx, InBounds idx shape ∧ rowMajorIndex idx shape = m := by
  induction shape with
  | nil =>
    intro m hm
    simp only [List.prod_nil, Nat.lt_one_iff] at hm
    exact ⟨[], List.Forall₂.nil, by simp [rowMajorIndex, hm]⟩
  | cons n ns ih =>
    intro m hm
    rw [List.prod_cons] at hm
    have hP : 0 < ns.prod := by
      rcases Nat.eq_zero_or_pos ns.prod with h0 | h0
      · rw [h0, Nat.mul_zero] at hm
        omega
      · exact h0
    obtain ⟨is, his, he⟩ := ih (m % ns.prod) (Nat.mod_lt _ hP)
    refine ⟨(m / ns.prod) :: is, List.Forall₂.cons ?_ his, ?_⟩
    · exact Nat.div_lt_of_lt_mul (by rwa [Nat.mul_comm] at hm)
    · simp only [rowMajorIndex, he]
      exact Nat.div_add_mod' m ns.prod

theorem fortranIndex_surj (shape : List Nat) : ∀ m, m < shape.prod →
    ∃ idx, InBounds idx shape ∧ fortranIndex idx shape = m := by
  induction shape with
  | nil =>
    intro m hm
    simp only [List.prod_nil, Nat.lt_one_iff] at hm
    exact ⟨[], List.Forall₂.nil, by simp [fortranIndex, hm]⟩
  | cons n ns ih =>
    intro m hm
    rw [List.prod_cons] at hm
    have hn : 0 < n := by
      rcases Nat.eq_zero_or_pos n with h0 | h0
      · rw [h0, Nat.zero_mul] at hm
        omega
      · exact h0
    obtain ⟨is, his, he⟩ := ih (m / n) (Nat.div_lt_of_lt_mul hm)
    refine ⟨(m % n) :: is, List.Forall₂.cons (Nat.mod_lt _ hn) his, ?_⟩
    simp only [fortranIndex, he]
    exact Nat.mod_add_div m n

/-- A stride list that addresses `position * sizeof (T)` for a bijective position
function maps the in-bounds index tuples bijectively onto the multiples of
`sizeof (T)` below `count * sizeof (T)`. -/
theorem offsets_bijOn (s : Nat) (hs : 0 < s) (shape : List Nat) (strides : List Int)
    (index : List Nat → List Nat → Nat)
    (hoff : ∀ idx, InBounds idx shape →
      offsetSum idx strides = ((index idx shape : Nat) : Int) * (s : Int) ∧
      index idx shape < shape.prod)
    (hinj : ∀ idx, InBounds idx shape → ∀ idx2, InBounds idx2 shape →
      index idx shape = index idx2 shape → idx = idx2)
    (hsurj : ∀ m, m < shape.prod → ∃ idx, InBounds idx shape ∧ index idx shape = m) :
    Set.BijOn (fun idx => offsetSum idx strides) {idx | InBounds idx shape}
      {z : Int | ∃ m : Nat, m < shape.prod ∧ z = (m : Int) * (s : Int)} := by
  refine ⟨?_, ?_, ?_⟩
  · intro idx hidx
    exact ⟨index idx shape, (hoff idx hidx).2, (hoff idx hidx).1⟩
  · intro idx hidx idx2 hidx2 he
    simp only at he
    rw [(hoff idx hidx).1, (hoff idx2 hidx2).1] at he
    have hs2 : (s : Int) ≠ 0 := by exact_mod_cast hs.ne'
    have h3 := mul_right_cancel₀ hs2 he
    exact hinj idx hidx idx2 hidx2 (by exact_mod_cast h3)
  · rintro z ⟨m, hm, rfl⟩
    obtain ⟨idx, hidx, he⟩ := hsurj m hm
    refine ⟨idx, hidx, ?_⟩
    simp only
    rw [(hoff idx hidx).1, he]

theorem fortranStored_eq_of_fits (sizeofT : Nat) (shape : List Nat)
    (h : ∀ k, k < shape.length → sizeofT * (shape.take k).prod < PTRDIFF_MOD) :
    fortranStored sizeofT shape = fortranStrides sizeofT shape := by
  unfold fortranStored fortranStrides
  apply List.map_congr_left
  intro k hk
  exact toPtrdiff_of_lt (h k (List.mem_range.mp hk))

theorem rowMajorStored_eq_of_fits (sizeofT : Nat) (shape : List Nat)
    (h : ∀ k, k < shape.length → sizeofT * (shape.drop (k + 1)).prod < PTRDIFF_MOD) :
    rowMajorStored sizeofT shape = rowMajorStrides sizeofT shape := by
  unfold rowMajorStored rowMajorStrides
  apply List.map_congr_left
  intro k hk
  exact toPtrdiff_of_lt (h k (List.mem_range.mp hk))

/-- What `Array::init` with the default allocator leaves in the container when it
completes. -/
theorem init_default_storage (sizeofT : Nat) (newArray : Nat → Option Nat) (self : Array)
    (shape : List Nat) (f : Bool) (a : Array)
    (hA : self.allocator = DefaultArrayAllocator.toArrayAllocator sizeofT newArray)
    (hd : shape.length < SIZE_MOD) (hs : self.storage.stridesBytes_.length = shape.length)
    (h : self.init shape.length shape f = some a) :
    a.storage.shape_ = shape ∧
    a.storage.stridesBytes_
      = (if f then fortranStored sizeofT shape else rowMajorStored sizeofT shape) ∧
    ((shape.prod = 0 ∧ a.handle = none ∧ a.storage.ptr = 0) ∨
      (shape.prod ≠ 0 ∧ a.handle = some (Handle.mk a.storage.ptr shape.prod) ∧
        newArray shape.prod = some a.storage.ptr)) := by
  obtain ⟨hdone, hfail⟩ := init_default sizeofT newArray self shape.length shape f hA
  cases hc : DefaultArrayAllocator.calculateStrides sizeofT shape.length
      self.storage.stridesBytes_ shape f with
  | outOfFuel => exact absurd hc (calculateStrides_ne_outOfFuel sizeofT shape _ f hd hs)
  | assertionFailed =>
    rw [hfail hc] at h
    cases h
  | done e st vis =>
    obtain ⟨he, hf1, hf2⟩ := calculateStrides_done sizeofT shape _ f hd hs e st vis hc
    have hst : st = (if f then fortranStored sizeofT shape else rowMajorStored sizeofT shape) := by
      cases f with
      | true => simpa using (hf1 rfl).2.1
      | false => simpa using (hf2 rfl).2.1
    obtain ⟨h0, h1⟩ := hdone e st vis hc
    by_cases hz : e = 0
    · rw [h0 hz, range_map_getD] at h
      injection h with h
      subst h
      exact ⟨rfl, hst, Or.inl ⟨by rw [← he]; exact hz, rfl, rfl⟩⟩
    · rw [h1 hz, range_map_getD] at h
      cases hn : newArray e with
      | none =>
        rw [hn] at h
        cases h
      | some p =>
        rw [hn] at h
        simp only [Option.map_some'] at h
        injection h with h
        subst h
        subst he
        exact ⟨rfl, hst, Or.inr ⟨hz, rfl, hn⟩⟩

/-- C18: a container freshly created by the default allocator (`Array::init`
completed) whose strides do not overflow `ptrdiff_t`, under either ordering: the
map from in-bounds index tuples to byte offsets `sum_k i_k * stride_k` is a
bijection onto `0, sizeof (T), ..., (count - 1) * sizeof (T)`, with `count` the
product of the extents, and the storage handle is the block of `count` elements
at the base pointer (empty when `count` is 0). -/
theorem container_offsets_bijective (sizeofT : Nat) (newArray : Nat → Option Nat)
    (self : Array) (shape : List Nat) (f : Bool) (a : Array)
    (hA : self.allocator = DefaultArrayAllocator.toArrayAllocator sizeofT newArray)
    (hsz : 0 < sizeofT) (hd : shape.length < SIZE_MOD)
    (hs : self.storage.stridesBytes_.length = shape.length)
    (hfit : ∀ k, k < shape.length →
      sizeofT * (if f then (shape.take k).prod else (shape.drop (k + 1)).prod) < PTRDIFF_MOD)
    (h : self.init shape.length shape f = some a) :
    a.storage.shape_ = shape ∧
    Set.BijOn (fun idx => offsetSum idx a.storage.stridesBytes_)
      {idx | InBounds idx a.storage.shape_}
      {z : Int | ∃ m : Nat, m < shape.prod ∧ z = (m : Int) * (sizeofT : Int)} ∧
    ((shape.prod = 0 ∧ a.handle = none) ∨
      (shape.prod ≠ 0 ∧ a.handle = some (Handle.mk a.storage.ptr shape.prod))) := by
  obtain ⟨h1, h2, h3⟩ := init_default_storage sizeofT newArray self shape f a hA hd hs h
  refine ⟨h1, ?_, ?_⟩
  · rw [h1, h2]
    cases f with
    | true =>
      simp only [if_true] at hfit ⊢
      rw [fortranStored_eq_of_fits sizeofT shape hfit]
      exact offsets_bijOn sizeofT hsz shape _ fortranIndex
        (fun idx hidx => fortran_offset idx shape hidx sizeofT)
        (fun idx hidx => fortranIndex_inj idx shape hidx) (fortranIndex_surj shape)
    | false =>
      simp only [Bool.false_eq_true, if_false] at hfit ⊢
      rw [rowMajorStored_eq_of_fits sizeofT shape hfit]
      exact offsets_bijOn sizeofT hsz shape _ rowMajorIndex
        (fun idx hidx => rowMajor_offset sizeofT idx shape hidx)
        (fun idx hidx => rowMajorIndex_inj idx shape hidx) (rowMajorIndex_surj shape)
  · rcases h3 with ⟨a1, a2, _⟩ | ⟨a1, a2, _⟩
    · exact Or.inl ⟨a1, a2⟩
    · exact Or.inr ⟨a1, a2⟩


theorem container_offsets_bijective_witness :
    (Array.uninitialised (DefaultArrayAllocator.toArrayAllocator 4 (fun _ => some 4096))
        (ArrayViewBase.mk 0 [0, 0] [0, 0])).init 2 [2, 3] false
      = some (Array.mk (DefaultArrayAllocator.toArrayAllocator 4 (fun _ => some 4096))
          (some (Handle.mk 4096 6)) (ArrayViewBase.mk 4096 [2, 3] [12, 4])) ∧
    Set.BijOn (fun idx => offsetSum idx [12, 4]) {idx | InBounds idx [2, 3]}
      {z : Int | ∃ m : Nat, m < [2, 3].prod ∧ z = (m : Int) * ((4 : Nat) : Int)} :=
  ⟨((init_default 4 (fun _ => some 4096) _ 2 [2, 3] false rfl).1 6 [12, 4] [1, 0]
      (by decide)).2 (by decide),
    (container_offsets_bijective 4 (fun _ => some 4096)
      (Array.uninitialised (DefaultArrayAllocator.toArrayAllocator 4 (fun _ => some 4096))
        (ArrayViewBase.mk 0 [0, 0] [0, 0]))
      [2, 3] false
      (Array.mk (DefaultArrayAllocator.toArrayAllocator 4 (fun _ => some 4096))
        (some (Handle.mk 4096 6)) (ArrayViewBase.mk 4096 [2, 3] [12, 4]))
      rfl (by decide) (by decide) rfl (by decide)
      (((init_default 4 (fun _ => some 4096) _ 2 [2, 3] false rfl).1 6 [12, 4] [1, 0]
        (by decide)).2 (by decide))).2.1⟩

/-! ## Counted loops -/

theorem addSize_succ {i : Nat} (h : i + 1 < SIZE_MOD) : addSize i 1 = i + 1 :=
  Nat.mod_eq_of_lt h

/-- A loop whose body always completes runs the body for `i, i + 1, ..., size - 1`
and completes. -/
theorem forLoop_returned {σ : Type} (size : Nat) (hsize : size < SIZE_MOD)
    (body : Nat → σ → Outcome σ) (g : Nat → σ → σ)
    (hbody : ∀ i s, i < size → body i s = Outcome.returned (g i s)) :
    ∀ n i s fuel, i + n = size → n < fuel →
      forLoop size body fuel i s
        = Outcome.returned ((List.range' i n).foldl (fun s i => g i s) s) := by
  intro n
  induction n with
  | zero =>
    intro i s fuel hi hf
    obtain ⟨f, rfl⟩ : ∃ f, fuel = f + 1 := ⟨fuel - 1, by omega⟩
    unfold forLoop
    rw [if_neg (by omega)]
    rfl
  | succ n ih =>
    intro i s fuel hi hf
    obtain ⟨f, rfl⟩ : ∃ f, fuel = f + 1 := ⟨fuel - 1, by omega⟩
    unfold forLoop
    rw [if_pos (by omega), hbody i s (by omega)]
    simp only
    rw [addSize_succ (by omega), ih (i + 1) (g i s) f (by omega) (by omega)]
    rfl

theorem forLoop_returned_range {σ : Type} (size : Nat) (hsize : size < SIZE_MOD)
    (body : Nat → σ → Outcome σ) (g : Nat → σ → σ)
    (hbody : ∀ i s, i < size → body i s = Outcome.returned (g i s)) (s : σ) :
    forLoop size body (size + 1) 0 s
      = Outcome.returned ((List.range size).foldl (fun s i => g i s) s) := by
  rw [forLoop_returned size hsize body g hbody size 0 s (size + 1) (by omega) (by omega),
    List.range_eq_range']

/-- A loop whose body, under an invariant, either completes and re-establishes
the invariant or raises the assertion: the loop completes when every remaining
iteration is accepted, and raises the assertion otherwise. -/
theorem forLoop_cases {σ : Type} (size : Nat) (hsize : size < SIZE_MOD)
    (body : Nat → σ → Outcome σ) (Inv : Nat → σ → Prop) (ok : Nat → Prop)
    (hok : ∀ i s, i < size → Inv i s → ok i →
      ∃ s2, body i s = Outcome.returned s2 ∧ Inv (i + 1) s2)
    (hfail : ∀ i s, i < size → Inv i s → ¬ ok i → body i s = Outcome.assertionFailed s) :
    ∀ n i s fuel, i + n = size → n < fuel → Inv i s →
      ((∀ j, i ≤ j → j < size → ok j) →
        ∃ s2, forLoop size body fuel i s = Outcome.returned s2 ∧ Inv size s2) ∧
      (¬ (∀ j, i ≤ j → j < size → ok j) →
        ∃ s2, forLoop size body fuel i s = Outcome.assertionFailed s2) := by
  intro n
  induction n with
  | zero =>
    intro i s fuel hi hf hinv
    obtain ⟨f, rfl⟩ : ∃ f, fuel = f + 1 := ⟨fuel - 1, by omega⟩
    have his : i = size := by omega
    subst his
    constructor
    · intro _
      refine ⟨s, ?_, hinv⟩
      unfold forLoop
      rw [if_neg (by omega)]
    · intro h
      exact absurd (fun j h1 h2 => absurd h2 (by omega)) h
  | succ n ih =>
    intro i s fuel hi hf hinv
    obtain ⟨f, rfl⟩ : ∃ f, fuel = f + 1 := ⟨fuel - 1, by omega⟩
    have hlt : i < size := by omega
    by_cases hoki : ok i
    · obtain ⟨s2, hb, hinv2⟩ := hok i s hlt hinv hoki
      obtain ⟨ih1, ih2⟩ := ih (i + 1) s2 f (by omega) (by omega) hinv2
      have hstep : forLoop size body (f + 1) i s = forLoop size body f (i + 1) s2 := by
        conv_lhs => unfold forLoop
        rw [if_pos hlt, hb]
        simp only
        rw [addSize_succ (by omega)]
      rw [hstep]
      constructor
      · intro hall
        exact ih1 (fun j h1 h2 => hall j (by omega) h2)
      · intro hnot
        apply ih2
        intro hall
        apply hnot
        intro j h1 h2
        rcases Nat.eq_or_lt_of_le h1 with h3 | h3
        · rw [← h3]; exact hoki
        · exact hall j h3 h2
    · have hb := hfail i s hlt hinv hoki
      constructor
      · intro hall
        exact absurd (hall i (le_refl i) hlt) hoki
      · intro _
        refine ⟨s, ?_⟩
        unfold forLoop
        rw [if_pos hlt, hb]

/-! ## Reordering of dimensions -/

theorem toSizeT_toPtrdiff (n : Nat) : toSizeT (toPtrdiff n) = n % SIZE_MOD := by
  unfold toPtrdiff toSizeT
  rw [SIZE_MOD_eq, PTRDIFF_MOD_eq]
  split <;> omega

theorem toSizeT_eq_iff {a b : Int} :
    toSizeT a = toSizeT b ↔ a % (SIZE_MOD : Int) = b % (SIZE_MOD : Int) := by
  constructor
  · intro h
    rw [← toSizeT_cast, ← toSizeT_cast, h]
  · exact toSizeT_congr

theorem toSizeT_add_congr {a b : Int} (h : toSizeT a = toSizeT b) (x y : Int) :
    toSizeT (x + a + y) = toSizeT (x + b + y) := by
  rw [toSizeT_eq_iff] at h ⊢
  rw [Int.add_emod, Int.add_emod x, h, ← Int.add_emod x, ← Int.add_emod]

theorem toSizeT_negPtrdiff (s : Int) : toSizeT (negPtrdiff s) = toSizeT (-s) := by
  unfold negPtrdiff
  rw [toSizeT_toPtrdiff, Nat.mod_eq_of_lt (toSizeT_lt _)]

theorem negPtrdiff_eq_neg {s : Int} (h1 : -(PTRDIFF_MOD : Int) < s)
    (h2 : s < (PTRDIFF_MOD : Int)) : negPtrdiff s = -s := by
  unfold negPtrdiff toPtrdiff toSizeT
  rw [SIZE_MOD_eq, PTRDIFF_MOD_eq] at *
  omega

theorem negPtrdiff_negPtrdiff {s : Int} (h1 : -(PTRDIFF_MOD : Int) ≤ s)
    (h2 : s < (PTRDIFF_MOD : Int)) : negPtrdiff (negPtrdiff s) = s := by
  unfold negPtrdiff toPtrdiff toSizeT
  rw [SIZE_MOD_eq, PTRDIFF_MOD_eq] at *
  omega

theorem negPtrdiff_range (s : Int) :
    -(PTRDIFF_MOD : Int) ≤ negPtrdiff s ∧ negPtrdiff s < (PTRDIFF_MOD : Int) := by
  unfold negPtrdiff toPtrdiff toSizeT
  rw [SIZE_MOD_eq, PTRDIFF_MOD_eq] at *
  omega

/-- The assertion `val > 0 && (uint32_t) val <= dim` on the absolute value that
`reorderDimensions` computes in `int32_t`, and the axis it then uses. -/
theorem reorder_val (d : Int) (R : Nat) (hd1 : -2147483648 ≤ d) (hd2 : d < 2147483648)
    (hR : R < 2147483648) :
    (((if decide (d < 0) = true then toInt32 (-d) else d) > 0 ∧
      toUInt32 (if decide (d < 0) = true then toInt32 (-d) else d) ≤ R)
      ↔ (d ≠ 0 ∧ d.natAbs ≤ R)) ∧
    ((d ≠ 0 ∧ d.natAbs ≤ R) →
      ((if decide (d < 0) = true then toInt32 (-d) else d) - 1).toNat = axisOf d ∧
      axisOf d < R) := by
  unfold toInt32 toUInt32 axisOf
  by_cases hneg : d < 0
  · simp only [hneg, decide_True, if_true]
    omega
  · simp only [hneg, decide_False, Bool.false_eq_true, if_false]
    omega

theorem take_succ_getD {β : Type} (l : List β) (k : Nat) (d : β) (h : k < l.length) :
    l.take (k + 1) = l.take k ++ [l.getD k d] := by
  rw [List.take_succ, List.getElem?_eq_getElem h, List.getD_eq_getElem _ _ h]
  rfl

theorem getD_set_bool (l : List Bool) (i k : Nat) (h : i < l.length) :
    (l.set i true).getD k false = true ↔ (k = i ∨ l.getD k false = true) := by
  by_cases hki : i = k
  · subst hki
    simp [List.getD_eq_getElem?_getD, List.getElem?_set, h]
  · have hne : k ≠ i := fun h => hki h.symm
    simp [List.getD_eq_getElem?_getD, List.getElem?_set, hki, hne]

theorem getD_mem_of_lt (dims : List Int) (k : Nat) (h : k < dims.length) :
    dims.getD k 0 ∈ dims := by
  rw [List.getD_eq_getElem _ _ h]
  exact List.getElem_mem h

theorem reorderOffset_append (view : ArrayViewBase) (l : List Int) (d : Int) :
    reorderOffset view (l ++ [d]) = reorderOffset view l +
      (if d < 0 ∧ view.size (axisOf d) ≠ 0 then
        ((view.size (axisOf d) : Int) - 1) * view.strideBytes (axisOf d) else 0) := by
  unfold reorderOffset
  rw [List.map_append, List.sum_append, List.map_cons, List.map_nil, List.sum_cons,
    List.sum_nil, add_zero]

theorem reorder_step_ok (view : ArrayViewBase) (dims : List Int) (k : Nat) (st : ReorderState)
    (hR : view.dimension < 2147483648) (hsh : ∀ n ∈ view.shape_, n < SIZE_MOD)
    (hd : DimsInt32 dims) (hlen : dims.length = view.dimension) (hk : k < view.dimension)
    (hinv : ReorderInv view dims k st) (hok : EntryOK view.dimension dims k) :
    ∃ s2, reorderDimensionsBody view.dimension view dims k st = Outcome.returned s2 ∧
      ReorderInv view dims (k + 1) s2 := by
  obtain ⟨hdone, hmark, hshape, hstr, hoff⟩ := hinv
  obtain ⟨hentry, hfresh⟩ := hok
  have hmem := getD_mem_of_lt dims k (by omega)
  obtain ⟨hd1, hd2⟩ := hd _ hmem
  obtain ⟨hv1, hv2⟩ := reorder_val (dims.getD k 0) view.dimension hd1 hd2 hR
  obtain ⟨hax, haxlt⟩ := hv2 hentry
  have hnotdone : st.done.getD (axisOf (dims.getD k 0)) false = false := by
    rw [← Bool.not_eq_true]
    intro h
    exact hfresh ((hmark _).mp h)
  have htake := take_succ_getD dims k 0 (by omega)
  unfold reorderDimensionsBody
  simp only []
  rw [if_pos (hv1.mpr hentry), hax, if_pos hnotdone]
  have hmark2 : ∀ a, (st.done.set (axisOf (dims.getD k 0)) true).getD a false = true
      ↔ a ∈ (dims.take (k + 1)).map axisOf := by
    intro a
    rw [getD_set_bool _ _ _ (by omega), htake, List.map_append, List.mem_append, hmark a]
    simp only [List.map_cons, List.map_nil, List.mem_singleton]
    tauto
  by_cases hneg : dims.getD k 0 < 0
  · have hdec : decide (dims.getD k 0 < 0) = true := decide_eq_true hneg
    rw [hdec, if_neg (by decide)]
    refine ⟨_, rfl, ?_, hmark2, ?_, ?_, ?_⟩
    · simp [hdone]
    · simp only [hshape, htake, reorderShape, List.map_append, List.map_cons, List.map_nil,
        ArrayViewBase.size]
    · simp only [hstr, htake, reorderStored, List.map_append, List.map_cons, List.map_nil,
        ArrayViewBase.strideBytes, hneg, if_true]
    · rw [htake, reorderOffset_append]
      simp only [hneg, true_and, ArrayViewBase.size, ArrayViewBase.strideBytes]
      by_cases hn : view.shape_.getD (axisOf (dims.getD k 0)) 0 = 0
      · rw [if_neg (by rw [ne_eq, not_not]; exact hn), if_neg (by rw [ne_eq, not_not]; exact hn),
          add_zero]
        exact hoff
      · have hnlt : view.shape_.getD (axisOf (dims.getD k 0)) 0 < SIZE_MOD := by
          apply hsh
          rw [List.getD_eq_getElem _ _ (by unfold ArrayViewBase.dimension at haxlt; omega)]
          exact List.getElem_mem _
        rw [if_pos hn, if_pos hn]
        rw [toSizeT_toPtrdiff, subSize_of_le (by omega) hnlt]
        have h1 : addSize (toSizeT st.offset)
            (mulSize (view.shape_.getD (axisOf (dims.getD k 0)) 0 - 1)
              (toSizeT (view.stridesBytes_.getD (axisOf (dims.getD k 0)) 0)))
            = toSizeT (st.offset + ((view.shape_.getD (axisOf (dims.getD k 0)) 0 - 1 : Nat) : Int)
              * view.stridesBytes_.getD (axisOf (dims.getD k 0)) 0) :=
          ptrAdd_toSizeT_mulSize _ _ _
        rw [h1, Nat.mod_eq_of_lt (toSizeT_lt _)]
        have h2 : ((view.shape_.getD (axisOf (dims.getD k 0)) 0 - 1 : Nat) : Int)
            = (view.shape_.getD (axisOf (dims.getD k 0)) 0 : Int) - 1 := by omega
        rw [h2]
        have h3 := toSizeT_add_congr hoff 0
          (((view.shape_.getD (axisOf (dims.getD k 0)) 0 : Int) - 1)
            * view.stridesBytes_.getD (axisOf (dims.getD k 0)) 0)
        rw [zero_add, zero_add] at h3
        exact h3
  · have hdec : decide (dims.getD k 0 < 0) = false := decide_eq_false hneg
    rw [hdec, if_pos rfl]
    refine ⟨_, rfl, ?_, hmark2, ?_, ?_, ?_⟩
    · simp [hdone]
    · simp only [hshape, htake, reorderShape, List.map_append, List.map_cons, List.map_nil,
        ArrayViewBase.size]
    · simp only [hstr, htake, reorderStored, List.map_append, List.map_cons, List.map_nil,
        ArrayViewBase.strideBytes, hneg, if_false]
    · rw [htake, reorderOffset_append, if_neg (fun h => hneg h.1), add_zero]
      exact hoff

theorem reorder_step_fail (view : ArrayViewBase) (dims : List Int) (k : Nat)
    (st : ReorderState) (hR : view.dimension < 2147483648)
    (hd : DimsInt32 dims) (hlen : dims.length = view.dimension) (hk : k < view.dimension)
    (hinv : ReorderInv view dims k st) (hok : ¬ EntryOK view.dimension dims k) :
    reorderDimensionsBody view.dimension view dims k st = Outcome.assertionFailed st := by
  obtain ⟨hdone, hmark, hshape, hstr, hoff⟩ := hinv
  have hmem := getD_mem_of_lt dims k (by omega)
  obtain ⟨hd1, hd2⟩ := hd _ hmem
  obtain ⟨hv1, hv2⟩ := reorder_val (dims.getD k 0) view.dimension hd1 hd2 hR
  unfold reorderDimensionsBody
  simp only []
  by_cases hentry : dims.getD k 0 ≠ 0 ∧ (dims.getD k 0).natAbs ≤ view.dimension
  · obtain ⟨hax, haxlt⟩ := hv2 hentry
    have hdoneTrue : st.done.getD (axisOf (dims.getD k 0)) false = true := by
      rw [hmark]
      by_contra hfresh
      exact hok ⟨hentry, hfresh⟩
    rw [if_pos (hv1.mpr hentry), hax, if_neg (by rw [hdoneTrue]; decide)]
  · rw [if_neg (fun h => hentry (hv1.mp h))]

theorem nodup_natAbs_iff (dims : List Int) :
    (dims.map Int.natAbs).Nodup ↔
      ∀ i j, i < j → j < dims.length →
        (dims.getD i 0).natAbs ≠ (dims.getD j 0).natAbs := by
  unfold List.Nodup
  rw [List.pairwise_iff_getElem]
  constructor
  · intro h i j hij hj
    have h2 := h i j (by simp; omega) (by simpa using hj) hij
    rw [List.getElem_map, List.getElem_map] at h2
    rwa [List.getD_eq_getElem _ _ (by omega), List.getD_eq_getElem _ _ hj]
  · intro h i j hi hj hij
    rw [List.length_map] at hi hj
    have h2 := h i j hij hj
    rw [List.getD_eq_getElem _ _ hi, List.getD_eq_getElem _ _ hj] at h2
    rwa [List.getElem_map, List.getElem_map]

theorem mem_take_map_axisOf (dims : List Int) (k a : Nat) (hk : k ≤ dims.length) :
    a ∈ (dims.take k).map axisOf ↔ ∃ i, i < k ∧ axisOf (dims.getD i 0) = a := by
  rw [List.mem_map]
  constructor
  · rintro ⟨d, hd, rfl⟩
    rw [List.mem_take_iff_getElem] at hd
    obtain ⟨i, hi, rfl⟩ := hd
    have hi2 : i < k ∧ i < dims.length := by
      rw [Nat.lt_min] at hi
      exact hi
    exact ⟨i, hi2.1, by rw [List.getD_eq_getElem _ _ hi2.2]⟩
  · rintro ⟨i, hi, rfl⟩
    refine ⟨dims.getD i 0, ?_, rfl⟩
    rw [List.mem_take_iff_getElem]
    have hil : i < dims.length := by omega
    exact ⟨i, by rw [Nat.lt_min]; exact ⟨hi, hil⟩, by rw [List.getD_eq_getElem _ _ hil]⟩

theorem axisOf_eq_iff {d e : Int} (hd : d ≠ 0) (he : e ≠ 0) :
    axisOf d = axisOf e ↔ d.natAbs = e.natAbs := by
  unfold axisOf
  omega

/-- Every entry passes the assertions exactly when the list is a valid signed
axis list. -/
theorem entryOK_iff_valid (R : Nat) (dims : List Int) (hlen : dims.length = R) :
    (∀ j, j < R → EntryOK R dims j) ↔ ValidDims R dims := by
  constructor
  · intro h
    refine ⟨hlen, ?_, ?_⟩
    · intro d hd
      rw [List.mem_iff_getElem] at hd
      obtain ⟨j, hj, rfl⟩ := hd
      have := (h j (by omega)).1
      rwa [List.getD_eq_getElem _ _ hj] at this
    · rw [nodup_natAbs_iff]
      intro i j hij hj heq
      have hj2 := h j (by omega)
      have hi2 := h i (by omega)
      apply hj2.2
      rw [mem_take_map_axisOf dims j _ (by omega)]
      exact ⟨i, hij, (axisOf_eq_iff hi2.1.1 hj2.1.1).mpr heq⟩
  · rintro ⟨_, hentry, hnodup⟩ j hj
    have hmem : ∀ i, i < R → dims.getD i 0 ≠ 0 ∧ (dims.getD i 0).natAbs ≤ R :=
      fun i hi => hentry _ (getD_mem_of_lt dims i (by omega))
    refine ⟨hmem j hj, ?_⟩
    rw [mem_take_map_axisOf dims j _ (by omega)]
    rintro ⟨i, hij, heq⟩
    rw [nodup_natAbs_iff] at hnodup
    exact hnodup i j hij (by omega)
      ((axisOf_eq_iff (hmem i (by omega)).1 (hmem j hj).1).mp heq)

theorem reorderInv_zero (view : ArrayViewBase) (dims : List Int) :
    ReorderInv view dims 0
      (ReorderState.mk (List.replicate view.dimension false) [] [] 0) := by
  refine ⟨by simp, ?_, rfl, rfl, rfl⟩
  intro a
  simp only [List.take_zero, List.map_nil, List.not_mem_nil, iff_false, Bool.not_eq_true]
  by_cases ha : a < view.dimension
  · rw [List.getD_eq_getElem _ _ (by simpa using ha)]
    simp
  · rw [List.getD_eq_default _ _ (by simpa using ha)]

/-- The result of `reorderDimensions` on a list of the right length: the
reordered view when every entry passes the assertions, the fatal assertion
otherwise. -/
theorem reorder_loop_result (view : ArrayViewBase) (dims : List Int)
    (hR : view.dimension < 2147483648) (hsh : ∀ n ∈ view.shape_, n < SIZE_MOD)
    (hd : DimsInt32 dims) (hlen : dims.length = view.dimension) :
    (ValidDims view.dimension dims →
      reorderDimensions view dims = ReorderResult.done
        (ArrayViewBase.mk (toSizeT ((view.ptr : Int) + reorderOffset view dims))
          (reorderShape view dims) (reorderStored view dims))) ∧
    (¬ ValidDims view.dimension dims →
      reorderDimensions view dims = ReorderResult.assertionFailed) := by
  have hsize : view.dimension < SIZE_MOD := by rw [SIZE_MOD_eq]; omega
  obtain ⟨h1, h2⟩ := forLoop_cases view.dimension hsize
    (reorderDimensionsBody view.dimension view dims) (ReorderInv view dims)
    (EntryOK view.dimension dims)
    (fun i s hi hinv hok => reorder_step_ok view dims i s hR hsh hd hlen hi hinv hok)
    (fun i s hi hinv hok => reorder_step_fail view dims i s hR hd hlen hi hinv hok)
    view.dimension 0 (ReorderState.mk (List.replicate view.dimension false) [] [] 0)
    (view.dimension + 1) (by omega) (by omega) (reorderInv_zero view dims)
  constructor
  · intro hvalid
    obtain ⟨s2, hs2, hinv⟩ := h1 (fun j _ hj =>
      (entryOK_iff_valid view.dimension dims hlen).mpr hvalid j hj)
    obtain ⟨_, _, hshape, hstr, hoff⟩ := hinv
    rw [List.take_of_length_le (by omega)] at hshape hstr hoff
    unfold reorderDimensions
    simp only []
    rw [if_pos hlen, hs2]
    simp only [ArrayViewBase.arithData]
    rw [hshape, hstr]
    have h3 := toSizeT_add_congr hoff (view.ptr : Int) 0
    rw [add_zero, add_zero] at h3
    rw [h3]
  · intro hinvalid
    obtain ⟨s2, hs2⟩ := h2 (fun hall => hinvalid
      ((entryOK_iff_valid view.dimension dims hlen).mp (fun j hj => hall j (Nat.zero_le j) hj)))
    unfold reorderDimensions
    simp only []
    rw [if_pos hlen, hs2]

theorem reorderDimensions_length_ne (view : ArrayViewBase) (dims : List Int)
    (hlen : dims.length ≠ view.dimension) :
    reorderDimensions view dims = ReorderResult.assertionFailed := by
  unfold reorderDimensions
  simp only []
  rw [if_neg hlen]

/-- C22: `reorderDimensions (v, d)` on a rank-`R` view raises the fatal assertion
if and only if the list length differs from `R`, or some entry is 0 or has an
absolute value greater than `R`, or two entries have the same absolute value;
the most negative 32-bit value is always rejected, every signed permutation of
`1..R` is accepted, and the loop always ends. -/
theorem reorderDimensions_assert_iff (view : ArrayViewBase) (dims : List Int)
    (hv : view.WF) (hR : view.dimension < 2147483648) (hd : DimsInt32 dims) :
    (reorderDimensions view dims = ReorderResult.assertionFailed ↔
      (dims.length ≠ view.dimension ∨
        (∃ e ∈ dims, e = 0 ∨ view.dimension < e.natAbs) ∨
        (∃ i j, i < j ∧ j < dims.length ∧
          (dims.getD i 0).natAbs = (dims.getD j 0).natAbs))) ∧
    ((-2147483648 : Int) ∈ dims →
      reorderDimensions view dims = ReorderResult.assertionFailed) ∧
    (ValidDims view.dimension dims → ∃ w, reorderDimensions view dims = ReorderResult.done w) ∧
    reorderDimensions view dims ≠ ReorderResult.outOfFuel := by
  have hsh := hv.2.2.2.1
  have hiff : ¬ ValidDims view.dimension dims ↔
      (dims.length ≠ view.dimension ∨
        (∃ e ∈ dims, e = 0 ∨ view.dimension < e.natAbs) ∨
        (∃ i j, i < j ∧ j < dims.length ∧
          (dims.getD i 0).natAbs = (dims.getD j 0).natAbs)) := by
    unfold ValidDims
    rw [nodup_natAbs_iff]
    constructor
    · intro h
      by_contra hc
      push_neg at hc
      apply h
      refine ⟨hc.1, ?_, ?_⟩
      · intro d hdm
        have := hc.2.1 d hdm
        exact ⟨this.1, this.2⟩
      · intro i j hij hj
        exact hc.2.2 i j hij hj
    · rintro (h | ⟨e, he, h⟩ | ⟨i, j, hij, hj, heq⟩) ⟨h1, h2, h3⟩
      · exact h h1
      · have := h2 e he
        rcases h with h | h
        · exact this.1 h
        · omega
      · exact h3 i j hij hj heq
  have hcases : reorderDimensions view dims = ReorderResult.assertionFailed ↔
      ¬ ValidDims view.dimension dims := by
    by_cases hlen : dims.length = view.dimension
    · obtain ⟨h1, h2⟩ := reorder_loop_result view dims hR hsh hd hlen
      constructor
      · intro h hvalid
        rw [h1 hvalid] at h
        cases h
      · exact h2
    · constructor
      · intro _ hvalid
        exact hlen hvalid.1
      · intro _
        exact reorderDimensions_length_ne view dims hlen
  refine ⟨hcases.trans hiff, ?_, ?_, ?_⟩
  · intro hmem
    rw [hcases]
    intro hvalid
    have := (hvalid.2.1 _ hmem).2
    have h2 : (-2147483648 : Int).natAbs = 2147483648 := by decide
    omega
  · intro hvalid
    exact ⟨_, (reorder_loop_result view dims hR hsh hd hvalid.1).1 hvalid⟩
  · by_cases hvalid : ValidDims view.dimension dims
    · rw [(reorder_loop_result view dims hR hsh hd hvalid.1).1 hvalid]
      intro h
      cases h
    · rw [hcases.mpr hvalid]
      intro h
      cases h

theorem reorderDimensions_assert_iff_witness :
    reorderDimensions (ArrayViewBase.mk 1000 [2, 3] [4, 8]) [2, -2]
      = ReorderResult.assertionFailed ∧
    reorderDimensions (ArrayViewBase.mk 1000 [2, 3] [4, 8]) [-2, 1]
      ≠ ReorderResult.outOfFuel :=
  ⟨((reorderDimensions_assert_iff (ArrayViewBase.mk 1000 [2, 3] [4, 8]) [2, -2] (by decide)
      (by decide) (by decide)).1).mpr (Or.inr (Or.inr ⟨0, 1, by decide, by decide, by decide⟩)),
    (reorderDimensions_assert_iff (ArrayViewBase.mk 1000 [2, 3] [4, 8]) [-2, 1] (by decide)
      (by decide) (by decide)).2.2.2⟩

theorem map_eq_range_map {β γ : Type} (l : List β) (f : β → γ) (d : β) :
    l.map f = (List.range l.length).map fun i => f (l.getD i d) := by
  apply List.ext_getElem (by simp)
  intro k h1 h2
  rw [List.length_map] at h1
  rw [List.getElem_map, List.getElem_map, List.getElem_range, List.getD_eq_getElem _ _ h1]

theorem getD_map_of_lt {β : Type} (l : List Int) (f : Int → β) (i : Nat) (d : β)
    (h : i < l.length) : (l.map f).getD i d = f (l.getD i 0) := by
  rw [List.getD_eq_getElem _ _ (by simpa using h), List.getElem_map,
    List.getD_eq_getElem _ _ h]

theorem offsetSum_eq_range (idx : List Nat) (strides : List Int) (R : Nat)
    (h1 : idx.length = R) (h2 : strides.length = R) :
    offsetSum idx strides
      = ((List.range R).map fun a => (idx.getD a 0 : Int) * strides.getD a 0).sum := by
  unfold offsetSum
  congr 1
  apply List.ext_getElem (by simp [h1, h2])
  intro k hk1 hk2
  have hk : k < R := by simpa using hk2
  rw [List.getElem_zipWith, List.getElem_map, List.getElem_range,
    List.getD_eq_getElem _ _ (by omega), List.getD_eq_getElem _ _ (by omega)]

theorem inBounds_iff_getD (idx shape : List Nat) :
    InBounds idx shape ↔
      idx.length = shape.length ∧ ∀ k, k < shape.length → idx.getD k 0 < shape.getD k 0 := by
  unfold InBounds
  rw [List.forall₂_iff_get]
  constructor
  · rintro ⟨hl, h⟩
    refine ⟨hl, fun k hk => ?_⟩
    have := h k (by omega) hk
    rwa [List.getD_eq_getElem _ _ (by omega), List.getD_eq_getElem _ _ hk]
  · rintro ⟨hl, h⟩
    refine ⟨hl, fun k hk1 hk2 => ?_⟩
    have := h k hk2
    rwa [List.getD_eq_getElem _ _ hk1, List.getD_eq_getElem _ _ hk2] at this

/-- The axes named by a valid signed axis list are a permutation of `0..R-1`. -/
theorem perm_axes (R : Nat) (dims : List Int) (hvalid : ValidDims R dims) :
    ((List.range R).map fun i => axisOf (dims.getD i 0)).Perm (List.range R) := by
  obtain ⟨hlen, hentry, hnodup⟩ := hvalid
  have hmem : ∀ i, i < R → dims.getD i 0 ≠ 0 ∧ (dims.getD i 0).natAbs ≤ R :=
    fun i hi => hentry _ (getD_mem_of_lt dims i (by omega))
  rw [nodup_natAbs_iff] at hnodup
  have hnd : ((List.range R).map fun i => axisOf (dims.getD i 0)).Nodup := by
    unfold List.Nodup
    rw [List.pairwise_iff_getElem]
    intro i j hi hj hij
    rw [List.length_map, List.length_range] at hi hj
    rw [List.getElem_map, List.getElem_map, List.getElem_range, List.getElem_range]
    intro heq
    exact hnodup i j hij (by omega) ((axisOf_eq_iff (hmem i hi).1 (hmem j hj).1).mp heq)
  have hsub : ((List.range R).map fun i => axisOf (dims.getD i 0)) ⊆ List.range R := by
    intro a ha
    rw [List.mem_map] at ha
    obtain ⟨i, hi, rfl⟩ := ha
    rw [List.mem_range] at hi ⊢
    have := hmem i hi
    unfold axisOf
    omega
  exact (List.subperm_of_subset hnd hsub).perm_of_length_le (by simp)

theorem axes_surj (R : Nat) (dims : List Int) (hvalid : ValidDims R dims) (a : Nat)
    (ha : a < R) : ∃ i, i < R ∧ axisOf (dims.getD i 0) = a := by
  have h := (perm_axes R dims hvalid).mem_iff.mpr (List.mem_range.mpr ha)
  rw [List.mem_map] at h
  obtain ⟨i, hi, heq⟩ := h
  exact ⟨i, List.mem_range.mp hi, heq⟩

theorem axes_inj (R : Nat) (dims : List Int) (hvalid : ValidDims R dims) (i j : Nat)
    (hi : i < R) (hj : j < R) (h : axisOf (dims.getD i 0) = axisOf (dims.getD j 0)) :
    i = j := by
  obtain ⟨hlen, hentry, hnodup⟩ := hvalid
  have hmem : ∀ i, i < R → dims.getD i 0 ≠ 0 ∧ (dims.getD i 0).natAbs ≤ R :=
    fun i hi => hentry _ (getD_mem_of_lt dims i (by omega))
  rw [nodup_natAbs_iff] at hnodup
  have heq := (axisOf_eq_iff (hmem i hi).1 (hmem j hj).1).mp h
  rcases Nat.lt_trichotomy i j with hlt | hlt | hlt
  · exact absurd heq (hnodup i j hlt (by omega))
  · exact hlt
  · exact absurd heq.symm (hnodup j i hlt (by omega))

theorem axes_lt (R : Nat) (dims : List Int) (hvalid : ValidDims R dims) (i : Nat)
    (hi : i < R) : dims.getD i 0 ≠ 0 ∧ axisOf (dims.getD i 0) < R := by
  obtain ⟨hlen, hentry, _⟩ := hvalid
  have := hentry _ (getD_mem_of_lt dims i (by omega))
  refine ⟨this.1, ?_⟩
  unfold axisOf
  omega

/-- A sum over the axes can be taken in the order in which the axis list names
them. -/
theorem sum_reindex (R : Nat) (dims : List Int) (hvalid : ValidDims R dims) (h : Nat → Int) :
    ((List.range R).map h).sum
      = ((List.range R).map fun i => h (axisOf (dims.getD i 0))).sum := by
  have hp := (perm_axes R dims hvalid).map h
  rw [List.map_map] at hp
  exact hp.sum_eq.symm

theorem sum_map_modEq (l : List Nat) (f g : Nat → Int) (M : Int)
    (h : ∀ i ∈ l, f i % M = g i % M) : (l.map f).sum % M = (l.map g).sum % M := by
  induction l with
  | nil => rfl
  | cons a l ih =>
    rw [List.map_cons, List.map_cons, List.sum_cons, List.sum_cons, Int.add_emod,
      h a (List.mem_cons_self a l), ih (fun i hi => h i (List.mem_cons_of_mem a hi)),
      ← Int.add_emod]

theorem negPtrdiff_emod (s : Int) :
    negPtrdiff s % (SIZE_MOD : Int) = (-s) % (SIZE_MOD : Int) :=
  toSizeT_eq_iff.mp (toSizeT_negPtrdiff s)

theorem reorderOffset_eq_range (v : ArrayViewBase) (dims : List Int) (R : Nat)
    (hlen : dims.length = R) :
    reorderOffset v dims = ((List.range R).map fun i =>
      if dims.getD i 0 < 0 ∧ v.size (axisOf (dims.getD i 0)) ≠ 0 then
        ((v.size (axisOf (dims.getD i 0)) : Int) - 1) * v.strideBytes (axisOf (dims.getD i 0))
      else 0).sum := by
  unfold reorderOffset
  rw [map_eq_range_map dims _ 0, hlen]

/-- Address arithmetic of a reordered view: the element of the reordered view at
`j` is the element of the original view at the index tuple `k` that `j` names. -/
theorem reorder_address (v : ArrayViewBase) (dims : List Int) (hv : v.WF)
    (hvalid : ValidDims v.dimension dims) (j k : List Nat)
    (hj : InBounds j (reorderShape v dims)) (hk : k.length = v.dimension)
    (hrel : ∀ i, i < v.dimension → k.getD (axisOf (dims.getD i 0)) 0
      = if 0 < dims.getD i 0 then j.getD i 0
        else v.size (axisOf (dims.getD i 0)) - 1 - j.getD i 0) :
    InBounds k v.shape_ ∧
    toSizeT (((toSizeT ((v.ptr : Int) + reorderOffset v dims) : Nat) : Int)
        + offsetSum j (reorderStored v dims))
      = toSizeT ((v.ptr : Int) + offsetSum k v.stridesBytes_) := by
  obtain ⟨hp, hpos, hstl, hsh, hstr⟩ := hv
  have hlen : dims.length = v.dimension := hvalid.1
  rw [inBounds_iff_getD] at hj
  obtain ⟨hjl, hjlt⟩ := hj
  have hshl : (reorderShape v dims).length = v.dimension := by
    unfold reorderShape; rw [List.length_map, hlen]
  rw [hshl] at hjl hjlt
  have hjlt2 : ∀ i, i < v.dimension → j.getD i 0 < v.size (axisOf (dims.getD i 0)) := by
    intro i hi
    have := hjlt i hi
    unfold reorderShape at this
    rwa [getD_map_of_lt dims _ i 0 (by omega)] at this
  constructor
  · rw [inBounds_iff_getD]
    refine ⟨hk, fun a ha => ?_⟩
    obtain ⟨i, hi, heq⟩ := axes_surj v.dimension dims hvalid a ha
    have h1 := hrel i hi
    have h2 := hjlt2 i hi
    rw [heq] at h1 h2
    rw [h1]
    unfold ArrayViewBase.size at h2 ⊢
    split <;> omega
  · rw [toSizeT_toSizeT_add]
    apply toSizeT_congr
    have hsum : (reorderOffset v dims + offsetSum j (reorderStored v dims)) % (SIZE_MOD : Int)
        = offsetSum k v.stridesBytes_ % (SIZE_MOD : Int) := by
      rw [reorderOffset_eq_range v dims v.dimension hlen,
        offsetSum_eq_range j (reorderStored v dims) v.dimension hjl
          (by unfold reorderStored; rw [List.length_map, hlen]),
        offsetSum_eq_range k v.stridesBytes_ v.dimension hk hstl,
        sum_reindex v.dimension dims hvalid
          (fun a => (k.getD a 0 : Int) * v.stridesBytes_.getD a 0), ← List.sum_map_add]
      apply sum_map_modEq
      intro i hi
      rw [List.mem_range] at hi
      have h1 := hrel i hi
      have h2 := hjlt2 i hi
      have h3 := (axes_lt v.dimension dims hvalid i hi).1
      unfold reorderStored
      rw [getD_map_of_lt dims _ i 0 (by omega), h1]
      unfold ArrayViewBase.strideBytes
      by_cases hneg : dims.getD i 0 < 0
      · have hn : v.size (axisOf (dims.getD i 0)) ≠ 0 := by omega
        rw [if_pos ⟨hneg, hn⟩, if_pos hneg, if_neg (by omega)]
        have hc : ((v.size (axisOf (dims.getD i 0)) - 1 - j.getD i 0 : Nat) : Int)
            = (v.size (axisOf (dims.getD i 0)) : Int) - 1 - (j.getD i 0 : Int) := by omega
        rw [hc, Int.add_emod, Int.mul_emod (j.getD i 0 : Int), negPtrdiff_emod,
          ← Int.mul_emod, ← Int.add_emod]
        congr 1
        ring
      · rw [if_neg (fun h => hneg h.1), if_neg hneg, if_pos (by omega), zero_add]
    rw [add_assoc, Int.add_emod, hsum, ← Int.add_emod]

theorem size_lt_of_WF (v : ArrayViewBase) (hsh : ∀ n ∈ v.shape_, n < SIZE_MOD) (a : Nat) :
    v.size a < SIZE_MOD := by
  unfold ArrayViewBase.size
  by_cases ha : a < v.shape_.length
  · rw [List.getD_eq_getElem _ _ ha]
    exact hsh _ (List.getElem_mem ha)
  · rw [List.getD_eq_default _ _ (by omega)]
    exact SIZE_MOD_pos

theorem strideBytes_range_of_WF (v : ArrayViewBase)
    (hstr : ∀ s ∈ v.stridesBytes_, -(PTRDIFF_MOD : Int) ≤ s ∧ s < (PTRDIFF_MOD : Int))
    (a : Nat) :
    -(PTRDIFF_MOD : Int) ≤ v.strideBytes a ∧ v.strideBytes a < (PTRDIFF_MOD : Int) := by
  unfold ArrayViewBase.strideBytes
  by_cases ha : a < v.stridesBytes_.length
  · rw [List.getD_eq_getElem _ _ ha]
    exact hstr _ (List.getElem_mem ha)
  · rw [List.getD_eq_default _ _ (by omega), PTRDIFF_MOD_eq]
    omega

/-- The view that `reorderDimensions` returns is a value of the view type. -/
theorem reorder_WF (v : ArrayViewBase) (dims : List Int) (hv : v.WF)
    (hlen : dims.length = v.dimension) (p : Int) :
    (ArrayViewBase.mk (toSizeT p) (reorderShape v dims) (reorderStored v dims)).WF ∧
    (ArrayViewBase.mk (toSizeT p) (reorderShape v dims) (reorderStored v dims)).dimension
      = v.dimension := by
  obtain ⟨hp, hpos, hstl, hsh, hstr⟩ := hv
  refine ⟨⟨toSizeT_lt _, ?_, ?_, ?_, ?_⟩, ?_⟩
  · simp only [reorderShape, List.length_map, hlen]
    exact hpos
  · simp only [reorderShape, reorderStored, List.length_map]
  · intro n hn
    simp only [reorderShape, List.mem_map] at hn
    obtain ⟨d, _, rfl⟩ := hn
    exact size_lt_of_WF v hsh _
  · intro s hs
    simp only [reorderStored, List.mem_map] at hs
    obtain ⟨d, _, rfl⟩ := hs
    split
    · exact negPtrdiff_range _
    · exact strideBytes_range_of_WF v hstr _
  · simp only [ArrayViewBase.dimension, reorderShape, List.length_map, hlen]

/-- C21: the failing input.  A rank-1 view whose stride is the most negative
`ptrdiff_t` value, reversed with the valid axis list `[-1]`: the unguarded
negation `-view.stridesBytes ()[val]` overflows `ptrdiff_t` (undefined in C++;
on the two's complement target the result is again the most negative value), so
that the stride of the result is not the negative of the stride of the view,
which `ptrdiff_t` cannot hold. -/
theorem reorderDimensions_stride_min :
    reorderDimensions (ArrayViewBase.mk 1000 [2] [-9223372036854775808]) [-1]
      = ReorderResult.done
          (ArrayViewBase.mk 9223372036854776808 [2] [-9223372036854775808]) ∧
    ValidDims 1 [-1] ∧
    (ArrayViewBase.mk 1000 [2] [-9223372036854775808]).WF ∧
    (-9223372036854775808 : Int) ≠ -(-9223372036854775808) := by
  decide

/-- What `reorderDimensions` returns away from the overflow of the negation: for
a rank-`R` view `v` and a valid signed axis list `d`, `w = reorderDimensions (v,
d)` has, with `a_i = |d_i| - 1`, `extent_w[i] = extent_v[a_i]`, `stride_w[i] =
stride_v[a_i]` when `d_i > 0`, and `stride_w[i] = -stride_v[a_i]` when `d_i < 0`
and `stride_v[a_i]` is not the most negative `ptrdiff_t` value; for each
in-bounds index tuple `j` of `w`, `w (j)` is the element `v (k)` with `k[a_i] =
j_i` on non-reversed axes and `k[a_i] = extent_v[a_i] - 1 - j_i` on reversed
axes. -/
theorem reorderDimensions_spec (A : Bool) (v : ArrayViewBase) (dims : List Int) (hv : v.WF)
    (hR : v.dimension < 2147483648) (hd : DimsInt32 dims)
    (hvalid : ValidDims v.dimension dims) :
    ∃ w, reorderDimensions v dims = ReorderResult.done w ∧
      w.dimension = v.dimension ∧
      (∀ i, i < v.dimension → w.size i = v.size (axisOf (dims.getD i 0))) ∧
      (∀ i, i < v.dimension → 0 < dims.getD i 0 →
        w.strideBytes i = v.strideBytes (axisOf (dims.getD i 0))) ∧
      (∀ i, i < v.dimension → dims.getD i 0 < 0 →
        w.strideBytes i = negPtrdiff (v.strideBytes (axisOf (dims.getD i 0))) ∧
        (v.strideBytes (axisOf (dims.getD i 0)) ≠ -(PTRDIFF_MOD : Int) →
          w.strideBytes i = -(v.strideBytes (axisOf (dims.getD i 0))))) ∧
      (∀ j k, InBounds j w.shape_ → k.length = v.dimension →
        (∀ i, i < v.dimension → k.getD (axisOf (dims.getD i 0)) 0
          = if 0 < dims.getD i 0 then j.getD i 0
            else v.size (axisOf (dims.getD i 0)) - 1 - j.getD i 0) →
        InBounds k v.shape_ ∧
        ArrayView.operatorCall A w (j.map Par.index)
          = ArrayView.operatorCall A v (k.map Par.index) ∧
        ∃ ptr, ArrayView.operatorCall A v (k.map Par.index) = some (RetType.ref ptr)) := by
  have hlen : dims.length = v.dimension := hvalid.1
  obtain ⟨hwf, hdim⟩ := reorder_WF v dims hv hlen ((v.ptr : Int) + reorderOffset v dims)
  refine ⟨_, (reorder_loop_result v dims hR hv.2.2.2.1 hd hlen).1 hvalid, hdim, ?_, ?_, ?_, ?_⟩
  · intro i hi
    simp only [ArrayViewBase.size, reorderShape]
    rw [getD_map_of_lt dims _ i 0 (by omega)]
  · intro i hi hpos
    simp only [ArrayViewBase.strideBytes, reorderStored]
    rw [getD_map_of_lt dims _ i 0 (by omega), if_neg (by omega)]
  · intro i hi hneg
    have h1 : (ArrayViewBase.mk (toSizeT ((v.ptr : Int) + reorderOffset v dims))
        (reorderShape v dims) (reorderStored v dims)).strideBytes i
        = negPtrdiff (v.strideBytes (axisOf (dims.getD i 0))) := by
      simp only [ArrayViewBase.strideBytes, reorderStored]
      rw [getD_map_of_lt dims _ i 0 (by omega), if_pos hneg]
    refine ⟨h1, fun hne => ?_⟩
    rw [h1]
    have hr := strideBytes_range_of_WF v hv.2.2.2.2 (axisOf (dims.getD i 0))
    exact negPtrdiff_eq_neg (lt_of_le_of_ne hr.1 (Ne.symm hne)) hr.2
  · intro j k hj hk hrel
    obtain ⟨hkb, haddr⟩ := reorder_address v dims hv hvalid j k hj hk hrel
    have h1 := operatorCall_indices_core A _ j hwf.1 hwf.2.2.1 hwf.2.2.2.1 hj
    have h2 := operatorCall_indices_core A v k hv.1 hv.2.2.1 hv.2.2.2.1 hkb
    refine ⟨hkb, ?_, _, h2⟩
    rw [h1, h2]
    simp only
    rw [haddr]

theorem reorderDimensions_spec_witness :
    ∃ w, reorderDimensions (ArrayViewBase.mk 1000 [2, 3] [4, 8]) [-2, 1]
        = ReorderResult.done w ∧
      w.dimension = 2 ∧ w.size 0 = 3 ∧ w.strideBytes 0 = -8 ∧
      ArrayView.operatorCall true w [Par.index 0, Par.index 1]
        = ArrayView.operatorCall true (ArrayViewBase.mk 1000 [2, 3] [4, 8])
            [Par.index 1, Par.index 2] := by
  obtain ⟨w, h1, h2, h3, h4, h5, h6⟩ := reorderDimensions_spec true
    (ArrayViewBase.mk 1000 [2, 3] [4, 8]) [-2, 1] (by decide) (by decide) (by decide)
    (by decide)
  have hw : w = ArrayViewBase.mk 1016 [3, 2] [-8, 4] := by
    have h0 : reorderDimensions (ArrayViewBase.mk 1000 [2, 3] [4, 8]) [-2, 1]
        = ReorderResult.done (ArrayViewBase.mk 1016 [3, 2] [-8, 4]) := by decide
    rw [h0] at h1
    injection h1 with h1
    exact h1.symm
  refine ⟨w, h1, h2, ?_, ?_, ?_⟩
  · rw [hw]; decide
  · rw [hw]; decide
  · exact (h6 [0, 1] [1, 2] (by rw [hw]; decide) rfl (by
      intro i hi
      have hi2 : i < 2 := hi
      interval_cases i <;> decide)).2.1

theorem list_ext_getD {β : Type} (l m : List β) (d : β) (hl : l.length = m.length)
    (h : ∀ k, k < m.length → l.getD k d = m.getD k d) : l = m := by
  apply List.ext_getElem hl
  intro k h1 h2
  have := h k h2
  rwa [List.getD_eq_getElem _ d h1, List.getD_eq_getElem _ d h2] at this

/-- The entry of the signed inverse at the axis that entry `i` names. -/
theorem inverse_entry (d e : Int) (i : Nat) (hd : d ≠ 0)
    (h : e = (if 0 < d then 1 else -1) * ((i : Int) + 1)) :
    e ≠ 0 ∧ axisOf e = i ∧ (e < 0 ↔ d < 0) ∧ e.natAbs = i + 1 := by
  unfold axisOf
  split at h <;> omega

theorem sum_map_zero (l : List Nat) : (l.map fun _ => (0 : Int)).sum = 0 := by
  induction l with
  | nil => rfl
  | cons a l ih => rw [List.map_cons, List.sum_cons, ih, add_zero]

/-- C23: for a rank-`R` view `v` (any extents, any strides) and a valid signed
axis list `d`, applying `reorderDimensions` with `d` and then with its signed
inverse `e` (`e[|d_i| - 1] = sign (d_i) * (i + 1)`) returns a view with the base
pointer, shape and strides of `v`, hence with the same result for every indexing
call. -/
theorem reorderDimensions_inverse (A : Bool) (v : ArrayViewBase) (dims e : List Int)
    (hv : v.WF) (hR : v.dimension < 2147483648) (hd : DimsInt32 dims)
    (hvalid : ValidDims v.dimension dims) (he : e.length = v.dimension)
    (hrel : ∀ i, i < v.dimension → e.getD (axisOf (dims.getD i 0)) 0
      = (if 0 < dims.getD i 0 then 1 else -1) * ((i : Int) + 1)) :
    ValidDims v.dimension e ∧
    ∃ w, reorderDimensions v dims = ReorderResult.done w ∧
      reorderDimensions w e = ReorderResult.done v ∧
      ∀ u, reorderDimensions w e = ReorderResult.done u →
        u.ptr = v.ptr ∧ u.shape_ = v.shape_ ∧ u.stridesBytes_ = v.stridesBytes_ ∧
        ∀ pars, ArrayView.operatorCall A u pars = ArrayView.operatorCall A v pars := by
  have hlen : dims.length = v.dimension := hvalid.1
  have hfact : ∀ i, i < v.dimension →
      e.getD (axisOf (dims.getD i 0)) 0 ≠ 0 ∧
      axisOf (e.getD (axisOf (dims.getD i 0)) 0) = i ∧
      (e.getD (axisOf (dims.getD i 0)) 0 < 0 ↔ dims.getD i 0 < 0) ∧
      (e.getD (axisOf (dims.getD i 0)) 0).natAbs = i + 1 :=
    fun i hi => inverse_entry _ _ i (axes_lt v.dimension dims hvalid i hi).1 (hrel i hi)
  have hvalidE : ValidDims v.dimension e := by
    refine ⟨he, ?_, ?_⟩
    · intro x hx
      rw [List.mem_iff_getElem] at hx
      obtain ⟨a, ha, rfl⟩ := hx
      obtain ⟨i, hi, heq⟩ := axes_surj v.dimension dims hvalid a (by omega)
      have := hfact i hi
      rw [heq, List.getD_eq_getElem _ _ ha] at this
      exact ⟨this.1, by omega⟩
    · rw [nodup_natAbs_iff]
      intro a b hab hb heq
      obtain ⟨i, hi, hia⟩ := axes_surj v.dimension dims hvalid a (by omega)
      obtain ⟨i2, hi2, hib⟩ := axes_surj v.dimension dims hvalid b (by omega)
      have f1 := (hfact i hi).2.2.2
      have f2 := (hfact i2 hi2).2.2.2
      rw [hia] at f1
      rw [hib] at f2
      have : i = i2 := by omega
      subst this
      omega
  have hdE : DimsInt32 e := by
    intro x hx
    have := (hvalidE.2.1 x hx).2
    omega
  obtain ⟨hwf, hdim⟩ := reorder_WF v dims hv hlen ((v.ptr : Int) + reorderOffset v dims)
  have hw := (reorder_loop_result v dims hR hv.2.2.2.1 hd hlen).1 hvalid
  have hsize : ∀ i, i < v.dimension →
      (ArrayViewBase.mk (toSizeT ((v.ptr : Int) + reorderOffset v dims))
        (reorderShape v dims) (reorderStored v dims)).size i
        = v.size (axisOf (dims.getD i 0)) := by
    intro i hi
    simp only [ArrayViewBase.size, reorderShape]
    rw [getD_map_of_lt dims _ i 0 (by omega)]
  have hstride : ∀ i, i < v.dimension →
      (ArrayViewBase.mk (toSizeT ((v.ptr : Int) + reorderOffset v dims))
        (reorderShape v dims) (reorderStored v dims)).strideBytes i
        = if dims.getD i 0 < 0 then negPtrdiff (v.strideBytes (axisOf (dims.getD i 0)))
          else v.strideBytes (axisOf (dims.getD i 0)) := by
    intro i hi
    simp only [ArrayViewBase.strideBytes, reorderStored]
    rw [getD_map_of_lt dims _ i 0 (by omega)]
  have hwptr : (ArrayViewBase.mk (toSizeT ((v.ptr : Int) + reorderOffset v dims))
      (reorderShape v dims) (reorderStored v dims)).ptr
      = toSizeT ((v.ptr : Int) + reorderOffset v dims) := rfl
  generalize ArrayViewBase.mk (toSizeT ((v.ptr : Int) + reorderOffset v dims))
      (reorderShape v dims) (reorderStored v dims) = w at hwf hdim hw hsize hstride hwptr
  have hback := (reorder_loop_result w e (by rw [hdim]; exact hR) hwf.2.2.2.1 hdE
    (by rw [hdim]; exact he)).1 (by rw [hdim]; exact hvalidE)
  have hshapeEq : reorderShape w e = v.shape_ := by
    apply list_ext_getD _ _ 0 (by simp only [reorderShape, List.length_map]; exact he)
    intro a ha
    obtain ⟨i, hi, heq⟩ := axes_surj v.dimension dims hvalid a ha
    have f := (hfact i hi).2.1
    rw [heq] at f
    unfold reorderShape
    rw [getD_map_of_lt e _ a 0 (by rw [he]; exact ha), f, hsize i hi, heq]
    rfl
  have hstrideEq : reorderStored w e = v.stridesBytes_ := by
    apply list_ext_getD _ _ 0
      (by simp only [reorderStored, List.length_map]; rw [he, hv.2.2.1]; rfl)
    intro a ha
    rw [hv.2.2.1] at ha
    obtain ⟨i, hi, heq⟩ := axes_surj v.dimension dims hvalid a ha
    have f := hfact i hi
    rw [heq] at f
    unfold reorderStored
    rw [getD_map_of_lt e _ a 0 (by rw [he]; exact ha), f.2.1, hstride i hi, heq]
    have hr := strideBytes_range_of_WF v hv.2.2.2.2 a
    by_cases hneg : dims.getD i 0 < 0
    · rw [if_pos (f.2.2.1.mpr hneg), if_pos hneg, negPtrdiff_negPtrdiff hr.1 hr.2]
      rfl
    · rw [if_neg (fun h => hneg (f.2.2.1.mp h)), if_neg hneg]
      rfl
  have hptrEq : toSizeT ((w.ptr : Int) + reorderOffset w e) = v.ptr := by
    rw [hwptr, toSizeT_toSizeT_add]
    have hsum : (reorderOffset v dims + reorderOffset w e) % (SIZE_MOD : Int)
        = 0 % (SIZE_MOD : Int) := by
      refine Eq.trans ?_ (congrArg (fun z : Int => z % (SIZE_MOD : Int))
        (sum_map_zero (List.range v.dimension)))
      beta_reduce
      rw [reorderOffset_eq_range v dims v.dimension hlen,
        reorderOffset_eq_range w e v.dimension he,
        sum_reindex v.dimension dims hvalid (fun a =>
          if e.getD a 0 < 0 ∧ w.size (axisOf (e.getD a 0)) ≠ 0 then
            ((w.size (axisOf (e.getD a 0)) : Int) - 1) * w.strideBytes (axisOf (e.getD a 0))
          else 0),
        ← List.sum_map_add]
      apply sum_map_modEq
      intro i hi
      rw [List.mem_range] at hi
      have f := hfact i hi
      rw [f.2.1, hsize i hi, hstride i hi]
      by_cases hneg : dims.getD i 0 < 0
      · by_cases hn : v.size (axisOf (dims.getD i 0)) = 0
        · rw [if_neg (fun h => h.2 hn), if_neg (fun h => h.2 hn), add_zero]
        · rw [if_pos ⟨hneg, hn⟩, if_pos ⟨f.2.2.1.mpr hneg, hn⟩, if_pos hneg, Int.add_emod,
            Int.mul_emod _ (negPtrdiff _), negPtrdiff_emod, ← Int.mul_emod, ← Int.add_emod]
          congr 1
          ring
      · rw [if_neg (fun h => hneg h.1), if_neg (fun h => hneg (f.2.2.1.mp h.1)), add_zero]
    have h2 : ((v.ptr : Int) + reorderOffset v dims + reorderOffset w e) % (SIZE_MOD : Int)
        = ((v.ptr : Nat) : Int) % (SIZE_MOD : Int) := by
      rw [add_assoc, Int.add_emod, hsum, ← Int.add_emod, add_zero]
    rw [toSizeT_congr h2, toSizeT_natCast hv.1]
  have hfinal : reorderDimensions w e = ReorderResult.done v := by
    rw [hback, hshapeEq, hstrideEq, hptrEq]
  refine ⟨hvalidE, w, hw, hfinal, ?_⟩
  intro u hu
  rw [hfinal] at hu
  injection hu with hu
  subst hu
  exact ⟨rfl, rfl, rfl, fun _ => rfl⟩

theorem reorderDimensions_inverse_witness :
    ∃ w, reorderDimensions (ArrayViewBase.mk 1000 [2, 0, 5] [4, -8, 0]) [-3, 1, -2]
        = ReorderResult.done w ∧
      reorderDimensions w [2, -3, -1]
        = ReorderResult.done (ArrayViewBase.mk 1000 [2, 0, 5] [4, -8, 0]) := by
  obtain ⟨_, w, h1, h2, _⟩ := reorderDimensions_inverse true
    (ArrayViewBase.mk 1000 [2, 0, 5] [4, -8, 0]) [-3, 1, -2] [2, -3, -1] (by decide)
    (by decide) (by decide) (by decide) rfl (by
      intro i hi
      have hi2 : i < 3 := hi
      interval_cases i <;> decide)
  exact ⟨w, h1, h2⟩

/-! ## Element-wise copy and broadcast -/

theorem foldl_flatMap_eq {β γ σ : Type} (l : List β) (f : β → List γ) (g : σ → γ → σ) (s : σ) :
    (l.flatMap f).foldl g s = l.foldl (fun s b => (f b).foldl g s) s := by
  induction l generalizing s with
  | nil => rfl
  | cons a l ih => rw [List.flatMap_cons, List.foldl_append, ih, List.foldl_cons]

/-- The tuples that the nested loops visit are the tuples of length `dim` with
every index below the extent of its axis. -/
theorem mem_loopOrder (shape : List Nat) (dim : Nat) : ∀ idx : List Nat,
    idx ∈ loopOrder shape dim ↔
      idx.length = dim ∧ ∀ k, k < dim → idx.getD k 0 < shape.getD k 0 := by
  induction dim with
  | zero =>
    intro idx
    simp only [loopOrder, List.mem_singleton]
    constructor
    · rintro rfl
      exact ⟨rfl, fun k hk => absurd hk (Nat.not_lt_zero k)⟩
    · rintro ⟨h, _⟩
      exact List.length_eq_zero.mp h
  | succ dim ih =>
    intro idx
    simp only [loopOrder, List.mem_flatMap, List.mem_range, List.mem_map]
    constructor
    · rintro ⟨i, hi, idx2, hidx2, rfl⟩
      obtain ⟨hl, hb⟩ := (ih idx2).mp hidx2
      refine ⟨by simp [hl], fun k hk => ?_⟩
      rcases Nat.lt_succ_iff_lt_or_eq.mp hk with hlt | heq
      · rw [List.getD_append _ _ _ _ (by omega)]
        exact hb k hlt
      · subst heq
        rw [List.getD_append_right _ _ _ _ (by omega), hl, Nat.sub_self]
        exact hi
    · rintro ⟨hl, hb⟩
      have hdecomp := take_succ_getD idx dim 0 (by omega)
      rw [List.take_of_length_le (by omega)] at hdecomp
      refine ⟨idx.getD dim 0, hb dim (by omega), idx.take dim, ?_, hdecomp.symm⟩
      rw [ih]
      refine ⟨by simp [hl], fun k hk => ?_⟩
      have h2 := hb k (by omega)
      rw [hdecomp, List.getD_append _ _ _ _ (by simp [hl]; omega)] at h2
      exact h2

theorem mem_loopOrder_iff_inBounds (shape idx : List Nat) :
    idx ∈ loopOrder shape shape.length ↔ InBounds idx shape := by
  rw [mem_loopOrder, inBounds_iff_getD]

theorem loopOrder_eq_nil_of_zero (shape : List Nat) (z : Nat) (hz : z < shape.length)
    (h0 : shape.getD z 0 = 0) : loopOrder shape shape.length = [] := by
  rw [List.eq_nil_iff_forall_not_mem]
  intro idx hidx
  rw [mem_loopOrder] at hidx
  have := hidx.2 z hz
  omega

theorem offsetSum_nil (strides : List Int) : offsetSum [] strides = 0 := by
  simp [offsetSum]

theorem offsetSum_append_single (idx : List Nat) (i : Nat) : ∀ strides : List Int,
    idx.length < strides.length →
    offsetSum (idx ++ [i]) strides
      = offsetSum idx strides + (i : Int) * strides.getD idx.length 0 := by
  induction idx with
  | nil =>
    intro strides h
    match strides, h with
    | s :: ss, _ =>
      rw [List.nil_append, offsetSum_cons, offsetSum_nil, offsetSum_nil]
      simp
  | cons a idx ih =>
    intro strides h
    match strides, h with
    | s :: ss, h =>
      rw [List.cons_append, offsetSum_cons, offsetSum_cons, ih ss (by simpa using h)]
      simp only [List.length_cons, List.getD_cons_succ]
      ring

/-- The address of a tuple below a base pointer that an outer loop has advanced
by `i` strides of axis `idx.length`. -/
theorem address_step (ptr : Nat) (strides : List Int) (idx : List Nat) (i : Nat)
    (h : idx.length < strides.length) :
    toSizeT (((ptrAdd ptr (mulSize (toSizeT (strides.getD idx.length 0)) i) : Nat) : Int)
        + offsetSum idx strides)
      = toSizeT ((ptr : Int) + offsetSum (idx ++ [i]) strides) := by
  rw [mulSize_comm, ptrAdd_mulSize, toSizeT_toSizeT_add, offsetSum_append_single idx i strides h]
  congr 1
  ring

theorem copyAll_nil {α : Type} (sizeofT : Nat) (mem : Memory α) :
    copyAll sizeofT [] mem = mem := rfl

theorem copyAll_cons {α : Type} (sizeofT : Nat) (p : Nat × Nat) (l : List (Nat × Nat))
    (mem : Memory α) :
    copyAll sizeofT (p :: l) mem = copyAll sizeofT l (mem.copy sizeofT p.1 p.2) := rfl

theorem copyAll_append {α : Type} (sizeofT : Nat) (l1 l2 : List (Nat × Nat)) (mem : Memory α) :
    copyAll sizeofT (l1 ++ l2) mem = copyAll sizeofT l2 (copyAll sizeofT l1 mem) := by
  unfold copyAll
  rw [List.foldl_append]

theorem storeAll_append {α : Type} (sizeofT : Nat) (l1 l2 : List Nat) (x : List α)
    (mem : Memory α) :
    storeAll sizeofT (l1 ++ l2) x mem = storeAll sizeofT l2 x (storeAll sizeofT l1 x mem) := by
  unfold storeAll
  rw [List.foldl_append]

/-- Two elements whose bytes agree offset by offset are equal. -/
theorem element_congr {α : Type} (m1 m2 : Memory α) (sizeofT a b : Nat)
    (h : ∀ k, k < sizeofT → m1.cells (a + k) = m2.cells (b + k)) :
    m1.element sizeofT a = m2.element sizeofT b := by
  unfold Memory.element
  apply List.map_congr_left
  intro k hk
  exact h k (List.mem_range.mp hk)

/-- An element whose bytes are those of a value of `sizeofT` bytes is that
value. -/
theorem element_of_bytes {α : Type} (m : Memory α) (sizeofT a : Nat) (x : List α)
    (hx : x.length = sizeofT) (h : ∀ k (hk : k < x.length), m.cells (a + k) = x[k]) :
    m.element sizeofT a = x := by
  unfold Memory.element
  apply List.ext_getElem
  · simp [hx]
  · intro k h1 h2
    simp only [List.getElem_map, List.getElem_range]
    exact h k h2

/-- A sequence of copies leaves every byte outside the target elements
unchanged. -/
theorem copyAll_frame {α : Type} (sizeofT : Nat) (l : List (Nat × Nat)) :
    ∀ (mem : Memory α) (a : Nat),
    (∀ p ∈ l, ¬(p.1 ≤ a ∧ a < p.1 + sizeofT)) →
      (copyAll sizeofT l mem).cells a = mem.cells a := by
  induction l with
  | nil => intro mem a _; rfl
  | cons p l ih =>
    intro mem a h
    rw [copyAll_cons, ih _ a (fun q hq => h q (List.mem_cons_of_mem p hq))]
    have hp := h p (List.mem_cons_self p l)
    simp only [Memory.copy]
    rw [if_neg hp]

/-- After a sequence of copies whose target elements overlap no source element,
a target element holds the initial bytes of its source, when the other target
elements do not overlap it. -/
theorem copyAll_value {α : Type} (sizeofT : Nat) (l : List (Nat × Nat)) : ∀ (mem : Memory α),
    (∀ p ∈ l, ∀ q ∈ l, p.1 + sizeofT ≤ q.2 ∨ q.2 + sizeofT ≤ p.1) →
    ∀ p ∈ l, (∀ q ∈ l, q = p ∨ q.1 + sizeofT ≤ p.1 ∨ p.1 + sizeofT ≤ q.1) →
      ∀ k, k < sizeofT → (copyAll sizeofT l mem).cells (p.1 + k) = mem.cells (p.2 + k) := by
  induction l with
  | nil => intro mem _ p hp; cases hp
  | cons p0 l ih =>
    intro mem hdisj p hp huniq k hk
    rw [copyAll_cons]
    have hdisj2 : ∀ p ∈ l, ∀ q ∈ l, p.1 + sizeofT ≤ q.2 ∨ q.2 + sizeofT ≤ p.1 :=
      fun a ha b hb => hdisj a (List.mem_cons_of_mem p0 ha) b (List.mem_cons_of_mem p0 hb)
    have hsrc : (mem.copy sizeofT p0.1 p0.2).cells (p.2 + k) = mem.cells (p.2 + k) := by
      simp only [Memory.copy]
      have := hdisj p0 (List.mem_cons_self p0 l) p hp
      rw [if_neg (by omega)]
    by_cases hin : p ∈ l
    · rw [ih (mem.copy sizeofT p0.1 p0.2) hdisj2 p hin
        (fun q hq => huniq q (List.mem_cons_of_mem p0 hq)) k hk, hsrc]
    · have hpp : p = p0 := by
        rcases List.mem_cons.mp hp with h | h
        · exact h
        · exact absurd h hin
      subst hpp
      rw [copyAll_frame sizeofT l _ (p.1 + k)]
      · simp only [Memory.copy]
        rw [if_pos (by omega), Nat.add_sub_cancel_left]
      · intro q hq
        rcases huniq q (List.mem_cons_of_mem p hq) with h | h
        · rw [h] at hq
          exact absurd hq hin
        · omega

theorem copyAll_accesses {α : Type} (sizeofT : Nat) (l : List (Nat × Nat)) :
    ∀ (mem : Memory α),
    (copyAll sizeofT l mem).accesses
      = mem.accesses ++ l.flatMap fun p => [Access.read p.2, Access.write p.1] := by
  induction l with
  | nil => intro mem; simp [copyAll_nil]
  | cons p l ih =>
    intro mem
    rw [copyAll_cons, ih, List.flatMap_cons]
    simp [Memory.copy]

theorem storeAll_cons {α : Type} (sizeofT a : Nat) (l : List Nat) (x : List α)
    (mem : Memory α) :
    storeAll sizeofT (a :: l) x mem = storeAll sizeofT l x (mem.store sizeofT a x) := rfl

/-- A sequence of stores leaves every byte outside the target elements
unchanged. -/
theorem storeAll_frame {α : Type} (sizeofT : Nat) (l : List Nat) (x : List α) :
    ∀ (mem : Memory α) (a : Nat),
    (∀ b ∈ l, ¬(b ≤ a ∧ a < b + sizeofT)) →
      (storeAll sizeofT l x mem).cells a = mem.cells a := by
  induction l with
  | nil => intro mem a _; rfl
  | cons b l ih =>
    intro mem a h
    rw [storeAll_cons, ih _ a (fun c hc => h c (List.mem_cons_of_mem b hc))]
    simp only [Memory.store]
    rw [if_neg (h b (List.mem_cons_self b l))]

/-- After a sequence of stores a target element holds the bytes of the value,
when every other target element is the same element or does not overlap it. -/
theorem storeAll_value {α : Type} (sizeofT : Nat) (l : List Nat) (x : List α) :
    ∀ (mem : Memory α) (a : Nat), a ∈ l →
    (∀ b ∈ l, b = a ∨ b + sizeofT ≤ a ∨ a + sizeofT ≤ b) →
    ∀ k (hk : k < x.length), k < sizeofT →
      (storeAll sizeofT l x mem).cells (a + k) = x[k] := by
  induction l with
  | nil => intro mem a h; cases h
  | cons b l ih =>
    intro mem a h hov k hk hks
    rw [storeAll_cons]
    by_cases hin : a ∈ l
    · exact ih _ a hin (fun c hc => hov c (List.mem_cons_of_mem b hc)) k hk hks
    · have hab : a = b := by
        rcases List.mem_cons.mp h with h2 | h2
        · exact h2
        · exact absurd h2 hin
      subst hab
      rw [storeAll_frame sizeofT l x _ (a + k)]
      · simp only [Memory.store]
        rw [if_pos (by omega), Nat.add_sub_cancel_left, List.getD_eq_getElem _ _ hk]
      · intro c hc
        rcases hov c (List.mem_cons_of_mem a hc) with h2 | h2
        · rw [h2] at hc
          exact absurd hc hin
        · omega

theorem storeAll_accesses {α : Type} (sizeofT : Nat) (l : List Nat) (x : List α) :
    ∀ (mem : Memory α),
    (storeAll sizeofT l x mem).accesses = mem.accesses ++ l.map Access.write := by
  induction l with
  | nil => intro mem; simp [storeAll]
  | cons b l ih =>
    intro mem
    rw [storeAll_cons, ih]
    simp [Memory.store]

theorem getD_lt_SIZE_MOD (shape : List Nat) (hsh : ∀ n ∈ shape, n < SIZE_MOD) (d : Nat) :
    shape.getD d 0 < SIZE_MOD := by
  by_cases hd : d < shape.length
  · rw [List.getD_eq_getElem _ _ hd]
    exact hsh _ (List.getElem_mem hd)
  · rw [List.getD_eq_default _ _ (by omega)]
    exact SIZE_MOD_pos

theorem ptrAdd_lt (p a : Nat) : ptrAdd p a < SIZE_MOD := Nat.mod_lt _ SIZE_MOD_pos

theorem copyAll_assignPairs_flatMap {α : Type} (sizeofT : Nat) (tS sS : List Int)
    (target source : Nat) (l : List Nat) (f : Nat → List (List Nat)) : ∀ mem : Memory α,
    copyAll sizeofT (assignPairs tS sS target source (l.flatMap f)) mem
      = l.foldl (fun m i => copyAll sizeofT (assignPairs tS sS target source (f i)) m) mem := by
  induction l with
  | nil => intro mem; rfl
  | cons a l ih =>
    intro mem
    rw [List.flatMap_cons, List.foldl_cons, ← ih]
    unfold assignPairs
    rw [List.map_append, copyAll_append]

theorem storeAll_setToTargets_flatMap {α : Type} (sizeofT : Nat) (strides : List Int)
    (target : Nat) (x : List α) (l : List Nat) (f : Nat → List (List Nat)) :
    ∀ mem : Memory α,
    storeAll sizeofT (setToTargets strides target (l.flatMap f)) x mem
      = l.foldl (fun m i => storeAll sizeofT (setToTargets strides target (f i)) x m) mem := by
  induction l with
  | nil => intro mem; rfl
  | cons a l ih =>
    intro mem
    rw [List.flatMap_cons, List.foldl_cons, ← ih]
    unfold setToTargets
    rw [List.map_append, storeAll_append]

/-- The pairs visited at one level of the recursion of `assign`: the outer loop
over axis `d` advances both base pointers, the inner levels visit the tuples of
the first `d` axes. -/
theorem assignPairs_step (shape : List Nat) (tS sS : List Int) (target source d i : Nat)
    (h1 : d < tS.length) (h2 : d < sS.length) :
    assignPairs tS sS target source ((loopOrder shape d).map fun idx => idx ++ [i])
      = assignPairs tS sS (ptrAdd target (mulSize (toSizeT (tS.getD d 0)) i))
          (ptrAdd source (mulSize (toSizeT (sS.getD d 0)) i)) (loopOrder shape d) := by
  unfold assignPairs
  rw [List.map_map]
  apply List.map_congr_left
  intro idx hidx
  have hl := ((mem_loopOrder shape d idx).mp hidx).1
  have a1 := address_step target tS idx i (by omega)
  have a2 := address_step source sS idx i (by omega)
  rw [hl] at a1 a2
  simp only [Function.comp, a1, a2]

theorem setToTargets_step (shape : List Nat) (strides : List Int) (target d i : Nat)
    (h1 : d < strides.length) :
    setToTargets strides target ((loopOrder shape d).map fun idx => idx ++ [i])
      = setToTargets strides (ptrAdd target (mulSize (toSizeT (strides.getD d 0)) i))
          (loopOrder shape d) := by
  unfold setToTargets
  rw [List.map_map]
  apply List.map_congr_left
  intro idx hidx
  have hl := ((mem_loopOrder shape d idx).mp hidx).1
  have a1 := address_step target strides idx i (by omega)
  rw [hl] at a1
  simp only [Function.comp, a1]

theorem copyAll_level {α : Type} (sizeofT : Nat) (shape : List Nat) (tS sS : List Int)
    (target source d : Nat) (h1 : d < tS.length) (h2 : d < sS.length) (mem : Memory α) :
    copyAll sizeofT (assignPairs tS sS target source (loopOrder shape (d + 1))) mem
      = (List.range (shape.getD d 0)).foldl (fun m i =>
          copyAll sizeofT
            (assignPairs tS sS (ptrAdd target (mulSize (toSizeT (tS.getD d 0)) i))
              (ptrAdd source (mulSize (toSizeT (sS.getD d 0)) i)) (loopOrder shape d)) m)
          mem := by
  conv_lhs => unfold loopOrder
  rw [copyAll_assignPairs_flatMap]
  apply List.foldl_ext
  intro m i _
  rw [assignPairs_step shape tS sS target source d i h1 h2]

theorem storeAll_level {α : Type} (sizeofT : Nat) (shape : List Nat) (strides : List Int)
    (target d : Nat) (x : List α) (h1 : d < strides.length) (mem : Memory α) :
    storeAll sizeofT (setToTargets strides target (loopOrder shape (d + 1))) x mem
      = (List.range (shape.getD d 0)).foldl (fun m i =>
          storeAll sizeofT (setToTargets strides
            (ptrAdd target (mulSize (toSizeT (strides.getD d 0)) i)) (loopOrder shape d)) x m)
          mem := by
  conv_lhs => unfold loopOrder
  rw [storeAll_setToTargets_flatMap]
  apply List.foldl_ext
  intro m i _
  rw [setToTargets_step shape strides target d i h1]

theorem assignPairs_zero (shape : List Nat) (tS sS : List Int) (target source : Nat)
    (ht : target < SIZE_MOD) (hs : source < SIZE_MOD) :
    assignPairs tS sS target source (loopOrder shape 0) = [(target, source)] := by
  simp only [assignPairs, loopOrder, List.map_cons, List.map_nil, offsetSum_nil, add_zero]
  rw [toSizeT_natCast ht, toSizeT_natCast hs]

theorem setToTargets_zero (shape : List Nat) (strides : List Int) (target : Nat)
    (ht : target < SIZE_MOD) :
    setToTargets strides target (loopOrder shape 0) = [target] := by
  simp only [setToTargets, loopOrder, List.map_cons, List.map_nil, offsetSum_nil, add_zero]
  rw [toSizeT_natCast ht]

/-- The nested loops of `ArrayElementAccess::assign` complete, and perform the
copies of the visited tuples in loop order. -/
theorem assign_level {α : Type} (sizeofT : Nat) (shape : List Nat) (tS sS : List Int)
    (hsh : ∀ n ∈ shape, n < SIZE_MOD) : ∀ d, d < tS.length → d < sS.length →
    ∀ (target source : Nat) (mem : Memory α),
      Intern.ArrayElementAccess.assign sizeofT (d + 1) shape tS target sS source mem
        = Outcome.returned
            (copyAll sizeofT (assignPairs tS sS target source (loopOrder shape (d + 1)))
              mem) := by
  intro d
  induction d with
  | zero =>
    intro h1 h2 target source mem
    rw [copyAll_level sizeofT shape tS sS target source 0 h1 h2]
    unfold Intern.ArrayElementAccess.assign
    simp only []
    refine (forLoop_returned_range _ (getD_lt_SIZE_MOD shape hsh 0) _
      (fun i m => m.copy sizeofT (ptrAdd target (mulSize (toSizeT (tS.getD 0 0)) i))
        (ptrAdd source (mulSize (toSizeT (sS.getD 0 0)) i))) (fun i s _ => rfl) mem).trans ?_
    congr 1
    apply List.foldl_ext
    intro m i _
    rw [assignPairs_zero shape tS sS _ _ (ptrAdd_lt _ _) (ptrAdd_lt _ _)]
    rfl
  | succ d ih =>
    intro h1 h2 target source mem
    rw [copyAll_level sizeofT shape tS sS target source (d + 1) h1 h2]
    unfold Intern.ArrayElementAccess.assign
    have e : d + 2 - 1 = d + 1 := rfl
    simp only [e]
    exact forLoop_returned_range _ (getD_lt_SIZE_MOD shape hsh (d + 1)) _
      (fun i m => copyAll sizeofT (assignPairs tS sS
        (ptrAdd target (mulSize (toSizeT (tS.getD (d + 1) 0)) i))
        (ptrAdd source (mulSize (toSizeT (sS.getD (d + 1) 0)) i)) (loopOrder shape (d + 1))) m)
      (fun i s _ => ih (by omega) (by omega) _ _ s) mem

/-- The nested loops of `ArrayElementAccess::setTo` complete, and perform the
stores at the visited tuples in loop order. -/
theorem setTo_level {α : Type} (sizeofT : Nat) (shape : List Nat) (strides : List Int)
    (x : List α) (hsh : ∀ n ∈ shape, n < SIZE_MOD) : ∀ d, d < strides.length →
    ∀ (target : Nat) (mem : Memory α),
      Intern.ArrayElementAccess.setTo sizeofT (d + 1) shape strides target x mem
        = Outcome.returned
            (storeAll sizeofT (setToTargets strides target (loopOrder shape (d + 1))) x
              mem) := by
  intro d
  induction d with
  | zero =>
    intro h1 target mem
    rw [storeAll_level sizeofT shape strides target 0 x h1]
    unfold Intern.ArrayElementAccess.setTo
    simp only []
    refine (forLoop_returned_range _ (getD_lt_SIZE_MOD shape hsh 0) _
      (fun i m => m.store sizeofT (ptrAdd target (mulSize (toSizeT (strides.getD 0 0)) i)) x)
      (fun i s _ => rfl) mem).trans ?_
    congr 1
    apply List.foldl_ext
    intro m i _
    rw [setToTargets_zero shape strides _ (ptrAdd_lt _ _)]
    rfl
  | succ d ih =>
    intro h1 target mem
    rw [storeAll_level sizeofT shape strides target (d + 1) x h1]
    unfold Intern.ArrayElementAccess.setTo
    have e : d + 2 - 1 = d + 1 := rfl
    simp only [e]
    exact forLoop_returned_range _ (getD_lt_SIZE_MOD shape hsh (d + 1)) _
      (fun i m => storeAll sizeofT (setToTargets strides
        (ptrAdd target (mulSize (toSizeT (strides.getD (d + 1) 0)) i))
        (loopOrder shape (d + 1))) x m)
      (fun i s _ => ih (by omega) _ s) mem

theorem readAt_eq {α : Type} (cells : Nat → α) (A : Bool) (view : ArrayViewBase)
    (idx : List Nat) (hv : view.WF) (hb : InBounds idx view.shape_) :
    ArrayView.readAt cells A view idx = some (cells (elementAddress view idx)) := by
  unfold ArrayView.readAt
  rw [operatorCall_indices_core A view idx hv.1 hv.2.2.1 hv.2.2.2.1 hb]
  rfl

theorem assignShapeCheck_of_eq (t s : ArrayViewBase) (h : t.shape_ = s.shape_) :
    ∀ d, d < t.dimension → t.size d = s.size d := by
  intro d _
  unfold ArrayViewBase.size
  rw [h]

/-- The member `ArrayView::assign` when the shapes match: the copies of all
in-bounds tuples, in loop order. -/
theorem assign_eq {α : Type} (sizeofT : Nat) (t s : ArrayViewBase) (mem : Memory α) (ht : t.WF)
    (hsl : s.stridesBytes_.length = t.shape_.length)
    (hcheck : ∀ d, d < t.dimension → t.size d = s.size d) :
    ArrayView.assign sizeofT t s mem = Outcome.returned
      (copyAll sizeofT (assignPairs t.stridesBytes_ s.stridesBytes_ t.ptr s.ptr
        (loopOrder t.shape_ t.shape_.length)) mem) := by
  obtain ⟨hp, hpos, hstl, hsh, hstr⟩ := ht
  unfold ArrayView.assign Array.assignShapeCheck ASSERT
  rw [if_pos hcheck]
  simp only []
  obtain ⟨d, hd⟩ : ∃ d, t.shape_.length = d + 1 := ⟨t.shape_.length - 1, by omega⟩
  unfold ArrayViewBase.dimension
  rw [hd]
  exact assign_level sizeofT t.shape_ t.stridesBytes_ s.stridesBytes_ hsh d (by omega)
    (by omega) _ _ _

theorem assign_fail {α : Type} (sizeofT : Nat) (t s : ArrayViewBase) (mem : Memory α)
    (hcheck : ¬ ∀ d, d < t.dimension → t.size d = s.size d) :
    ArrayView.assign sizeofT t s mem = Outcome.assertionFailed mem := by
  unfold ArrayView.assign Array.assignShapeCheck ASSERT
  rw [if_neg hcheck]

/-- The member `ArrayView::setTo`: the stores at all in-bounds tuples, in loop
order. -/
theorem setTo_eq {α : Type} (sizeofT : Nat) (view : ArrayViewBase) (x : List α)
    (mem : Memory α) (hv : view.WF) :
    ArrayView.setTo sizeofT view x mem = Outcome.returned
      (storeAll sizeofT (setToTargets view.stridesBytes_ view.ptr
        (loopOrder view.shape_ view.shape_.length)) x mem) := by
  obtain ⟨hp, hpos, hstl, hsh, hstr⟩ := hv
  unfold ArrayView.setTo
  obtain ⟨d, hd⟩ : ∃ d, view.shape_.length = d + 1 := ⟨view.shape_.length - 1, by omega⟩
  unfold ArrayViewBase.dimension
  rw [hd]
  exact setTo_level sizeofT view.shape_ view.stridesBytes_ x hsh d (by omega) _ _

theorem mem_assignPairs (t s : ArrayViewBase) (p : Nat × Nat) :
    p ∈ assignPairs t.stridesBytes_ s.stridesBytes_ t.ptr s.ptr
        (loopOrder t.shape_ t.shape_.length)
      ↔ ∃ idx, InBounds idx t.shape_ ∧ p = (elementAddress t idx, elementAddress s idx) := by
  unfold assignPairs
  rw [List.mem_map]
  constructor
  · rintro ⟨idx, hidx, rfl⟩
    exact ⟨idx, (mem_loopOrder_iff_inBounds _ _).mp hidx, rfl⟩
  · rintro ⟨idx, hidx, rfl⟩
    exact ⟨idx, (mem_loopOrder_iff_inBounds _ _).mpr hidx, rfl⟩

theorem mem_setToTargets (view : ArrayViewBase) (a : Nat) :
    a ∈ setToTargets view.stridesBytes_ view.ptr (loopOrder view.shape_ view.shape_.length)
      ↔ ∃ idx, InBounds idx view.shape_ ∧ elementAddress view idx = a := by
  unfold setToTargets
  rw [List.mem_map]
  constructor
  · rintro ⟨idx, hidx, rfl⟩
    exact ⟨idx, (mem_loopOrder_iff_inBounds _ _).mp hidx, rfl⟩
  · rintro ⟨idx, hidx, rfl⟩
    exact ⟨idx, (mem_loopOrder_iff_inBounds _ _).mpr hidx, rfl⟩

/-- A property of all visited tuples holds for all in-bounds tuples. -/
theorem forall_inBounds_of_loopOrder (shape : List Nat) (P : List Nat → Prop)
    (h : ∀ idx ∈ loopOrder shape shape.length, P idx) :
    ∀ idx, InBounds idx shape → P idx :=
  fun idx hidx => h idx ((mem_loopOrder_iff_inBounds shape idx).mpr hidx)

/-- What a shape-matching `assign` leaves in memory, when the elements of the
target at distinct index tuples do not overlap one another and no element of the
target overlaps an element of the source. -/
theorem assign_core {α : Type} (sizeofT : Nat) (t s : ArrayViewBase) (mem : Memory α)
    (ht : t.WF) (hs : s.WF) (hshape : t.shape_ = s.shape_)
    (hinj : ∀ i j, InBounds i t.shape_ → InBounds j t.shape_ → i ≠ j →
      elementAddress t i + sizeofT ≤ elementAddress t j ∨
        elementAddress t j + sizeofT ≤ elementAddress t i)
    (hdisj : ∀ i j, InBounds i t.shape_ → InBounds j t.shape_ →
      elementAddress t i + sizeofT ≤ elementAddress s j ∨
        elementAddress s j + sizeofT ≤ elementAddress t i) :
    ∃ mem2, ArrayView.assign sizeofT t s mem = Outcome.returned mem2 ∧
      ∀ i, InBounds i t.shape_ →
        mem2.element sizeofT (elementAddress t i) = mem.element sizeofT (elementAddress s i) ∧
        mem2.element sizeofT (elementAddress s i)
          = mem.element sizeofT (elementAddress s i) := by
  refine ⟨_, assign_eq sizeofT t s mem ht (by rw [hs.2.2.1, hshape])
    (assignShapeCheck_of_eq t s hshape), ?_⟩
  intro i hi
  constructor
  · apply element_congr
    intro k hk
    refine copyAll_value sizeofT _ mem ?_ (elementAddress t i, elementAddress s i)
      ((mem_assignPairs t s _).mpr ⟨i, hi, rfl⟩) ?_ k hk
    · intro p hp q hq
      obtain ⟨j, hj, rfl⟩ := (mem_assignPairs t s p).mp hp
      obtain ⟨k, hk, rfl⟩ := (mem_assignPairs t s q).mp hq
      exact hdisj j k hj hk
    · intro q hq
      obtain ⟨j, hj, rfl⟩ := (mem_assignPairs t s q).mp hq
      by_cases hji : j = i
      · left
        rw [hji]
      · right
        exact hinj j i hj hi hji
  · apply element_congr
    intro k hk
    apply copyAll_frame
    intro p hp
    obtain ⟨j, hj, rfl⟩ := (mem_assignPairs t s p).mp hp
    have := hdisj j i hj hi
    show ¬(elementAddress t j ≤ elementAddress s i + k ∧
      elementAddress s i + k < elementAddress t j + sizeofT)
    omega

/-- C24: `target.assign (source)` raises the fatal assertion if and only if there
is an axis on which the extents of the target and of the source differ; when it
raises the assertion the memory is as before the call (no element has been
read or written); the call always ends. -/
theorem assign_assert_iff {α : Type} (sizeofT : Nat) (t s : ArrayViewBase) (mem : Memory α)
    (ht : t.WF) (hs : s.WF) (hdim : s.dimension = t.dimension) :
    ((∃ m, ArrayView.assign sizeofT t s mem = Outcome.assertionFailed m) ↔
      ∃ d, d < t.dimension ∧ t.size d ≠ s.size d) ∧
    (∀ m, ArrayView.assign sizeofT t s mem = Outcome.assertionFailed m → m = mem) ∧
    ArrayView.assign sizeofT t s mem ≠ Outcome.outOfFuel := by
  by_cases hcheck : ∀ d, d < t.dimension → t.size d = s.size d
  · have h := assign_eq sizeofT t s mem ht (by rw [hs.2.2.1]; exact hdim) hcheck
    rw [h]
    refine ⟨⟨?_, ?_⟩, ?_, ?_⟩
    · rintro ⟨m, hm⟩
      cases hm
    · rintro ⟨d, hd, hne⟩
      exact absurd (hcheck d hd) hne
    · intro m hm
      cases hm
    · intro hm
      cases hm
  · have h := assign_fail sizeofT t s mem hcheck
    rw [h]
    refine ⟨⟨?_, ?_⟩, ?_, ?_⟩
    · intro _
      by_contra hc
      apply hcheck
      intro d hd
      by_contra hne
      exact hc ⟨d, hd, hne⟩
    · intro _
      exact ⟨mem, rfl⟩
    · intro m hm
      injection hm with hm
      exact hm.symm
    · intro hm
      cases hm

theorem assign_assert_iff_witness :
    ∃ m, ArrayView.assign 4 (ArrayViewBase.mk 1000 [2, 3] [4, 8])
      (ArrayViewBase.mk 2000 [2, 4] [4, 8]) (Memory.mk (fun _ => (0 : Nat)) [])
      = Outcome.assertionFailed m :=
  ((assign_assert_iff 4 (ArrayViewBase.mk 1000 [2, 3] [4, 8])
    (ArrayViewBase.mk 2000 [2, 4] [4, 8]) (Memory.mk (fun _ => (0 : Nat)) []) (by decide)
    (by decide) rfl).1).mpr ⟨1, by decide, by decide⟩

/-- C25: for a target and a source view of equal shape with arbitrary strides,
where the in-bounds index tuples of the target address pairwise distinct
elements (the `sizeof (T)` bytes of two of them do not overlap) none of which is
addressed by the source (no element of the target overlaps an element of the
source), `target.assign (source)` completes, afterwards `target (i)` holds the
value `source (i)` had before the call, for every in-bounds index tuple `i`, and
the elements of the source are unchanged. -/
theorem assign_copies {α : Type} (A : Bool) (sizeofT : Nat) (t s : ArrayViewBase)
    (mem : Memory α) (ht : t.WF) (hs : s.WF) (hshape : t.shape_ = s.shape_)
    (hinj : ∀ i j, InBounds i t.shape_ → InBounds j t.shape_ → i ≠ j →
      elementAddress t i + sizeofT ≤ elementAddress t j ∨
        elementAddress t j + sizeofT ≤ elementAddress t i)
    (hdisj : ∀ i j, InBounds i t.shape_ → InBounds j t.shape_ →
      elementAddress t i + sizeofT ≤ elementAddress s j ∨
        elementAddress s j + sizeofT ≤ elementAddress t i) :
    ∃ mem2, ArrayView.assign sizeofT t s mem = Outcome.returned mem2 ∧
      ∀ i, InBounds i t.shape_ →
        ArrayView.readAt (mem2.element sizeofT) A t i
          = ArrayView.readAt (mem.element sizeofT) A s i ∧
        ArrayView.readAt (mem2.element sizeofT) A s i
          = ArrayView.readAt (mem.element sizeofT) A s i ∧
        (∃ x, ArrayView.readAt (mem.element sizeofT) A s i = some x) := by
  obtain ⟨mem2, h1, h2⟩ := assign_core sizeofT t s mem ht hs hshape hinj hdisj
  refine ⟨mem2, h1, fun i hi => ?_⟩
  have his : InBounds i s.shape_ := by rw [← hshape]; exact hi
  rw [readAt_eq (mem2.element sizeofT) A t i ht hi, readAt_eq (mem.element sizeofT) A s i hs his,
    readAt_eq (mem2.element sizeofT) A s i hs his, (h2 i hi).1, (h2 i hi).2]
  exact ⟨rfl, rfl, _, rfl⟩

theorem assign_copies_witness :
    ∃ mem2, ArrayView.assign 4 (ArrayViewBase.mk 1000 [2, 2] [8, 16])
        (ArrayViewBase.mk 2000 [2, 2] [8, 4]) (Memory.mk (fun a => a) [])
        = Outcome.returned mem2 ∧
      ArrayView.readAt (mem2.element 4) true (ArrayViewBase.mk 1000 [2, 2] [8, 16]) [1, 0]
        = ArrayView.readAt ((Memory.mk (fun a => a) []).element 4) true
            (ArrayViewBase.mk 2000 [2, 2] [8, 4]) [1, 0] := by
  obtain ⟨mem2, h1, h2⟩ := assign_copies true 4 (ArrayViewBase.mk 1000 [2, 2] [8, 16])
    (ArrayViewBase.mk 2000 [2, 2] [8, 4]) (Memory.mk (fun a => a) []) (by decide) (by decide)
    rfl
    (fun i j hi hj => forall_inBounds_of_loopOrder [2, 2]
      (fun i => ∀ j ∈ loopOrder [2, 2] 2, i ≠ j →
        elementAddress (ArrayViewBase.mk 1000 [2, 2] [8, 16]) i + 4
            ≤ elementAddress (ArrayViewBase.mk 1000 [2, 2] [8, 16]) j ∨
          elementAddress (ArrayViewBase.mk 1000 [2, 2] [8, 16]) j + 4
            ≤ elementAddress (ArrayViewBase.mk 1000 [2, 2] [8, 16]) i)
      (by decide) i hi j ((mem_loopOrder_iff_inBounds [2, 2] j).mpr hj))
    (fun i j hi hj => forall_inBounds_of_loopOrder [2, 2]
      (fun i => ∀ j ∈ loopOrder [2, 2] 2,
        elementAddress (ArrayViewBase.mk 1000 [2, 2] [8, 16]) i + 4
            ≤ elementAddress (ArrayViewBase.mk 2000 [2, 2] [8, 4]) j ∨
          elementAddress (ArrayViewBase.mk 2000 [2, 2] [8, 4]) j + 4
            ≤ elementAddress (ArrayViewBase.mk 1000 [2, 2] [8, 16]) i)
      (by decide) i hi j ((mem_loopOrder_iff_inBounds [2, 2] j).mpr hj))
  exact ⟨mem2, h1, (h2 [1, 0] (by decide)).1⟩

/-- C27 (as stated, refuted): a rank-1 view of two 4-byte elements with stride 1.
`setTo` stores the value at the addresses 1000 and 1001; the second store
overwrites three bytes of the first element, so that the element `view (0)`
does not hold the value afterwards. -/
theorem setTo_overlapping_elements :
    (ArrayViewBase.mk 1000 [2] [1]).WF ∧ InBounds [0] [2] ∧
    ∃ mem2, ArrayView.setTo 4 (ArrayViewBase.mk 1000 [2] [1]) [1, 0, 0, 0]
        (Memory.mk (fun _ => 0) []) = Outcome.returned mem2 ∧
      ArrayView.readAt (mem2.element 4) true (ArrayViewBase.mk 1000 [2] [1]) [0]
        = some [1, 1, 0, 0] ∧
      ArrayView.readAt (mem2.element 4) true (ArrayViewBase.mk 1000 [2] [1]) [0]
        ≠ some [1, 0, 0, 0] := by
  refine ⟨by decide, by decide, _, setTo_eq 4 _ _ _ (by decide), ?_⟩
  rw [readAt_eq _ true _ [0] (by decide) (by decide)]
  decide

/-- C27 (amended): for a view with any strides under which no two in-bounds
elements overlap in part (two of them start at the same address or lie at least
`sizeof (T)` bytes apart), and any value `x`, `setTo (x)` completes and
afterwards `view (i)` holds `x` for every in-bounds index tuple `i`;
`setToZero ()` is `setTo` applied to the value `T ()`. -/
theorem setTo_spec {α : Type} (A : Bool) (sizeofT : Nat) (view : ArrayViewBase) (x : List α)
    (mem : Memory α) (hv : view.WF) (hx : x.length = sizeofT)
    (hov : ∀ i j, InBounds i view.shape_ → InBounds j view.shape_ →
      elementAddress view i = elementAddress view j ∨
        elementAddress view i + sizeofT ≤ elementAddress view j ∨
        elementAddress view j + sizeofT ≤ elementAddress view i) :
    (∃ mem2, ArrayView.setTo sizeofT view x mem = Outcome.returned mem2 ∧
      ∀ i, InBounds i view.shape_ →
        ArrayView.readAt (mem2.element sizeofT) A view i = some x) ∧
    (∀ zero : List α,
      ArrayView.setToZero sizeofT zero view mem = ArrayView.setTo sizeofT view zero mem) ∧
    (∀ zero : List α, zero.length = sizeofT →
      ∃ mem2, ArrayView.setToZero sizeofT zero view mem = Outcome.returned mem2 ∧
        ∀ i, InBounds i view.shape_ →
          ArrayView.readAt (mem2.element sizeofT) A view i = some zero) := by
  have h : ∀ y : List α, y.length = sizeofT →
      ∃ mem2, ArrayView.setTo sizeofT view y mem = Outcome.returned mem2 ∧
        ∀ i, InBounds i view.shape_ →
          ArrayView.readAt (mem2.element sizeofT) A view i = some y := by
    intro y hy
    refine ⟨_, setTo_eq sizeofT view y mem hv, fun i hi => ?_⟩
    rw [readAt_eq _ A view i hv hi]
    congr 1
    apply element_of_bytes _ sizeofT _ y hy
    intro k hk
    refine storeAll_value sizeofT _ y mem _ ((mem_setToTargets view _).mpr ⟨i, hi, rfl⟩) ?_ k hk
      (by omega)
    intro b hb
    obtain ⟨j, hj, rfl⟩ := (mem_setToTargets view b).mp hb
    exact hov j i hj hi
  exact ⟨h x hx, fun _ => rfl, fun zero hz => h zero hz⟩

theorem setTo_spec_witness :
    ∃ mem2, ArrayView.setTo 4 (ArrayViewBase.mk 1000 [2, 3] [-4, 0]) [7, 0, 0, 0]
        (Memory.mk (fun _ => 0) []) = Outcome.returned mem2 ∧
      ArrayView.readAt (mem2.element 4) true (ArrayViewBase.mk 1000 [2, 3] [-4, 0]) [1, 2]
        = some [7, 0, 0, 0] := by
  obtain ⟨mem2, h1, h2⟩ := (setTo_spec true 4 (ArrayViewBase.mk 1000 [2, 3] [-4, 0])
    [7, 0, 0, 0] (Memory.mk (fun _ => 0) []) (by decide) rfl
    (fun i j hi hj => forall_inBounds_of_loopOrder [2, 3]
      (fun i => ∀ j ∈ loopOrder [2, 3] 2,
        elementAddress (ArrayViewBase.mk 1000 [2, 3] [-4, 0]) i
            = elementAddress (ArrayViewBase.mk 1000 [2, 3] [-4, 0]) j ∨
          elementAddress (ArrayViewBase.mk 1000 [2, 3] [-4, 0]) i + 4
            ≤ elementAddress (ArrayViewBase.mk 1000 [2, 3] [-4, 0]) j ∨
          elementAddress (ArrayViewBase.mk 1000 [2, 3] [-4, 0]) j + 4
            ≤ elementAddress (ArrayViewBase.mk 1000 [2, 3] [-4, 0]) i)
      (by decide) i hi j ((mem_loopOrder_iff_inBounds [2, 3] j).mpr hj))).1
  exact ⟨mem2, h1, h2 [1, 2] (by decide)⟩

/-- An element that overlaps no written element keeps its value, when every byte
outside the written elements keeps its value. -/
theorem element_frame {α : Type} (m1 m2 : Memory α) (sizeofT b : Nat) (W : Nat → Prop)
    (hbytes : ∀ a, (∀ w, W w → ¬(w ≤ a ∧ a < w + sizeofT)) → m2.cells a = m1.cells a)
    (hb : ∀ w, W w → b + sizeofT ≤ w ∨ w + sizeofT ≤ b) :
    m2.element sizeofT b = m1.element sizeofT b := by
  apply element_congr
  intro k hk
  apply hbytes
  intro w hw
  have := hb w hw
  omega

/-- C28: `setTo` and a shape-matching `assign` write only to the elements at the
addresses of in-bounds index tuples of the target view: every byte outside the
`sizeof (T)` bytes of these elements holds the same value after the call as
before, so that every element that overlaps none of them is unchanged, and
every write access of the call is at the address of such an element. -/
theorem write_frame {α : Type} (sizeofT : Nat) (t : ArrayViewBase) (mem : Memory α)
    (ht : t.WF) :
    (∀ x : List α, ∃ mem2, ArrayView.setTo sizeofT t x mem = Outcome.returned mem2 ∧
      (∀ a, (∀ i, InBounds i t.shape_ →
          ¬(elementAddress t i ≤ a ∧ a < elementAddress t i + sizeofT)) →
        mem2.cells a = mem.cells a) ∧
      (∀ b, (∀ i, InBounds i t.shape_ →
          b + sizeofT ≤ elementAddress t i ∨ elementAddress t i + sizeofT ≤ b) →
        mem2.element sizeofT b = mem.element sizeofT b) ∧
      ∃ added, mem2.accesses = mem.accesses ++ added ∧
        ∀ a, Access.write a ∈ added → ∃ i, InBounds i t.shape_ ∧ elementAddress t i = a) ∧
    (∀ s : ArrayViewBase, s.WF → t.shape_ = s.shape_ →
      ∃ mem2, ArrayView.assign sizeofT t s mem = Outcome.returned mem2 ∧
        (∀ a, (∀ i, InBounds i t.shape_ →
            ¬(elementAddress t i ≤ a ∧ a < elementAddress t i + sizeofT)) →
          mem2.cells a = mem.cells a) ∧
        (∀ b, (∀ i, InBounds i t.shape_ →
            b + sizeofT ≤ elementAddress t i ∨ elementAddress t i + sizeofT ≤ b) →
          mem2.element sizeofT b = mem.element sizeofT b) ∧
        ∃ added, mem2.accesses = mem.accesses ++ added ∧
          ∀ a, Access.write a ∈ added →
            ∃ i, InBounds i t.shape_ ∧ elementAddress t i = a) := by
  constructor
  · intro x
    have hbytes : ∀ a, (∀ i, InBounds i t.shape_ →
          ¬(elementAddress t i ≤ a ∧ a < elementAddress t i + sizeofT)) →
        (storeAll sizeofT (setToTargets t.stridesBytes_ t.ptr
          (loopOrder t.shape_ t.shape_.length)) x mem).cells a = mem.cells a := by
      intro a ha
      apply storeAll_frame
      intro b hmem
      obtain ⟨i, hi, rfl⟩ := (mem_setToTargets t b).mp hmem
      exact ha i hi
    refine ⟨_, setTo_eq sizeofT t x mem ht, hbytes, ?_, _, storeAll_accesses sizeofT _ x mem, ?_⟩
    · intro b hb
      apply element_frame mem _ sizeofT b
        (fun w => ∃ i, InBounds i t.shape_ ∧ elementAddress t i = w)
      · intro a ha
        exact hbytes a (fun i hi => ha _ ⟨i, hi, rfl⟩)
      · rintro w ⟨i, hi, rfl⟩
        exact hb i hi
    · intro a ha
      rw [List.mem_map] at ha
      obtain ⟨b, hb, heq⟩ := ha
      injection heq with heq
      subst heq
      exact (mem_setToTargets t b).mp hb
  · intro s hs hshape
    have hbytes : ∀ a, (∀ i, InBounds i t.shape_ →
          ¬(elementAddress t i ≤ a ∧ a < elementAddress t i + sizeofT)) →
        (copyAll sizeofT (assignPairs t.stridesBytes_ s.stridesBytes_ t.ptr s.ptr
          (loopOrder t.shape_ t.shape_.length)) mem).cells a = mem.cells a := by
      intro a ha
      apply copyAll_frame
      intro p hp
      obtain ⟨i, hi, rfl⟩ := (mem_assignPairs t s p).mp hp
      exact ha i hi
    refine ⟨_, assign_eq sizeofT t s mem ht (by rw [hs.2.2.1, hshape])
      (assignShapeCheck_of_eq t s hshape), hbytes, ?_, _, copyAll_accesses sizeofT _ mem, ?_⟩
    · intro b hb
      apply element_frame mem _ sizeofT b
        (fun w => ∃ i, InBounds i t.shape_ ∧ elementAddress t i = w)
      · intro a ha
        exact hbytes a (fun i hi => ha _ ⟨i, hi, rfl⟩)
      · rintro w ⟨i, hi, rfl⟩
        exact hb i hi
    · intro a ha
      rw [List.mem_flatMap] at ha
      obtain ⟨p, hp, hmem⟩ := ha
      obtain ⟨i, hi, rfl⟩ := (mem_assignPairs t s p).mp hp
      simp only [List.mem_cons, List.mem_singleton, List.not_mem_nil, or_false] at hmem
      rcases hmem with h | h
      · cases h
      · injection h with h
        exact ⟨i, hi, h.symm⟩

theorem write_frame_witness :
    ∃ mem2, ArrayView.setTo 4 (ArrayViewBase.mk 1000 [2] [8]) [7, 0, 0, 0]
        (Memory.mk (fun _ => 0) []) = Outcome.returned mem2 ∧
      mem2.element 4 1004 = (Memory.mk (fun _ => 0) []).element 4 1004 := by
  obtain ⟨mem2, h1, _, h2, _⟩ := (write_frame 4 (ArrayViewBase.mk 1000 [2] [8])
    (Memory.mk (fun _ => (0 : Nat)) []) (by decide)).1 [7, 0, 0, 0]
  exact ⟨mem2, h1, h2 1004 (forall_inBounds_of_loopOrder [2]
    (fun i => 1004 + 4 ≤ elementAddress (ArrayViewBase.mk 1000 [2] [8]) i ∨
      elementAddress (ArrayViewBase.mk 1000 [2] [8]) i + 4 ≤ 1004) (by decide))⟩

/-- C29: if any extent of the target view is 0, `setTo`, `setToZero` and a
shape-matching `assign` complete with the memory as before the call: no element
is read and none is written, whatever the base pointer is. -/
theorem zero_extent_no_access {α : Type} (sizeofT : Nat) (t : ArrayViewBase) (mem : Memory α)
    (ht : t.WF) (z : Nat) (hz : z < t.dimension) (h0 : t.size z = 0) :
    (∀ x : List α, ArrayView.setTo sizeofT t x mem = Outcome.returned mem) ∧
    (∀ zero : List α, ArrayView.setToZero sizeofT zero t mem = Outcome.returned mem) ∧
    (∀ s : ArrayViewBase, s.WF → t.shape_ = s.shape_ →
      ArrayView.assign sizeofT t s mem = Outcome.returned mem) := by
  have hnil := loopOrder_eq_nil_of_zero t.shape_ z hz h0
  have hset : ∀ x : List α, ArrayView.setTo sizeofT t x mem = Outcome.returned mem := by
    intro x
    rw [setTo_eq sizeofT t x mem ht, hnil]
    rfl
  refine ⟨hset, fun zero => hset zero, fun s hs hshape => ?_⟩
  rw [assign_eq sizeofT t s mem ht (by rw [hs.2.2.1, hshape])
    (assignShapeCheck_of_eq t s hshape), hnil]
  rfl

theorem zero_extent_no_access_witness :
    ArrayView.setTo 4 (ArrayViewBase.mk 0 [3, 0, 2] [4, 12, 12]) [7, 0, 0, 0]
      (Memory.mk (fun _ => 0) []) = Outcome.returned (Memory.mk (fun _ => 0) []) :=
  (zero_extent_no_access 4 (ArrayViewBase.mk 0 [3, 0, 2] [4, 12, 12])
    (Memory.mk (fun _ => (0 : Nat)) []) (by decide) 1 (by decide) (by decide)).1 [7, 0, 0, 0]

/-! ## Containers created from a view -/

theorem toPtrdiff_emod (n : Nat) :
    toPtrdiff n % (SIZE_MOD : Int) = (n : Int) % (SIZE_MOD : Int) := by
  rw [← toSizeT_cast, toSizeT_toPtrdiff]
  push_cast
  rfl

theorem toPtrdiff_range (n : Nat) :
    -(PTRDIFF_MOD : Int) ≤ toPtrdiff n ∧ toPtrdiff n < (PTRDIFF_MOD : Int) := by
  unfold toPtrdiff
  rw [SIZE_MOD_eq, PTRDIFF_MOD_eq]
  split <;> omega

theorem stored_length (sizeofT : Nat) (shape : List Nat) (f : Bool) :
    (if f then fortranStored sizeofT shape else rowMajorStored sizeofT shape).length
      = shape.length := by
  cases f <;> simp [fortranStored, rowMajorStored]

theorem stored_range (sizeofT : Nat) (shape : List Nat) (f : Bool) :
    ∀ s ∈ (if f then fortranStored sizeofT shape else rowMajorStored sizeofT shape),
      -(PTRDIFF_MOD : Int) ≤ s ∧ s < (PTRDIFF_MOD : Int) := by
  intro s hs
  cases f with
  | true =>
    simp only [if_true, fortranStored, List.mem_map] at hs
    obtain ⟨k, _, rfl⟩ := hs
    exact toPtrdiff_range _
  | false =>
    simp only [Bool.false_eq_true, if_false, rowMajorStored, List.mem_map] at hs
    obtain ⟨k, _, rfl⟩ := hs
    exact toPtrdiff_range _

/-- The strides that the default allocator stores address, modulo `2^64`, the
same offsets as the exact strides. -/
theorem stored_offset_emod (sizeofT : Nat) (shape : List Nat) (f : Bool) (idx : List Nat)
    (hidx : idx.length = shape.length) :
    offsetSum idx (if f then fortranStored sizeofT shape else rowMajorStored sizeofT shape)
        % (SIZE_MOD : Int)
      = offsetSum idx (if f then fortranStrides sizeofT shape else rowMajorStrides sizeofT shape)
        % (SIZE_MOD : Int) := by
  rw [offsetSum_eq_range idx _ shape.length hidx (stored_length sizeofT shape f),
    offsetSum_eq_range idx _ shape.length hidx (by cases f <;> simp [fortranStrides,
      rowMajorStrides])]
  apply sum_map_modEq
  intro k hk
  rw [List.mem_range] at hk
  rw [Int.mul_emod, Int.mul_emod (idx.getD k 0 : Int)]
  congr 2
  cases f with
  | true =>
    simp only [if_true]
    rw [fortranStored_getD sizeofT shape k hk, fortranStrides_getD sizeofT shape k hk,
      toPtrdiff_emod]
  | false =>
    simp only [Bool.false_eq_true, if_false]
    rw [rowMajorStored_getD sizeofT shape k hk, rowMajorStrides_getD sizeofT shape k hk,
      toPtrdiff_emod]

/-- The exact strides of either ordering map the in-bounds index tuples
bijectively onto the multiples of `sizeof (T)` below `count * sizeof (T)`. -/
theorem exact_offsets_bijOn (sizeofT : Nat) (shape : List Nat) (f : Bool) (hsz : 0 < sizeofT) :
    Set.BijOn
      (fun idx => offsetSum idx
        (if f then fortranStrides sizeofT shape else rowMajorStrides sizeofT shape))
      {idx | InBounds idx shape}
      {z : Int | ∃ m : Nat, m < shape.prod ∧ z = (m : Int) * (sizeofT : Int)} := by
  cases f with
  | true =>
    simp only [if_true]
    exact offsets_bijOn sizeofT hsz shape _ fortranIndex
      (fun idx hidx => fortran_offset idx shape hidx sizeofT)
      (fun idx hidx => fortranIndex_inj idx shape hidx) (fortranIndex_surj shape)
  | false =>
    simp only [Bool.false_eq_true, if_false]
    exact offsets_bijOn sizeofT hsz shape _ rowMajorIndex
      (fun idx hidx => rowMajor_offset sizeofT idx shape hidx)
      (fun idx hidx => rowMajorIndex_inj idx shape hidx) (rowMajorIndex_surj shape)

/-- C26: for a source view with any strides, whose elements the freshly
allocated block of `count * sizeof (T)` bytes does not overlap, constructing a
container from it with the default allocator, or calling `recreate` with it,
under either ordering flag, completes whenever `init` completes and yields a
container with the extents of the source and with `c (i)` equal to `source (i)`
for every in-bounds index tuple `i`; a container built from `transposed (v)` has
`c (i, j) = v (j, i)`. -/
theorem container_copy {α : Type} (A : Bool) (sizeofT : Nat) (newArray : Nat → Option Nat)
    (self : Array) (orig : ArrayViewBase) (f : Bool) (mem : Memory α) (a : Array)
    (hA : self.allocator = DefaultArrayAllocator.toArrayAllocator sizeofT newArray)
    (hsz : 0 < sizeofT) (horig : orig.WF) (hR : orig.dimension < SIZE_MOD)
    (hs : self.storage.stridesBytes_.length = orig.dimension)
    (hfresh : ∀ p, newArray orig.shape_.prod = some p →
      p + orig.shape_.prod * sizeofT ≤ SIZE_MOD ∧
      ∀ i, InBounds i orig.shape_ →
        elementAddress orig i + sizeofT ≤ p ∨
          p + orig.shape_.prod * sizeofT ≤ elementAddress orig i)
    (hinit : self.init orig.dimension orig.shape_ f = some a) :
    ∃ mem2, self.recreateCopy sizeofT orig.dimension orig f mem
        = some (a, Outcome.returned mem2) ∧
      (∀ raw : ArrayViewBase, self = Array.uninitialised self.allocator raw →
        Array.constructCopy self.allocator raw sizeofT orig.dimension orig f mem
          = some (a, Outcome.returned mem2)) ∧
      a.view.shape_ = orig.shape_ ∧
      (∀ i, InBounds i orig.shape_ →
        ArrayView.readAt (mem2.element sizeofT) A a.view i
          = ArrayView.readAt (mem.element sizeofT) A orig i ∧
        ∃ x, ArrayView.readAt (mem.element sizeofT) A orig i = some x) ∧
      (∀ v : ArrayViewBase, v.WF → v.dimension = 2 → orig = transposed v →
        ∀ i j, i < v.size 1 → j < v.size 0 →
          ArrayView.readAt (mem2.element sizeofT) A a.view [i, j]
            = ArrayView.readAt (mem.element sizeofT) A v [j, i]) := by
  obtain ⟨h1, h2, h3⟩ := init_default_storage sizeofT newArray self orig.shape_ f a hA hR hs hinit
  have hbij := exact_offsets_bijOn sizeofT orig.shape_ f hsz
  have hptr : a.storage.ptr < SIZE_MOD ∧
      (orig.shape_.prod ≠ 0 → a.storage.ptr + orig.shape_.prod * sizeofT ≤ SIZE_MOD ∧
        ∀ i, InBounds i orig.shape_ →
          elementAddress orig i + sizeofT ≤ a.storage.ptr ∨
            a.storage.ptr + orig.shape_.prod * sizeofT ≤ elementAddress orig i) := by
    rcases h3 with ⟨b1, _, b3⟩ | ⟨b1, _, b3⟩
    · exact ⟨by rw [b3]; exact SIZE_MOD_pos, fun h => absurd b1 h⟩
    · obtain ⟨c1, c2⟩ := hfresh _ b3
      have : 1 ≤ orig.shape_.prod * sizeofT := Nat.mul_pos (Nat.pos_of_ne_zero b1) hsz
      exact ⟨by omega, fun _ => ⟨c1, c2⟩⟩
  have hwf : a.view.WF := by
    refine ⟨hptr.1, ?_, ?_, ?_, ?_⟩
    · show 0 < a.storage.shape_.length
      rw [h1]; exact horig.2.1
    · show a.storage.stridesBytes_.length = a.storage.shape_.length
      rw [h1, h2, stored_length]
    · show ∀ n ∈ a.storage.shape_, n < SIZE_MOD
      rw [h1]; exact horig.2.2.2.1
    · show ∀ s ∈ a.storage.stridesBytes_, _
      rw [h2]; exact stored_range sizeofT orig.shape_ f
  have hshape : a.view.shape_ = orig.shape_ := h1
  have haddr : ∀ i, InBounds i orig.shape_ →
      ∃ m : Nat, m < orig.shape_.prod ∧
        offsetSum i (if f then fortranStrides sizeofT orig.shape_
          else rowMajorStrides sizeofT orig.shape_) = (m : Int) * (sizeofT : Int) ∧
        elementAddress a.view i = a.storage.ptr + m * sizeofT := by
    intro i hi
    obtain ⟨m, hm, heq⟩ := hbij.1 hi
    refine ⟨m, hm, heq, ?_⟩
    have hne : orig.shape_.prod ≠ 0 := by omega
    have hle := (hptr.2 hne).1
    have hil : i.length = orig.shape_.length := ((inBounds_iff_getD _ _).mp hi).1
    have hmod := stored_offset_emod sizeofT orig.shape_ f i hil
    simp only [] at heq
    rw [← h2, heq] at hmod
    unfold elementAddress
    show toSizeT ((a.storage.ptr : Int) + offsetSum i a.storage.stridesBytes_) = _
    have hc : ((a.storage.ptr : Int) + offsetSum i a.storage.stridesBytes_) % (SIZE_MOD : Int)
        = ((a.storage.ptr : Int) + (m : Int) * (sizeofT : Int)) % (SIZE_MOD : Int) := by
      rw [Int.add_emod, hmod, ← Int.add_emod]
    rw [toSizeT_congr hc]
    have hcast : (a.storage.ptr : Int) + (m : Int) * (sizeofT : Int)
        = ((a.storage.ptr + m * sizeofT : Nat) : Int) := by push_cast; ring
    rw [hcast, toSizeT_natCast]
    have : m * sizeofT < orig.shape_.prod * sizeofT := Nat.mul_lt_mul_of_pos_right hm hsz
    omega
  have hinj : ∀ i j, InBounds i a.view.shape_ → InBounds j a.view.shape_ → i ≠ j →
      elementAddress a.view i + sizeofT ≤ elementAddress a.view j ∨
        elementAddress a.view j + sizeofT ≤ elementAddress a.view i := by
    intro i j hi hj hne
    rw [hshape] at hi hj
    obtain ⟨m, _, ho, hm⟩ := haddr i hi
    obtain ⟨m2, _, ho2, hm2⟩ := haddr j hj
    rw [hm, hm2]
    have hmm : m ≠ m2 := by
      intro hmm
      apply hne
      apply hbij.2.1 hi hj
      simp only []
      rw [ho, ho2, hmm]
    rcases Nat.lt_or_gt_of_ne hmm with hlt | hgt
    · left
      have := Nat.mul_le_mul_right sizeofT (Nat.succ_le_of_lt hlt)
      rw [Nat.succ_mul] at this
      omega
    · right
      have := Nat.mul_le_mul_right sizeofT (Nat.succ_le_of_lt hgt)
      rw [Nat.succ_mul] at this
      omega
  have hdisj : ∀ i j, InBounds i a.view.shape_ → InBounds j a.view.shape_ →
      elementAddress a.view i + sizeofT ≤ elementAddress orig j ∨
        elementAddress orig j + sizeofT ≤ elementAddress a.view i := by
    intro i j hi hj
    rw [hshape] at hi hj
    obtain ⟨m, hmlt, _, hm⟩ := haddr i hi
    have hne : orig.shape_.prod ≠ 0 := by omega
    rw [hm]
    have hle := Nat.mul_le_mul_right sizeofT (Nat.succ_le_of_lt hmlt)
    rw [Nat.succ_mul] at hle
    rcases (hptr.2 hne).2 j hj with h | h
    · right
      omega
    · left
      omega
  obtain ⟨mem2, hassign, hcells⟩ :=
    assign_core sizeofT a.view orig mem hwf horig hshape hinj hdisj
  have hrec : self.recreateCopy sizeofT orig.dimension orig f mem
      = some (a, Outcome.returned mem2) := by
    unfold Array.recreateCopy
    rw [hinit]
    simp only [Option.map_some', Array.assign, hassign]
  have hread : ∀ i, InBounds i orig.shape_ →
      ArrayView.readAt (mem2.element sizeofT) A a.view i
        = ArrayView.readAt (mem.element sizeofT) A orig i ∧
      ∃ x, ArrayView.readAt (mem.element sizeofT) A orig i = some x := by
    intro i hi
    have hia : InBounds i a.view.shape_ := by rw [hshape]; exact hi
    rw [readAt_eq (mem2.element sizeofT) A a.view i hwf hia,
      readAt_eq (mem.element sizeofT) A orig i horig hi, (hcells i hia).1]
    exact ⟨rfl, _, rfl⟩
  refine ⟨mem2, hrec, ?_, hshape, hread, ?_⟩
  · intro raw hraw
    unfold Array.constructCopy
    rw [← hraw]
    exact hrec
  · intro v hv hv2 hvt i j hi hj
    obtain ⟨ht1, _, _, ht4⟩ := transposed_core A v hv hv2
    have hb : InBounds [i, j] orig.shape_ := by
      rw [hvt, ht1]
      exact List.Forall₂.cons hi (List.Forall₂.cons hj List.Forall₂.nil)
    rw [(hread [i, j] hb).1, hvt]
    obtain ⟨ptr, e1, e2⟩ := ht4 i j hi hj
    unfold ArrayView.readAt
    rw [show List.map Par.index [i, j] = [Par.index i, Par.index j] from rfl,
      show List.map Par.index [j, i] = [Par.index j, Par.index i] from rfl, e1, e2]

theorem container_copy_witness :
    ∃ mem2 : Memory Nat,
      ArrayView.readAt (mem2.element 4) true
          (Array.mk (DefaultArrayAllocator.toArrayAllocator 4 (fun _ => some 4096))
            (some (Handle.mk 4096 6)) (ArrayViewBase.mk 4096 [3, 2] [4, 12])).view [2, 1]
        = ArrayView.readAt ((Memory.mk (fun a => a) []).element 4) true
            (ArrayViewBase.mk 2000 [2, 3] [4, 8]) [1, 2] := by
  obtain ⟨mem2, _, _, _, _, h5⟩ := container_copy true 4 (fun _ => some 4096)
    (Array.uninitialised (DefaultArrayAllocator.toArrayAllocator 4 (fun _ => some 4096))
      (ArrayViewBase.mk 0 [0, 0] [0, 0]))
    (transposed (ArrayViewBase.mk 2000 [2, 3] [4, 8])) true (Memory.mk (fun a => a) [])
    (Array.mk (DefaultArrayAllocator.toArrayAllocator 4 (fun _ => some 4096))
      (some (Handle.mk 4096 6)) (ArrayViewBase.mk 4096 [3, 2] [4, 12]))
    rfl (by decide) (by decide) (by decide) rfl
    (fun p hp => by
      injection hp with hp
      subst hp
      exact ⟨by decide, forall_inBounds_of_loopOrder [3, 2]
        (fun i =>
          elementAddress (transposed (ArrayViewBase.mk 2000 [2, 3] [4, 8])) i + 4 ≤ 4096 ∨
            4096 + 6 * 4 ≤ elementAddress (transposed (ArrayViewBase.mk 2000 [2, 3] [4, 8])) i)
        (by decide)⟩)
    (((init_default 4 (fun _ => some 4096) _ 2 [3, 2] true rfl).1 6 [4, 12] [0, 1]
      (by decide)).2 (by decide))
  exact ⟨mem2, h5 (ArrayViewBase.mk 2000 [2, 3] [4, 8]) (by decide) rfl rfl 2 1 (by decide)
    (by decide)⟩

/-! ## Order of release and allocation in `Array::init` -/

/-- The execution of `Array::init`, by the outcome of the two calls of the
allocator. -/
theorem initTrace_cases (self : Array) (dim : Nat) (shape : List Nat) (f : Bool) :
    (self.allocator.calculateStrides dim self.storage.stridesBytes_ shape f = none →
      self.initTrace dim shape f =
        [Array.InitEvent.state self,
          Array.InitEvent.state (Array.mk self.allocator self.handle
            (ArrayViewBase.mk Array.getNull self.storage.shape_ self.storage.stridesBytes_)),
          Array.InitEvent.state (Array.mk self.allocator none
            (ArrayViewBase.mk Array.getNull self.storage.shape_ self.storage.stridesBytes_)),
          Array.InitEvent.calculateStrides (Array.mk self.allocator none
            (ArrayViewBase.mk Array.getNull self.storage.shape_
              self.storage.stridesBytes_))]) ∧
    (∀ r, self.allocator.calculateStrides dim self.storage.stridesBytes_ shape f = some r →
      self.initTrace dim shape f =
        [Array.InitEvent.state self,
          Array.InitEvent.state (Array.mk self.allocator self.handle
            (ArrayViewBase.mk Array.getNull self.storage.shape_ self.storage.stridesBytes_)),
          Array.InitEvent.state (Array.mk self.allocator none
            (ArrayViewBase.mk Array.getNull self.storage.shape_ self.storage.stridesBytes_)),
          Array.InitEvent.calculateStrides (Array.mk self.allocator none
            (ArrayViewBase.mk Array.getNull self.storage.shape_ self.storage.stridesBytes_)),
          Array.InitEvent.state (Array.mk self.allocator none
            (ArrayViewBase.mk Array.getNull self.storage.shape_ r.2)),
          Array.InitEvent.state (Array.mk self.allocator none
            (ArrayViewBase.mk Array.getNull ((List.range dim).map fun i => shape.getD i 0)
              r.2)),
          Array.InitEvent.allocate (Array.mk self.allocator none
            (ArrayViewBase.mk Array.getNull ((List.range dim).map fun i => shape.getD i 0)
              r.2)) r.1] ++
        match self.allocator.allocate r.1 with
        | none => []
        | some none => [Array.InitEvent.state (Array.mk self.allocator none
            (ArrayViewBase.mk Array.getNull ((List.range dim).map fun i => shape.getD i 0)
              r.2))]
        | some (some h) => [Array.InitEvent.state (Array.mk self.allocator (some h)
            (ArrayViewBase.mk Array.getNull ((List.range dim).map fun i => shape.getD i 0)
              r.2)),
            Array.InitEvent.state (Array.mk self.allocator (some h)
              (ArrayViewBase.mk h.getPointer ((List.range dim).map fun i => shape.getD i 0)
                r.2))]) := by
  constructor
  · intro hc
    unfold Array.initTrace
    simp only [hc]
    rfl
  · intro r hc
    unfold Array.initTrace
    simp only [hc]
    cases ha : self.allocator.allocate r.1 with
    | none => rfl
    | some handle =>
      cases handle with
      | none => rfl
      | some h => rfl

/-- C30: in `Array::init`, and so in every `recreate` call and every
constructor, the first two statements reset the base pointer to null and drop
the old storage handle; `allocate` is invoked once, only afterwards, with the
handle of the container empty and its base pointer null, as they are in every
state between the drop and the call; every later state holds the handle that
`allocate` returned; and the last state of a completed execution is the
container that `init` yields. -/
theorem init_releases_before_allocate (self : Array) (dim : Nat) (shape : List Nat)
    (f : Bool) :
    ((self.initTrace dim shape f)[0]? = some (Array.InitEvent.state self) ∧
      (self.initTrace dim shape f)[1]? = some (Array.InitEvent.state
        (Array.mk self.allocator self.handle
          (ArrayViewBase.mk Array.getNull self.storage.shape_ self.storage.stridesBytes_))) ∧
      (self.initTrace dim shape f)[2]? = some (Array.InitEvent.state
        (Array.mk self.allocator none
          (ArrayViewBase.mk Array.getNull self.storage.shape_
            self.storage.stridesBytes_)))) ∧
    (∀ k a n, (self.initTrace dim shape f)[k]? = some (Array.InitEvent.allocate a n) →
      2 < k ∧ a.handle = none ∧ a.storage.ptr = Array.getNull ∧
      (∀ j b m, (self.initTrace dim shape f)[j]? = some (Array.InitEvent.allocate b m) →
        j = k) ∧
      (∀ j b, 2 ≤ j → j < k →
        (self.initTrace dim shape f)[j]? = some (Array.InitEvent.state b) →
        b.handle = none ∧ b.storage.ptr = Array.getNull) ∧
      (∀ j b, k < j → (self.initTrace dim shape f)[j]? = some (Array.InitEvent.state b) →
        self.allocator.allocate n = some b.handle)) ∧
    (∀ a, self.init dim shape f = some a →
      (self.initTrace dim shape f).getLast? = some (Array.InitEvent.state a) ∧
      ∃ b n, (self.initTrace dim shape f)[6]? = some (Array.InitEvent.allocate b n)) ∧
    (self.recreate dim = self.init dim (Array.zeros dim) true ∧
      (∀ fo, self.recreateShape dim shape fo = self.init dim shape fo) ∧
      (∀ vals, self.recreateSizes dim vals = self.init dim (Array.getLen vals) true) ∧
      (∀ (α : Type) (sizeofT : Nat) (orig : ArrayViewBase) (fo : Bool) (mem : Memory α),
        self.recreateCopy sizeofT dim orig fo mem
          = (self.init dim orig.shape_ fo).map fun a => (a, a.assign sizeofT orig mem)) ∧
      (∀ allocator raw, Array.construct allocator raw dim
        = (Array.uninitialised allocator raw).init dim (Array.zeros dim) true) ∧
      (∀ allocator raw fo, Array.constructShape allocator raw dim shape fo
        = (Array.uninitialised allocator raw).init dim shape fo) ∧
      (∀ allocator raw, (Array.uninitialised allocator raw).handle = none ∧
        (Array.uninitialised allocator raw).storage.ptr = Array.getNull)) := by
  obtain ⟨hA, hB⟩ := initTrace_cases self dim shape f
  refine ⟨?_, ?_, ?_, ⟨rfl, fun _ => rfl, fun _ => rfl, fun _ _ _ _ _ => rfl, fun _ _ => rfl,
    fun _ _ _ => rfl, fun _ _ => ⟨rfl, rfl⟩⟩⟩
  · cases hc : self.allocator.calculateStrides dim self.storage.stridesBytes_ shape f with
    | none => rw [hA hc]; exact ⟨rfl, rfl, rfl⟩
    | some r => rw [hB r hc]; exact ⟨rfl, rfl, rfl⟩
  · intro k a n h
    cases hc : self.allocator.calculateStrides dim self.storage.stridesBytes_ shape f with
    | none =>
      rw [hA hc] at h
      rcases k with _ | _ | _ | _ | k <;> simp at h
    | some r =>
      rw [hB r hc] at h ⊢
      cases ha : self.allocator.allocate r.1 with
      | none =>
        rw [ha] at h
        rcases k with _ | _ | _ | _ | _ | _ | _ | k <;> simp at h
        obtain ⟨rfl, rfl⟩ := h
        refine ⟨by omega, rfl, rfl, ?_, ?_, ?_⟩
        · intro j b m hj
          rcases j with _ | _ | _ | _ | _ | _ | _ | j <;> simp at hj
          rfl
        · intro j b h1 h2 hj
          rcases j with _ | _ | _ | _ | _ | _ | j <;> simp at hj <;> first
            | omega
            | (subst hj; exact ⟨rfl, rfl⟩)
        · intro j b h1 hj
          rcases j with _ | _ | _ | _ | _ | _ | _ | j <;> simp at hj <;> omega
      | some handle =>
        cases handle with
        | none =>
          rw [ha] at h
          rcases k with _ | _ | _ | _ | _ | _ | _ | _ | k <;> simp at h
          obtain ⟨rfl, rfl⟩ := h
          refine ⟨by omega, rfl, rfl, ?_, ?_, ?_⟩
          · intro j b m hj
            rcases j with _ | _ | _ | _ | _ | _ | _ | _ | j <;> simp at hj
            rfl
          · intro j b h1 h2 hj
            rcases j with _ | _ | _ | _ | _ | _ | j <;> simp at hj <;> first
              | omega
              | (subst hj; exact ⟨rfl, rfl⟩)
          · intro j b h1 hj
            rcases j with _ | _ | _ | _ | _ | _ | _ | _ | j <;> simp at hj <;> first
              | omega
              | (subst hj; exact ha)
        | some hd =>
          rw [ha] at h
          rcases k with _ | _ | _ | _ | _ | _ | _ | _ | _ | k <;> simp at h
          obtain ⟨rfl, rfl⟩ := h
          refine ⟨by omega, rfl, rfl, ?_, ?_, ?_⟩
          · intro j b m hj
            rcases j with _ | _ | _ | _ | _ | _ | _ | _ | _ | j <;> simp at hj
            rfl
          · intro j b h1 h2 hj
            rcases j with _ | _ | _ | _ | _ | _ | j <;> simp at hj <;> first
              | omega
              | (subst hj; exact ⟨rfl, rfl⟩)
          · intro j b h1 hj
            rcases j with _ | _ | _ | _ | _ | _ | _ | _ | _ | j <;> simp at hj <;> first
              | omega
              | (subst hj; exact ha)
  · intro a h
    unfold Array.init at h
    simp only [Option.bind_eq_some] at h
    obtain ⟨r, hc, handle, ha, hm⟩ := h
    rw [hB r hc, ha]
    cases handle with
    | none =>
      simp only [Option.some.injEq] at hm
      subst hm
      exact ⟨rfl, _, _, rfl⟩
    | some hd =>
      simp only [Option.some.injEq] at hm
      subst hm
      exact ⟨rfl, _, _, rfl⟩

/-! ## Shape and strides reported by a container -/

/-- What a completed `Array::init` leaves in the container, for any allocator. -/
theorem init_reports (self : Array) (dim : Nat) (shape : List Nat) (f : Bool) (a : Array)
    (h : self.init dim shape f = some a) :
    ∃ r, self.allocator.calculateStrides dim self.storage.stridesBytes_ shape f = some r ∧
      a.storage.shape_ = (List.range dim).map (fun i => shape.getD i 0) ∧
      a.storage.stridesBytes_ = r.2 ∧ a.allocator = self.allocator := by
  unfold Array.init at h
  simp only [Option.bind_eq_some] at h
  obtain ⟨r, hr, handle, _, hm⟩ := h
  refine ⟨r, hr, ?_⟩
  cases handle with
  | none =>
    simp only [Option.some.injEq] at hm
    subst hm
    exact ⟨rfl, rfl, rfl⟩
  | some hd =>
    simp only [Option.some.injEq] at hm
    subst hm
    exact ⟨rfl, rfl, rfl⟩

/-- C31: a container constructed or recreated with `(shape, flag)`, for a shape
and flag with which the calls of the allocator return, reports exactly that
shape on every axis and exactly the strides that `calculateStrides` returned for
that flag (for the default allocator: the Fortran strides for `true`, the
row-major strides for `false`); the overloads that take the extents as separate
arguments, and the ones with the flag omitted, use Fortran ordering. -/
theorem container_reports_shape (self : Array) (shape : List Nat) (f : Bool) (a : Array)
    (hinit : self.init shape.length shape f = some a) :
    (∃ r, self.allocator.calculateStrides shape.length self.storage.stridesBytes_ shape f
        = some r ∧
      a.shape = shape ∧ a.stridesBytes = r.2 ∧
      (∀ n, n < shape.length → a.size n = shape.getD n 0 ∧ a.strideBytes n = r.2.getD n 0)) ∧
    (∀ sizeofT newArray,
      self.allocator = DefaultArrayAllocator.toArrayAllocator sizeofT newArray →
      shape.length < SIZE_MOD → self.storage.stridesBytes_.length = shape.length →
      a.stridesBytes = if f then fortranStored sizeofT shape else rowMajorStored sizeofT shape) ∧
    (self.recreateShape shape.length shape f = some a ∧
      (∀ raw, self = Array.uninitialised self.allocator raw →
        Array.constructShape self.allocator raw shape.length shape f = some a)) ∧
    (∀ (other : Array) (dim : Nat) (vals : List Nat) (allocator : ArrayAllocator)
        (raw : ArrayViewBase),
      other.recreateShapeDefault dim vals = other.init dim vals true ∧
      Array.constructShapeDefault allocator raw dim vals
        = (Array.uninitialised allocator raw).init dim vals true ∧
      other.recreateSizes dim vals = other.init dim vals true ∧
      Array.constructSizes allocator raw dim vals
        = (Array.uninitialised allocator raw).init dim vals true) := by
  obtain ⟨r, hr, hs, hst, _⟩ := init_reports self shape.length shape f a hinit
  rw [range_map_getD] at hs
  refine ⟨⟨r, hr, hs, hst, fun n _ => ?_⟩, ?_, ⟨hinit, fun raw hraw => ?_⟩, ?_⟩
  · constructor
    · show a.storage.shape_.getD n 0 = _
      rw [hs]
    · show a.storage.stridesBytes_.getD n 0 = _
      rw [hst]
  · intro sizeofT newArray hA hd hl
    exact (init_default_storage sizeofT newArray self shape f a hA hd hl hinit).2.1
  · unfold Array.constructShape
    rw [← hraw]
    exact hinit
  · intro other dim vals allocator raw
    refine ⟨rfl, rfl, ?_, ?_⟩
    · unfold Array.recreateSizes
      rw [getLen_eq]
    · unfold Array.constructSizes
      rw [getLen_eq]

theorem container_reports_shape_witness :
    (Array.mk (DefaultArrayAllocator.toArrayAllocator 4 (fun _ => some 4096))
      (some (Handle.mk 4096 6)) (ArrayViewBase.mk 4096 [2, 3] [12, 4])).shape = [2, 3] ∧
    (Array.mk (DefaultArrayAllocator.toArrayAllocator 4 (fun _ => some 4096))
      (some (Handle.mk 4096 6)) (ArrayViewBase.mk 4096 [2, 3] [12, 4])).stridesBytes
      = if false then fortranStored 4 [2, 3] else rowMajorStored 4 [2, 3] := by
  have h := container_reports_shape
    (Array.uninitialised (DefaultArrayAllocator.toArrayAllocator 4 (fun _ => some 4096))
      (ArrayViewBase.mk 0 [0, 0] [0, 0]))
    [2, 3] false
    (Array.mk (DefaultArrayAllocator.toArrayAllocator 4 (fun _ => some 4096))
      (some (Handle.mk 4096 6)) (ArrayViewBase.mk 4096 [2, 3] [12, 4]))
    (((init_default 4 (fun _ => some 4096) _ 2 [2, 3] false rfl).1 6 [12, 4] [1, 0]
      (by decide)).2 (by decide))
  obtain ⟨⟨r, _, h1, _⟩, h2, _⟩ := h
  exact ⟨h1, h2 4 (fun _ => some 4096) rfl (by decide) rfl⟩

/-! ## Acceptance of a selector list, axis by axis -/

theorem accepts_iff_getElem (pars : List Par) (shape : List Nat)
    (hlen : pars.length = shape.length) :
    Accepts pars shape ↔
      ∀ k p, k < shape.length → pars[k]? = some p → p.fits (shape.getD k 0) := by
  unfold Accepts
  rw [List.forall₂_iff_get]
  constructor
  · rintro ⟨_, h⟩ k p hk hp
    have hk1 : k < pars.length := by omega
    rw [List.getElem?_eq_getElem hk1] at hp
    injection hp with hp
    have := h k hk1 hk
    rw [List.getD_eq_getElem _ _ hk]
    rw [← hp]
    exact this
  · intro h
    refine ⟨hlen, fun k h1 h2 => ?_⟩
    have := h k (pars.get ⟨k, h1⟩) h2 (List.getElem?_eq_getElem h1)
    rwa [List.getD_eq_getElem _ _ h2] at this

theorem operatorCall_true_eq_none_iff (view : ArrayViewBase) (pars : List Par) (hv : view.WF)
    (hw : ∀ p ∈ pars, p.WF) (hlen : pars.length = view.dimension) :
    ArrayView.operatorCall true view pars = none ↔ ¬ Accepts pars view.shape_ := by
  constructor
  · intro h hacc
    have h1 := operatorCall_isSome true view pars
    rw [setup_view_of_accepts true view pars hv hacc, h] at h1
    cases h1
  · intro h
    by_contra hne
    apply h
    apply accepts_of_operatorCall view pars hv hw hlen
    cases hc : ArrayView.operatorCall true view pars with
    | none => exact absurd hc hne
    | some _ => rfl

/-- C32: with bounds checking enabled, `operator()` with a selector list of
length `R` raises the fatal assertion if and only if at least one selector
violates the check of its own axis (an index `>= extent`, a `Range` with `start +
length > extent`, or an `OpenRange` with `start > extent`); if every selector
passes the check of its axis the call succeeds. -/
theorem operatorCall_assert_iff (view : ArrayViewBase) (pars : List Par) (hv : view.WF)
    (hw : ∀ p ∈ pars, p.WF) (hlen : pars.length = view.dimension) :
    (ArrayView.operatorCall true view pars = none ↔
      ∃ k, k < view.dimension ∧
        ((∃ i, pars[k]? = some (Par.index i) ∧ view.size k ≤ i) ∨
          (∃ r, pars[k]? = some (Par.range r) ∧ view.size k < r.start + r.length) ∨
          (∃ r, pars[k]? = some (Par.openRange r) ∧ view.size k < r.start))) ∧
    ((∀ k, k < view.dimension →
        (∀ i, pars[k]? = some (Par.index i) → i < view.size k) ∧
        (∀ r, pars[k]? = some (Par.range r) → r.start + r.length ≤ view.size k) ∧
        (∀ r, pars[k]? = some (Par.openRange r) → r.start ≤ view.size k)) →
      (ArrayView.operatorCall true view pars).isSome = true) := by
  have hiff := operatorCall_true_eq_none_iff view pars hv hw hlen
  have hacc := accepts_iff_getElem pars view.shape_ hlen
  constructor
  · rw [hiff, hacc]
    constructor
    · intro h
      by_contra hc
      apply h
      intro k p hk hp
      cases p with
      | index i =>
        by_contra hf
        exact hc ⟨k, hk, Or.inl ⟨i, hp, Nat.le_of_not_lt hf⟩⟩
      | range r =>
        by_contra hf
        exact hc ⟨k, hk, Or.inr (Or.inl ⟨r, hp, Nat.lt_of_not_le hf⟩)⟩
      | openRange r =>
        by_contra hf
        exact hc ⟨k, hk, Or.inr (Or.inr ⟨r, hp, Nat.lt_of_not_le hf⟩)⟩
    · rintro ⟨k, hk, hviol⟩ h
      rcases hviol with ⟨i, hp, hle⟩ | ⟨r, hp, hlt⟩ | ⟨r, hp, hlt⟩
      · have := h k _ hk hp
        exact absurd this (Nat.not_lt.mpr hle)
      · have := h k _ hk hp
        exact absurd this (Nat.not_le.mpr hlt)
      · have := h k _ hk hp
        exact absurd this (Nat.not_le.mpr hlt)
  · intro h
    have ha : Accepts pars view.shape_ := by
      rw [hacc]
      intro k p hk hp
      cases p with
      | index i => exact (h k hk).1 i hp
      | range r => exact (h k hk).2.1 r hp
      | openRange r => exact (h k hk).2.2 r hp
    have h1 := operatorCall_isSome true view pars
    rw [setup_view_of_accepts true view pars hv ha] at h1
    exact h1

theorem operatorCall_assert_iff_witness :
    ArrayView.operatorCall true (ArrayViewBase.mk 1000 [2, 3] [4, 8])
      [Par.index 1, Par.range (Range.mk 2 2)] = none :=
  ((operatorCall_assert_iff (ArrayViewBase.mk 1000 [2, 3] [4, 8])
    [Par.index 1, Par.range (Range.mk 2 2)] (by decide) (by decide) rfl).1).mpr
    ⟨1, by decide, Or.inr (Or.inl ⟨Range.mk 2 2, rfl, by decide⟩)⟩

/-- C33: for a view and a selector list that the enabled bounds checks accept,
the slice stays inside the original view: every `OpenRange` starts at or before
the extent of its axis, so that the extent `extent - start` is computed without
underflow, every `Range` ends at or before it, and every in-bounds index tuple
of the slice corresponds to an index tuple (`start_k + j` on a range-selected
axis, the plain index elsewhere) that is in bounds for the original view and
addresses the same element. -/
theorem slice_in_bounds (A : Bool) (v : ArrayViewBase) (pars : List Par) (hv : v.WF)
    (hw : ∀ p ∈ pars, p.WF) (hlen : pars.length = v.dimension)
    (hacc : (ArrayView.operatorCall true v pars).isSome = true) :
    Accepts pars v.shape_ ∧
    (∀ k, k < v.dimension →
      (∀ r, pars[k]? = some (Par.openRange r) →
        r.start ≤ v.size k ∧ subSize (v.size k) r.start = v.size k - r.start ∧
        r.start + (v.size k - r.start) = v.size k) ∧
      (∀ r, pars[k]? = some (Par.range r) → r.start + r.length ≤ v.size k) ∧
      (∀ i, pars[k]? = some (Par.index i) → i < v.size k)) ∧
    (∀ s, ArrayView.operatorCall true v pars = some (RetType.view s) →
      s.shape_ = sliceShape pars v.shape_ ∧
      ∀ j, InBounds j s.shape_ →
        InBounds (sliceIndex pars j) v.shape_ ∧
        ArrayView.operatorCall A s (j.map Par.index)
          = ArrayView.operatorCall A v ((sliceIndex pars j).map Par.index)) := by
  have ha := accepts_of_operatorCall v pars hv hw hlen hacc
  refine ⟨ha, ?_, ?_⟩
  · intro k hk
    have h := (accepts_iff_getElem pars v.shape_ hlen).mp ha
    refine ⟨fun r hp => ?_, fun r hp => h k _ hk hp, fun i hp => h k _ hk hp⟩
    have hle : r.start ≤ v.size k := h k _ hk hp
    exact ⟨hle, subSize_of_le hle (size_lt_of_WF v hv.2.2.2.1 k), by omega⟩
  · intro s hs
    obtain ⟨_, hseq⟩ := slice_eq_of_operatorCall v s pars hv hw hlen hs
    subst hseq
    refine ⟨rfl, fun j hj => ?_⟩
    obtain ⟨h1, h2, h3⟩ := slice_element_core A v pars j hv ha hj
    exact ⟨h1, by rw [h2, h3]⟩

theorem slice_in_bounds_witness :
    InBounds (sliceIndex [Par.index 1, Par.openRange (OpenRange.mk 1)] [1]) [2, 3] :=
  (((slice_in_bounds true (ArrayViewBase.mk 1000 [2, 3] [4, 8])
    [Par.index 1, Par.openRange (OpenRange.mk 1)] (by decide) (by decide) rfl
    (by decide)).2.2 (ArrayViewBase.mk 1012 [2] [8]) (by decide)).2 [1] (by decide)).1

/-! ## `operator[]` and `operator()` -/

theorem getD_tail {β : Type} (l : List β) (k : Nat) (d : β) :
    l.tail.getD k d = l.getD (k + 1) d := by
  cases l with
  | nil => rfl
  | cons a l => rfl

/-- The walk of `OpPSetup::setup` from axis `dpos + 1` of a view is the walk from
axis `dpos` of the view without its first axis. -/
theorem setup_shift (A : Bool) (v w : ArrayViewBase)
    (hs : ∀ k, w.size k = v.size (k + 1))
    (hst : ∀ k, w.strideBytes k = v.strideBytes (k + 1)) :
    ∀ (pars : List Par) (dpos p : Nat),
      Intern.OpPSetup.setup A v (dpos + 1) p pars = Intern.OpPSetup.setup A w dpos p pars := by
  intro pars
  induction pars with
  | nil => intro dpos p; rfl
  | cons par pars ih =>
    intro dpos p
    cases par with
    | index val =>
      unfold Intern.OpPSetup.setup
      have hc : ArrayAssertions.checkIndex A v (dpos + 1) val
          = ArrayAssertions.checkIndex A w dpos val := by
        unfold ArrayAssertions.checkIndex
        rw [hs]
      rw [hc, hst]
      congr 1
      funext _
      exact ih _ _
    | range val =>
      unfold Intern.OpPSetup.setup
      have hc : ArrayAssertions.checkRange A v (dpos + 1) val
          = ArrayAssertions.checkRange A w dpos val := by
        unfold ArrayAssertions.checkRange
        rw [hs]
      simp only [hc, hst, ih]
    | openRange val =>
      unfold Intern.OpPSetup.setup
      have hc : ArrayAssertions.checkOpenRange A v (dpos + 1) val
          = ArrayAssertions.checkOpenRange A w dpos val := by
        unfold ArrayAssertions.checkOpenRange
        rw [hs]
      simp only [hc, hst, hs, ih]

theorem tail_view_size (ptr : Nat) (v : ArrayViewBase) :
    (∀ k, (ArrayViewBase.mk ptr v.shape_.tail v.stridesBytes_.tail).size k = v.size (k + 1)) ∧
    (∀ k, (ArrayViewBase.mk ptr v.shape_.tail v.stridesBytes_.tail).strideBytes k
      = v.strideBytes (k + 1)) :=
  ⟨fun k => getD_tail v.shape_ k 0, fun k => getD_tail v.stridesBytes_ k 0⟩

theorem operatorCall_index_list (A : Bool) (v : ArrayViewBase) (idx : List Nat) :
    ArrayView.operatorCall A v (idx.map Par.index)
      = (Intern.OpPSetup.setup A v 0 v.arithData (idx.map Par.index)).map
          fun r => RetType.ref r.1 := by
  unfold ArrayView.operatorCall
  rw [retDim_map_index]
  simp only [Intern.OpPInfoDim.accessPtr, Option.map_map]
  rfl

/-- The walk over open ranges `range ()` from axis `dpos`: the pointer is
unchanged, the extents and strides of the axes walked are returned. -/
theorem setup_open_zero (A : Bool) (view : ArrayViewBase)
    (hsh : ∀ n ∈ view.shape_, n < SIZE_MOD) :
    ∀ (n dpos p : Nat), p < SIZE_MOD →
      Intern.OpPSetup.setup A view dpos p (List.replicate n rangeDefault)
        = some (p, (List.range n).map (fun k => view.size (dpos + k)),
            (List.range n).map (fun k => view.strideBytes (dpos + k))) := by
  intro n
  induction n with
  | zero => intro dpos p _; rfl
  | succ n ih =>
    intro dpos p hp
    rw [List.replicate_succ]
    unfold rangeDefault rangeFrom
    unfold Intern.OpPSetup.setup
    have hc : ArrayAssertions.checkOpenRange A view dpos (OpenRange.mk 0) = some () := by
      cases A with
      | true => simp [ArrayAssertions.checkOpenRange, ASSERT]
      | false => rfl
    have hp2 : ptrAdd p (mulSize 0 (toSizeT (view.strideBytes dpos))) = p := by
      unfold ptrAdd mulSize
      rw [Nat.zero_mul, Nat.zero_mod, Nat.add_zero, Nat.mod_eq_of_lt hp]
    have hih := ih (dpos + 1) p hp
    unfold rangeDefault rangeFrom at hih
    simp only [hc, Option.some_bind, hp2, hih, Option.map_some']
    rw [subSize_of_le (Nat.zero_le _) (size_lt_of_WF view hsh dpos), Nat.sub_zero,
      List.range_succ_eq_map, List.map_cons, List.map_cons, List.map_map, List.map_map]
    have e1 : (fun k => view.size (dpos + 1 + k)) = (fun k => view.size (dpos + k)) ∘ Nat.succ :=
      funext fun k => congrArg view.size (Nat.add_right_comm dpos 1 k)
    have e2 : (fun k => view.strideBytes (dpos + 1 + k))
        = (fun k => view.strideBytes (dpos + k)) ∘ Nat.succ :=
      funext fun k => congrArg view.strideBytes (Nat.add_right_comm dpos 1 k)
    rw [e1, e2]
    rfl

theorem retDim_replicate (n : Nat) :
    Intern.OpPInfo.retDim (List.replicate n rangeDefault) = n := by
  induction n with
  | zero => rfl
  | succ n ih =>
    rw [List.replicate_succ]
    unfold Intern.OpPInfo.retDim
    rw [ih]
    rfl

theorem range_map_tail {β : Type} (l : List β) (d : β) :
    (List.range (l.length - 1)).map (fun k => l.getD (1 + k) d) = l.tail := by
  apply List.ext_getElem (by simp)
  intro k h1 h2
  rw [List.length_tail] at h2
  rw [List.getElem_map, List.getElem_range, List.getD_eq_getElem _ _ (by omega),
    List.getElem_tail]
  congr 1
  omega

/-- The chained access `v[i_0]...[i_{R-1}]` is the call `v (i_0, ..., i_{R-1})`. -/
theorem indexChain_eq (A : Bool) : ∀ (idx : List Nat) (v : ArrayViewBase),
    idx ≠ [] → idx.length = v.dimension →
    indexChain A v idx = ArrayView.operatorCall A v (idx.map Par.index) := by
  intro idx
  induction idx with
  | nil => intro v h; exact absurd rfl h
  | cons i is ih =>
    intro v _ hlen
    rw [operatorCall_index_list]
    unfold indexChain ArrayView.operatorIndex
    rw [List.map_cons]
    unfold Intern.OpPSetup.setup
    by_cases hnil : is = []
    · subst hnil
      have hd : v.dimension = 1 := by rw [← hlen]; rfl
      rw [if_pos hd]
      unfold Intern.ArrayElementAccess.access1
      cases hc : ArrayAssertions.checkIndex A v 0 i with
      | none => rfl
      | some u =>
        simp only [Option.some_bind, Option.map_some', if_true, List.map_nil,
          Intern.OpPSetup.setup, mulSize_comm]
    · have hd : ¬ v.dimension = 1 := by
        rw [← hlen]
        cases is with
        | nil => exact absurd rfl hnil
        | cons a l => simp
      rw [if_neg hd]
      unfold Intern.ArrayElementAccess.access
      cases hc : ArrayAssertions.checkIndex A v 0 i with
      | none => rfl
      | some u =>
        simp only [Option.some_bind, Option.map_some']
        have hw := tail_view_size
          (ptrAdd v.arithData (mulSize (toSizeT (v.strideBytes 0)) i)) v
        rw [ih _ hnil (by
          show is.length = v.shape_.tail.length
          rw [List.length_tail]
          have : (i :: is).length = v.shape_.length := hlen
          simp only [List.length_cons] at this
          omega), operatorCall_index_list,
          ← setup_shift A v _ hw.1 hw.2 (is.map Par.index) 0, mulSize_comm]
        rfl

/-- C34: `operator[]` agrees with `operator()`: for a view `v` of rank `R >= 2`,
`v[p]` is the view `v (p, range (), ..., range ())` with `R - 1` open ranges;
for rank 1, `v[p]` is the element `v (p)`; under enabled checks both forms fail
exactly when `p >= extent_0`; and `v[i_0][i_1]...[i_{R-1}]` is the element
`v (i_0, ..., i_{R-1})`. -/
theorem operatorIndex_eq_operatorCall (A : Bool) (v : ArrayViewBase) (p : Nat) (hv : v.WF) :
    (2 ≤ v.dimension →
      ArrayView.operatorIndex A v p
        = ArrayView.operatorCall A v
            (Par.index p :: List.replicate (v.dimension - 1) rangeDefault) ∧
      (ArrayView.operatorCall true v
          (Par.index p :: List.replicate (v.dimension - 1) rangeDefault) = none
        ↔ v.size 0 ≤ p)) ∧
    (v.dimension = 1 →
      ArrayView.operatorIndex A v p = ArrayView.operatorCall A v [Par.index p] ∧
      (ArrayView.operatorCall true v [Par.index p] = none ↔ v.size 0 ≤ p)) ∧
    (ArrayView.operatorIndex true v p = none ↔ v.size 0 ≤ p) ∧
    (∀ idx : List Nat, idx.length = v.dimension →
      indexChain A v idx = ArrayView.operatorCall A v (idx.map Par.index)) := by
  obtain ⟨hp, hpos, hstl, hsh, hstr⟩ := hv
  have hidx : ArrayView.operatorIndex true v p = none ↔ v.size 0 ≤ p := by
    rw [operatorIndex_eq_none]
    unfold ArrayAssertions.checkIndex ASSERT
    simp only []
    split
    · simp; omega
    · simp; omega
  have hgen : ∀ B : Bool, 2 ≤ v.dimension →
      ArrayView.operatorIndex B v p
        = ArrayView.operatorCall B v
            (Par.index p :: List.replicate (v.dimension - 1) rangeDefault) := by
    intro B h2
    unfold ArrayView.operatorIndex ArrayView.operatorCall
    rw [if_neg (by omega)]
    have hret : Intern.OpPInfo.retDim
        (Par.index p :: List.replicate (v.dimension - 1) rangeDefault)
        = (v.dimension - 2) + 1 := by
      unfold Intern.OpPInfo.retDim
      rw [retDim_replicate]
      simp only [Intern.OpPArgInfoIsRange, Bool.false_eq_true, if_false]
      omega
    rw [hret]
    simp only [Intern.OpPInfoDim.access, Intern.ArrayElementAccess.access]
    unfold Intern.OpPSetup.setup
    cases hc : ArrayAssertions.checkIndex B v 0 p with
    | none => rfl
    | some u =>
      simp only [Option.some_bind, Option.map_some']
      rw [setup_open_zero B v hsh (v.dimension - 1) 1 _ (ptrAdd_lt _ _)]
      simp only [Option.map_some', ArrayViewBase.size, ArrayViewBase.strideBytes,
        ArrayViewBase.dimension]
      rw [range_map_tail v.shape_ 0, mulSize_comm]
      have : v.shape_.length - 1 = v.stridesBytes_.length - 1 := by rw [hstl]
      rw [this, range_map_tail v.stridesBytes_ 0]
  refine ⟨fun h2 => ⟨hgen A h2, ?_⟩, fun h1 => ?_, hidx, ?_⟩
  · rw [← hgen true h2]
    exact hidx
  · have hc := indexChain_eq A [p] v (by simp) (by rw [h1]; rfl)
    have hc2 := indexChain_eq true [p] v (by simp) (by rw [h1]; rfl)
    have hchain : ∀ B : Bool, indexChain B v [p] = ArrayView.operatorIndex B v p := by
      intro B
      unfold indexChain ArrayView.operatorIndex
      rw [if_pos h1]
      cases Intern.ArrayElementAccess.access1 B v p with
      | none => rfl
      | some u => rfl
    rw [← hchain A, hc]
    refine ⟨rfl, ?_⟩
    rw [show [Par.index p] = List.map Par.index [p] from rfl, ← hc2, hchain true]
    exact hidx
  · intro idx hlen
    apply indexChain_eq A idx v ?_ hlen
    intro hnil
    rw [hnil] at hlen
    have : 0 < v.dimension := hpos
    simp at hlen
    omega

theorem operatorIndex_eq_operatorCall_witness :
    indexChain true (ArrayViewBase.mk 1000 [2, 3] [4, 8]) [1, 2]
      = ArrayView.operatorCall true (ArrayViewBase.mk 1000 [2, 3] [4, 8])
          [Par.index 1, Par.index 2] :=
  (operatorIndex_eq_operatorCall true (ArrayViewBase.mk 1000 [2, 3] [4, 8]) 0
    (by decide)).2.2.2 [1, 2] rfl

/-! ## Composition of slices -/

theorem range_list_slice : ∀ (ab : List Range) (shape : List Nat),
    List.Forall₂ (fun (r : Range) n => r.start + r.length ≤ n) ab shape →
    ∀ strides : List Int, strides.length = shape.length →
      Accepts (ab.map Par.range) shape ∧
      sliceShape (ab.map Par.range) shape = ab.map Range.length ∧
      sliceStrides (ab.map Par.range) strides = strides ∧
      (ab.map Par.range).map Par.start = ab.map Range.start := by
  intro ab shape h
  induction h with
  | nil =>
    intro strides hl
    have : strides = [] := List.length_eq_zero.mp hl
    subst this
    exact ⟨List.Forall₂.nil, rfl, rfl, rfl⟩
  | @cons r n rs ns hrn _ ih =>
    intro strides hl
    match strides, hl with
    | s :: ss, hl =>
      obtain ⟨h1, h2, h3, h4⟩ := ih ss (by simpa using hl)
      refine ⟨List.Forall₂.cons hrn h1, ?_, ?_, ?_⟩
      · simp only [List.map_cons, sliceShape, h2]
      · simp only [List.map_cons, sliceStrides, h3]
      · simp only [List.map_cons, Par.start, h4]

theorem range_list_compose : ∀ (cd ab : List Range),
    List.Forall₂ (fun (r2 r1 : Range) => r2.start + r2.length ≤ r1.length) cd ab →
    ∀ (shape : List Nat) (strides : List Int),
      List.Forall₂ (fun (r : Range) n => r.start + r.length ≤ n) ab shape →
      strides.length = shape.length →
      List.Forall₂ (fun (r : Range) n => r.start + r.length ≤ n)
        (List.zipWith (fun r1 r2 => Range.mk (r1.start + r2.start) r2.length) ab cd) shape ∧
      (List.zipWith (fun r1 r2 => Range.mk (r1.start + r2.start) r2.length) ab cd).map
        Range.length = cd.map Range.length ∧
      offsetSum ((List.zipWith (fun r1 r2 => Range.mk (r1.start + r2.start) r2.length)
          ab cd).map Range.start) strides
        = offsetSum (ab.map Range.start) strides + offsetSum (cd.map Range.start) strides := by
  intro cd ab h
  induction h with
  | nil =>
    intro shape strides h1 _
    cases h1
    exact ⟨List.Forall₂.nil, rfl, by simp [offsetSum]⟩
  | @cons r2 r1 cs as h21 _ ih =>
    intro shape strides h1 hl
    cases h1 with
    | @cons _ n _ ns h1n h1s =>
      match strides, hl with
      | s :: ss, hl =>
        obtain ⟨i1, i2, i3⟩ := ih ns ss h1s (by simpa using hl)
        refine ⟨List.Forall₂.cons ?_ i1, ?_, ?_⟩
        · show r1.start + r2.start + r2.length ≤ n
          omega
        · simp only [List.zipWith_cons_cons, List.map_cons, i2]
        · simp only [List.zipWith_cons_cons, List.map_cons, offsetSum_cons, i3]
          push_cast
          ring

theorem map_range_eq_zipWith (ab cd : List Range) :
    List.zipWith (fun r1 r2 => Math.range (r1.start + r2.start) r2.length) ab cd
      = (List.zipWith (fun r1 r2 => Range.mk (r1.start + r2.start) r2.length) ab cd).map
          Par.range := by
  rw [List.map_zipWith]
  rfl

/-- C35: slicing composes: for a view `v` and `Range` lists `(a_k, b_k)` and
`(c_k, d_k)` with `a_k + b_k <= extent_k` and `c_k + d_k <= b_k` on every axis,
slicing `v` with the ranges `(a_k, b_k)` and the result with the ranges `(c_k,
d_k)` gives the view that slicing `v` once with the ranges `(a_k + c_k, d_k)`
gives; and slicing with the open range `range (0)` on every axis returns `v`. -/
theorem slice_compose (A : Bool) (v : ArrayViewBase) (hv : v.WF) :
    (∀ ab cd : List Range,
      List.Forall₂ (fun (r : Range) n => r.start + r.length ≤ n) ab v.shape_ →
      List.Forall₂ (fun (r2 r1 : Range) => r2.start + r2.length ≤ r1.length) cd ab →
      ∃ s1 s2, ArrayView.operatorCall A v (ab.map Par.range) = some (RetType.view s1) ∧
        ArrayView.operatorCall A s1 (cd.map Par.range) = some (RetType.view s2) ∧
        ArrayView.operatorCall A v
          (List.zipWith (fun r1 r2 => Math.range (r1.start + r2.start) r2.length) ab cd)
          = some (RetType.view s2)) ∧
    ArrayView.operatorCall A v (List.replicate v.dimension (rangeFrom 0))
      = some (RetType.view v) ∧
    ArrayView.operatorCall A v (List.replicate v.dimension rangeDefault)
      = some (RetType.view v) := by
  obtain ⟨hp, hpos, hstl, hsh, hstr⟩ := hv
  have hv : v.WF := ⟨hp, hpos, hstl, hsh, hstr⟩
  have hid : ArrayView.operatorCall A v (List.replicate v.dimension rangeDefault)
      = some (RetType.view v) := by
    unfold ArrayView.operatorCall
    obtain ⟨d, hd⟩ : ∃ d, v.dimension = d + 1 := ⟨v.dimension - 1, by
      unfold ArrayViewBase.dimension; omega⟩
    rw [retDim_replicate, hd]
    simp only [Intern.OpPInfoDim.access]
    rw [← hd, setup_open_zero A v hsh v.dimension 0 v.arithData hp]
    simp only [Option.map_some', Nat.zero_add, ArrayViewBase.size, ArrayViewBase.strideBytes,
      ArrayViewBase.dimension, ArrayViewBase.arithData]
    rw [range_map_getD, ← hstl, map_eq_range_map v.stridesBytes_ (fun x => x) 0 |>.symm.trans
      (List.map_id _)]
  refine ⟨?_, hid, hid⟩
  intro ab cd h1 h2
  have hlab : ab.length = v.shape_.length := h1.length_eq
  have hlcd : cd.length = ab.length := h2.length_eq
  obtain ⟨a1, a2, a3, a4⟩ := range_list_slice ab v.shape_ h1 v.stridesBytes_ hstl
  have hne : ab ≠ [] := by
    intro h
    rw [h] at hlab
    simp at hlab
    omega
  have hr1 : ∃ p ∈ ab.map Par.range, Intern.OpPArgInfoIsRange p = true := by
    cases ab with
    | nil => exact absurd rfl hne
    | cons r rs => exact ⟨Par.range r, by simp, rfl⟩
  have e1 := operatorCall_of_accepts A v (ab.map Par.range) hv hr1 a1
  rw [a2, a3, a4] at e1
  have hs1 : (ArrayViewBase.mk
      (toSizeT ((v.ptr : Int) + offsetSum (ab.map Range.start) v.stridesBytes_))
      (ab.map Range.length) v.stridesBytes_).WF := by
    refine ⟨toSizeT_lt _, by simp; omega, by simp [hstl, hlab], ?_, hstr⟩
    intro n hn
    have := sliceShape_lt (ab.map Par.range) v.shape_ a1 hsh n
    rw [a2] at this
    exact this hn
  have h2b : List.Forall₂ (fun (r : Range) n => r.start + r.length ≤ n) cd
      (ab.map Range.length) := by
    rw [List.forall₂_map_right_iff]
    exact h2
  obtain ⟨b1, b2, b3, b4⟩ := range_list_slice cd (ab.map Range.length) h2b v.stridesBytes_
    (by simp [hstl, hlab])
  have hr2 : ∃ p ∈ cd.map Par.range, Intern.OpPArgInfoIsRange p = true := by
    cases cd with
    | nil =>
      rw [List.length_nil] at hlcd
      exact absurd (List.length_eq_zero.mp hlcd.symm) hne
    | cons r rs => exact ⟨Par.range r, by simp, rfl⟩
  have e2 := operatorCall_of_accepts A _ (cd.map Par.range) hs1 hr2 b1
  simp only [] at e2
  rw [b2, b3, b4] at e2
  obtain ⟨c1, c2, c3⟩ := range_list_compose cd ab h2 v.shape_ v.stridesBytes_ h1 hstl
  obtain ⟨d1, d2, d3, d4⟩ := range_list_slice _ v.shape_ c1 v.stridesBytes_ hstl
  have hr3 : ∃ p ∈ (List.zipWith (fun r1 r2 => Range.mk (r1.start + r2.start) r2.length)
      ab cd).map Par.range, Intern.OpPArgInfoIsRange p = true := by
    cases ab with
    | nil => exact absurd rfl hne
    | cons r rs =>
      cases cd with
      | nil => simp at hlcd
      | cons r2 rs2 =>
        exact ⟨Par.range (Range.mk (r.start + r2.start) r2.length),
          by simp [List.zipWith_cons_cons], rfl⟩
  have e3 := operatorCall_of_accepts A v _ hv hr3 d1
  rw [d2, d3, d4, c2, c3] at e3
  refine ⟨_, _, e1, e2, ?_⟩
  rw [map_range_eq_zipWith, e3, toSizeT_toSizeT_add, add_assoc]

theorem slice_compose_witness :
    ∃ s1 s2, ArrayView.operatorCall true (ArrayViewBase.mk 1000 [5, 6] [4, 20])
        [Par.range (Range.mk 1 4), Par.range (Range.mk 2 3)] = some (RetType.view s1) ∧
      ArrayView.operatorCall true s1
        [Par.range (Range.mk 1 2), Par.range (Range.mk 0 3)] = some (RetType.view s2) ∧
      ArrayView.operatorCall true (ArrayViewBase.mk 1000 [5, 6] [4, 20])
        (List.zipWith (fun r1 r2 => Math.range (r1.start + r2.start) r2.length)
          [Range.mk 1 4, Range.mk 2 3] [Range.mk 1 2, Range.mk 0 3])
        = some (RetType.view s2) :=
  (slice_compose true (ArrayViewBase.mk 1000 [5, 6] [4, 20]) (by decide)).1
    [Range.mk 1 4, Range.mk 2 3] [Range.mk 1 2, Range.mk 0 3] (by decide) (by decide)

/-! ## Reordering without reversal -/

theorem reorder_positive (v : ArrayViewBase) (dims : List Int) (hpos : ∀ d ∈ dims, ¬ d < 0) :
    reorderOffset v dims = 0 ∧
    reorderStored v dims = dims.map fun d => v.strideBytes (axisOf d) := by
  induction dims with
  | nil => exact ⟨rfl, rfl⟩
  | cons d ds ih =>
    obtain ⟨h1, h2⟩ := ih (fun x hx => hpos x (List.mem_cons_of_mem d hx))
    have hd := hpos d (List.mem_cons_self d ds)
    constructor
    · unfold reorderOffset at h1 ⊢
      rw [List.map_cons, List.sum_cons, h1, if_neg (fun h => hd h.1), add_zero]
    · unfold reorderStored at h2 ⊢
      rw [List.map_cons, List.map_cons, h2, if_neg hd]

theorem identityDims_valid (R : Nat) (hR : R < 2147483648) :
    ValidDims R (identityDims R) ∧ DimsInt32 (identityDims R) ∧
    (∀ d ∈ identityDims R, ¬ d < 0) ∧
    (identityDims R).map axisOf = List.range R := by
  unfold identityDims
  refine ⟨⟨by simp, ?_, ?_⟩, ?_, ?_, ?_⟩
  · intro d hd
    rw [List.mem_map] at hd
    obtain ⟨i, hi, rfl⟩ := hd
    rw [List.mem_range] at hi
    omega
  · rw [List.map_map]
    apply List.Nodup.map_on _ (List.nodup_range R)
    intro a _ b _ h
    simp only [Function.comp] at h
    omega
  · intro d hd
    rw [List.mem_map] at hd
    obtain ⟨i, hi, rfl⟩ := hd
    rw [List.mem_range] at hi
    omega
  · intro d hd
    rw [List.mem_map] at hd
    obtain ⟨i, _, rfl⟩ := hd
    omega
  · rw [List.map_map]
    have : (axisOf ∘ fun i : Nat => (i : Int) + 1) = id := by
      funext i
      simp only [Function.comp, axisOf, id]
      omega
    rw [this, List.map_id]

/-- C36: for a rank-2 view `v`, `reorderDimensions (v, [2, 1])` returns
`transposed (v)` (same base pointer, shape and strides); and for a view of any
rank `R`, `reorderDimensions` with the identity list `[1, 2, ..., R]` returns the
view it was given. -/
theorem reorderDimensions_transposed (v : ArrayViewBase) (hv : v.WF)
    (hR : v.dimension < 2147483648) :
    (v.dimension = 2 → reorderDimensions v [2, 1] = ReorderResult.done (transposed v)) ∧
    reorderDimensions v (identityDims v.dimension) = ReorderResult.done v ∧
    (∀ i, i < v.dimension → (identityDims v.dimension).getD i 0 = (i : Int) + 1) := by
  obtain ⟨hp, hpos, hstl, hsh, hstr⟩ := hv
  refine ⟨?_, ?_, ?_⟩
  · intro h2
    have hvalid : ValidDims v.dimension [2, 1] := by rw [h2]; decide
    rw [(reorder_loop_result v [2, 1] hR hsh (by decide) (by rw [h2]; rfl)).1 hvalid]
    obtain ⟨e1, e2⟩ := reorder_positive v [2, 1] (by decide)
    rw [e1, e2, add_zero, toSizeT_natCast hp]
    rfl
  · obtain ⟨i1, i2, i3, i4⟩ := identityDims_valid v.dimension hR
    rw [(reorder_loop_result v _ hR hsh i2 i1.1).1 i1]
    obtain ⟨e1, e2⟩ := reorder_positive v _ i3
    rw [e1, e2, add_zero, toSizeT_natCast hp]
    have hshape : reorderShape v (identityDims v.dimension) = v.shape_ := by
      unfold reorderShape
      rw [show (fun d => v.size (axisOf d)) = v.size ∘ axisOf from rfl, ← List.map_map, i4]
      exact range_map_getD v.shape_
    have hstride : (identityDims v.dimension).map (fun d => v.strideBytes (axisOf d))
        = v.stridesBytes_ := by
      rw [show (fun d => v.strideBytes (axisOf d)) = v.strideBytes ∘ axisOf from rfl,
        ← List.map_map, i4]
      unfold ArrayViewBase.dimension
      rw [← hstl]
      exact (map_eq_range_map v.stridesBytes_ (fun x => x) 0).symm.trans (List.map_id _)
    rw [hshape, hstride]
  · intro i hi
    unfold identityDims
    rw [List.getD_eq_getElem _ _ (by simpa using hi), List.getElem_map, List.getElem_range]

theorem reorderDimensions_transposed_witness :
    reorderDimensions (ArrayViewBase.mk 1000 [2, 3] [4, 8]) [2, 1]
      = ReorderResult.done (transposed (ArrayViewBase.mk 1000 [2, 3] [4, 8])) :=
  (reorderDimensions_transposed (ArrayViewBase.mk 1000 [2, 3] [4, 8]) (by decide)
    (by decide)).1 rfl

/-! ## Addresses reached by a reordered view -/

theorem getD_range_map (R : Nat) (F : Nat → Nat) (i : Nat) (hi : i < R) :
    ((List.range R).map F).getD i 0 = F i := by
  rw [List.getD_eq_getElem _ _ (by simpa using hi), List.getElem_map, List.getElem_range]

/-- The view that `reorderDimensions` builds for a valid axis list reaches
exactly the element addresses of the original view. -/
theorem reorder_addressSet (v : ArrayViewBase) (dims : List Int) (hv : v.WF)
    (hvalid : ValidDims v.dimension dims) :
    addressSet (ArrayViewBase.mk (toSizeT ((v.ptr : Int) + reorderOffset v dims))
      (reorderShape v dims) (reorderStored v dims)) = addressSet v := by
  have hlen : dims.length = v.dimension := hvalid.1
  have hshl : (reorderShape v dims).length = v.dimension := by
    unfold reorderShape; rw [List.length_map, hlen]
  have hsz : ∀ i, i < v.dimension →
      (reorderShape v dims).getD i 0 = v.size (axisOf (dims.getD i 0)) := by
    intro i hi
    unfold reorderShape
    rw [getD_map_of_lt dims _ i 0 (by omega)]
  apply Set.ext
  intro a
  unfold addressSet
  simp only [Set.mem_setOf_eq]
  constructor
  · rintro ⟨j, hj, rfl⟩
    have hs : ∀ a, ∃ i, a < v.dimension → i < v.dimension ∧ axisOf (dims.getD i 0) = a := by
      intro a
      by_cases ha : a < v.dimension
      · obtain ⟨i, hi, heq⟩ := axes_surj v.dimension dims hvalid a ha
        exact ⟨i, fun _ => ⟨hi, heq⟩⟩
      · exact ⟨0, fun h => absurd h ha⟩
    choose g hg using hs
    have hrel : ∀ i, i < v.dimension →
        ((List.range v.dimension).map fun a =>
          if 0 < dims.getD (g a) 0 then j.getD (g a) 0
          else v.size a - 1 - j.getD (g a) 0).getD (axisOf (dims.getD i 0)) 0
        = if 0 < dims.getD i 0 then j.getD i 0
          else v.size (axisOf (dims.getD i 0)) - 1 - j.getD i 0 := by
      intro i hi
      have hax := (axes_lt v.dimension dims hvalid i hi).2
      rw [getD_range_map _ _ _ hax]
      have hgi := hg _ hax
      have : g (axisOf (dims.getD i 0)) = i :=
        axes_inj v.dimension dims hvalid _ _ hgi.1 hi hgi.2
      rw [this]
    obtain ⟨hkb, haddr⟩ := reorder_address v dims hv hvalid j _ hj (by simp) hrel
    exact ⟨_, hkb, haddr.symm⟩
  · rintro ⟨k, hk, rfl⟩
    have hkb := (inBounds_iff_getD k v.shape_).mp hk
    have hjb : InBounds ((List.range v.dimension).map fun i =>
        if 0 < dims.getD i 0 then k.getD (axisOf (dims.getD i 0)) 0
        else v.size (axisOf (dims.getD i 0)) - 1 - k.getD (axisOf (dims.getD i 0)) 0)
        (reorderShape v dims) := by
      rw [inBounds_iff_getD]
      refine ⟨by simp [hshl], fun i hi => ?_⟩
      rw [hshl] at hi
      rw [getD_range_map _ _ _ hi, hsz i hi]
      have hax := (axes_lt v.dimension dims hvalid i hi).2
      have := hkb.2 _ hax
      unfold ArrayViewBase.size
      split <;> omega
    have hrel : ∀ i, i < v.dimension → k.getD (axisOf (dims.getD i 0)) 0
        = if 0 < dims.getD i 0 then
            ((List.range v.dimension).map fun i =>
              if 0 < dims.getD i 0 then k.getD (axisOf (dims.getD i 0)) 0
              else v.size (axisOf (dims.getD i 0)) - 1
                - k.getD (axisOf (dims.getD i 0)) 0).getD i 0
          else v.size (axisOf (dims.getD i 0)) - 1 -
            ((List.range v.dimension).map fun i =>
              if 0 < dims.getD i 0 then k.getD (axisOf (dims.getD i 0)) 0
              else v.size (axisOf (dims.getD i 0)) - 1
                - k.getD (axisOf (dims.getD i 0)) 0).getD i 0 := by
      intro i hi
      rw [getD_range_map _ _ _ hi]
      have hax := (axes_lt v.dimension dims hvalid i hi).2
      have := hkb.2 _ hax
      unfold ArrayViewBase.size
      split <;> omega
    obtain ⟨_, haddr⟩ := reorder_address v dims hv hvalid _ k hjb hkb.1 hrel
    exact ⟨_, hjb, haddr⟩

theorem reorder_two_one (v : ArrayViewBase) (hv : v.WF) :
    ArrayViewBase.mk (toSizeT ((v.ptr : Int) + reorderOffset v [2, 1]))
      (reorderShape v [2, 1]) (reorderStored v [2, 1]) = transposed v := by
  obtain ⟨e1, e2⟩ := reorder_positive v [2, 1] (by decide)
  rw [e1, e2, add_zero, toSizeT_natCast hv.1]
  rfl

/-- C37: for a view `v` and a valid signed axis list `d`, the set of element
addresses that the in-bounds index tuples of `reorderDimensions (v, d)` reach is
exactly the set that the in-bounds index tuples of `v` reach; the same holds for
`transposed (v)` of a rank-2 view. -/
theorem reorderDimensions_addresses (v : ArrayViewBase) (dims : List Int) (hv : v.WF)
    (hR : v.dimension < 2147483648) (hd : DimsInt32 dims)
    (hvalid : ValidDims v.dimension dims) :
    (∃ w, reorderDimensions v dims = ReorderResult.done w ∧ addressSet w = addressSet v ∧
      (∀ j, InBounds j w.shape_ → ∃ k, InBounds k v.shape_ ∧
        elementAddress v k = elementAddress w j) ∧
      (∀ k, InBounds k v.shape_ → ∃ j, InBounds j w.shape_ ∧
        elementAddress w j = elementAddress v k)) ∧
    (v.dimension = 2 → addressSet (transposed v) = addressSet v) := by
  have hset := reorder_addressSet v dims hv hvalid
  refine ⟨⟨_, (reorder_loop_result v dims hR hv.2.2.2.1 hd hvalid.1).1 hvalid, hset, ?_, ?_⟩, ?_⟩
  · intro j hj
    have : elementAddress _ j ∈ addressSet (ArrayViewBase.mk
        (toSizeT ((v.ptr : Int) + reorderOffset v dims))
        (reorderShape v dims) (reorderStored v dims)) := ⟨j, hj, rfl⟩
    rw [hset] at this
    exact this
  · intro k hk
    have : elementAddress v k ∈ addressSet v := ⟨k, hk, rfl⟩
    rw [← hset] at this
    exact this
  · intro h2
    rw [← reorder_two_one v hv]
    exact reorder_addressSet v [2, 1] hv (by rw [h2]; decide)

theorem reorderDimensions_addresses_witness :
    ∃ w, reorderDimensions (ArrayViewBase.mk 1000 [2, 3] [4, 8]) [-2, 1]
        = ReorderResult.done w ∧
      addressSet w = addressSet (ArrayViewBase.mk 1000 [2, 3] [4, 8]) := by
  obtain ⟨⟨w, h1, h2, _⟩, _⟩ := reorderDimensions_addresses
    (ArrayViewBase.mk 1000 [2, 3] [4, 8]) [-2, 1] (by decide) (by decide) (by decide)
    (by decide)
  exact ⟨w, h1, h2⟩

/-! ## Self-assignment -/

theorem copyAll_self {α : Type} (sizeofT : Nat) (l : List (Nat × Nat)) : ∀ (mem : Memory α),
    (∀ p ∈ l, p.1 = p.2) → (copyAll sizeofT l mem).cells = mem.cells := by
  induction l with
  | nil => intro mem _; rfl
  | cons p l ih =>
    intro mem h
    rw [copyAll_cons, ih _ (fun q hq => h q (List.mem_cons_of_mem p hq))]
    have hp := h p (List.mem_cons_self p l)
    funext a
    simp only [Memory.copy]
    split
    · rename_i ha
      rw [← hp, Nat.add_sub_cancel' ha.1]
    · rfl

/-- C38: for a view `v` of any shape and strides, `v.assign (v)`, that is
assigning from a view with the same base pointer, shape and strides, completes
and leaves the value at every address unchanged. -/
theorem assign_self {α : Type} (sizeofT : Nat) (v : ArrayViewBase) (mem : Memory α)
    (hv : v.WF) :
    (∃ mem2, ArrayView.assign sizeofT v v mem = Outcome.returned mem2 ∧
      ∀ a, mem2.cells a = mem.cells a) ∧
    (∀ s : ArrayViewBase, s.ptr = v.ptr → s.shape_ = v.shape_ →
      s.stridesBytes_ = v.stridesBytes_ →
      ∃ mem2, ArrayView.assign sizeofT v s mem = Outcome.returned mem2 ∧
        ∀ a, mem2.cells a = mem.cells a) := by
  have h : ∃ mem2, ArrayView.assign sizeofT v v mem = Outcome.returned mem2 ∧
      ∀ a, mem2.cells a = mem.cells a := by
    refine ⟨_, assign_eq sizeofT v v mem hv hv.2.2.1 (fun _ _ => rfl), fun a => ?_⟩
    rw [copyAll_self]
    intro p hp
    unfold assignPairs at hp
    rw [List.mem_map] at hp
    obtain ⟨idx, _, rfl⟩ := hp
    rfl
  refine ⟨h, fun s h1 h2 h3 => ?_⟩
  have : s = v := by
    cases s
    cases v
    simp only at h1 h2 h3
    rw [h1, h2, h3]
  rw [this]
  exact h

theorem assign_self_witness :
    ∃ mem2, ArrayView.assign 4 (ArrayViewBase.mk 1000 [2, 3] [4, 0])
        (ArrayViewBase.mk 1000 [2, 3] [4, 0]) (Memory.mk (fun a => a) [])
        = Outcome.returned mem2 ∧ ∀ a, mem2.cells a = a :=
  (assign_self 4 (ArrayViewBase.mk 1000 [2, 3] [4, 0]) (Memory.mk (fun a => a) [])
    (by decide)).1

/-! ## The CPU reference kernel of the Mandelbrot exercise -/

theorem UINT_MOD_eq : UINT_MOD = 4294967296 := rfl

theorem writeAll_nil (out : OutputVector) : writeAll [] out = out := rfl

theorem writeAll_cons (p : Nat × Nat) (l : List (Nat × Nat)) (out : OutputVector) :
    writeAll (p :: l) out = writeAll l (out.write p.1 p.2) := rfl

/-- The element assignments are recorded in order after the earlier ones. -/
theorem writeAll_writes (l : List (Nat × Nat)) : ∀ out : OutputVector,
    (writeAll l out).writes = out.writes ++ l := by
  induction l with
  | nil => intro out; simp [writeAll_nil]
  | cons p l ih =>
    intro out
    rw [writeAll_cons, ih]
    simp [OutputVector.write]

/-- Element assignment does not change the size of the buffer. -/
theorem writeAll_length (l : List (Nat × Nat)) : ∀ out : OutputVector,
    (writeAll l out).data.length = out.data.length := by
  induction l with
  | nil => intro out; rfl
  | cons p l ih =>
    intro out
    rw [writeAll_cons, ih]
    simp [OutputVector.write]

/-- A cell that is not assigned keeps its value. -/
theorem writeAll_frame (l : List (Nat × Nat)) : ∀ (out : OutputVector) (c : Nat),
    c ∉ l.map Prod.fst → (writeAll l out).data.getD c 0 = out.data.getD c 0 := by
  induction l with
  | nil => intro out c _; rfl
  | cons p l ih =>
    intro out c hc
    simp only [List.map_cons, List.mem_cons, not_or] at hc
    rw [writeAll_cons, ih _ c hc.2]
    simp only [OutputVector.write, List.getD_eq_getElem?_getD, List.getElem?_set]
    rw [if_neg (fun h => hc.1 h.symm)]

/-- A cell that is assigned once holds the assigned value. -/
theorem writeAll_value (l : List (Nat × Nat)) : ∀ (out : OutputVector) (p : Nat × Nat),
    (l.map Prod.fst).Nodup → p ∈ l → p.1 < out.data.length →
      (writeAll l out).data.getD p.1 0 = p.2 := by
  induction l with
  | nil => intro out p _ hp; simp at hp
  | cons q l ih =>
    intro out p hnd hp hlt
    simp only [List.map_cons, List.nodup_cons] at hnd
    rw [writeAll_cons]
    rcases List.mem_cons.mp hp with rfl | hp
    · rw [writeAll_frame l _ _ hnd.1]
      simp only [OutputVector.write, List.getD_eq_getElem?_getD, List.getElem?_set]
      rw [if_pos trivial, if_pos hlt]
      rfl
    · exact ih _ p hnd.2 hp (by simpa [OutputVector.write] using hlt)

theorem foldl_keep {σ β : Type} (l : List β) (s : σ) : l.foldl (fun s _ => s) s = s := by
  induction l with
  | nil => rfl
  | cons a l ih => exact ih

/-- With no iteration allowed the innermost loop does not run. -/
theorem mandelbrotIteration_zero {F : Type} (ops : FloatOps F) (xc yc : F) (cell : Nat)
    (x y : F) (out : OutputVector) :
    mandelbrotIteration ops 0 xc yc cell (0 + 1) 0 x y out = Outcome.returned out := by
  unfold mandelbrotIteration
  rw [if_neg (Nat.lt_irrefl 0)]

/-- The innermost loop assigns the cell once, with the count where the iteration
escapes or the last count, and leaves the loop. -/
theorem mandelbrotIteration_eq {F : Type} (ops : FloatOps F) (niter : Nat) (xc yc : F)
    (cell : Nat) (hn : niter < UINT_MOD) :
    ∀ n k x y out fuel, k + n + 1 = niter → n < fuel →
      mandelbrotIteration ops niter xc yc cell fuel k x y out
        = Outcome.returned (out.write cell (escapeCount ops niter xc yc (n + 1) k x y)) := by
  intro n
  induction n with
  | zero =>
    intro k x y out fuel hk hf
    obtain ⟨f, rfl⟩ : ∃ f, fuel = f + 1 := ⟨fuel - 1, by omega⟩
    have hlt : k < niter := by omega
    have hlast : k = (niter + UINT_MOD - 1) % UINT_MOD := by
      rw [UINT_MOD_eq] at hn ⊢
      omega
    have hkm : k % UINT_MOD = k := by
      rw [UINT_MOD_eq] at hn ⊢
      omega
    unfold mandelbrotIteration escapeCount
    rw [if_pos hlt]
    dsimp only
    rw [if_pos (Or.inr hlast), if_pos (Or.inr (by omega)), hkm]
  | succ n ih =>
    intro k x y out fuel hk hf
    obtain ⟨f, rfl⟩ : ∃ f, fuel = f + 1 := ⟨fuel - 1, by omega⟩
    have hlt : k < niter := by omega
    have hlast : k ≠ (niter + UINT_MOD - 1) % UINT_MOD := by
      rw [UINT_MOD_eq] at hn ⊢
      omega
    have hkm : k % UINT_MOD = k := by
      rw [UINT_MOD_eq] at hn ⊢
      omega
    have hk1 : addSize k 1 = k + 1 := by
      apply addSize_succ
      rw [UINT_MOD_eq] at hn
      rw [SIZE_MOD_eq]
      omega
    unfold mandelbrotIteration
    rw [if_pos hlt]
    dsimp only
    by_cases hgt : ops.gt (ops.add
        (ops.mul (ops.add (ops.sub (ops.mul x x) (ops.mul y y)) xc)
          (ops.add (ops.sub (ops.mul x x) (ops.mul y y)) xc))
        (ops.mul (ops.add (ops.mul (ops.mul ops.two x) y) yc)
          (ops.add (ops.mul (ops.mul ops.two x) y) yc))) ops.four = true
    · rw [if_pos (Or.inl hgt), hkm]
      conv_rhs => unfold escapeCount
      dsimp only
      rw [if_pos (Or.inl hgt)]
    · rw [if_neg (by rintro (h | h); exact hgt h; exact hlast h), hk1,
        ih (k + 1) _ _ out f (by omega) (by omega)]
      conv_rhs => unfold escapeCount
      dsimp only
      rw [if_neg (by rintro (h | h); exact hgt h; omega)]

/-- The count that the innermost loop assigns lies between the starting count
and `niter - 1`. -/
theorem escapeCount_bounds {F : Type} (ops : FloatOps F) (niter : Nat) (xc yc : F) :
    ∀ n k x y, k + n + 1 = niter →
      k ≤ escapeCount ops niter xc yc (n + 1) k x y
        ∧ escapeCount ops niter xc yc (n + 1) k x y ≤ niter - 1 := by
  intro n
  induction n with
  | zero =>
    intro k x y hk
    unfold escapeCount
    dsimp only
    rw [if_pos (Or.inr (by omega))]
    omega
  | succ n ih =>
    intro k x y hk
    unfold escapeCount
    dsimp only
    split
    · omega
    · exact ⟨Nat.le_of_succ_le (ih (k + 1) _ _ (by omega)).1, (ih (k + 1) _ _ (by omega)).2⟩

/-- The cells that the reference assignments address, in order. -/
theorem mandelbrotWrites_fst {F : Type} (ops : FloatOps F) (countX countY niter : Nat)
    (xmin xmax ymin ymax : F) :
    (mandelbrotWrites ops countX countY niter xmin xmax ymin ymax).map Prod.fst
      = (List.range countX).flatMap fun i =>
          (List.range countY).map fun j => i + j * countX := by
  unfold mandelbrotWrites
  rw [List.map_flatMap]
  simp only [List.map_map]
  rfl

/-- No cell of the grid is listed twice. -/
theorem grid_nodup (countX countY : Nat) :
    ((List.range countX).flatMap fun i =>
      (List.range countY).map fun j => i + j * countX).Nodup := by
  rw [List.nodup_flatMap]
  constructor
  · intro i hi
    have hi := List.mem_range.mp hi
    apply List.Nodup.map_on _ (List.nodup_range countY)
    intro a _ b _ h
    exact (mixed_radix_inj countX a i b i hi hi
      (by rw [Nat.mul_comm countX a, Nat.mul_comm countX b]; omega)).1
  · refine List.Pairwise.imp_of_mem ?_ (List.nodup_range countX)
    intro a b ha hb hne
    show List.Disjoint _ _
    rw [List.disjoint_left]
    intro c hc hc2
    obtain ⟨j, _, rfl⟩ := List.mem_map.mp hc
    obtain ⟨j2, _, h⟩ := List.mem_map.mp hc2
    exact hne (mixed_radix_inj countX j a j2 b (List.mem_range.mp ha) (List.mem_range.mp hb)
      (by rw [Nat.mul_comm countX j, Nat.mul_comm countX j2]; omega)).2

/-- Every reference assignment addresses a cell of the grid with a count of at
most `niter - 1`. -/
theorem mem_mandelbrotWrites {F : Type} (ops : FloatOps F) (countX countY niter : Nat)
    (xmin xmax ymin ymax : F) (h1 : 1 ≤ niter) (p : Nat × Nat)
    (hp : p ∈ mandelbrotWrites ops countX countY niter xmin xmax ymin ymax) :
    p.2 ≤ niter - 1 ∧ ∃ i j, i < countX ∧ j < countY ∧ p.1 = i + j * countX := by
  unfold mandelbrotWrites at hp
  obtain ⟨i, hi, hp⟩ := List.mem_flatMap.mp hp
  obtain ⟨j, hj, rfl⟩ := List.mem_map.mp hp
  obtain ⟨m, rfl⟩ : ∃ m, niter = m + 1 := ⟨niter - 1, by omega⟩
  exact ⟨(escapeCount_bounds ops (m + 1) _ _ m 0 _ _ (by omega)).2,
    i, j, List.mem_range.mp hi, List.mem_range.mp hj, rfl⟩

/-- A cell of the grid lies inside a buffer of `countX * countY` entries. -/
theorem grid_cell_lt {countX countY i j : Nat} (hi : i < countX) (hj : j < countY) :
    i + j * countX < countX * countY := by
  have h : (j + 1) * countX ≤ countY * countX := Nat.mul_le_mul_right countX hj
  rw [Nat.add_mul, Nat.one_mul, Nat.mul_comm countY countX] at h
  omega

/-- The kernel runs to completion; with `1 ≤ niter` it carries out the reference
assignments in order. -/
theorem mandelbrotHost_eq {F : Type} (ops : FloatOps F) (h_output : OutputVector)
    (countX countY niter : Nat) (xmin xmax ymin ymax : F)
    (hX : countX < SIZE_MOD) (hY : countY < SIZE_MOD) (hn : niter < UINT_MOD)
    (hprod : countX * countY < SIZE_MOD) (h1 : 1 ≤ niter) :
    mandelbrotHost ops h_output countX countY niter xmin xmax ymin ymax
      = Outcome.returned
          (writeAll (mandelbrotWrites ops countX countY niter xmin xmax ymin ymax) h_output) := by
  obtain ⟨m, rfl⟩ : ∃ m, niter = m + 1 := ⟨niter - 1, by omega⟩
  have hcell : ∀ i j, i < countX → j < countY →
      addSize i (mulSize j countX) = i + j * countX := by
    intro i j hi hj
    have h := grid_cell_lt hi hj
    rw [mulSize_of_lt (by omega)]
    exact Nat.mod_eq_of_lt (by omega)
  unfold mandelbrotHost
  refine (forLoop_returned_range countX hX _
    (fun i s => (List.range countY).foldl (fun s j => s.write (i + j * countX)
      (escapeCount ops (m + 1)
        (ops.add xmin (ops.mul (ops.div (ops.sub xmax xmin) (ops.ofSize (countX - 1)))
          (ops.ofSize i)))
        (ops.add ymin (ops.mul (ops.div (ops.sub ymax ymin) (ops.ofSize (countY - 1)))
          (ops.ofSize j)))
        (m + 1) 0 ops.zero ops.zero)) s) ?_ h_output).trans ?_
  · intro i s hi
    dsimp only
    refine forLoop_returned_range countY hY _ (fun j s => s.write (i + j * countX)
      (escapeCount ops (m + 1)
        (ops.add xmin (ops.mul (ops.div (ops.sub xmax xmin) (ops.ofSize (countX - 1)))
          (ops.ofSize i)))
        (ops.add ymin (ops.mul (ops.div (ops.sub ymax ymin) (ops.ofSize (countY - 1)))
          (ops.ofSize j)))
        (m + 1) 0 ops.zero ops.zero)) ?_ s
    intro j s hj
    rw [hcell i j hi hj, subSize_of_le (show 1 ≤ countX by omega) hX,
      subSize_of_le (show 1 ≤ countY by omega) hY]
    exact mandelbrotIteration_eq ops (m + 1) _ _ _ hn m 0 _ _ s (m + 1 + 1)
      (by omega) (by omega)
  · congr 1
    unfold writeAll mandelbrotWrites
    rw [foldl_flatMap_eq]
    simp only [List.foldl_map]

/-- With `niter = 0` the kernel runs to completion and leaves the buffer as it
was. -/
theorem mandelbrotHost_zero {F : Type} (ops : FloatOps F) (h_output : OutputVector)
    (countX countY : Nat) (xmin xmax ymin ymax : F)
    (hX : countX < SIZE_MOD) (hY : countY < SIZE_MOD) :
    mandelbrotHost ops h_output countX countY 0 xmin xmax ymin ymax
      = Outcome.returned h_output := by
  unfold mandelbrotHost
  refine (forLoop_returned_range countX hX _ (fun _ s => s) ?_ h_output).trans ?_
  · intro i s _
    dsimp only
    refine (forLoop_returned_range countY hY _ (fun _ s => s) ?_ s).trans ?_
    · intro j s _
      exact mandelbrotIteration_zero ops _ _ _ _ _ s
    · rw [foldl_keep]
  · rw [foldl_keep]

/-- C39: for every `countX`, `countY` and `niter` and every output buffer of at
least `countX * countY` entries, `mandelbrotHost` runs to completion, whatever
the floating-point operations return (the operations are arbitrary functions,
so NaN and infinity are covered).  With `niter = 0` it assigns no cell and the
buffer is unchanged.  With `1 ≤ niter` each cell `i + j * countX` (`i < countX`,
`j < countY`) is assigned exactly once, every assignment addresses such a cell
and stores a count `k ≤ niter - 1`, which is the final content of the cell, and
every other cell keeps its value. -/
theorem mandelbrotHost_writes {F : Type} (ops : FloatOps F) (h_output : OutputVector)
    (countX countY niter : Nat) (xmin xmax ymin ymax : F)
    (hX : countX < SIZE_MOD) (hY : countY < SIZE_MOD) (hn : niter < UINT_MOD)
    (hbuf : countX * countY ≤ h_output.data.length)
    (hlen : h_output.data.length < SIZE_MOD) :
    ∃ out added,
      mandelbrotHost ops h_output countX countY niter xmin xmax ymin ymax
          = Outcome.returned out
        ∧ out.writes = h_output.writes ++ added
        ∧ out.data.length = h_output.data.length
        ∧ (∀ c, c ∉ added.map Prod.fst → out.data.getD c 0 = h_output.data.getD c 0)
        ∧ (niter = 0 → added = [] ∧ out = h_output)
        ∧ (1 ≤ niter →
            (∀ i j, i < countX → j < countY →
              (added.map Prod.fst).count (i + j * countX) = 1)
            ∧ ∀ p ∈ added, p.2 ≤ niter - 1 ∧ out.data.getD p.1 0 = p.2
                ∧ ∃ i j, i < countX ∧ j < countY ∧ p.1 = i + j * countX) := by
  by_cases h0 : niter = 0
  · subst h0
    exact ⟨h_output, [], mandelbrotHost_zero ops h_output countX countY xmin xmax ymin ymax hX hY,
      (List.append_nil _).symm, rfl, fun _ _ => rfl, fun _ => ⟨rfl, rfl⟩,
      fun h => absurd h (by decide)⟩
  · have h1 : 1 ≤ niter := Nat.one_le_iff_ne_zero.mpr h0
    have hnd : ((mandelbrotWrites ops countX countY niter xmin xmax ymin ymax).map
        Prod.fst).Nodup := by
      rw [mandelbrotWrites_fst]
      exact grid_nodup countX countY
    refine ⟨_, mandelbrotWrites ops countX countY niter xmin xmax ymin ymax,
      mandelbrotHost_eq ops h_output countX countY niter xmin xmax ymin ymax hX hY hn
        (by omega) h1,
      writeAll_writes _ _, writeAll_length _ _, fun c hc => writeAll_frame _ _ c hc,
      fun h => absurd h h0, fun _ => ⟨?_, ?_⟩⟩
    · intro i j hi hj
      apply List.count_eq_one_of_mem hnd
      rw [mandelbrotWrites_fst]
      exact List.mem_flatMap.mpr ⟨i, List.mem_range.mpr hi,
        List.mem_map.mpr ⟨j, List.mem_range.mpr hj, rfl⟩⟩
    · intro p hp
      have hm := mem_mandelbrotWrites ops countX countY niter xmin xmax ymin ymax h1 p hp
      obtain ⟨hle, i, j, hi, hj, hpij⟩ := hm
      refine ⟨hle, writeAll_value _ _ p hnd hp ?_, i, j, hi, hj, hpij⟩
      have := grid_cell_lt hi hj
      omega

/-- Integer arithmetic in place of the floating-point operations, on a 2 x 2
grid with three iterations. -/
theorem mandelbrotHost_writes_witness :
    ∃ out added,
      mandelbrotHost
          (FloatOps.mk (fun n => (n : Int)) 0 2 4 (fun a b => a + b) (fun a b => a - b)
            (fun a b => a * b) (fun a b => a / b) (fun a b => decide (b < a)))
          (OutputVector.mk [7, 7, 7, 7, 7] []) 2 2 3 (-2) 1 (-1) 1
          = Outcome.returned out
        ∧ out.writes = [] ++ added
        ∧ out.data.length = 5
        ∧ (∀ c, c ∉ added.map Prod.fst → out.data.getD c 0 = [7, 7, 7, 7, 7].getD c 0)
        ∧ (3 = 0 → added = [] ∧ out = OutputVector.mk [7, 7, 7, 7, 7] [])
        ∧ (1 ≤ 3 →
            (∀ i j, i < 2 → j < 2 → (added.map Prod.fst).count (i + j * 2) = 1)
            ∧ ∀ p ∈ added, p.2 ≤ 3 - 1 ∧ out.data.getD p.1 0 = p.2
                ∧ ∃ i j, i < 2 ∧ j < 2 ∧ p.1 = i + j * 2) :=
  mandelbrotHost_writes
    (FloatOps.mk (fun n => (n : Int)) 0 2 4 (fun a b => a + b) (fun a b => a - b)
      (fun a b => a * b) (fun a b => a / b) (fun a b => decide (b < a)))
    (OutputVector.mk [7, 7, 7, 7, 7] []) 2 2 3 (-2) 1 (-1) 1
    (by decide) (by decide) (by decide) (by decide) (by decide)

end Math
